import Mathlib

/-!
# NexContainers: red-black tree engine (`binary_tree.h`) and its adapters

A shallow embedding of `nex::TreeNode` and `nex::RBTree` over an explicit memory:
a pointer is an `Option Nat` (`none` is `nullptr`), the memory maps every address to
the node stored there, and each C++ member function becomes a function on memories
(or on the engine state `RBTree`). A function returns `none` when the C++ code would
dereference a null pointer, or when the loop/recursion budget `fuel` is exhausted.
-/

set_option autoImplicit false

namespace nex

/-! ## Data model -/

/-- Node colour, `TreeNode::Color`. -/
inductive Color where
  | Red
  | Black
  deriving DecidableEq, Repr

/-- A tree node: `left`, `right`, `parent`, `value`, `color` (`struct TreeNode`). -/
structure TreeNode (V : Type) where
  left : Option Nat
  right : Option Nat
  parent : Option Nat
  value : V
  color : Color
  deriving DecidableEq, Repr

/-- The memory: the node stored at every address. -/
abbrev Mem (V : Type) := Nat → TreeNode V

/-- The state after `new TreeNode(value)`: all links null, colour red. -/
def TreeNode.fresh {V : Type} (value : V) : TreeNode V :=
  { left := none, right := none, parent := none, value := value, color := Color.Red }

section Node

variable {V : Type}

/-- Store `n` at address `a`. -/
def Mem.write (m : Mem V) (a : Nat) (n : TreeNode V) : Mem V :=
  fun b => if b = a then n else m b

/-- The assignment `a->left = p`. -/
def setL (m : Mem V) (a : Nat) (p : Option Nat) : Mem V :=
  m.write a { m a with left := p }

/-- The assignment `a->right = p`. -/
def setR (m : Mem V) (a : Nat) (p : Option Nat) : Mem V :=
  m.write a { m a with right := p }

/-- The assignment `a->parent = p`. -/
def setP (m : Mem V) (a : Nat) (p : Option Nat) : Mem V :=
  m.write a { m a with parent := p }

/-- The assignment `a->color = c`. -/
def setC (m : Mem V) (a : Nat) (c : Color) : Mem V :=
  m.write a { m a with color := c }

/-- Method `TreeNode::isRoot`. -/
def isRoot (m : Mem V) (this : Nat) : Bool :=
  (m this).parent = none

/-- Method `TreeNode::isLeaf`. -/
def isLeaf (m : Mem V) (this : Nat) : Bool :=
  (m this).left = none && (m this).right = none

/-- Method `TreeNode::setLeft`: assign the left child and fix its parent link. -/
def setLeft (m : Mem V) (this : Nat) (node : Option Nat) : Mem V :=
  let m := setL m this node
  match node with
  | some c => setP m c (some this)
  | none => m

/-- Method `TreeNode::setRight`: assign the right child and fix its parent link. -/
def setRight (m : Mem V) (this : Nat) (node : Option Nat) : Mem V :=
  let m := setR m this node
  match node with
  | some c => setP m c (some this)
  | none => m

/-- Method `TreeNode::swapValues`, called as `this->swapValues(node)`: exchanges colours,
children and parent slots of the two nodes; the stored values stay where they are. -/
def swapValues (m : Mem V) (this node : Nat) : Mem V :=
  let tmpColor := (m this).color
  let m := setC m this (m node).color
  let m := setC m node tmpColor
  let tmpNode := (m this).left
  let m := setLeft m this (m node).left
  let m := setLeft m node tmpNode
  let tmpNode := (m this).right
  let m := setRight m this (m node).right
  let m := setRight m node tmpNode
  let m :=
    match (m this).parent with
    | none => m
    | some p =>
      -- when `parent->left == this` the write `parent->left->left = node` goes to the
      -- left link of the node `parent->left`, which is `this`
      if (m p).left = some this then setL m this (some node) else setR m p (some node)
  let m :=
    match (m node).parent with
    | none => m
    | some p =>
      if (m p).left = some node then setL m p (some this) else setR m p (some this)
  let tmpNode := (m this).parent
  let m := setP m this (m node).parent
  setP m node tmpNode

/-- Method `TreeNode::grandparent`. -/
def grandparent (m : Mem V) (this : Nat) : Option Nat :=
  match (m this).parent with
  | some p => (m p).parent
  | none => none

/-- Method `TreeNode::uncle`. -/
def uncle (m : Mem V) (this : Nat) : Option Nat :=
  match grandparent m this with
  | none => none
  | some g => if (m this).parent = (m g).left then (m g).right else (m g).left

/-- Method `TreeNode::brother`; it reads `parent->left` without a null check, so the
result is `none` (a fault) when the node has no parent. -/
def brother (m : Mem V) (this : Nat) : Option (Option Nat) :=
  match (m this).parent with
  | none => none
  | some p => if some this = (m p).left then some (m p).right else some (m p).left

/-- Method `TreeNode::replaceParentTo`; faults when `this` has no parent. -/
def replaceParentTo (m : Mem V) (this node : Nat) : Option (Mem V) :=
  let m := setP m node (m this).parent
  match (m this).parent with
  | none => none
  | some p => if (m p).left = some this then some (setL m p (some node)) else some (setR m p (some node))

/-- Method `TreeNode::clearParent`. -/
def clearParent (m : Mem V) (this : Nat) : Mem V :=
  match (m this).parent with
  | none => m
  | some p =>
    let m :=
      if (m p).left = some this then setL m p none
      else if (m p).right = some this then setR m p none
      else m
    setP m this none

/-- Method `TreeNode::clearPtrs`. -/
def clearPtrs (m : Mem V) (this : Nat) : Mem V :=
  let m :=
    match (m this).left with
    | some l => if (m l).parent ≠ none then setP m l none else m
    | none => m
  let m :=
    match (m this).right with
    | some r => if (m r).parent ≠ none then setP m r none else m
    | none => m
  let m := setL m this none
  let m := setR m this none
  if (m this).parent ≠ none then clearParent m this else m

/-- Method `TreeNode::reborn`: unlink the node and colour it red. -/
def reborn (m : Mem V) (this : Nat) : Mem V :=
  setC (clearPtrs m this) this Color.Red

end Node

/-! ## The engine -/

/-- The width of `size_t` arithmetic. -/
def sizeModulus : Nat := 2 ^ 64

/-- Engine state of `class RBTree`: the memory its nodes live in, `rootNode_`, `size_`. -/
structure RBTree (V : Type) where
  mem : Mem V
  rootNode_ : Option Nat
  size_ : Nat

section Engine

variable {K V : Type} [LinearOrder K]

/-- Method `RBTree::compareKeys`. -/
def compareKeys (key1 key2 : K) : Int :=
  if key1 < key2 then -1 else if key1 = key2 then 0 else 1

/-- Method `RBTree::max`: follow right links; `none` when the budget runs out. -/
def max (m : Mem V) : Nat → Option Nat → Option (Option Nat)
  | _, none => some none
  | 0, some _ => none
  | fuel + 1, some a =>
    match (m a).right with
    | none => some (some a)
    | some r => max m fuel (some r)

/-- Method `RBTree::min`: follow left links; `none` when the budget runs out. -/
def min (m : Mem V) : Nat → Option Nat → Option (Option Nat)
  | _, none => some none
  | 0, some _ => none
  | fuel + 1, some a =>
    match (m a).left with
    | none => some (some a)
    | some l => min m fuel (some l)

/-- Method `RBTree::rotateLeft`; faults when `parentNode` has no right child. -/
def rotateLeft (t : RBTree V) (parentNode : Nat) : Option (RBTree V) :=
  match (t.mem parentNode).right with
  | none => none
  | some childNode =>
    let m := t.mem
    let m := setP m childNode (m parentNode).parent
    let m :=
      match (m parentNode).parent with
      | none => m
      | some pp =>
        if (m pp).left = some parentNode then setL m pp (some childNode)
        else setR m pp (some childNode)
    let m := setRight m parentNode (m childNode).left
    let m := setLeft m childNode (some parentNode)
    if isRoot m childNode then
      some { t with mem := setC m childNode Color.Black, rootNode_ := some childNode }
    else
      some { t with mem := m }

/-- Method `RBTree::rotateRight`; faults when `parentNode` has no left child. -/
def rotateRight (t : RBTree V) (parentNode : Nat) : Option (RBTree V) :=
  match (t.mem parentNode).left with
  | none => none
  | some childNode =>
    let m := t.mem
    let m := setP m childNode (m parentNode).parent
    let m :=
      match (m parentNode).parent with
      | none => m
      | some pp =>
        if (m pp).left = some parentNode then setL m pp (some childNode)
        else setR m pp (some childNode)
    let m := setLeft m parentNode (m childNode).right
    let m := setRight m childNode (some parentNode)
    if isRoot m childNode then
      some { t with mem := setC m childNode Color.Black, rootNode_ := some childNode }
    else
      some { t with mem := m }

/-- Method `RBTree::colorSwapWithChildren`; faults when a child is missing. -/
def colorSwapWithChildren (t : RBTree V) (node : Nat) : Option (RBTree V) :=
  match (t.mem node).left with
  | none => none
  | some l =>
    let m := setC t.mem l Color.Black
    match (m node).right with
    | none => none
    | some r =>
      let m := setC m r Color.Black
      some { t with mem := setC m node (if isRoot m node then Color.Black else Color.Red) }

/-- Method `RBTree::insertCase4_parentRed`. -/
def insertCase4_parentRed (t : RBTree V) (node : Nat) : Option (RBTree V) :=
  match (t.mem node).parent with
  | none => none
  | some p0 =>
    match grandparent t.mem node with
    | none => none
    | some grandpa =>
      let m := setC t.mem p0 Color.Black
      let m := setC m grandpa Color.Red
      let t1 : RBTree V := { t with mem := m }
      let rotated :=
        match (m node).parent with
        | none => none
        | some p =>
          if (m node).parent = (m grandpa).left ∧ some node = (m p).left then rotateRight t1 grandpa
          else rotateLeft t1 grandpa
      match rotated with
      | none => none
      | some t2 =>
        match (t2.mem node).parent with
        | none => none
        | some p => if isRoot t2.mem p then some { t2 with rootNode_ := some p } else some t2

/-- Method `RBTree::insertCase3_parentRedOrdering`. -/
def insertCase3_parentRedOrdering (t : RBTree V) (node : Nat) : Option (RBTree V) :=
  match grandparent t.mem node with
  | none => none
  | some grandpa =>
    match (t.mem node).parent with
    | none => none
    | some p =>
      if (t.mem node).parent = (t.mem grandpa).right ∧ some node = (t.mem p).left then
        match rotateRight t p with
        | none => none
        | some t1 =>
          match (t1.mem node).right with
          | none => none
          | some node1 => insertCase4_parentRed t1 node1
      else if (t.mem node).parent = (t.mem grandpa).left ∧ some node = (t.mem p).right then
        match rotateLeft t p with
        | none => none
        | some t1 =>
          match (t1.mem node).left with
          | none => none
          | some node1 => insertCase4_parentRed t1 node1
      else insertCase4_parentRed t node

/-- Method `RBTree::insertCase2_parentUncleRed`; `insertCase1` is the recursive re-entry. -/
def insertCase2_parentUncleRed (insertCase1 : RBTree V → Nat → Option (RBTree V))
    (t : RBTree V) (node : Nat) : Option (RBTree V) :=
  match uncle t.mem node with
  | some u =>
    if (t.mem u).color = Color.Red then
      match grandparent t.mem node with
      | none => none
      | some grandpa =>
        match colorSwapWithChildren t grandpa with
        | none => none
        | some t1 => insertCase1 t1 grandpa
    else insertCase3_parentRedOrdering t node
  | none => insertCase3_parentRedOrdering t node

/-- Method `RBTree::insertCase1_parentBlack`, with a budget for the recursion through
`insertCase2_parentUncleRed`. -/
def insertCase1_parentBlack : Nat → RBTree V → Nat → Option (RBTree V)
  | 0, _, _ => none
  | fuel + 1, t, node =>
    match (t.mem node).parent with
    | none => some t
    | some p =>
      if (t.mem p).color = Color.Black then some t
      else insertCase2_parentUncleRed (insertCase1_parentBlack fuel) t node

/-- The descent loop of `RBTree::insertNode` (the `do ... while`): `some none` is the
early `return false`, `some (some (parentNode, cmp))` the exit of the loop. -/
def insertDescend (getValueKey : V → K) (Multi : Bool) (m : Mem V) (node : Nat) :
    Nat → Nat → Option (Option (Nat × Int))
  | 0, _ => none
  | fuel + 1, parentNode =>
    let cmp := compareKeys (getValueKey (m node).value) (getValueKey (m parentNode).value)
    let nextNode := if cmp < 0 then (m parentNode).left else (m parentNode).right
    if !Multi ∧ cmp = 0 then some none
    else
      match nextNode with
      | some next => insertDescend getValueKey Multi m node fuel next
      | none => some (some (parentNode, cmp))

/-- Method `RBTree::insertNode`. -/
def insertNode (getValueKey : V → K) (Multi : Bool) (fuel : Nat) (t : RBTree V) (node : Nat) :
    Option (Bool × RBTree V) :=
  match t.rootNode_ with
  | none =>
    some (true, { mem := setC t.mem node Color.Black, rootNode_ := some node,
                  size_ := (t.size_ + 1) % sizeModulus })
  | some root =>
    match insertDescend getValueKey Multi t.mem node fuel root with
    | none => none
    | some none => some (false, t)
    | some (some (parentNode, cmp)) =>
      let m := if cmp < 0 then setLeft t.mem parentNode (some node)
               else setRight t.mem parentNode (some node)
      match insertCase1_parentBlack fuel { t with mem := m } node with
      | none => none
      | some t1 => some (true, { t1 with size_ := (t1.size_ + 1) % sizeModulus })

/-- The loop of `RBTree::searchNode`: the final values of `node` and `cmp`. -/
def searchLoop (getValueKey : V → K) (m : Mem V) (key : K) :
    Nat → Option Nat → Int → Option (Option Nat × Int)
  | _, none, cmp => some (none, cmp)
  | 0, some _, _ => none
  | fuel + 1, some a, _ =>
    let cmp := compareKeys key (getValueKey (m a).value)
    if cmp ≠ 0 then
      if cmp < 0 then searchLoop getValueKey m key fuel (m a).left cmp
      else searchLoop getValueKey m key fuel (m a).right cmp
    else some (some a, cmp)

/-- Method `RBTree::searchNode`. -/
def searchNode (getValueKey : V → K) (fuel : Nat) (t : RBTree V) (key : K) :
    Option (Option Nat) :=
  match searchLoop getValueKey t.mem key fuel t.rootNode_ 0 with
  | none => none
  | some (node, cmp) => some (if cmp = 0 then node else none)

/-- Method `RBTree::deleteCase5_balanceRotations`. -/
def deleteCase5_balanceRotations (t : RBTree V) (node : Nat) : Option (RBTree V) :=
  match brother t.mem node, (t.mem node).parent with
  | some br, some p =>
    let m := t.mem
    let m := match br with
      | some b => setC m b (m p).color
      | none => m
    let m := setC m p Color.Black
    if some node = (m p).left then
      let m := match br with
        | some b =>
          match (m b).right with
          | some br => setC m br Color.Black
          | none => m
        | none => m
      rotateLeft { t with mem := m } p
    else
      let m := match br with
        | some b =>
          match (m b).left with
          | some bl => setC m bl Color.Black
          | none => m
        | none => m
      rotateRight { t with mem := m } p
  | _, _ => none

/-- The test `p == nullptr || p->color == Black` used by the delete cases. -/
def nullOrBlack (m : Mem V) (p : Option Nat) : Bool :=
  match p with
  | none => true
  | some a => (m a).color = Color.Black

/-- The test `p != nullptr && p->color == Red` used by the delete cases. -/
def presentRed (m : Mem V) (p : Option Nat) : Bool :=
  match p with
  | none => false
  | some a => (m a).color = Color.Red

/-- Method `RBTree::deleteCase4_brotherBlackChildRed`. -/
def deleteCase4_brotherBlackChildRed (t : RBTree V) (node : Nat) : Option (RBTree V) :=
  match brother t.mem node, (t.mem node).parent with
  | some br, some p =>
    let m := t.mem
    let t1 : Option (RBTree V) :=
      match br with
      | some b =>
        if (m b).color = Color.Black then
          if some node = (m p).left ∧ nullOrBlack m (m b).right ∧ presentRed m (m b).left then
            let m := setC m b Color.Red
            match (m b).left with
            | none => none
            | some bl => rotateRight { t with mem := setC m bl Color.Black } b
          else if some node = (m p).right ∧ nullOrBlack m (m b).left ∧
              presentRed m (m b).right then
            let m := setC m b Color.Red
            match (m b).right with
            | none => none
            | some br => rotateLeft { t with mem := setC m br Color.Black } b
          else some t
        else some t
      | none => some t
    match t1 with
    | none => none
    | some t1 => deleteCase5_balanceRotations t1 node
  | _, _ => none

/-- Method `RBTree::deleteCase3_parentRedBrotherChildrenBlack`. -/
def deleteCase3_parentRedBrotherChildrenBlack (t : RBTree V) (node : Nat) :
    Option (RBTree V) :=
  match brother t.mem node, (t.mem node).parent with
  | some br, some p =>
    let m := t.mem
    match br with
    | some b =>
      if (m p).color = Color.Red ∧ (m b).color = Color.Black ∧ nullOrBlack m (m b).left ∧
          nullOrBlack m (m b).right then
        let m := setC m b Color.Red
        match (m node).parent with
        | none => none
        | some p1 => some { t with mem := setC m p1 Color.Black }
      else deleteCase4_brotherBlackChildRed t node
    | none => deleteCase4_brotherBlackChildRed t node
  | _, _ => none

/-- Method `RBTree::deleteCase2_parentBrotherChildrenBlack`; `deleteCase1` is the
recursive re-entry. -/
def deleteCase2_parentBrotherChildrenBlack (deleteCase1 : RBTree V → Nat → Option (RBTree V))
    (t : RBTree V) (node : Nat) : Option (RBTree V) :=
  match brother t.mem node, (t.mem node).parent with
  | some br, some p =>
    let m := t.mem
    match br with
    | some b =>
      if (m p).color = Color.Black ∧ (m b).color = Color.Black ∧ nullOrBlack m (m b).left ∧
          nullOrBlack m (m b).right then
        let m := setC m b Color.Red
        match (m node).parent with
        | none => none
        | some p1 => deleteCase1 { t with mem := m } p1
      else deleteCase3_parentRedBrotherChildrenBlack t node
    | none => deleteCase3_parentRedBrotherChildrenBlack t node
  | _, _ => none

/-- Method `RBTree::deleteCase1_brotherRed`, with a budget for the recursion through
`deleteCase2_parentBrotherChildrenBlack`. -/
def deleteCase1_brotherRed : Nat → RBTree V → Nat → Option (RBTree V)
  | 0, _, _ => none
  | fuel + 1, t, node =>
    match (t.mem node).parent with
    | none => some t
    | some p =>
      match brother t.mem node with
      | none => none
      | some br =>
        let t1 : Option (RBTree V) :=
          match br with
          | some b =>
            if (t.mem b).color = Color.Red then
              let m := setC t.mem p Color.Red
              let m := setC m b Color.Black
              match (m node).parent with
              | none => none
              | some p1 =>
                if (m p1).left = some node then rotateLeft { t with mem := m } p1
                else rotateRight { t with mem := m } p1
            else some t
          | none => some t
        match t1 with
        | none => none
        | some t1 =>
          deleteCase2_parentBrotherChildrenBlack (deleteCase1_brotherRed fuel) t1 node

/-- The second half of `RBTree::takeNode`, from `node_type* child = ...` on: rebalance
around `delNode` (which by now has at most one child), unlink it, update `rootNode_` and
`size_`. -/
def takeNodeRest (fuel : Nat) (t1 : RBTree V) (delNode : Nat) : Option (Nat × RBTree V) :=
  let child := if (t1.mem delNode).left ≠ none then (t1.mem delNode).left
               else (t1.mem delNode).right
  let t2 : Option (RBTree V) :=
    if (t1.mem delNode).color = Color.Black then
      match child with
      | none => deleteCase1_brotherRed fuel t1 delNode
      | some c =>
        match replaceParentTo t1.mem delNode c with
        | none => none
        | some m =>
          if (m c).color = Color.Red then some { t1 with mem := setC m c Color.Black }
          else deleteCase1_brotherRed fuel { t1 with mem := m } c
    else some t1
  match t2 with
  | none => none
  | some t2 =>
    let m := clearParent t2.mem delNode
    let root := if some delNode = t2.rootNode_ then none else t2.rootNode_
    some (delNode, { mem := m, rootNode_ := root,
                     size_ := (t2.size_ + sizeModulus - 1) % sizeModulus })

/-- Method `RBTree::takeNode`: detach `node` from the tree, rebalancing; returns the
removed node and the new engine state. The first half picks the neighbour `delNode` by
value and swaps positions with it; `takeNodeRest` is the second half. -/
def takeNode (fuel : Nat) (t : RBTree V) (node : Nat) : Option (Nat × RBTree V) :=
  let found : Option Nat :=
    if (t.mem node).left ≠ none then (max t.mem fuel (t.mem node).left).join
    else if (t.mem node).right ≠ none then (min t.mem fuel (t.mem node).right).join
    else some node
  match found with
  | none => none
  | some delNode0 =>
    let t1 : RBTree V :=
      if delNode0 ≠ node then
        let m := swapValues t.mem delNode0 node
        if isRoot m delNode0 then
          { t with mem := setC m delNode0 Color.Black, rootNode_ := some delNode0 }
        else { t with mem := m }
      else t
    takeNodeRest fuel t1 node

/-- Method `RBTree::deleteNode`: `takeNode`, then the node is freed (freeing is not
part of the model). -/
def deleteNode (fuel : Nat) (t : RBTree V) (node : Nat) : Option (RBTree V) :=
  (takeNode fuel t node).map Prod.snd

/-- Method `RBTree::erase`: nothing happens at the end position. -/
def erase (fuel : Nat) (t : RBTree V) (pos : Option Nat) : Option (RBTree V) :=
  match pos with
  | none => some t
  | some p => deleteNode fuel t p

/-- Method `RBTree::insertValue`; `newNode` is the address that `new` returns. The result
is the pair (node, isInserted) and the new state. -/
def insertValue (getValueKey : V → K) (Multi : Bool) (fuel : Nat) (t : RBTree V) (value : V)
    (newNode : Nat) : Option ((Option Nat × Bool) × RBTree V) :=
  let found : Option (Option Nat) :=
    if Multi = false then searchNode getValueKey fuel t (getValueKey value) else some none
  match found with
  | none => none
  | some (some node) => some ((some node, false), t)
  | some none =>
    let t1 : RBTree V := { t with mem := t.mem.write newNode (TreeNode.fresh value) }
    match insertNode getValueKey Multi fuel t1 newNode with
    | none => none
    | some (isInserted, t2) => some ((some newNode, isInserted), t2)

/-- The climbing loop of `TreeConstIterator::operator++` for a node without right child:
while the node is the right child of its parent, move to the parent; the result is the
parent reached, null after the last node. -/
def climbRight (m : Mem V) : Nat → Nat → Option (Option Nat)
  | 0, _ => none
  | fuel + 1, p =>
    match (m p).parent with
    | none => some none
    | some parent =>
      if (m parent).right = some p then climbRight m fuel parent else some (some parent)

/-- Method `TreeConstIterator::operator++` on the iterator's pointer. -/
def operator_inc (fuel : Nat) (m : Mem V) (ptr_ : Option Nat) : Option (Option Nat) :=
  match ptr_ with
  | none => some none
  | some p => if (m p).right = none then climbRight m fuel p else min m fuel (m p).right

/-- The climbing loop of `TreeConstIterator::operator--` for a node without left child. -/
def climbLeft (m : Mem V) : Nat → Nat → Option (Option Nat)
  | 0, _ => none
  | fuel + 1, p =>
    match (m p).parent with
    | none => some none
    | some parent =>
      if (m parent).left = some p then climbLeft m fuel parent else some (some parent)

/-- Method `TreeConstIterator::operator--` on the iterator's pointer. -/
def operator_dec (fuel : Nat) (m : Mem V) (ptr_ : Option Nat) : Option (Option Nat) :=
  match ptr_ with
  | none => some none
  | some p => if (m p).left = none then climbLeft m fuel p else max m fuel (m p).left

/-- Method `RBTree::cbegin` (also `begin`): the leftmost node. -/
def cbegin (fuel : Nat) (t : RBTree V) : Option (Option Nat) := min t.mem fuel t.rootNode_

/-- Method `RBTree::crbegin` (also `rbegin`): the rightmost node. -/
def crbegin (fuel : Nat) (t : RBTree V) : Option (Option Nat) := max t.mem fuel t.rootNode_

/-- The nodes an iterator passes when `step` is applied until it equals `stop` (the loop
`for (; iter != stop; ++iter)`); `none` when `stop` is not reached within `n` steps. -/
def walk (step : Option Nat → Option (Option Nat)) (stop : Option Nat) :
    Nat → Option Nat → Option (List Nat)
  | 0, iter => if iter = stop then some [] else none
  | n + 1, iter =>
    if iter = stop then some []
    else
      match iter with
      | none => none
      | some a =>
        match step (some a) with
        | none => none
        | some q => (walk step stop n q).map (fun rest => a :: rest)

/-- The loop of `RBTree::merge`, run on the state `this` of the receiving tree and the
state `other` of the tree given away; both live in one memory, the one of `other` at
entry, and both states leave with the final memory. -/
def mergeLoop (getValueKey : V → K) (Multi : Bool) (fuel : Nat) :
    Nat → RBTree V → RBTree V → Option Nat → Option (RBTree V × RBTree V)
  | _, this, other, none => some ({ this with mem := other.mem }, other)
  | 0, _, _, some _ => none
  | n + 1, this, other, some it =>
    match operator_inc fuel other.mem (some it) with
    | none => none
    | some iter =>
      match takeNode fuel other it with
      | none => none
      | some (spliceNode, other1) =>
        let m1 := reborn other1.mem spliceNode
        match insertNode getValueKey Multi fuel { this with mem := m1 } spliceNode with
        | none => none
        | some (isInserted, this1) =>
          if isInserted then
            mergeLoop getValueKey Multi fuel n this1 { other1 with mem := this1.mem } iter
          else
            match insertNode getValueKey Multi fuel { other1 with mem := this1.mem }
                spliceNode with
            | none => none
            | some (_, other2) => mergeLoop getValueKey Multi fuel n this1 other2 iter

/-- Method `RBTree::merge`: `this.merge(other)`. -/
def merge (getValueKey : V → K) (Multi : Bool) (fuel : Nat) (this other : RBTree V) :
    Option (RBTree V × RBTree V) :=
  match cbegin fuel other with
  | none => none
  | some b => mergeLoop getValueKey Multi fuel fuel this other b

/-- First loop of `multiset::equal_range`: the final `lowerNode` and `upperNode`. -/
def equalRangeLower (getValueKey : V → K) (m : Mem V) (key : K) :
    Nat → Option Nat → Option Nat → Option Nat → Option (Option Nat × Option Nat)
  | _, none, lowerNode, upperNode => some (lowerNode, upperNode)
  | 0, some _, _, _ => none
  | fuel + 1, some node, lowerNode, upperNode =>
    let nodeKey := getValueKey (m node).value
    if nodeKey < key then
      equalRangeLower getValueKey m key fuel (m node).right lowerNode upperNode
    else
      let upperNode := if upperNode = none ∧ key < nodeKey then some node else upperNode
      equalRangeLower getValueKey m key fuel (m node).left (some node) upperNode

/-- Second loop of `multiset::equal_range`: the final `upperNode`. -/
def equalRangeUpper (getValueKey : V → K) (m : Mem V) (key : K) :
    Nat → Option Nat → Option Nat → Option (Option Nat)
  | _, none, upperNode => some upperNode
  | 0, some _, _ => none
  | fuel + 1, some node, upperNode =>
    if key < getValueKey (m node).value then
      equalRangeUpper getValueKey m key fuel (m node).left (some node)
    else equalRangeUpper getValueKey m key fuel (m node).right upperNode

/-- Method `multiset::equal_range`: the pointers of the two iterators returned. -/
def equal_range (getValueKey : V → K) (fuel : Nat) (t : RBTree V) (key : K) :
    Option (Option Nat × Option Nat) :=
  match equalRangeLower getValueKey t.mem key fuel t.rootNode_ none none with
  | none => none
  | some (lowerNode, upperNode) =>
    let node := match upperNode with
      | none => t.rootNode_
      | some u => (t.mem u).left
    match equalRangeUpper getValueKey t.mem key fuel node upperNode with
    | none => none
    | some upperNode => some (lowerNode, upperNode)

/-- Method `multiset::lower_bound`. -/
def lower_bound (getValueKey : V → K) (fuel : Nat) (t : RBTree V) (key : K) :
    Option (Option Nat) :=
  (equal_range getValueKey fuel t key).map Prod.fst

/-- Method `multiset::upper_bound`. -/
def upper_bound (getValueKey : V → K) (fuel : Nat) (t : RBTree V) (key : K) :
    Option (Option Nat) :=
  (equal_range getValueKey fuel t key).map Prod.snd

/-- The loop of `multiset::count`: step `iter` until it equals `stop`, counting in
`size_t`. -/
def countLoop (fuel : Nat) (m : Mem V) (stop : Option Nat) :
    Nat → Option Nat → Nat → Option Nat
  | 0, _, _ => none
  | n + 1, iter, nodesCount =>
    if iter = stop then some nodesCount
    else
      match operator_inc fuel m iter with
      | none => none
      | some q => countLoop fuel m stop n q ((nodesCount + 1) % sizeModulus)

/-- Method `multiset::count`. -/
def count (getValueKey : V → K) (fuel : Nat) (t : RBTree V) (key : K) : Option Nat :=
  match equal_range getValueKey fuel t key with
  | none => none
  | some (first, second) => countLoop fuel t.mem second fuel first 0

/-- Method `set::contains` (the same in `multiset`). -/
def contains (getValueKey : V → K) (fuel : Nat) (t : RBTree V) (key : K) : Option Bool :=
  (searchNode getValueKey fuel t key).map (fun node => node.isSome)

/-- Method `multiset::insert`; `newNode` is the address that `new` returns. -/
def multiset_insert (getValueKey : V → K) (fuel : Nat) (t : RBTree V) (value : V)
    (newNode : Nat) : Option (Nat × RBTree V) :=
  let t1 : RBTree V := { t with mem := t.mem.write newNode (TreeNode.fresh value) }
  match insertNode getValueKey true fuel t1 newNode with
  | none => none
  | some (_, t2) => some (newNode, t2)

/-- The number of nodes reached from `node` through `left` and `right` links. -/
def reachable (m : Mem V) : Nat → Option Nat → Option Nat
  | _, none => some 0
  | 0, some _ => none
  | fuel + 1, some a =>
    match reachable m fuel (m a).left, reachable m fuel (m a).right with
    | some l, some r => some (l + 1 + r)
    | _, _ => none

/-- Constructor `RBTree()`: the empty tree, in the memory `m`. -/
def RBTree.empty (m : Mem V) : RBTree V := { mem := m, rootNode_ := none, size_ := 0 }

/-- A run of `insertValue` calls, one per item; every item comes with the address that
`new` would return for it. -/
def insertValues (getValueKey : V → K) (Multi : Bool) (fuel : Nat) :
    List (V × Nat) → RBTree V → Option (RBTree V)
  | [], t => some t
  | (value, newNode) :: items, t =>
    match insertValue getValueKey Multi fuel t value newNode with
    | none => none
    | some (_, t1) => insertValues getValueKey Multi fuel items t1

end Engine

/-! ## Abstract view: the tree a memory represents -/

section Abstract

variable {V : Type}

/-- The shape read off a memory: every node with its address, colour and value. -/
inductive T (V : Type) where
  | nil : T V
  | node (l : T V) (a : Nat) (c : Color) (v : V) (r : T V) : T V
  deriving DecidableEq, Repr

/-- The pointer to the root of a shape (`nullptr` for the empty shape). -/
def T.ptr : T V → Option Nat
  | T.nil => none
  | T.node _ a _ _ _ => some a

/-- The colour of the root; an absent child counts as black. -/
def T.color : T V → Color
  | T.nil => Color.Black
  | T.node _ _ c _ _ => c

/-- The addresses of a shape in in-order (left, node, right). -/
def T.addrs : T V → List Nat
  | T.nil => []
  | T.node l a _ _ r => l.addrs ++ a :: r.addrs

/-- The in-order sequence of (address, stored value). -/
def T.toList : T V → List (Nat × V)
  | T.nil => []
  | T.node l a _ v r => l.toList ++ (a, v) :: r.toList

/-- The in-order sequence of stored values. -/
def T.values (t : T V) : List V := t.toList.map Prod.snd

/-- Number of nodes reachable through left/right links. -/
def T.size : T V → Nat
  | T.nil => 0
  | T.node l _ _ _ r => l.size + 1 + r.size

/-- Number of nodes on the longest root-to-leaf path. -/
def T.height : T V → Nat
  | T.nil => 0
  | T.node l _ _ _ r => Nat.max l.height r.height + 1

/-- The memory `m` holds the shape `t` below a node whose parent link must be `par`:
every node's `left`, `right`, `parent`, `value` and `color` are as the shape says. -/
def Repr (m : Mem V) : T V → Option Nat → Prop
  | T.nil, _ => True
  | T.node l a c v r, par =>
    m a = { left := l.ptr, right := r.ptr, parent := par, value := v, color := c } ∧
    Repr m l (some a) ∧ Repr m r (some a)

/-- The engine state `t` holds exactly the shape `τ`: the root pointer is the shape's
root, the root's parent link is null, every child's parent link points back to its
parent, and no node occurs twice. -/
def Represents (t : RBTree V) (τ : T V) : Prop :=
  t.rootNode_ = τ.ptr ∧ Repr t.mem τ none ∧ τ.addrs.Nodup

/-- No red node has a red child. -/
def T.NoRedRed : T V → Prop
  | T.nil => True
  | T.node l _ c _ r =>
    (c = Color.Red → l.color = Color.Black ∧ r.color = Color.Black) ∧ l.NoRedRed ∧ r.NoRedRed

/-- For every path from the root to an absent child, the number of black nodes on it. -/
def T.pathBlackCounts : T V → List Nat
  | T.nil => [0]
  | T.node l _ c _ r =>
    (l.pathBlackCounts ++ r.pathBlackCounts).map
      (fun n => n + (if c = Color.Black then 1 else 0))

/-- Every root-to-leaf path has the same number of black nodes. -/
def T.EqualBlackHeight (t : T V) : Prop :=
  ∀ x ∈ t.pathBlackCounts, ∀ y ∈ t.pathBlackCounts, x = y

/-- Black nodes on the leftmost path. -/
def T.bh : T V → Nat
  | T.nil => 0
  | T.node l _ c _ _ => l.bh + (if c = Color.Black then 1 else 0)

/-- Both subtrees of every node have the same black height. -/
def T.Balanced : T V → Prop
  | T.nil => True
  | T.node l _ _ _ r => l.bh = r.bh ∧ l.Balanced ∧ r.Balanced

/-- The red-black colouring invariants of a whole tree: the root is black, no red node
has a red child, and the black height is the same on every path. -/
def T.RB (t : T V) : Prop :=
  t.color = Color.Black ∧ t.NoRedRed ∧ t.Balanced

/-- A position in a shape seen from below: the parent frame of a hole. `L` means the
hole is the left child of node `a` (with right sibling `r`), `R` the right child. -/
inductive Frame (V : Type) where
  | L (a : Nat) (c : Color) (v : V) (r : T V) : Frame V
  | R (l : T V) (a : Nat) (c : Color) (v : V) : Frame V

/-- Put a subtree into the hole of a frame. -/
def Frame.fill : Frame V → T V → T V
  | Frame.L a c v r, t => T.node t a c v r
  | Frame.R l a c v, t => T.node l a c v t

/-- Address of the frame's node. -/
def Frame.addr : Frame V → Nat
  | Frame.L a _ _ _ => a
  | Frame.R _ a _ _ => a

/-- Colour of the frame's node. -/
def Frame.col : Frame V → Color
  | Frame.L _ c _ _ => c
  | Frame.R _ _ c _ => c

/-- The sibling subtree of the hole. -/
def Frame.sib : Frame V → T V
  | Frame.L _ _ _ r => r
  | Frame.R l _ _ _ => l

/-- A path from a hole up to the root, innermost frame first; `plug` closes it. -/
def plug : List (Frame V) → T V → T V
  | [], t => t
  | f :: fs, t => plug fs (f.fill t)

/-- In-order addresses to the left of the hole. -/
def ctxBefore : List (Frame V) → List Nat
  | [] => []
  | Frame.L _ _ _ _ :: fs => ctxBefore fs
  | Frame.R l a _ _ :: fs => ctxBefore fs ++ (l.addrs ++ [a])

/-- In-order addresses to the right of the hole. -/
def ctxAfter : List (Frame V) → List Nat
  | [] => []
  | Frame.L a _ _ r :: fs => (a :: r.addrs) ++ ctxAfter fs
  | Frame.R _ _ _ _ :: fs => ctxAfter fs

/-- In-order (address, value) pairs to the left of the hole. -/
def ctxBeforeL : List (Frame V) → List (Nat × V)
  | [] => []
  | Frame.L _ _ _ _ :: fs => ctxBeforeL fs
  | Frame.R l a _ v :: fs => ctxBeforeL fs ++ (l.toList ++ [(a, v)])

/-- In-order (address, value) pairs to the right of the hole. -/
def ctxAfterL : List (Frame V) → List (Nat × V)
  | [] => []
  | Frame.L a _ v r :: fs => ((a, v) :: r.toList) ++ ctxAfterL fs
  | Frame.R _ _ _ _ :: fs => ctxAfterL fs

/-- The parent link a subtree in the hole must carry. -/
def ctxPar : List (Frame V) → Option Nat
  | [] => none
  | f :: _ => some f.addr

/-- The parent link of a subtree in the hole of an inner path whose top hangs below `top`. -/
def ctxParT (top : Option Nat) : List (Frame V) → Option Nat
  | [] => top
  | f :: _ => some f.addr

/-- The memory holds the inner path `fs`, whose topmost node has parent link `top`,
around a hole whose pointer is `hole`. -/
def ReprCtxT (m : Mem V) (top : Option Nat) : List (Frame V) → Option Nat → Prop
  | [], _ => True
  | Frame.L a c v r :: fs, hole =>
    m a = { left := hole, right := r.ptr, parent := ctxParT top fs, value := v, color := c } ∧
    Repr m r (some a) ∧ ReprCtxT m top fs (some a)
  | Frame.R l a c v :: fs, hole =>
    m a = { left := l.ptr, right := hole, parent := ctxParT top fs, value := v, color := c } ∧
    Repr m l (some a) ∧ ReprCtxT m top fs (some a)

/-- The path from the rightmost node of a subtree up to its root (right-child steps). -/
def maxPath : T V → List (Frame V)
  | T.nil => []
  | T.node l a c v r =>
    match r with
    | T.nil => []
    | T.node _ _ _ _ _ => maxPath r ++ [Frame.R l a c v]

/-- The subtree at the rightmost node. -/
def maxNode : T V → T V
  | T.nil => T.nil
  | T.node l a c v r =>
    match r with
    | T.nil => T.node l a c v T.nil
    | T.node _ _ _ _ _ => maxNode r

/-- The colour a node promoted into the hole by a rotation ends with: black when the hole
is the root position, its own colour `c` otherwise. -/
def topColor : List (Frame V) → Color → Color
  | [], _ => Color.Black
  | _ :: _, c => c

/-- Two memories agree at every address outside `S`. -/
def SameOutside (m m' : Mem V) (S : List Nat) : Prop :=
  ∀ x, x ∉ S → m' x = m x

/-- The engine state `t` holding shape `τ` has moved to state `t'` holding shape `τ'`
with the same in-order sequence of nodes and values, the same `size_`, and no write
outside the nodes of the tree. -/
def Evolves (t : RBTree V) (τ : T V) (t' : RBTree V) (τ' : T V) : Prop :=
  Represents t' τ' ∧ τ'.toList = τ.toList ∧ t'.size_ = t.size_ ∧
    SameOutside t.mem t'.mem τ.addrs

/-- The memory holds the path `fs` around a hole whose pointer is `hole`. -/
def ReprCtx (m : Mem V) : List (Frame V) → Option Nat → Prop
  | [], _ => True
  | Frame.L a c v r :: fs, hole =>
    m a = { left := hole, right := r.ptr, parent := ctxPar fs, value := v, color := c } ∧
    Repr m r (some a) ∧ ReprCtx m fs (some a)
  | Frame.R l a c v :: fs, hole =>
    m a = { left := l.ptr, right := hole, parent := ctxPar fs, value := v, color := c } ∧
    Repr m l (some a) ∧ ReprCtx m fs (some a)

/-- The path is what remains of a red-black tree around a hole that takes a subtree of
black height `k` whose root has colour `c`: siblings are red-black subtrees of matching
black height, a red frame has a black sibling and a black hole, and the top is black. -/
def CtxOK : List (Frame V) → Nat → Color → Prop
  | [], _, c => c = Color.Black
  | f :: fs, k, c =>
    f.sib.NoRedRed ∧ f.sib.Balanced ∧ f.sib.bh = k ∧
    (f.col = Color.Red → c = Color.Black ∧ f.sib.color = Color.Black) ∧
    CtxOK fs (k + (if f.col = Color.Black then 1 else 0)) f.col

/-- Outcome of the delete fix-up started at the subtree `N` in the hole of path `C`:
the new state holds `N` in the hole of a path `C'` that is fine for a black subtree of
black height `k`, with the same nodes to the left and to the right of `N`. -/
def DelPost (t : RBTree V) (C : List (Frame V)) (N : T V) (k : Nat) (t' : RBTree V)
    (C' : List (Frame V)) : Prop :=
  Represents t' (plug C' N) ∧ CtxOK C' k Color.Black ∧
    ctxBeforeL C' = ctxBeforeL C ∧ ctxAfterL C' = ctxAfterL C ∧
    t'.size_ = t.size_ ∧ SameOutside t.mem t'.mem (plug C N).addrs ∧ (C = [] ↔ C' = [])

/-- The in-order sequence of keys is ascending (equal keys allowed). -/
def T.Ordered {K : Type} [LinearOrder K] (key : V → K) (τ : T V) : Prop :=
  (τ.values.map key).Sorted (· ≤ ·)

/-- The in-order sequence of keys is strictly ascending (no key twice). -/
def T.StrictOrdered {K : Type} [LinearOrder K] (key : V → K) (τ : T V) : Prop :=
  (τ.values.map key).Sorted (· < ·)

/-- The position the descent of `insertNode` reaches for key `k`: the path to the absent
child where the new node is linked, or `none` when an equal key stops a unique insert. -/
def descend {K : Type} [LinearOrder K] (key : V → K) (Multi : Bool) (k : K) :
    T V → List (Frame V) → Option (List (Frame V))
  | T.nil, C => some C
  | T.node l a c v r, C =>
    if k < key v then descend key Multi k l (Frame.L a c v r :: C)
    else if Multi = false ∧ k = key v then none
    else descend key Multi k r (Frame.R l a c v :: C)

/-- Every step of a path went the way the comparison with `k` says: left below a larger
key, right below a smaller one (or an equal one where duplicates are allowed). -/
def PathOK {K : Type} [LinearOrder K] (key : V → K) (Multi : Bool) (k : K) :
    List (Frame V) → Prop
  | [] => True
  | Frame.L _ _ v _ :: C => k < key v ∧ PathOK key Multi k C
  | Frame.R _ _ _ v :: C => key v ≤ k ∧ (Multi = false → key v < k) ∧ PathOK key Multi k C

/-- Indicator of `y = a`, used to count occurrences of single addresses. -/
def one (a y : Nat) : Nat := if y = a then 1 else 0

/-- Ordering of an in-order sequence of nodes by key. -/
abbrev KeyLE {K : Type} [LinearOrder K] (key : V → K) (x y : Nat × V) : Prop :=
  key x.2 ≤ key y.2

end Abstract

end nex

namespace nex

/-- Method `RBTree::takeNode` with its second half (from `node_type* child = ...` on)
given by `rest`; `takeNode` is `takeNodeWith takeNodeRest`. -/
def takeNodeWith {V : Type} (rest : Nat → RBTree V → Nat → Option (Nat × RBTree V))
    (fuel : Nat) (t : RBTree V) (node : Nat) : Option (Nat × RBTree V) :=
  let found : Option Nat :=
    if (t.mem node).left ≠ none then (max t.mem fuel (t.mem node).left).join
    else if (t.mem node).right ≠ none then (min t.mem fuel (t.mem node).right).join
    else some node
  match found with
  | none => none
  | some delNode0 =>
    let t1 : RBTree V :=
      if delNode0 ≠ node then
        let m := swapValues t.mem delNode0 node
        if isRoot m delNode0 then
          { t with mem := setC m delNode0 Color.Black, rootNode_ := some delNode0 }
        else { t with mem := m }
      else t
    rest fuel t1 node

/-- The first node in order whose key is not less than `k` (null when there is none). -/
def T.firstGE {K V : Type} [LinearOrder K] (key : V → K) (k : K) (s : T V) : Option Nat :=
  (s.toList.find? (fun x => decide (k ≤ key x.2))).map Prod.fst

/-- The first node in order whose key is greater than `k` (null when there is none). -/
def T.firstGT {K V : Type} [LinearOrder K] (key : V → K) (k : K) (s : T V) : Option Nat :=
  (s.toList.find? (fun x => decide (k < key x.2))).map Prod.fst

/-- The invariants of a tree shape that the spec lists next to the parent links: keys in
ascending order, black root, no red node with a red child, and the same number of black
nodes on every path from the root to an absent child. -/
def T.Valid {K V : Type} [LinearOrder K] (key : V → K) (τ : T V) : Prop :=
  τ.Ordered key ∧ τ.color = Color.Black ∧ τ.NoRedRed ∧ τ.EqualBlackHeight

/-- Example memory: the nodes 1, 2, 3 hold 10, 20, 30 in a tree with root 2 and two red
children; every other address `a` holds an unlinked red node with value `10 * a`. -/
def exMem : Mem Nat := fun a =>
  if a = 1 then
    { left := none, right := none, parent := some 2, value := 10, color := Color.Red }
  else if a = 2 then
    { left := some 1, right := some 3, parent := none, value := 20, color := Color.Black }
  else if a = 3 then
    { left := none, right := none, parent := some 2, value := 30, color := Color.Red }
  else TreeNode.fresh (10 * a)

/-- Example engine state over `exMem`. -/
def exTree : RBTree Nat := { mem := exMem, rootNode_ := some 2, size_ := 3 }

/-- The shape held by `exTree`. -/
def exShape : T Nat :=
  T.node (T.node T.nil 1 Color.Red 10 T.nil) 2 Color.Black 20 (T.node T.nil 3 Color.Red 30 T.nil)

/-- Example memory of a multiset: the nodes 1, 2, 3 hold 10, 20, 20 (root 2); every other
address `a` holds an unlinked red node with value `10 * a`. -/
def exDupMem : Mem Nat := fun a =>
  if a = 1 then
    { left := none, right := none, parent := some 2, value := 10, color := Color.Red }
  else if a = 2 then
    { left := some 1, right := some 3, parent := none, value := 20, color := Color.Black }
  else if a = 3 then
    { left := none, right := none, parent := some 2, value := 20, color := Color.Red }
  else TreeNode.fresh (10 * a)

/-- Example multiset state over `exDupMem`. -/
def exDupTree : RBTree Nat := { mem := exDupMem, rootNode_ := some 2, size_ := 3 }

/-- The shape held by `exDupTree`. -/
def exDupShape : T Nat :=
  T.node (T.node T.nil 1 Color.Red 10 T.nil) 2 Color.Black 20 (T.node T.nil 3 Color.Red 20 T.nil)

/-- Example memory of the multiset 1, 2, 2, 2, 3 as `multiset::insert` builds it from the
empty tree with the nodes 1 to 5 in this order: root 2, children 1 and 4, and 3 and 5
below 4; every other address holds an unlinked red node with value 0. -/
def exFiveMem : Mem Nat := fun a =>
  if a = 1 then
    { left := none, right := none, parent := some 2, value := 1, color := Color.Black }
  else if a = 2 then
    { left := some 1, right := some 4, parent := none, value := 2, color := Color.Black }
  else if a = 3 then
    { left := none, right := none, parent := some 4, value := 2, color := Color.Red }
  else if a = 4 then
    { left := some 3, right := some 5, parent := some 2, value := 2, color := Color.Black }
  else if a = 5 then
    { left := none, right := none, parent := some 4, value := 3, color := Color.Red }
  else TreeNode.fresh 0

/-- Example multiset state over `exFiveMem`. -/
def exFiveTree : RBTree Nat := { mem := exFiveMem, rootNode_ := some 2, size_ := 5 }

/-- The shape held by `exFiveTree`. -/
def exFiveShape : T Nat :=
  T.node (T.node T.nil 1 Color.Black 1 T.nil) 2 Color.Black 2
    (T.node (T.node T.nil 3 Color.Red 2 T.nil) 4 Color.Black 2 (T.node T.nil 5 Color.Red 3 T.nil))

/-- A memory of unlinked red nodes with value 0, before any `new`. -/
def freshMem : Mem Nat := fun _ => TreeNode.fresh 0

/-- The values of a tree as a forward iteration from `cbegin` to the end lists them. -/
def inorderValues {V : Type} (fuel : Nat) (t : RBTree V) : Option (List V) :=
  ((cbegin fuel t).bind (fun b => walk (operator_inc fuel t.mem) none fuel b)).map
    (fun nodes => nodes.map (fun a => (t.mem a).value))

/-- Scenario: insert 10, 20, 30 (new nodes 1, 2, 3) into an empty unique tree. -/
def exBuilt : Option (RBTree Nat) :=
  insertValues id false 4 [(10, 1), (20, 2), (30, 3)] (RBTree.empty freshMem)

/-- Scenario: after `exBuilt`, erase at the position `find 20` returns. -/
def exErased : Option (RBTree Nat) :=
  exBuilt.bind (fun t => (searchNode id 4 t 20).bind (fun pos => erase 4 t pos))

/-- Scenario: insert 3, 4, 2, 1 (the node of value `v` at address `v`) into an empty
unique tree, then `takeNode` of the node holding 3. -/
def exTaken : Option (Nat × RBTree Nat) :=
  (insertValues id false 4 [(3, 3), (4, 4), (2, 2), (1, 1)] (RBTree.empty freshMem)).bind
    (fun t => takeNode 4 t 3)

/-- Scenario: the set `A` built by inserting 4, 3, 5, 2, 1 (the node of value `v` at
address `v`), the set `B` built by inserting 1, 2 (nodes 11, 12) in the same memory, then
`B.merge(A)`; the result is the pair of the states of `B` and `A`. -/
def exMerged : Option (RBTree Nat × RBTree Nat) :=
  (insertValues id false 6 [(4, 4), (3, 3), (5, 5), (2, 2), (1, 1)] (RBTree.empty freshMem)).bind
    (fun a =>
      (insertValues id false 6 [(1, 11), (2, 12)] (RBTree.empty a.mem)).bind
        (fun b => merge id false 6 b { a with mem := b.mem }))

/-- Scenario: after `exMerged`, erase from `A` at the position `find 1` returns. -/
def exMergedErased : Option (RBTree Nat) :=
  exMerged.bind (fun r => (searchNode id 6 r.2 1).bind (fun pos => erase 6 r.2 pos))

/-- Scenario: the set `A` = 1, 3, 5 (the node of value `v` at address `v`), the set `B` =
2, 3, 4 (nodes 12, 13, 14) in the same memory, then `B.merge(A)`; the result is the pair
of the states of `B` and `A`. -/
def exUnion : Option (RBTree Nat × RBTree Nat) :=
  (insertValues id false 6 [(1, 1), (3, 3), (5, 5)] (RBTree.empty freshMem)).bind
    (fun a =>
      (insertValues id false 6 [(2, 12), (3, 13), (4, 14)] (RBTree.empty a.mem)).bind
        (fun b => merge id false 6 b { a with mem := b.mem }))

/-- The error a `map` lookup can throw (`std::out_of_range`). -/
inductive MapError where
  | out_of_range
  deriving DecidableEq

/-- Method `map::at`: the mapped value of the entry with key `key`, or the error thrown when
`searchNode` finds no node. -/
def map_at {K M : Type} [LinearOrder K] (fuel : Nat) (t : RBTree (K × M)) (key : K) :
    Option (Except MapError M) :=
  match searchNode Prod.fst fuel t key with
  | none => none
  | some none => some (Except.error MapError.out_of_range)
  | some (some node) => some (Except.ok (t.mem node).value.2)

/-- Method `map::insert_or_assign`; `newNode` is the address that `new` returns. On a
duplicate the mapped part of the existing node's value is assigned. -/
def insert_or_assign {K M : Type} [LinearOrder K] (fuel : Nat) (t : RBTree (K × M)) (key : K)
    (obj : M) (newNode : Nat) : Option ((Option Nat × Bool) × RBTree (K × M)) :=
  match insertValue Prod.fst false fuel t (key, obj) newNode with
  | none => none
  | some ((first, second), t1) =>
    if second then some ((first, second), t1)
    else
      match first with
      | none => none
      | some node =>
        let assigned : TreeNode (K × M) :=
          { (t1.mem node) with value := ((t1.mem node).value.1, obj) }
        some ((first, second), { t1 with mem := t1.mem.write node assigned })

/-- The parent links of the tree with nodes `nodes` are consistent: the parent link of the
root is null and the parent link of every left or right child points back to the node. -/
def LinksOK {V : Type} (t : RBTree V) (nodes : List Nat) : Prop :=
  (∀ r, t.rootNode_ = some r → (t.mem r).parent = none) ∧
  ∀ a ∈ nodes, (∀ c, (t.mem a).left = some c → (t.mem c).parent = some a) ∧
    (∀ c, (t.mem a).right = some c → (t.mem c).parent = some a)

/-- Example memory of a map: the nodes 1, 2, 3 hold the entries (10, 100), (20, 200),
(30, 300) in a tree with root 2; every other address holds an unlinked red node. -/
def exMapMem : Mem (Nat × Nat) := fun a =>
  if a = 1 then
    { left := none, right := none, parent := some 2, value := (10, 100), color := Color.Red }
  else if a = 2 then
    { left := some 1, right := some 3, parent := none, value := (20, 200),
      color := Color.Black }
  else if a = 3 then
    { left := none, right := none, parent := some 2, value := (30, 300), color := Color.Red }
  else TreeNode.fresh (0, 0)

/-- Example map state over `exMapMem`. -/
def exMapTree : RBTree (Nat × Nat) := { mem := exMapMem, rootNode_ := some 2, size_ := 3 }

/-- The shape held by `exMapTree`. -/
def exMapShape : T (Nat × Nat) :=
  T.node (T.node T.nil 1 Color.Red (10, 100) T.nil) 2 Color.Black (20, 200)
    (T.node T.nil 3 Color.Red (30, 300) T.nil)

/-- The engine states reachable from an empty tree by `insertValue` calls (each with the
address `new` returns, which is not a node of the tree) and by `erase` calls at nodes of
the tree, every call with a budget that covers the height of the tree. -/
inductive Reachable {K V : Type} [LinearOrder K] (key : V → K) (Multi : Bool) :
    RBTree V → Prop where
  | empty (m : Mem V) : Reachable key Multi (RBTree.empty m)
  | insert (t t' : RBTree V) (fuel : Nat) (v : V) (n : Nat) (r : Option Nat × Bool) :
      Reachable key Multi t →
      (∀ τ, Represents t τ → n ∉ τ.addrs ∧ τ.height < fuel) →
      insertValue key Multi fuel t v n = some (r, t') → Reachable key Multi t'
  | erase (t t' : RBTree V) (fuel : Nat) (pos : Nat) :
      Reachable key Multi t →
      (∀ τ, Represents t τ → pos ∈ τ.addrs ∧ τ.height ≤ fuel) →
      erase fuel t (some pos) = some t' → Reachable key Multi t'

/-- Constructor `set::set(std::initializer_list)`: for every item a node is allocated (at
the address that comes with the item) and given to `insertNode`; a rejected node is
deleted again (freeing is not part of the model). -/
def set_from_items {K V : Type} [LinearOrder K] (getValueKey : V → K) (fuel : Nat) :
    List (V × Nat) → RBTree V → Option (RBTree V)
  | [], t => some t
  | (item, node) :: items, t =>
    let t1 : RBTree V := { t with mem := t.mem.write node (TreeNode.fresh item) }
    match insertNode getValueKey false fuel t1 node with
    | none => none
    | some (_, t2) => set_from_items getValueKey fuel items t2

/-- The addresses `new` returns during the run of the list constructor of `set` on the
state `t`: the address that comes with an item is not a node of the tree at that moment.
The address of a node that was rejected and deleted may come again. -/
def NewNodesFresh {K V : Type} [LinearOrder K] (getValueKey : V → K) (fuel : Nat) :
    List (V × Nat) → RBTree V → Prop
  | [], _ => True
  | (item, node) :: items, t =>
    (∀ τ, Represents t τ → node ∉ τ.addrs) ∧
    match insertNode getValueKey false fuel
        { t with mem := t.mem.write node (TreeNode.fresh item) } node with
    | none => True
    | some (_, t2) => NewNodesFresh getValueKey fuel items t2

/-- Example state: the empty tree after `insertValue` of 10 with new node 1. -/
def exOne : RBTree Nat :=
  ((insertValue id false 1 (RBTree.empty freshMem) 10 1).map Prod.snd).getD
    (RBTree.empty freshMem)

/-- Example run, second state: `exOne` after `insertValue` of 20 with new node 2. -/
def exRun2 : RBTree Nat := ((insertValue id false 5 exOne 20 2).map Prod.snd).getD exOne

/-- Example run, third state: after `insertValue` of 30 with new node 3 (the fix-up rotates
at the root). -/
def exRun3 : RBTree Nat := ((insertValue id false 5 exRun2 30 3).map Prod.snd).getD exRun2

/-- Example run, fourth state: after `insertValue` of 40 with new node 4 (the fix-up
recolours and re-enters at the root). -/
def exRun4 : RBTree Nat := ((insertValue id false 5 exRun3 40 4).map Prod.snd).getD exRun3

/-- Example run, fifth state: after `insertValue` of 50 with new node 5 (the fix-up rotates
below the root). -/
def exRun5 : RBTree Nat := ((insertValue id false 5 exRun4 50 5).map Prod.snd).getD exRun4

/-- Example run, sixth state: after `erase` of node 1, a black leaf (the delete fix-up
rotates at the root). -/
def exRun6 : RBTree Nat := (erase 5 exRun5 (some 1)).getD exRun5

/-- Example run, last state: after `erase` of node 4, the root with two children (the
position swap of `takeNode`). -/
def exRun7 : RBTree Nat := (erase 5 exRun6 (some 4)).getD exRun6

/-- Constructor `TreeNode(node_type* node)`: value and colour of `node`, null links. -/
def TreeNode.copyOf {V : Type} (node : TreeNode V) : TreeNode V :=
  { left := none, right := none, parent := none, value := node.value, color := node.color }

/-- One of the two blocks of `RBTree::copyChildNodes`: when the source child exists, a copy
of it is allocated (at the next address of `fresh`), linked below `toNode` with `setChild`
(`setLeft` or `setRight`) and the copying goes on below it (`copyRest`). -/
def copyChild {V : Type}
    (copyRest : Mem V → Nat → Nat → List Nat → Option (Mem V × List Nat))
    (setChild : Mem V → Nat → Option Nat → Mem V) (m : Mem V) (child : Option Nat)
    (toNode : Nat) (fresh : List Nat) : Option (Mem V × List Nat) :=
  match child with
  | none => some (m, fresh)
  | some c =>
    match fresh with
    | [] => none
    | newNode :: rest =>
      let m := m.write newNode (TreeNode.copyOf (m c))
      let m := setChild m toNode (some newNode)
      copyRest m c newNode rest

/-- Method `RBTree::copyChildNodes`: copies the subtrees of `fromNode` below `toNode`;
`fresh` lists the addresses that `new` returns, the result carries the unused ones. -/
def copyChildNodes {V : Type} :
    Nat → Mem V → Nat → Nat → List Nat → Option (Mem V × List Nat)
  | 0, _, _, _, _ => none
  | fuel + 1, m, fromNode, toNode, fresh =>
    match copyChild (copyChildNodes fuel) setLeft m (m fromNode).left toNode fresh with
    | none => none
    | some (m, fresh) =>
      copyChild (copyChildNodes fuel) setRight m (m fromNode).right toNode fresh

/-- Method `RBTree::clear`; freeing the nodes is not part of the model. -/
def clear {V : Type} (t : RBTree V) : RBTree V :=
  if t.rootNode_ ≠ none then { t with rootNode_ := none, size_ := 0 } else t

/-- Method `RBTree::copyHere`, called as `this->copyHere(other)`; both trees live in the
memory of `other`, and `fresh` lists the addresses that `new` returns. -/
def copyHere {V : Type} (fuel : Nat) (this other : RBTree V) (fresh : List Nat) :
    Option (RBTree V) :=
  let this := clear { this with mem := other.mem }
  match other.rootNode_ with
  | none => some { this with size_ := other.size_ }
  | some r =>
    match fresh with
    | [] => none
    | root :: rest =>
      let m := this.mem.write root (TreeNode.copyOf (this.mem r))
      match copyChildNodes fuel m r root rest with
      | none => none
      | some (m, _) => some { mem := m, rootNode_ := some root, size_ := other.size_ }

/-- The shape `s` rebuilt from the nodes of the list `fresh` in the order in which
`copyChildNodes` allocates them (a node before its left subtree, that before the right
subtree), with the nodes that are left over. -/
def T.clone {V : Type} : T V → List Nat → T V × List Nat
  | T.nil, fresh => (T.nil, fresh)
  | T.node _ _ _ _ _, [] => (T.nil, [])
  | T.node l _ c v r, x :: fresh =>
    let p := T.clone l fresh
    let q := T.clone r p.2
    (T.node p.1 x c v q.1, q.2)

/-- A shape with its addresses forgotten: the colours and values at every position. -/
def T.unlabel {V : Type} : T V → T V
  | T.nil => T.nil
  | T.node l _ c v r => T.node l.unlabel 0 c v r.unlabel

/-- Every node has no larger key in its left subtree and no smaller key in its right
subtree. -/
def T.SearchOrdered {K V : Type} [LinearOrder K] (key : V → K) : T V → Prop
  | T.nil => True
  | T.node l _ _ v r =>
    (∀ x ∈ l.values, key x ≤ key v) ∧ (∀ y ∈ r.values, key v ≤ key y) ∧
      T.SearchOrdered key l ∧ T.SearchOrdered key r

/-- Scenario: insert 5, 5, 5 (new nodes 1, 2, 3) into an empty tree in multi mode. -/
def exTriple : Option (RBTree Nat) :=
  insertValues id true 4 [(5, 1), (5, 2), (5, 3)] (RBTree.empty freshMem)

/-! ## The doubly linked list (`list.h`)

A list node lives in a memory of its own kind; the list object holds `head_`, `end_` and
`size_`. Freeing a node is not part of the model: a freed node stays in the memory, and a
pointer to it that the code leaves behind can be read off. -/

/-- A list node: `value_`, `prev_`, `next_` (`struct list::Node`). -/
structure list.Node (V : Type) where
  value_ : V
  prev_ : Option Nat
  next_ : Option Nat
  deriving DecidableEq

/-- The memory of list nodes. -/
abbrev ListMem (V : Type) := Nat → list.Node V

/-- The fields of `class list`: `head_`, `end_`, `size_`. -/
structure list where
  head_ : Option Nat
  end_ : Option Nat
  size_ : Nat
  deriving DecidableEq

/-- Store `n` at address `a`. -/
def ListMem.write {V : Type} (m : ListMem V) (a : Nat) (n : list.Node V) : ListMem V :=
  fun b => if b = a then n else m b

/-- The assignment `a->next_ = p`. -/
def assignNext {V : Type} (m : ListMem V) (a : Nat) (p : Option Nat) : ListMem V :=
  m.write a { m a with next_ := p }

/-- The assignment `a->prev_ = p`. -/
def assignPrev {V : Type} (m : ListMem V) (a : Nat) (p : Option Nat) : ListMem V :=
  m.write a { m a with prev_ := p }

/-- Constructor `list()`. -/
def list.empty : list := { head_ := none, end_ := none, size_ := 0 }

/-- Method `list::push_back`; `newNode` is the address that `new` returns. -/
def list.push_back {V : Type} (m : ListMem V) (l : list) (value : V) (newNode : Nat) :
    ListMem V × list :=
  let m := m.write newNode { value_ := value, prev_ := none, next_ := none }
  let m1 := match l.end_ with
    | some e => assignNext m e (some newNode)
    | none => m
  let head := match l.end_ with
    | some _ => l.head_
    | none => some newNode
  let m2 := assignPrev m1 newNode l.end_
  (m2, { head_ := head, end_ := some newNode, size_ := (l.size_ + 1) % sizeModulus })

/-- Constructor `list(std::initializer_list)`: one `push_back` per item; every item comes
with the address of its new node. -/
def list.ofItems {V : Type} : List (V × Nat) → ListMem V → list → ListMem V × list
  | [], m, l => (m, l)
  | (value, newNode) :: items, m, l =>
    let r := list.push_back m l value newNode
    list.ofItems items r.1 r.2

/-- Method `iterator::operator*`; `value` is the function-local static returned for the
null iterator. -/
def list.deref {V : Type} (m : ListMem V) (value : V) (ptr_ : Option Nat) : V :=
  match ptr_ with
  | none => value
  | some p => (m p).value_

/-- Method `list::front`. -/
def list.front {V : Type} (m : ListMem V) (value : V) (l : list) : V :=
  list.deref m value l.head_

/-- Method `list::back`. -/
def list.back {V : Type} (m : ListMem V) (value : V) (l : list) : V :=
  list.deref m value l.end_

/-- The nodes passed by `for (it = begin(); it != end(); ++it)`, started at `ptr_`. -/
def list.forward {V : Type} : Nat → ListMem V → Option Nat → Option (List Nat)
  | _, _, none => some []
  | 0, _, some _ => none
  | fuel + 1, m, some p => (list.forward fuel m (m p).next_).map (fun rest => p :: rest)

/-- The nodes passed by `for (it = rbegin(); it != end(); --it)`, started at `ptr_`. -/
def list.backward {V : Type} : Nat → ListMem V → Option Nat → Option (List Nat)
  | _, _, none => some []
  | 0, _, some _ => none
  | fuel + 1, m, some p => (list.backward fuel m (m p).prev_).map (fun rest => p :: rest)

/-- The loop of `list::reverse`: the final memory and the final `temp`. -/
def list.reverseLoop {V : Type} :
    Nat → ListMem V → Option Nat → Option Nat → Option (ListMem V × Option Nat)
  | _, m, temp, none => some (m, temp)
  | 0, _, _, some _ => none
  | fuel + 1, m, _, some current =>
    let temp := (m current).prev_
    let m := assignPrev m current (m current).next_
    let m := assignNext m current temp
    list.reverseLoop fuel m temp (m current).prev_

/-- Method `list::reverse`. -/
def list.reverse {V : Type} (fuel : Nat) (m : ListMem V) (l : list) :
    Option (ListMem V × list) :=
  match list.reverseLoop fuel m none l.head_ with
  | none => none
  | some (m, temp) =>
    match temp with
    | some t => some (m, { l with head_ := (m t).prev_ })
    | none => some (m, l)

/-- The loop of `list::unique`. -/
def list.uniqueLoop {V : Type} [DecidableEq V] :
    Nat → ListMem V → list → Nat → Option (ListMem V × list)
  | 0, _, _, _ => none
  | fuel + 1, m, l, current =>
    match (m current).next_ with
    | none => some (m, l)
    | some nx =>
      if (m current).value_ = (m nx).value_ then
        let next_node := (m nx).next_
        let l : list := { l with size_ := (l.size_ + sizeModulus - 1) % sizeModulus }
        list.uniqueLoop fuel (assignNext m current next_node) l current
      else list.uniqueLoop fuel m l nx

/-- Method `list::unique`. -/
def list.unique {V : Type} [DecidableEq V] (fuel : Nat) (m : ListMem V) (l : list) :
    Option (ListMem V × list) :=
  match l.head_ with
  | none => some (m, l)
  | some h => list.uniqueLoop fuel m l h

/-- The loop of `list::sort` that looks for the middle node: the final `middle`. -/
def list.sortMiddle {V : Type} :
    Nat → ListMem V → Option Nat → Option Nat → Option (Option Nat)
  | _, _, middle, none => some middle
  | 0, _, _, some _ => none
  | fuel + 1, m, middle, some c =>
    match (m c).next_ with
    | none => some middle
    | some nx =>
      match (m nx).next_ with
      | none => list.sortMiddle fuel m middle none
      | some c2 =>
        match middle with
        | none => none
        | some mid => list.sortMiddle fuel m (m mid).next_ (some c2)

/-- One pass of the loop of `list::merge_sorted` with at least one node left:
`mergeRest` is the rest of the loop. -/
def list.mergePass {V : Type} [LinearOrder V]
    (mergeRest : ListMem V → Option Nat → Option Nat → Option Nat → Option Nat →
      Option (ListMem V × Option Nat × Option Nat))
    (m : ListMem V) (left_node right_node node thisHead : Option Nat) :
    Option (ListMem V × Option Nat × Option Nat) :=
  let choose_left : Bool :=
    match left_node, right_node with
    | _, none => true
    | none, some _ => false
    | some l, some r => decide ((m l).value_ ≤ (m r).value_)
  let picked : Option (Nat × Option Nat × Option Nat) :=
    if choose_left then
      match left_node with
      | none => none
      | some l => some (l, (m l).next_, right_node)
    else
      match right_node with
      | none => none
      | some r => some (r, left_node, (m r).next_)
  match picked with
  | none => none
  | some (next_node, left_node, right_node) =>
    let m :=
      match node with
      | some nd => assignPrev (assignNext m nd (some next_node)) next_node (some nd)
      | none => assignPrev m next_node none
    let thisHead :=
      match node with
      | some _ => thisHead
      | none => some next_node
    mergeRest m left_node right_node (some next_node) thisHead

/-- The loop of `list::merge_sorted`: the final memory, `thisHead` and `node`. -/
def list.mergeLoop {V : Type} [LinearOrder V] :
    Nat → ListMem V → Option Nat → Option Nat → Option Nat → Option Nat →
      Option (ListMem V × Option Nat × Option Nat)
  | 0, m, left_node, right_node, node, thisHead =>
    if left_node = none ∧ right_node = none then some (m, thisHead, node) else none
  | fuel + 1, m, left_node, right_node, node, thisHead =>
    if left_node = none ∧ right_node = none then some (m, thisHead, node)
    else list.mergePass (list.mergeLoop fuel) m left_node right_node node thisHead

/-- Method `list::merge_sorted`, called on `this` with the lists `left` and `right`: the
final memory and the three lists `this`, `left`, `right`. -/
def list.merge_sorted {V : Type} [LinearOrder V] (fuel : Nat) (m : ListMem V)
    (left right : list) : Option (ListMem V × list × list × list) :=
  match list.mergeLoop fuel m left.head_ right.head_ none none with
  | none => none
  | some (m, thisHead, node) =>
    some (m, { head_ := thisHead, end_ := node,
               size_ := (left.size_ + right.size_) % sizeModulus },
      list.empty, list.empty)

/-- Method `list::sort`; `depth` bounds the recursion, `fuel` the loops. -/
def list.sort {V : Type} [LinearOrder V] (fuel : Nat) :
    Nat → ListMem V → list → Option (ListMem V × list)
  | 0, _, _ => none
  | depth + 1, m, l =>
    if l.size_ ≤ 1 then some (m, l)
    else
      match list.sortMiddle fuel m l.head_ l.head_ with
      | none => none
      | some none => none
      | some (some middle) =>
        let right_half : list :=
          { head_ := (m middle).next_, end_ := l.end_, size_ := l.size_ / 2 }
        let left_half : list :=
          { head_ := l.head_, end_ := some middle,
            size_ := (l.size_ + sizeModulus - right_half.size_) % sizeModulus }
        let m := assignNext m middle none
        match right_half.head_ with
        | none => none
        | some rh =>
          let m := assignPrev m rh none
          match list.sort fuel depth m left_half with
          | none => none
          | some (m, left_half) =>
            match list.sort fuel depth m right_half with
            | none => none
            | some (m, right_half) =>
              match list.merge_sorted fuel m left_half right_half with
              | none => none
              | some (m, this, _, _) => some (m, this)

/-- A memory of list nodes in which no node is linked. -/
def freshListMem : ListMem Nat := fun _ => { value_ := 0, prev_ := none, next_ := none }

/-- The values of the nodes passed from `begin()` to `end()`. -/
def list.values {V : Type} (fuel : Nat) (m : ListMem V) (l : list) : Option (List V) :=
  (list.forward fuel m l.head_).map (fun nodes => nodes.map (fun a => (m a).value_))

/-- Scenario: the list 1, 2, 3 (nodes 1, 2, 3) built by the list constructor, then
`reverse()`. -/
def exReversed : Option (ListMem Nat × list) :=
  let r := list.ofItems [(1, 1), (2, 2), (3, 3)] freshListMem list.empty
  list.reverse 4 r.1 r.2

/-- Scenario: the list 1, 1, 2, 2 (nodes 1 to 4) built by the list constructor, then
`unique()`. -/
def exUniqued : Option (ListMem Nat × list) :=
  let r := list.ofItems [(1, 1), (1, 2), (2, 3), (2, 4)] freshListMem list.empty
  list.unique 5 r.1 r.2

/-- The `next_` links lead through the nodes `as` in this order and end with null. -/
def NextChain {V : Type} (m : ListMem V) : List Nat → Prop
  | [] => True
  | a :: rest => (m a).next_ = rest.head? ∧ NextChain m rest

/-- The `prev_` link of the first node of `as` is `prev`, and the `prev_` link of every
later node points to the node before it. -/
def PrevChain {V : Type} (m : ListMem V) : Option Nat → List Nat → Prop
  | _, [] => True
  | prev, a :: rest => (m a).prev_ = prev ∧ PrevChain m (some a) rest

/-- The list object `l` is well linked over the nodes `as`: they are distinct, `head_`
is the first and `end_` the last of them, the `next_` links lead through them to null
and the `prev_` links lead back through them to null. -/
def ListRep {V : Type} (m : ListMem V) (l : list) (as : List Nat) : Prop :=
  as.Nodup ∧ l.head_ = as.head? ∧ l.end_ = as.getLast? ∧ NextChain m as ∧
    PrevChain m none as

/-- The memory after the block of the merge loop that links the picked node `a` behind
`node`. -/
def linkMem {V : Type} (m : ListMem V) (node : Option Nat) (a : Nat) : ListMem V :=
  match node with
  | some nd => assignPrev (assignNext m nd (some a)) a (some nd)
  | none => assignPrev m a none

/-- What the loop of `merge_sorted` returns when it starts with the ascending chains `as`
and `bs` left to merge behind `node`: the nodes `out` linked behind `node` are the nodes
of both chains in ascending order, values are untouched, and so is every node that is
neither `node` nor in a chain. -/
def MergePost {V : Type} [LinearOrder V] (m : ListMem V) (as bs : List Nat)
    (node thisHead : Option Nat) (r : Option (ListMem V × Option Nat × Option Nat)) : Prop :=
  ∃ m' out, r = some (m', (match node with
                            | some _ => thisHead
                            | none => out.head?), (node.toList ++ out).getLast?) ∧
    out.Perm (as ++ bs) ∧ (out.map (fun a => (m' a).value_)).Sorted (· ≤ ·) ∧
    NextChain m' (node.toList ++ out) ∧ PrevChain m' node out ∧
    (∀ x, (m' x).value_ = (m x).value_) ∧
    (∀ nd, node = some nd → (m' nd).prev_ = (m nd).prev_) ∧
    (∀ x, node ≠ some x → x ∉ as → x ∉ bs → m' x = m x)

/-- Example: the memory and the list object after the list constructor on 3, 1, 2 (nodes
1, 2, 3). -/
def exSortInput : ListMem Nat × list :=
  list.ofItems [(3, 1), (1, 2), (2, 3)] freshListMem list.empty

/-- `deleteCase5_balanceRotations` with a check: an absent sibling is a fault. -/
def deleteCase5_checked {V : Type} (t : RBTree V) (node : Nat) : Option (RBTree V) :=
  match brother t.mem node with
  | some (some _) => deleteCase5_balanceRotations t node
  | _ => none

/-- `deleteCase4_brotherBlackChildRed` with a check: an absent sibling is a fault, here
and in the case that follows. -/
def deleteCase4_checked {V : Type} (t : RBTree V) (node : Nat) : Option (RBTree V) :=
  match brother t.mem node, (t.mem node).parent with
  | some (some b), some p =>
    let m := t.mem
    let t1 : Option (RBTree V) :=
      if (m b).color = Color.Black then
        if some node = (m p).left ∧ nullOrBlack m (m b).right ∧ presentRed m (m b).left then
          let m := setC m b Color.Red
          match (m b).left with
          | none => none
          | some bl => rotateRight { t with mem := setC m bl Color.Black } b
        else if some node = (m p).right ∧ nullOrBlack m (m b).left ∧
            presentRed m (m b).right then
          let m := setC m b Color.Red
          match (m b).right with
          | none => none
          | some br => rotateLeft { t with mem := setC m br Color.Black } b
        else some t
      else some t
    match t1 with
    | none => none
    | some t1 => deleteCase5_checked t1 node
  | _, _ => none

/-- `deleteCase3_parentRedBrotherChildrenBlack` with a check: an absent sibling is a
fault, here and in the cases that follow. -/
def deleteCase3_checked {V : Type} (t : RBTree V) (node : Nat) : Option (RBTree V) :=
  match brother t.mem node, (t.mem node).parent with
  | some (some b), some p =>
    let m := t.mem
    if (m p).color = Color.Red ∧ (m b).color = Color.Black ∧ nullOrBlack m (m b).left ∧
        nullOrBlack m (m b).right then
      let m := setC m b Color.Red
      match (m node).parent with
      | none => none
      | some p1 => some { t with mem := setC m p1 Color.Black }
    else deleteCase4_checked t node
  | _, _ => none

/-- `deleteCase2_parentBrotherChildrenBlack` with a check: an absent sibling is a fault,
here and in the cases that follow; `deleteCase1` is the recursive re-entry. -/
def deleteCase2_checked {V : Type} (deleteCase1 : RBTree V → Nat → Option (RBTree V))
    (t : RBTree V) (node : Nat) : Option (RBTree V) :=
  match brother t.mem node, (t.mem node).parent with
  | some (some b), some p =>
    let m := t.mem
    if (m p).color = Color.Black ∧ (m b).color = Color.Black ∧ nullOrBlack m (m b).left ∧
        nullOrBlack m (m b).right then
      let m := setC m b Color.Red
      match (m node).parent with
      | none => none
      | some p1 => deleteCase1 { t with mem := m } p1
    else deleteCase3_checked t node
  | _, _ => none

/-- `deleteCase1_brotherRed` with a check: for a node with a parent an absent sibling is
a fault, here and in the cases that follow. -/
def deleteCase1_checked {V : Type} : Nat → RBTree V → Nat → Option (RBTree V)
  | 0, _, _ => none
  | fuel + 1, t, node =>
    match (t.mem node).parent with
    | none => some t
    | some p =>
      match brother t.mem node with
      | some (some b) =>
        let t1 : Option (RBTree V) :=
          if (t.mem b).color = Color.Red then
            let m := setC t.mem p Color.Red
            let m := setC m b Color.Black
            match (m node).parent with
            | none => none
            | some p1 =>
              if (m p1).left = some node then rotateLeft { t with mem := m } p1
              else rotateRight { t with mem := m } p1
          else some t
        match t1 with
        | none => none
        | some t1 => deleteCase2_checked (deleteCase1_checked fuel) t1 node
      | _ => none

/-- The second half of `takeNode` with checks: an absent sibling in the delete fix-up is a
fault, and so is reaching the branch that rebalances from a black only child. -/
def takeNodeRest_checked {V : Type} (fuel : Nat) (t1 : RBTree V) (delNode : Nat) :
    Option (Nat × RBTree V) :=
  let child := if (t1.mem delNode).left ≠ none then (t1.mem delNode).left
               else (t1.mem delNode).right
  let t2 : Option (RBTree V) :=
    if (t1.mem delNode).color = Color.Black then
      match child with
      | none => deleteCase1_checked fuel t1 delNode
      | some c =>
        match replaceParentTo t1.mem delNode c with
        | none => none
        | some m =>
          if (m c).color = Color.Red then some { t1 with mem := setC m c Color.Black }
          else none
    else some t1
  match t2 with
  | none => none
  | some t2 =>
    let m := clearParent t2.mem delNode
    let root := if some delNode = t2.rootNode_ then none else t2.rootNode_
    some (delNode, { mem := m, rootNode_ := root,
                     size_ := (t2.size_ + sizeModulus - 1) % sizeModulus })

/-- `takeNode` with the checks of `takeNodeRest_checked`. -/
def takeNode_checked {V : Type} (fuel : Nat) (t : RBTree V) (node : Nat) :
    Option (Nat × RBTree V) :=
  takeNodeWith takeNodeRest_checked fuel t node

/-- Example memory with two multisets: the nodes 1, 2, 3 hold 10, 20, 20 (root 2), and
node 11 alone holds 20. -/
def exPairMem : Mem Nat := fun a =>
  if a = 11 then
    { left := none, right := none, parent := none, value := 20, color := Color.Black }
  else exDupMem a

/-- The multiset 10, 20, 20 over `exPairMem`. -/
def exPairOther : RBTree Nat := { mem := exPairMem, rootNode_ := some 2, size_ := 3 }

/-- The multiset 20 over `exPairMem`. -/
def exPairThis : RBTree Nat := { mem := exPairMem, rootNode_ := some 11, size_ := 1 }

/-- The shape held by `exPairThis`. -/
def exPairShape : T Nat := T.node T.nil 11 Color.Black 20 T.nil

end nex

set_option autoImplicit false

namespace nex

section Basic

variable {V : Type}

theorem write_apply (m : Mem V) (a : Nat) (n : TreeNode V) (b : Nat) :
    (m.write a n) b = if b = a then n else m b := rfl

theorem setL_apply (m : Mem V) (a : Nat) (p : Option Nat) (b : Nat) :
    setL m a p b = if b = a then { m a with left := p } else m b := rfl

theorem setR_apply (m : Mem V) (a : Nat) (p : Option Nat) (b : Nat) :
    setR m a p b = if b = a then { m a with right := p } else m b := rfl

theorem setP_apply (m : Mem V) (a : Nat) (p : Option Nat) (b : Nat) :
    setP m a p b = if b = a then { m a with parent := p } else m b := rfl

theorem setC_apply (m : Mem V) (a : Nat) (c : Color) (b : Nat) :
    setC m a c b = if b = a then { m a with color := c } else m b := rfl

theorem setLeft_some (m : Mem V) (a c : Nat) :
    setLeft m a (some c) = setP (setL m a (some c)) c (some a) := rfl

theorem setLeft_none (m : Mem V) (a : Nat) : setLeft m a none = setL m a none := rfl

theorem setRight_some (m : Mem V) (a c : Nat) :
    setRight m a (some c) = setP (setR m a (some c)) c (some a) := rfl

theorem setRight_none (m : Mem V) (a : Nat) : setRight m a none = setR m a none := rfl

@[simp] theorem T.ptr_nil : (T.nil : T V).ptr = none := rfl
@[simp] theorem T.ptr_node (l : T V) (a : Nat) (c : Color) (v : V) (r : T V) :
    (T.node l a c v r).ptr = some a := rfl
@[simp] theorem T.addrs_nil : (T.nil : T V).addrs = [] := rfl
@[simp] theorem T.addrs_node (l : T V) (a : Nat) (c : Color) (v : V) (r : T V) :
    (T.node l a c v r).addrs = l.addrs ++ a :: r.addrs := rfl
@[simp] theorem T.toList_nil : (T.nil : T V).toList = [] := rfl
@[simp] theorem T.toList_node (l : T V) (a : Nat) (c : Color) (v : V) (r : T V) :
    (T.node l a c v r).toList = l.toList ++ (a, v) :: r.toList := rfl
@[simp] theorem T.color_nil : (T.nil : T V).color = Color.Black := rfl
@[simp] theorem T.color_node (l : T V) (a : Nat) (c : Color) (v : V) (r : T V) :
    (T.node l a c v r).color = c := rfl
@[simp] theorem T.size_nil : (T.nil : T V).size = 0 := rfl
@[simp] theorem T.size_node (l : T V) (a : Nat) (c : Color) (v : V) (r : T V) :
    (T.node l a c v r).size = l.size + 1 + r.size := rfl
@[simp] theorem T.bh_nil : (T.nil : T V).bh = 0 := rfl
@[simp] theorem T.bh_node (l : T V) (a : Nat) (c : Color) (v : V) (r : T V) :
    (T.node l a c v r).bh = l.bh + (if c = Color.Black then 1 else 0) := rfl
@[simp] theorem T.NoRedRed_nil : (T.nil : T V).NoRedRed := trivial
@[simp] theorem T.NoRedRed_node (l : T V) (a : Nat) (c : Color) (v : V) (r : T V) :
    (T.node l a c v r).NoRedRed ↔
      (c = Color.Red → l.color = Color.Black ∧ r.color = Color.Black) ∧ l.NoRedRed ∧ r.NoRedRed :=
  Iff.rfl
@[simp] theorem T.Balanced_nil : (T.nil : T V).Balanced := trivial
@[simp] theorem T.Balanced_node (l : T V) (a : Nat) (c : Color) (v : V) (r : T V) :
    (T.node l a c v r).Balanced ↔ l.bh = r.bh ∧ l.Balanced ∧ r.Balanced := Iff.rfl
@[simp] theorem Repr_nil (m : Mem V) (par : Option Nat) : Repr m T.nil par := trivial
@[simp] theorem Repr_node (m : Mem V) (l : T V) (a : Nat) (c : Color) (v : V) (r : T V)
    (par : Option Nat) :
    Repr m (T.node l a c v r) par ↔
      m a = { left := l.ptr, right := r.ptr, parent := par, value := v, color := c } ∧
      Repr m l (some a) ∧ Repr m r (some a) := Iff.rfl

theorem T.addrs_eq_map (t : T V) : t.addrs = t.toList.map Prod.fst := by
  induction t with
  | nil => rfl
  | node l a c v r ihl ihr => simp [ihl, ihr]

theorem T.size_eq_length (t : T V) : t.size = t.addrs.length := by
  induction t with
  | nil => rfl
  | node l a c v r ihl ihr => simp [ihl, ihr]; omega

theorem T.ptr_mem (t : T V) (a : Nat) (h : t.ptr = some a) : a ∈ t.addrs := by
  cases t with
  | nil => simp at h
  | node l b c v r => simp at h; simp [h]

@[simp] theorem plug_nil (t : T V) : plug [] t = t := rfl
@[simp] theorem plug_cons (f : Frame V) (fs : List (Frame V)) (t : T V) :
    plug (f :: fs) t = plug fs (f.fill t) := rfl
@[simp] theorem fill_L (a : Nat) (c : Color) (v : V) (r t : T V) :
    (Frame.L a c v r).fill t = T.node t a c v r := rfl
@[simp] theorem fill_R (a : Nat) (c : Color) (v : V) (l t : T V) :
    (Frame.R l a c v).fill t = T.node l a c v t := rfl
@[simp] theorem ctxPar_nil : ctxPar ([] : List (Frame V)) = none := rfl
@[simp] theorem ctxPar_cons (f : Frame V) (fs : List (Frame V)) :
    ctxPar (f :: fs) = some f.addr := rfl
@[simp] theorem Frame.addr_L (a : Nat) (c : Color) (v : V) (r : T V) :
    (Frame.L a c v r).addr = a := rfl
@[simp] theorem Frame.addr_R (a : Nat) (c : Color) (v : V) (l : T V) :
    (Frame.R l a c v).addr = a := rfl
@[simp] theorem Frame.col_L (a : Nat) (c : Color) (v : V) (r : T V) :
    (Frame.L a c v r).col = c := rfl
@[simp] theorem Frame.col_R (a : Nat) (c : Color) (v : V) (l : T V) :
    (Frame.R l a c v).col = c := rfl
@[simp] theorem Frame.sib_L (a : Nat) (c : Color) (v : V) (r : T V) :
    (Frame.L a c v r).sib = r := rfl
@[simp] theorem Frame.sib_R (a : Nat) (c : Color) (v : V) (l : T V) :
    (Frame.R l a c v).sib = l := rfl
@[simp] theorem ctxBefore_nil : ctxBefore ([] : List (Frame V)) = [] := rfl
@[simp] theorem ctxBefore_L (a : Nat) (c : Color) (v : V) (r : T V) (fs : List (Frame V)) :
    ctxBefore (Frame.L a c v r :: fs) = ctxBefore fs := rfl
@[simp] theorem ctxBefore_R (a : Nat) (c : Color) (v : V) (l : T V) (fs : List (Frame V)) :
    ctxBefore (Frame.R l a c v :: fs) = ctxBefore fs ++ (l.addrs ++ [a]) := rfl
@[simp] theorem ctxAfter_nil : ctxAfter ([] : List (Frame V)) = [] := rfl
@[simp] theorem ctxAfter_L (a : Nat) (c : Color) (v : V) (r : T V) (fs : List (Frame V)) :
    ctxAfter (Frame.L a c v r :: fs) = (a :: r.addrs) ++ ctxAfter fs := rfl
@[simp] theorem ctxAfter_R (a : Nat) (c : Color) (v : V) (l : T V) (fs : List (Frame V)) :
    ctxAfter (Frame.R l a c v :: fs) = ctxAfter fs := rfl
@[simp] theorem ctxBeforeL_nil : ctxBeforeL ([] : List (Frame V)) = [] := rfl
@[simp] theorem ctxBeforeL_L (a : Nat) (c : Color) (v : V) (r : T V) (fs : List (Frame V)) :
    ctxBeforeL (Frame.L a c v r :: fs) = ctxBeforeL fs := rfl
@[simp] theorem ctxBeforeL_R (a : Nat) (c : Color) (v : V) (l : T V) (fs : List (Frame V)) :
    ctxBeforeL (Frame.R l a c v :: fs) = ctxBeforeL fs ++ (l.toList ++ [(a, v)]) := rfl
@[simp] theorem ctxAfterL_nil : ctxAfterL ([] : List (Frame V)) = [] := rfl
@[simp] theorem ctxAfterL_L (a : Nat) (c : Color) (v : V) (r : T V) (fs : List (Frame V)) :
    ctxAfterL (Frame.L a c v r :: fs) = ((a, v) :: r.toList) ++ ctxAfterL fs := rfl
@[simp] theorem ctxAfterL_R (a : Nat) (c : Color) (v : V) (l : T V) (fs : List (Frame V)) :
    ctxAfterL (Frame.R l a c v :: fs) = ctxAfterL fs := rfl
@[simp] theorem ReprCtx_nil (m : Mem V) (hole : Option Nat) : ReprCtx m [] hole := trivial
@[simp] theorem ReprCtx_L (m : Mem V) (a : Nat) (c : Color) (v : V) (r : T V)
    (fs : List (Frame V)) (hole : Option Nat) :
    ReprCtx m (Frame.L a c v r :: fs) hole ↔
      m a = { left := hole, right := r.ptr, parent := ctxPar fs, value := v, color := c } ∧
      Repr m r (some a) ∧ ReprCtx m fs (some a) := Iff.rfl
@[simp] theorem ReprCtx_R (m : Mem V) (a : Nat) (c : Color) (v : V) (l : T V)
    (fs : List (Frame V)) (hole : Option Nat) :
    ReprCtx m (Frame.R l a c v :: fs) hole ↔
      m a = { left := l.ptr, right := hole, parent := ctxPar fs, value := v, color := c } ∧
      Repr m l (some a) ∧ ReprCtx m fs (some a) := Iff.rfl

theorem addrs_plug (fs : List (Frame V)) (t : T V) :
    (plug fs t).addrs = ctxBefore fs ++ t.addrs ++ ctxAfter fs := by
  induction fs generalizing t with
  | nil => simp
  | cons f fs ih => cases f <;> simp [ih]

theorem toList_plug (fs : List (Frame V)) (t : T V) :
    (plug fs t).toList = ctxBeforeL fs ++ t.toList ++ ctxAfterL fs := by
  induction fs generalizing t with
  | nil => simp
  | cons f fs ih => cases f <;> simp [ih]

theorem ctxBefore_eq_map (fs : List (Frame V)) : ctxBefore fs = (ctxBeforeL fs).map Prod.fst := by
  induction fs with
  | nil => rfl
  | cons f fs ih => cases f <;> simp [ih, T.addrs_eq_map]

theorem ctxAfter_eq_map (fs : List (Frame V)) : ctxAfter fs = (ctxAfterL fs).map Prod.fst := by
  induction fs with
  | nil => rfl
  | cons f fs ih => cases f <;> simp [ih, T.addrs_eq_map]

theorem Repr_plug (m : Mem V) (fs : List (Frame V)) (t : T V) :
    Repr m (plug fs t) none ↔ ReprCtx m fs t.ptr ∧ Repr m t (ctxPar fs) := by
  induction fs generalizing t with
  | nil => simp
  | cons f fs ih =>
    cases f with
    | L a c v r => simp [ih]; tauto
    | R l a c v => simp [ih]; tauto

theorem Repr_congr (m m' : Mem V) (t : T V) (par : Option Nat)
    (h : ∀ a ∈ t.addrs, m' a = m a) (hr : Repr m t par) : Repr m' t par := by
  induction t generalizing par with
  | nil => trivial
  | node l a c v r ihl ihr =>
    simp at hr ⊢
    refine ⟨?_, ihl _ ?_ hr.2.1, ihr _ ?_ hr.2.2⟩
    · rw [h a (by simp)]; exact hr.1
    · intro x hx; exact h x (by simp [hx])
    · intro x hx; exact h x (by simp [hx])

theorem ReprCtx_congr (m m' : Mem V) (fs : List (Frame V)) (hole : Option Nat)
    (h : ∀ a, a ∈ ctxBefore fs ∨ a ∈ ctxAfter fs → m' a = m a) (hr : ReprCtx m fs hole) :
    ReprCtx m' fs hole := by
  induction fs generalizing hole with
  | nil => trivial
  | cons f fs ih =>
    cases f with
    | L a c v r =>
      simp at hr ⊢
      refine ⟨?_, Repr_congr m m' r _ ?_ hr.2.1, ih _ ?_ hr.2.2⟩
      · rw [h a (by simp)]; exact hr.1
      · intro x hx; exact h x (by simp [hx])
      · intro x hx; exact h x (by simp; tauto)
    | R l a c v =>
      simp at hr ⊢
      refine ⟨?_, Repr_congr m m' l _ ?_ hr.2.1, ih _ ?_ hr.2.2⟩
      · rw [h a (by simp)]; exact hr.1
      · intro x hx; exact h x (by simp [hx])
      · intro x hx; exact h x (by simp; tauto)

theorem count_cons_one (y a : Nat) (l : List Nat) :
    List.count y (a :: l) = one a y + List.count y l := by
  unfold one
  rw [List.count_cons]
  by_cases h : y = a
  · subst h; simp; omega
  · have h' : ¬ a = y := fun e => h e.symm
    simp [h, h']

theorem one_self (a : Nat) : one a a = 1 := by simp [one]

theorem ne_of_one {a y : Nat} (h : one a y = 0) : y ≠ a := by
  intro e; subst e; simp [one] at h

theorem mem_pos {x : Nat} {S : List Nat} (h : x ∈ S) : 0 < List.count x S :=
  List.count_pos_iff.mpr h

theorem not_mem_of_zero {x : Nat} {S : List Nat} (h : List.count x S = 0) : x ∉ S :=
  fun hx => by have := mem_pos hx; omega

theorem counts_of_nodup {L : List Nat} (h : L.Nodup) (y : Nat) : List.count y L ≤ 1 :=
  List.nodup_iff_count_le_one.mp h y

theorem nodup_of_counts {L : List Nat} (h : ∀ y, List.count y L ≤ 1) : L.Nodup :=
  List.nodup_iff_count_le_one.mpr h

theorem ptr_count (t : T V) (a : Nat) (h : t.ptr = some a) : 0 < List.count a t.addrs :=
  mem_pos (T.ptr_mem t a h)

/-- Re-parenting the root of a represented subtree. -/
theorem Repr_reparent (m m' : Mem V) (t : T V) (par par' : Option Nat)
    (hnd : t.addrs.Nodup)
    (hroot : ∀ a, t.ptr = some a → m' a = { m a with parent := par' })
    (h : ∀ a ∈ t.addrs, t.ptr ≠ some a → m' a = m a) (hr : Repr m t par) :
    Repr m' t par' := by
  cases t with
  | nil => trivial
  | node l a c v r =>
    simp at hr ⊢
    have hc := counts_of_nodup hnd
    simp only [T.addrs_node, List.count_append, count_cons_one] at hc
    refine ⟨?_, Repr_congr m m' l _ ?_ hr.2.1, Repr_congr m m' r _ ?_ hr.2.2⟩
    · rw [hroot a rfl, hr.1]
    · intro x hx
      refine h x (by simp [hx]) ?_
      have : x ≠ a := ne_of_one (by have := hc x; have := mem_pos hx; omega)
      simpa using fun e => this e.symm
    · intro x hx
      refine h x (by simp [hx]) ?_
      have : x ≠ a := ne_of_one (by have := hc x; have := mem_pos hx; omega)
      simpa using fun e => this e.symm

/-- Changing the pointer stored in the hole slot of the innermost frame. -/
theorem ReprCtx_rehole (m m' : Mem V) (fs : List (Frame V)) (hole hole' : Option Nat)
    (hnd : (ctxBefore fs ++ ctxAfter fs).Nodup)
    (hhead : ∀ f fs', fs = f :: fs' →
      m' f.addr = match f with
        | Frame.L _ _ _ _ => { m f.addr with left := hole' }
        | Frame.R _ _ _ _ => { m f.addr with right := hole' })
    (h : ∀ a, a ∈ ctxBefore fs ∨ a ∈ ctxAfter fs → ctxPar fs ≠ some a → m' a = m a)
    (hr : ReprCtx m fs hole) : ReprCtx m' fs hole' := by
  cases fs with
  | nil => trivial
  | cons f fs =>
    have hc := counts_of_nodup hnd
    cases f with
    | L a c v r =>
      simp at hr ⊢
      simp only [ctxBefore_L, ctxAfter_L, List.count_append, count_cons_one] at hc
      have h1 := hhead _ _ rfl
      simp at h1
      refine ⟨by rw [h1, hr.1], Repr_congr m m' r _ ?_ hr.2.1, ReprCtx_congr m m' fs _ ?_ hr.2.2⟩
      · intro x hx
        refine h x (by simp [hx]) ?_
        have : x ≠ a := ne_of_one (by have := hc x; have := mem_pos hx; omega)
        simpa using fun e => this e.symm
      · intro x hx
        refine h x (by simp; tauto) ?_
        have : x ≠ a := ne_of_one (by
          have := hc x
          rcases hx with hx | hx <;> have := mem_pos hx <;> omega)
        simpa using fun e => this e.symm
    | R l a c v =>
      simp at hr ⊢
      simp only [ctxBefore_R, ctxAfter_R, List.count_append, count_cons_one, List.count_nil] at hc
      have h1 := hhead _ _ rfl
      simp at h1
      refine ⟨by rw [h1, hr.1], Repr_congr m m' l _ ?_ hr.2.1, ReprCtx_congr m m' fs _ ?_ hr.2.2⟩
      · intro x hx
        refine h x (by simp [hx]) ?_
        have : x ≠ a := ne_of_one (by have := hc x; have := mem_pos hx; omega)
        simpa using fun e => this e.symm
      · intro x hx
        refine h x (by simp; tauto) ?_
        have : x ≠ a := ne_of_one (by
          have := hc x
          rcases hx with hx | hx <;> have := mem_pos hx <;> omega)
        simpa using fun e => this e.symm

end Basic

end nex

set_option autoImplicit false

namespace nex

section Prim

variable {V : Type}

theorem ctxPar_count (fs : List (Frame V)) (p : Nat) (h : ctxPar fs = some p) :
    0 < List.count p (ctxBefore fs) + List.count p (ctxAfter fs) := by
  cases fs with
  | nil => simp at h
  | cons f fs =>
    cases f <;> simp at h <;> subst h <;>
      simp only [ctxBefore_L, ctxAfter_L, ctxBefore_R, ctxAfter_R, List.count_append,
        count_cons_one, one_self, List.count_nil] <;> omega

theorem Represents.read {t : RBTree V} {C : List (Frame V)} {l r : T V} {a : Nat} {c : Color}
    {v : V} (h : Represents t (plug C (T.node l a c v r))) :
    t.mem a = { left := l.ptr, right := r.ptr, parent := ctxPar C, value := v, color := c } := by
  have := (Repr_plug _ _ _).1 h.2.1
  simp at this
  exact this.2.1

theorem ptr_plug (fs : List (Frame V)) (t : T V) (a : Nat) (h : (plug fs t).ptr = some a) :
    (fs = [] ∧ t.ptr = some a) ∨ (fs ≠ [] ∧ (a ∈ ctxBefore fs ∨ a ∈ ctxAfter fs)) := by
  induction fs generalizing t with
  | nil => left; exact ⟨rfl, h⟩
  | cons f fs ih =>
    right
    refine ⟨by simp, ?_⟩
    rcases ih _ h with ⟨rfl, h1⟩ | ⟨_, h1⟩
    · cases f <;> simp at h1 <;> subst h1 <;> simp
    · cases f <;> simp <;> tauto

/-- The root pointer of a plugged shape only depends on the hole through its pointer. -/
theorem ptr_plug_congr (fs : List (Frame V)) (t t' : T V) (h : t.ptr = t'.ptr) :
    (plug fs t).ptr = (plug fs t').ptr := by
  induction fs generalizing t t' with
  | nil => exact h
  | cons f fs ih => cases f <;> exact ih _ _ rfl

/-- Assemble a representation from its path and its subtree. -/
theorem Represents.mk_plug {t : RBTree V} {fs : List (Frame V)} {s : T V}
    (hroot : t.rootNode_ = (plug fs s).ptr) (hctx : ReprCtx t.mem fs s.ptr)
    (hsub : Repr t.mem s (ctxPar fs)) (hnd : (plug fs s).addrs.Nodup) :
    Represents t (plug fs s) :=
  ⟨hroot, (Repr_plug _ _ _).2 ⟨hctx, hsub⟩, hnd⟩

/-- Writing a colour at the focus. -/
theorem setC_spec {t : RBTree V} {C : List (Frame V)} {l r : T V} {a : Nat} {c : Color}
    {v : V} (c' : Color) (h : Represents t (plug C (T.node l a c v r))) :
    Represents { t with mem := setC t.mem a c' } (plug C (T.node l a c' v r)) := by
  have hread := h.read
  obtain ⟨hroot, hrep, hnd⟩ := h
  have hc := counts_of_nodup hnd
  simp only [addrs_plug, T.addrs_node, List.count_append, count_cons_one] at hc
  obtain ⟨hctx, hsub⟩ := (Repr_plug _ _ _).1 hrep
  simp at hsub
  refine Represents.mk_plug ?_ ?_ ?_ ?_
  · exact hroot.trans (ptr_plug_congr C (T.node l a c v r) (T.node l a c' v r) rfl)
  · refine ReprCtx_congr _ _ _ _ ?_ hctx
    intro x hx
    have : x ≠ a := ne_of_one (by
      have := hc x
      rcases hx with hx | hx <;> have := mem_pos hx <;> omega)
    simp [setC_apply, this]
  · simp
    refine ⟨by simp [setC_apply, hread], Repr_congr _ _ _ _ ?_ hsub.2.1,
      Repr_congr _ _ _ _ ?_ hsub.2.2⟩
    · intro x hx
      have : x ≠ a := ne_of_one (by have := hc x; have := mem_pos hx; omega)
      simp [setC_apply, this]
    · intro x hx
      have : x ≠ a := ne_of_one (by have := hc x; have := mem_pos hx; omega)
      simp [setC_apply, this]
  · simpa [addrs_plug] using hnd

theorem ptr_plug_cons (f : Frame V) (fs : List (Frame V)) (s s' : T V) :
    (plug (f :: fs) s).ptr = (plug (f :: fs) s').ptr := by
  cases f <;> exact ptr_plug_congr fs _ _ rfl

/-- Replace the subtree in the hole of a represented shape. -/
theorem Represents.replace {t t' : RBTree V} {fs : List (Frame V)} {s u : T V}
    (h : Represents t (plug fs s))
    (hnd' : (plug fs u).addrs.Nodup)
    (hroot : t'.rootNode_ = match fs with
      | [] => u.ptr
      | _ :: _ => t.rootNode_)
    (hhead : ∀ f fu, fs = f :: fu →
      t'.mem f.addr = match f with
        | Frame.L _ _ _ _ => { t.mem f.addr with left := u.ptr }
        | Frame.R _ _ _ _ => { t.mem f.addr with right := u.ptr })
    (hframe : ∀ x, x ∈ ctxBefore fs ∨ x ∈ ctxAfter fs → ctxPar fs ≠ some x →
      t'.mem x = t.mem x)
    (hsub : Repr t'.mem u (ctxPar fs)) :
    Represents t' (plug fs u) := by
  obtain ⟨hr, hrep, hnd⟩ := h
  obtain ⟨hctx, -⟩ := (Repr_plug _ _ _).1 hrep
  refine Represents.mk_plug ?_ ?_ hsub hnd'
  · cases fs with
    | nil => simpa using hroot
    | cons f fs => exact (hroot.trans hr).trans (ptr_plug_cons f fs s u)
  · refine ReprCtx_rehole _ _ _ _ _ ?_ hhead hframe hctx
    rw [addrs_plug] at hnd'
    have := hnd'.sublist (List.Sublist.append (List.sublist_append_left _ u.addrs)
      (List.Sublist.refl _))
    exact this

theorem rotateLeft_eval (t : RBTree V) (a b : Nat) (lp q rrp par : Option Nat) (v bv : V)
    (c bc : Color)
    (ha : t.mem a = { left := lp, right := some b, parent := par, value := v, color := c })
    (hb : t.mem b = { left := q, right := rrp, parent := some a, value := bv, color := bc })
    (hab : a ≠ b) (hpa : par ≠ some a) (hpb : par ≠ some b) (hqa : q ≠ some a)
    (hqb : q ≠ some b) (hqp : q = none ∨ q ≠ par) :
    ∃ t', rotateLeft t a = some t' ∧
      t'.mem b = { left := some a, right := rrp, parent := par, value := bv,
                   color := if par = none then Color.Black else bc } ∧
      t'.mem a = { left := lp, right := q, parent := some b, value := v, color := c } ∧
      (∀ x, q = some x → t'.mem x = { t.mem x with parent := some a }) ∧
      (∀ pp, par = some pp → t'.mem pp =
        if (t.mem pp).left = some a then { t.mem pp with left := some b }
        else { t.mem pp with right := some b }) ∧
      (∀ x, x ≠ a → x ≠ b → par ≠ some x → q ≠ some x → t'.mem x = t.mem x) ∧
      t'.rootNode_ = (if par = none then some b else t.rootNode_) ∧ t'.size_ = t.size_ := by
  have hba : b ≠ a := fun e => hab e.symm
  rcases par with _ | pp <;> rcases q with _ | x
  · simp [rotateLeft, ha, hb, isRoot, setLeft, setRight, setP_apply, setL_apply, setR_apply,
      setC_apply, hab, hba]
    intro x h1 h2
    simp [h1, h2]
  · simp at hqa hqb
    have hxa : x ≠ a := fun e => hqa e
    have hxb : x ≠ b := fun e => hqb e
    simp [rotateLeft, ha, hb, isRoot, setLeft, setRight, setP_apply, setL_apply, setR_apply,
      setC_apply, hab, hba, hxa, hxb, hxa.symm, hxb.symm]
    intro y h1 h2 h3
    have : y ≠ x := fun e => h3 e.symm
    simp [h1, h2, this]
  · simp at hpa hpb
    have hpa' : pp ≠ a := fun e => hpa e
    have hpb' : pp ≠ b := fun e => hpb e
    by_cases hl : (t.mem pp).left = some a <;>
    simp [rotateLeft, ha, hb, isRoot, setLeft, setRight, setP_apply, setL_apply, setR_apply,
      setC_apply, hab, hba, hpa', hpb', hpa'.symm, hpb'.symm, hl] <;>
    (intro y h1 h2 h3; have : y ≠ pp := fun e => h3 e.symm; simp [h1, h2, this])
  · simp at hpa hpb hqa hqb hqp
    have hpa' : pp ≠ a := fun e => hpa e
    have hpb' : pp ≠ b := fun e => hpb e
    have hxa : x ≠ a := fun e => hqa e
    have hxb : x ≠ b := fun e => hqb e
    have hxp : x ≠ pp := hqp
    by_cases hl : (t.mem pp).left = some a <;>
    simp [rotateLeft, ha, hb, isRoot, setLeft, setRight, setP_apply, setL_apply, setR_apply,
      setC_apply, hab, hba, hpa', hpb', hpa'.symm, hpb'.symm, hl, hxa, hxb, hxa.symm, hxb.symm,
      hxp, hxp.symm] <;>
    (intro y h1 h2 h3 h4
     have : y ≠ pp := fun e => h3 e.symm
     have : y ≠ x := fun e => h4 e.symm
     simp [h1, h2, *])

theorem rotateRight_eval (t : RBTree V) (a b : Nat) (rp q llp par : Option Nat) (v bv : V)
    (c bc : Color)
    (ha : t.mem a = { left := some b, right := rp, parent := par, value := v, color := c })
    (hb : t.mem b = { left := llp, right := q, parent := some a, value := bv, color := bc })
    (hab : a ≠ b) (hpa : par ≠ some a) (hpb : par ≠ some b) (hqa : q ≠ some a)
    (hqb : q ≠ some b) (hqp : q = none ∨ q ≠ par) :
    ∃ t', rotateRight t a = some t' ∧
      t'.mem b = { left := llp, right := some a, parent := par, value := bv,
                   color := if par = none then Color.Black else bc } ∧
      t'.mem a = { left := q, right := rp, parent := some b, value := v, color := c } ∧
      (∀ x, q = some x → t'.mem x = { t.mem x with parent := some a }) ∧
      (∀ pp, par = some pp → t'.mem pp =
        if (t.mem pp).left = some a then { t.mem pp with left := some b }
        else { t.mem pp with right := some b }) ∧
      (∀ x, x ≠ a → x ≠ b → par ≠ some x → q ≠ some x → t'.mem x = t.mem x) ∧
      t'.rootNode_ = (if par = none then some b else t.rootNode_) ∧ t'.size_ = t.size_ := by
  have hba : b ≠ a := fun e => hab e.symm
  rcases par with _ | pp <;> rcases q with _ | x
  · simp [rotateRight, ha, hb, isRoot, setLeft, setRight, setP_apply, setL_apply, setR_apply,
      setC_apply, hab, hba]
    intro x h1 h2
    simp [h1, h2]
  · simp at hqa hqb
    have hxa : x ≠ a := fun e => hqa e
    have hxb : x ≠ b := fun e => hqb e
    simp [rotateRight, ha, hb, isRoot, setLeft, setRight, setP_apply, setL_apply, setR_apply,
      setC_apply, hab, hba, hxa, hxb, hxa.symm, hxb.symm]
    intro y h1 h2 h3
    have : y ≠ x := fun e => h3 e.symm
    simp [h1, h2, this]
  · simp at hpa hpb
    have hpa' : pp ≠ a := fun e => hpa e
    have hpb' : pp ≠ b := fun e => hpb e
    by_cases hl : (t.mem pp).left = some a <;>
    simp [rotateRight, ha, hb, isRoot, setLeft, setRight, setP_apply, setL_apply, setR_apply,
      setC_apply, hab, hba, hpa', hpb', hpa'.symm, hpb'.symm, hl] <;>
    (intro y h1 h2 h3; have : y ≠ pp := fun e => h3 e.symm; simp [h1, h2, this])
  · simp at hpa hpb hqa hqb hqp
    have hpa' : pp ≠ a := fun e => hpa e
    have hpb' : pp ≠ b := fun e => hpb e
    have hxa : x ≠ a := fun e => hqa e
    have hxb : x ≠ b := fun e => hqb e
    have hxp : x ≠ pp := hqp
    by_cases hl : (t.mem pp).left = some a <;>
    simp [rotateRight, ha, hb, isRoot, setLeft, setRight, setP_apply, setL_apply, setR_apply,
      setC_apply, hab, hba, hpa', hpb', hpa'.symm, hpb'.symm, hl, hxa, hxb, hxa.symm, hxb.symm,
      hxp, hxp.symm] <;>
    (intro y h1 h2 h3 h4
     have : y ≠ pp := fun e => h3 e.symm
     have : y ≠ x := fun e => h4 e.symm
     simp [h1, h2, *])

end Prim

end nex

set_option autoImplicit false

namespace nex

section Rot

variable {V : Type}

theorem topColor_eq (fs : List (Frame V)) (c : Color) :
    (if ctxPar fs = none then Color.Black else c) = topColor fs c := by
  cases fs <;> simp [topColor]

theorem Represents.ctx {t : RBTree V} {fs : List (Frame V)} {s : T V}
    (h : Represents t (plug fs s)) : ReprCtx t.mem fs s.ptr :=
  ((Repr_plug _ _ _).1 h.2.1).1

theorem Represents.sub {t : RBTree V} {fs : List (Frame V)} {s : T V}
    (h : Represents t (plug fs s)) : Repr t.mem s (ctxPar fs) :=
  ((Repr_plug _ _ _).1 h.2.1).2

theorem Represents.counts {t : RBTree V} {fs : List (Frame V)} {s : T V}
    (h : Represents t (plug fs s)) (y : Nat) :
    List.count y (ctxBefore fs) + List.count y s.addrs + List.count y (ctxAfter fs) ≤ 1 := by
  have := counts_of_nodup h.2.2 y
  simp only [addrs_plug, List.count_append] at this
  omega

theorem ctxPar_mem (fs : List (Frame V)) (p : Nat) (h : ctxPar fs = some p) :
    p ∈ ctxBefore fs ∨ p ∈ ctxAfter fs := by
  cases fs with
  | nil => simp at h
  | cons f fs => cases f <;> simp at h <;> subst h <;> simp

/-- Left rotation at the focus `a`, whose right child `b` is promoted. -/
theorem rotateLeft_spec {t : RBTree V} {fs : List (Frame V)} {l rl rr : T V} {a b : Nat}
    {c bc : Color} {v bv : V}
    (h : Represents t (plug fs (T.node l a c v (T.node rl b bc bv rr)))) :
    ∃ t', rotateLeft t a = some t' ∧
      Represents t' (plug fs (T.node (T.node l a c v rl) b (topColor fs bc) bv rr)) ∧
      t'.size_ = t.size_ ∧
      SameOutside t.mem t'.mem (plug fs (T.node l a c v (T.node rl b bc bv rr))).addrs := by
  have ha := h.read
  have hb := Represents.read (C := Frame.R l a c v :: fs) h
  simp at ha hb
  have hc := h.counts
  simp only [T.addrs_node, List.count_append, count_cons_one] at hc
  have hsub := h.sub
  simp at hsub
  obtain ⟨-, hl, -, hrl, hrr⟩ := hsub
  have hab : a ≠ b := ne_of_one (by have := hc a; have := one_self a; omega)
  have hpa : ctxPar fs ≠ some a := fun e => by
    have := ctxPar_count _ _ e; have := hc a; have := one_self a; omega
  have hpb : ctxPar fs ≠ some b := fun e => by
    have := ctxPar_count _ _ e; have := hc b; have := one_self b; omega
  have hqa : rl.ptr ≠ some a := fun e => by
    have := ptr_count _ _ e; have := hc a; have := one_self a; omega
  have hqb : rl.ptr ≠ some b := fun e => by
    have := ptr_count _ _ e; have := hc b; have := one_self b; omega
  have hqp : rl.ptr = none ∨ rl.ptr ≠ ctxPar fs := by
    rcases hq : rl.ptr with _ | x
    · exact Or.inl rfl
    · right; intro e
      have := ptr_count _ _ hq; have := ctxPar_count _ _ e.symm; have := hc x; omega
  obtain ⟨t', ht', hb', ha', hq', hp', hfr, hroot', hsize⟩ :=
    rotateLeft_eval t a b l.ptr rl.ptr rr.ptr (ctxPar fs) v bv c bc ha hb hab hpa hpb hqa hqb hqp
  refine ⟨t', ht', ?_, hsize, ?_⟩
  · refine Represents.replace h ?_ ?_ ?_ ?_ ?_
    · have := h.2.2
      simpa [addrs_plug] using this
    · cases fs <;> simpa using hroot'
    · intro f fs' hfs
      subst hfs
      have hctx := h.ctx
      cases f with
      | L p pc pv pr =>
        simp at hctx
        have := hp' p rfl
        simpa [hctx.1] using this
      | R pl p pc pv =>
        simp at hctx
        have := hp' p rfl
        have hne : pl.ptr ≠ some a := fun e => by
          have := ptr_count _ _ e; have := hc a; have := one_self a
          simp only [ctxBefore_R, List.count_append] at *
          omega
        simpa [hctx.1, hne] using this
    · intro x hx hxp
      refine hfr x ?_ ?_ (fun e => hxp e) ?_
      · exact ne_of_one (by
          have := hc x
          rcases hx with hx | hx <;> have := mem_pos hx <;> omega)
      · exact ne_of_one (by
          have := hc x
          rcases hx with hx | hx <;> have := mem_pos hx <;> omega)
      · intro e
        have := ptr_count _ _ e; have := hc x
        rcases hx with hx | hx <;> have := mem_pos hx <;> omega
    · simp
      refine ⟨by rw [hb', topColor_eq], ⟨by rw [ha'], Repr_congr _ _ _ _ ?_ hl, ?_⟩,
        Repr_congr _ _ _ _ ?_ hrr⟩
      · intro x hx
        refine hfr x ?_ ?_ ?_ ?_
        · exact ne_of_one (by have := hc x; have := mem_pos hx; omega)
        · exact ne_of_one (by have := hc x; have := mem_pos hx; omega)
        · intro e
          have := ctxPar_count _ _ e; have := hc x; have := mem_pos hx; omega
        · intro e
          have := ptr_count _ _ e; have := hc x; have := mem_pos hx; omega
      · refine Repr_reparent t.mem _ rl (some b) (some a) ?_ hq' ?_ hrl
        · refine nodup_of_counts fun y => ?_
          have := hc y; omega
        · intro x hx hxr
          refine hfr x ?_ ?_ ?_ (fun e => hxr e)
          · exact ne_of_one (by have := hc x; have := mem_pos hx; omega)
          · exact ne_of_one (by have := hc x; have := mem_pos hx; omega)
          · intro e
            have := ctxPar_count _ _ e; have := hc x; have := mem_pos hx; omega
      · intro x hx
        refine hfr x ?_ ?_ ?_ ?_
        · exact ne_of_one (by have := hc x; have := mem_pos hx; omega)
        · exact ne_of_one (by have := hc x; have := mem_pos hx; omega)
        · intro e
          have := ctxPar_count _ _ e; have := hc x; have := mem_pos hx; omega
        · intro e
          have := ptr_count _ _ e; have := hc x; have := mem_pos hx; omega
  · intro x hx
    refine hfr x (fun e => hx (by subst e; simp [addrs_plug]))
      (fun e => hx (by subst e; simp [addrs_plug])) (fun e => hx ?_) (fun e => hx ?_)
    · have := ctxPar_mem _ _ e
      simp [addrs_plug]; tauto
    · have := T.ptr_mem _ _ e
      simp [addrs_plug]; tauto

/-- Right rotation at the focus `a`, whose left child `b` is promoted. -/
theorem rotateRight_spec {t : RBTree V} {fs : List (Frame V)} {ll lr r : T V} {a b : Nat}
    {c bc : Color} {v bv : V}
    (h : Represents t (plug fs (T.node (T.node ll b bc bv lr) a c v r))) :
    ∃ t', rotateRight t a = some t' ∧
      Represents t' (plug fs (T.node ll b (topColor fs bc) bv (T.node lr a c v r))) ∧
      t'.size_ = t.size_ ∧
      SameOutside t.mem t'.mem (plug fs (T.node (T.node ll b bc bv lr) a c v r)).addrs := by
  have ha := h.read
  have hb := Represents.read (C := Frame.L a c v r :: fs) h
  simp at ha hb
  have hc := h.counts
  simp only [T.addrs_node, List.count_append, count_cons_one] at hc
  have hsub := h.sub
  simp at hsub
  obtain ⟨-, ⟨-, hll, hlr⟩, hr⟩ := hsub
  have hab : a ≠ b := ne_of_one (by have := hc a; have := one_self a; omega)
  have hpa : ctxPar fs ≠ some a := fun e => by
    have := ctxPar_count _ _ e; have := hc a; have := one_self a; omega
  have hpb : ctxPar fs ≠ some b := fun e => by
    have := ctxPar_count _ _ e; have := hc b; have := one_self b; omega
  have hqa : lr.ptr ≠ some a := fun e => by
    have := ptr_count _ _ e; have := hc a; have := one_self a; omega
  have hqb : lr.ptr ≠ some b := fun e => by
    have := ptr_count _ _ e; have := hc b; have := one_self b; omega
  have hqp : lr.ptr = none ∨ lr.ptr ≠ ctxPar fs := by
    rcases hq : lr.ptr with _ | x
    · exact Or.inl rfl
    · right; intro e
      have := ptr_count _ _ hq; have := ctxPar_count _ _ e.symm; have := hc x; omega
  obtain ⟨t', ht', hb', ha', hq', hp', hfr, hroot', hsize⟩ :=
    rotateRight_eval t a b r.ptr lr.ptr ll.ptr (ctxPar fs) v bv c bc ha hb hab hpa hpb hqa hqb hqp
  refine ⟨t', ht', ?_, hsize, ?_⟩
  · refine Represents.replace h ?_ ?_ ?_ ?_ ?_
    · have := h.2.2
      simpa [addrs_plug] using this
    · cases fs <;> simpa using hroot'
    · intro f fs' hfs
      subst hfs
      have hctx := h.ctx
      cases f with
      | L p pc pv pr =>
        simp at hctx
        have := hp' p rfl
        simpa [hctx.1] using this
      | R pl p pc pv =>
        simp at hctx
        have := hp' p rfl
        have hne : pl.ptr ≠ some a := fun e => by
          have := ptr_count _ _ e; have := hc a; have := one_self a
          simp only [ctxBefore_R, List.count_append] at *
          omega
        simpa [hctx.1, hne] using this
    · intro x hx hxp
      refine hfr x ?_ ?_ (fun e => hxp e) ?_
      · exact ne_of_one (by
          have := hc x
          rcases hx with hx | hx <;> have := mem_pos hx <;> omega)
      · exact ne_of_one (by
          have := hc x
          rcases hx with hx | hx <;> have := mem_pos hx <;> omega)
      · intro e
        have := ptr_count _ _ e; have := hc x
        rcases hx with hx | hx <;> have := mem_pos hx <;> omega
    · simp
      refine ⟨by rw [hb', topColor_eq], Repr_congr _ _ _ _ ?_ hll,
        ⟨by rw [ha'], ?_, Repr_congr _ _ _ _ ?_ hr⟩⟩
      · intro x hx
        refine hfr x ?_ ?_ ?_ ?_
        · exact ne_of_one (by have := hc x; have := mem_pos hx; omega)
        · exact ne_of_one (by have := hc x; have := mem_pos hx; omega)
        · intro e
          have := ctxPar_count _ _ e; have := hc x; have := mem_pos hx; omega
        · intro e
          have := ptr_count _ _ e; have := hc x; have := mem_pos hx; omega
      · refine Repr_reparent t.mem _ lr (some b) (some a) ?_ hq' ?_ hlr
        · refine nodup_of_counts fun y => ?_
          have := hc y; omega
        · intro x hx hxr
          refine hfr x ?_ ?_ ?_ (fun e => hxr e)
          · exact ne_of_one (by have := hc x; have := mem_pos hx; omega)
          · exact ne_of_one (by have := hc x; have := mem_pos hx; omega)
          · intro e
            have := ctxPar_count _ _ e; have := hc x; have := mem_pos hx; omega
      · intro x hx
        refine hfr x ?_ ?_ ?_ ?_
        · exact ne_of_one (by have := hc x; have := mem_pos hx; omega)
        · exact ne_of_one (by have := hc x; have := mem_pos hx; omega)
        · intro e
          have := ctxPar_count _ _ e; have := hc x; have := mem_pos hx; omega
        · intro e
          have := ptr_count _ _ e; have := hc x; have := mem_pos hx; omega
  · intro x hx
    refine hfr x (fun e => hx (by subst e; simp [addrs_plug]))
      (fun e => hx (by subst e; simp [addrs_plug])) (fun e => hx ?_) (fun e => hx ?_)
    · have := ctxPar_mem _ _ e
      simp [addrs_plug]; tauto
    · have := T.ptr_mem _ _ e
      simp [addrs_plug]; tauto

end Rot

end nex

set_option autoImplicit false

namespace nex

section InsFix

variable {V : Type}

theorem RB_plug (fs : List (Frame V)) (s : T V) :
    (plug fs s).RB ↔ s.NoRedRed ∧ s.Balanced ∧ CtxOK fs s.bh s.color := by
  induction fs generalizing s with
  | nil => simp [T.RB, CtxOK]; tauto
  | cons f fs ih =>
    cases f with
    | L a c v r =>
      simp only [plug_cons, fill_L, ih, T.NoRedRed_node, T.Balanced_node, T.bh_node,
        T.color_node, CtxOK, Frame.sib_L, Frame.col_L]
      constructor
      · rintro ⟨⟨h1, h2, h3⟩, ⟨h4, h5, h6⟩, h7⟩
        exact ⟨h2, h5, h3, h6, h4.symm, h1, h7⟩
      · rintro ⟨h2, h5, h3, h6, h4, h1, h7⟩
        exact ⟨⟨h1, h2, h3⟩, ⟨h4.symm, h5, h6⟩, h7⟩
    | R l a c v =>
      simp only [plug_cons, fill_R, ih, T.NoRedRed_node, T.Balanced_node, T.bh_node,
        T.color_node, CtxOK, Frame.sib_R, Frame.col_R]
      constructor
      · rintro ⟨⟨h1, h2, h3⟩, ⟨h4, h5, h6⟩, h7⟩
        exact ⟨h3, h6, h2, h5, h4, fun hc => ⟨(h1 hc).2, (h1 hc).1⟩, h4 ▸ h7⟩
      · rintro ⟨h3, h6, h2, h5, h4, h1, h7⟩
        exact ⟨⟨fun hc => ⟨(h1 hc).2, (h1 hc).1⟩, h2, h3⟩, ⟨h4, h5, h6⟩, h4 ▸ h7⟩

theorem CtxOK_black_frame (f : Frame V) (fs : List (Frame V)) (k : Nat) (c c' : Color)
    (hf : f.col = Color.Black) (h : CtxOK (f :: fs) k c) : CtxOK (f :: fs) k c' := by
  simp only [CtxOK] at h ⊢
  refine ⟨h.1, h.2.1, h.2.2.1, ?_, h.2.2.2.2⟩
  intro hr; rw [hf] at hr; cases hr

@[simp] theorem topColor_black (fs : List (Frame V)) : topColor fs Color.Black = Color.Black := by
  cases fs <;> rfl

@[simp] theorem topColor_nil (c : Color) : topColor ([] : List (Frame V)) c = Color.Black := rfl

@[simp] theorem topColor_cons (f : Frame V) (fs : List (Frame V)) (c : Color) :
    topColor (f :: fs) c = c := rfl

theorem SameOutside.refl (m : Mem V) (S : List Nat) : SameOutside m m S := fun _ _ => rfl

theorem SameOutside.trans {m1 m2 m3 : Mem V} {S : List Nat} (h1 : SameOutside m1 m2 S)
    (h2 : SameOutside m2 m3 S) : SameOutside m1 m3 S :=
  fun x hx => (h2 x hx).trans (h1 x hx)

theorem SameOutside.mono {m1 m2 : Mem V} {S S' : List Nat} (h : SameOutside m1 m2 S)
    (hs : ∀ x ∈ S, x ∈ S') : SameOutside m1 m2 S' :=
  fun x hx => h x (fun hx' => hx (hs x hx'))

theorem SameOutside_setC (m : Mem V) (a : Nat) (c : Color) (S : List Nat) (ha : a ∈ S) :
    SameOutside m (setC m a c) S := by
  intro x hx
  have : x ≠ a := fun e => hx (e ▸ ha)
  simp [setC_apply, this]

theorem Represents.set_root {t : RBTree V} {τ : T V} (h : Represents t τ) (r : Option Nat)
    (hr : τ.ptr = r) :
    Represents { mem := t.mem, rootNode_ := r, size_ := t.size_ } τ :=
  ⟨hr.symm, h.2.1, h.2.2⟩

theorem Represents.root_nil {t : RBTree V} {s : T V} (h : Represents t (plug [] s)) :
    t.rootNode_ = s.ptr := h.1

theorem ctxPar_eq_none (fs : List (Frame V)) : ctxPar fs = none ↔ fs = [] := by
  cases fs <;> simp

theorem Evolves.andThen {t1 t2 t3 : RBTree V} {τ1 τ2 τ3 : T V} (h1 : Evolves t1 τ1 t2 τ2)
    (h2 : Evolves t2 τ2 t3 τ3) : Evolves t1 τ1 t3 τ3 := by
  obtain ⟨_, l1, s1, o1⟩ := h1
  obtain ⟨r2, l2, s2, o2⟩ := h2
  refine ⟨r2, l2.trans l1, s2.trans s1, o1.trans ?_⟩
  have : τ2.addrs = τ1.addrs := by rw [T.addrs_eq_map, T.addrs_eq_map, l1]
  rw [← this]; exact o2

theorem Evolves.rep {t t' : RBTree V} {τ τ' : T V} (h : Evolves t τ t' τ') :
    Represents t' τ' := h.1

theorem Evolves.same {t : RBTree V} {τ : T V} (h : Represents t τ) : Evolves t τ t τ :=
  ⟨h, rfl, rfl, SameOutside.refl _ _⟩

theorem Evolves.root_set {t t' : RBTree V} {τ τ' : T V} (h : Evolves t τ t' τ')
    (r : Option Nat) (hr : τ'.ptr = r) :
    Evolves t τ { mem := t'.mem, rootNode_ := r, size_ := t'.size_ } τ' :=
  ⟨h.1.set_root r hr, h.2.1, h.2.2.1, h.2.2.2⟩

theorem setC_evolves {t : RBTree V} {C : List (Frame V)} {l r : T V} {a : Nat} {c : Color}
    {v : V} (c' : Color) (h : Represents t (plug C (T.node l a c v r))) :
    Evolves t (plug C (T.node l a c v r))
      { mem := setC t.mem a c', rootNode_ := t.rootNode_, size_ := t.size_ }
      (plug C (T.node l a c' v r)) :=
  ⟨setC_spec c' h, by simp [toList_plug], rfl,
    SameOutside_setC _ _ _ _ (by simp [addrs_plug])⟩

theorem rotateLeft_evolves {t : RBTree V} {C : List (Frame V)} {l rl rr : T V} {a b : Nat}
    {c bc : Color} {v bv : V}
    (h : Represents t (plug C (T.node l a c v (T.node rl b bc bv rr)))) :
    ∃ t', rotateLeft t a = some t' ∧
      Evolves t (plug C (T.node l a c v (T.node rl b bc bv rr))) t'
        (plug C (T.node (T.node l a c v rl) b (topColor C bc) bv rr)) := by
  obtain ⟨t', h1, h2, h3, h4⟩ := rotateLeft_spec h
  exact ⟨t', h1, h2, by simp [toList_plug], h3, h4⟩

theorem rotateRight_evolves {t : RBTree V} {C : List (Frame V)} {ll lr r : T V} {a b : Nat}
    {c bc : Color} {v bv : V}
    (h : Represents t (plug C (T.node (T.node ll b bc bv lr) a c v r))) :
    ∃ t', rotateRight t a = some t' ∧
      Evolves t (plug C (T.node (T.node ll b bc bv lr) a c v r)) t'
        (plug C (T.node ll b (topColor C bc) bv (T.node lr a c v r))) := by
  obtain ⟨t', h1, h2, h3, h4⟩ := rotateRight_spec h
  exact ⟨t', h1, h2, by simp [toList_plug], h3, h4⟩

/-- Case 4 of the insert fix-up, node and parent both left children. -/
theorem insertCase4_LL {t : RBTree V} {C : List (Frame V)} {l r S U : T V} {n p g : Nat}
    {c pc gc : Color} {v pv gv : V}
    (h : Represents t (plug C (T.node (T.node (T.node l n c v r) p pc pv S) g gc gv U))) :
    ∃ t', insertCase4_parentRed t n = some t' ∧
      Evolves t (plug C (T.node (T.node (T.node l n c v r) p pc pv S) g gc gv U)) t'
        (plug C (T.node (T.node l n c v r) p Color.Black pv (T.node S g Color.Red gv U))) := by
  have hn := Represents.read (C := Frame.L p pc pv S :: Frame.L g gc gv U :: C) h
  have hp := Represents.read (C := Frame.L g gc gv U :: C) h
  have hg := Represents.read (C := C) h
  simp at hn hp hg
  have e1 := setC_evolves (C := Frame.L g gc gv U :: C) Color.Black h
  have e2 := setC_evolves (C := C) Color.Red e1.rep
  obtain ⟨t', ht', e3⟩ := rotateRight_evolves e2.rep
  simp only [topColor_black] at e3
  dsimp only at ht'
  have hc := h.counts
  simp only [T.addrs_node, List.count_append, count_cons_one] at hc
  have hnp : n ≠ p := ne_of_one (by have := hc n; have := one_self n; omega)
  have hng : n ≠ g := ne_of_one (by have := hc n; have := one_self n; omega)
  have hpg : p ≠ g := ne_of_one (by have := hc p; have := one_self p; omega)
  have hn' := Represents.read
    (C := Frame.L p Color.Black pv (T.node S g Color.Red gv U) :: C) e3.rep
  have hp' := Represents.read (C := C) e3.rep
  simp at hn' hp'
  simp [insertCase4_parentRed, grandparent, hn, hp, hg, setC_apply, hnp, hng, hpg, hpg.symm]
  rw [ht']
  simp [hn', isRoot, hp']
  have e := (e1.andThen e2).andThen e3
  by_cases hroot : ctxPar C = none
  · simp [hroot]
    rw [ctxPar_eq_none] at hroot
    subst hroot
    exact e.root_set _ rfl
  · simp [hroot]
    exact e

/-- Case 4 of the insert fix-up, node and parent both right children. -/
theorem insertCase4_RR {t : RBTree V} {C : List (Frame V)} {l r S U : T V} {n p g : Nat}
    {c pc gc : Color} {v pv gv : V}
    (h : Represents t (plug C (T.node U g gc gv (T.node S p pc pv (T.node l n c v r))))) :
    ∃ t', insertCase4_parentRed t n = some t' ∧
      Evolves t (plug C (T.node U g gc gv (T.node S p pc pv (T.node l n c v r)))) t'
        (plug C (T.node (T.node U g Color.Red gv S) p Color.Black pv (T.node l n c v r))) := by
  have hn := Represents.read (C := Frame.R S p pc pv :: Frame.R U g gc gv :: C) h
  have hp := Represents.read (C := Frame.R U g gc gv :: C) h
  have hg := Represents.read (C := C) h
  simp at hn hp hg
  have e1 := setC_evolves (C := Frame.R U g gc gv :: C) Color.Black h
  have e2 := setC_evolves (C := C) Color.Red e1.rep
  obtain ⟨t', ht', e3⟩ := rotateLeft_evolves e2.rep
  simp only [topColor_black] at e3
  dsimp only at ht'
  have hc := h.counts
  simp only [T.addrs_node, List.count_append, count_cons_one] at hc
  have hnp : n ≠ p := ne_of_one (by have := hc n; have := one_self n; omega)
  have hng : n ≠ g := ne_of_one (by have := hc n; have := one_self n; omega)
  have hpg : p ≠ g := ne_of_one (by have := hc p; have := one_self p; omega)
  have hUp : U.ptr ≠ some p := fun e => by
    have := ptr_count _ _ e; have := hc p; have := one_self p; omega
  have hn' := Represents.read
    (C := Frame.R (T.node U g Color.Red gv S) p Color.Black pv :: C) e3.rep
  have hp' := Represents.read (C := C) e3.rep
  simp at hn' hp'
  simp [insertCase4_parentRed, grandparent, hn, hp, hg, setC_apply, hnp, hng, hpg, hpg.symm,
    hUp.symm]
  rw [ht']
  simp [hn', isRoot, hp']
  have e := (e1.andThen e2).andThen e3
  by_cases hroot : ctxPar C = none
  · simp [hroot]
    rw [ctxPar_eq_none] at hroot
    subst hroot
    exact e.root_set _ rfl
  · simp [hroot]
    exact e

/-- Case 3 of the insert fix-up, node and parent both left children: falls through. -/
theorem insertCase3_LL {t : RBTree V} {C : List (Frame V)} {l r S U : T V} {n p g : Nat}
    {c pc gc : Color} {v pv gv : V}
    (h : Represents t (plug C (T.node (T.node (T.node l n c v r) p pc pv S) g gc gv U))) :
    ∃ t', insertCase3_parentRedOrdering t n = some t' ∧
      Evolves t (plug C (T.node (T.node (T.node l n c v r) p pc pv S) g gc gv U)) t'
        (plug C (T.node (T.node l n c v r) p Color.Black pv (T.node S g Color.Red gv U))) := by
  have hn := Represents.read (C := Frame.L p pc pv S :: Frame.L g gc gv U :: C) h
  have hp := Represents.read (C := Frame.L g gc gv U :: C) h
  have hg := Represents.read (C := C) h
  simp at hn hp hg
  have hc := h.counts
  simp only [T.addrs_node, List.count_append, count_cons_one] at hc
  have hUp : U.ptr ≠ some p := fun e => by
    have := ptr_count _ _ e; have := hc p; have := one_self p; omega
  have hSn : S.ptr ≠ some n := fun e => by
    have := ptr_count _ _ e; have := hc n; have := one_self n; omega
  simp [insertCase3_parentRedOrdering, grandparent, hn, hp, hg, hUp.symm, hSn.symm]
  exact insertCase4_LL h

/-- Case 3 of the insert fix-up, node and parent both right children: falls through. -/
theorem insertCase3_RR {t : RBTree V} {C : List (Frame V)} {l r S U : T V} {n p g : Nat}
    {c pc gc : Color} {v pv gv : V}
    (h : Represents t (plug C (T.node U g gc gv (T.node S p pc pv (T.node l n c v r))))) :
    ∃ t', insertCase3_parentRedOrdering t n = some t' ∧
      Evolves t (plug C (T.node U g gc gv (T.node S p pc pv (T.node l n c v r)))) t'
        (plug C (T.node (T.node U g Color.Red gv S) p Color.Black pv (T.node l n c v r))) := by
  have hn := Represents.read (C := Frame.R S p pc pv :: Frame.R U g gc gv :: C) h
  have hp := Represents.read (C := Frame.R U g gc gv :: C) h
  have hg := Represents.read (C := C) h
  simp at hn hp hg
  have hc := h.counts
  simp only [T.addrs_node, List.count_append, count_cons_one] at hc
  have hUp : U.ptr ≠ some p := fun e => by
    have := ptr_count _ _ e; have := hc p; have := one_self p; omega
  have hSn : S.ptr ≠ some n := fun e => by
    have := ptr_count _ _ e; have := hc n; have := one_self n; omega
  simp [insertCase3_parentRedOrdering, grandparent, hn, hp, hg, hUp.symm, hSn.symm]
  exact insertCase4_RR h

/-- Case 3 of the insert fix-up, node a right child of a left child: rotate at the parent,
then case 4 on the old parent. -/
theorem insertCase3_LR {t : RBTree V} {C : List (Frame V)} {l r S U : T V} {n p g : Nat}
    {c pc gc : Color} {v pv gv : V}
    (h : Represents t (plug C (T.node (T.node S p pc pv (T.node l n c v r)) g gc gv U))) :
    ∃ t', insertCase3_parentRedOrdering t n = some t' ∧
      Evolves t (plug C (T.node (T.node S p pc pv (T.node l n c v r)) g gc gv U)) t'
        (plug C (T.node (T.node S p pc pv l) n Color.Black v (T.node r g Color.Red gv U))) := by
  have hn := Represents.read (C := Frame.R S p pc pv :: Frame.L g gc gv U :: C) h
  have hp := Represents.read (C := Frame.L g gc gv U :: C) h
  have hg := Represents.read (C := C) h
  simp at hn hp hg
  have hc := h.counts
  simp only [T.addrs_node, List.count_append, count_cons_one] at hc
  have hUp : U.ptr ≠ some p := fun e => by
    have := ptr_count _ _ e; have := hc p; have := one_self p; omega
  have hSn : S.ptr ≠ some n := fun e => by
    have := ptr_count _ _ e; have := hc n; have := one_self n; omega
  obtain ⟨t1, ht1, e1⟩ := rotateLeft_evolves (C := Frame.L g gc gv U :: C) h
  simp only [topColor_cons] at e1
  have hn1 := Represents.read (C := Frame.L g gc gv U :: C) e1.rep
  simp at hn1
  obtain ⟨t2, ht2, e2⟩ := insertCase4_LL (C := C) e1.rep
  simp [insertCase3_parentRedOrdering, grandparent, hn, hp, hg, hUp.symm, hSn.symm, ht1, hn1]
  exact ⟨t2, ht2, e1.andThen e2⟩

/-- Case 3 of the insert fix-up, node a left child of a right child: rotate at the parent,
then case 4 on the old parent. -/
theorem insertCase3_RL {t : RBTree V} {C : List (Frame V)} {l r S U : T V} {n p g : Nat}
    {c pc gc : Color} {v pv gv : V}
    (h : Represents t (plug C (T.node U g gc gv (T.node (T.node l n c v r) p pc pv S)))) :
    ∃ t', insertCase3_parentRedOrdering t n = some t' ∧
      Evolves t (plug C (T.node U g gc gv (T.node (T.node l n c v r) p pc pv S))) t'
        (plug C (T.node (T.node U g Color.Red gv l) n Color.Black v (T.node r p pc pv S))) := by
  have hn := Represents.read (C := Frame.L p pc pv S :: Frame.R U g gc gv :: C) h
  have hp := Represents.read (C := Frame.R U g gc gv :: C) h
  have hg := Represents.read (C := C) h
  simp at hn hp hg
  have hc := h.counts
  simp only [T.addrs_node, List.count_append, count_cons_one] at hc
  have hUp : U.ptr ≠ some p := fun e => by
    have := ptr_count _ _ e; have := hc p; have := one_self p; omega
  have hSn : S.ptr ≠ some n := fun e => by
    have := ptr_count _ _ e; have := hc n; have := one_self n; omega
  obtain ⟨t1, ht1, e1⟩ := rotateRight_evolves (C := Frame.R U g gc gv :: C) h
  simp only [topColor_cons] at e1
  have hn1 := Represents.read (C := Frame.R U g gc gv :: C) e1.rep
  simp at hn1
  obtain ⟨t2, ht2, e2⟩ := insertCase4_RR (C := C) e1.rep
  simp [insertCase3_parentRedOrdering, grandparent, hn, hp, hg, hUp.symm, hSn.symm, ht1, hn1]
  exact ⟨t2, ht2, e1.andThen e2⟩

/-- Case 2 of the insert fix-up with a red uncle on the right: recolour and re-enter at
the grandparent. -/
theorem insertCase2_redL {t : RBTree V} {C : List (Frame V)} {pl pr ul ur : T V}
    {n p g u : Nat} {pc gc : Color} {pv gv uv : V}
    (h : Represents t (plug C (T.node (T.node pl p pc pv pr) g gc gv
      (T.node ul u Color.Red uv ur))))
    (hn : (t.mem n).parent = some p) :
    ∃ t1, (∀ k : RBTree V → Nat → Option (RBTree V),
        insertCase2_parentUncleRed k t n = k t1 g) ∧
      Evolves t (plug C (T.node (T.node pl p pc pv pr) g gc gv (T.node ul u Color.Red uv ur)))
        t1 (plug C (T.node (T.node pl p Color.Black pv pr) g (topColor C Color.Red) gv
          (T.node ul u Color.Black uv ur))) := by
  have hp := Represents.read (C := Frame.L g gc gv (T.node ul u Color.Red uv ur) :: C) h
  have hu := Represents.read (C := Frame.R (T.node pl p pc pv pr) g gc gv :: C) h
  have hg := Represents.read (C := C) h
  simp at hp hu hg
  have hc := h.counts
  simp only [T.addrs_node, List.count_append, count_cons_one] at hc
  have hpg : p ≠ g := ne_of_one (by have := hc p; have := one_self p; omega)
  have hpu : p ≠ u := ne_of_one (by have := hc p; have := one_self p; omega)
  have hgu : g ≠ u := ne_of_one (by have := hc g; have := one_self g; omega)
  have e1 := setC_evolves (C := Frame.L g gc gv (T.node ul u Color.Red uv ur) :: C)
    Color.Black h
  have e2 := setC_evolves (C := Frame.R (T.node pl p Color.Black pv pr) g gc gv :: C)
    Color.Black e1.rep
  have e3 := setC_evolves (C := C) (topColor C Color.Red) e2.rep
  refine ⟨_, ?_, (e1.andThen e2).andThen e3⟩
  intro k
  simp [insertCase2_parentUncleRed, uncle, grandparent, hn, hp, hg, hu, colorSwapWithChildren,
    setC_apply, hpg, hpg.symm, hpu, hpu.symm, hgu, hgu.symm, isRoot, topColor_eq]

/-- Case 2 of the insert fix-up with a red uncle on the left. -/
theorem insertCase2_redR {t : RBTree V} {C : List (Frame V)} {pl pr ul ur : T V}
    {n p g u : Nat} {pc gc : Color} {pv gv uv : V}
    (h : Represents t (plug C (T.node (T.node ul u Color.Red uv ur) g gc gv
      (T.node pl p pc pv pr))))
    (hn : (t.mem n).parent = some p) :
    ∃ t1, (∀ k : RBTree V → Nat → Option (RBTree V),
        insertCase2_parentUncleRed k t n = k t1 g) ∧
      Evolves t (plug C (T.node (T.node ul u Color.Red uv ur) g gc gv (T.node pl p pc pv pr)))
        t1 (plug C (T.node (T.node ul u Color.Black uv ur) g (topColor C Color.Red) gv
          (T.node pl p Color.Black pv pr))) := by
  have hp := Represents.read (C := Frame.R (T.node ul u Color.Red uv ur) g gc gv :: C) h
  have hu := Represents.read (C := Frame.L g gc gv (T.node pl p pc pv pr) :: C) h
  have hg := Represents.read (C := C) h
  simp at hp hu hg
  have hc := h.counts
  simp only [T.addrs_node, List.count_append, count_cons_one] at hc
  have hpg : p ≠ g := ne_of_one (by have := hc p; have := one_self p; omega)
  have hpu : p ≠ u := ne_of_one (by have := hc p; have := one_self p; omega)
  have hgu : g ≠ u := ne_of_one (by have := hc g; have := one_self g; omega)
  have e1 := setC_evolves (C := Frame.L g gc gv (T.node pl p pc pv pr) :: C)
    Color.Black h
  have e2 := setC_evolves (C := Frame.R (T.node ul u Color.Black uv ur) g gc gv :: C)
    Color.Black e1.rep
  have e3 := setC_evolves (C := C) (topColor C Color.Red) e2.rep
  refine ⟨_, ?_, (e1.andThen e2).andThen e3⟩
  intro k
  simp [insertCase2_parentUncleRed, uncle, grandparent, hn, hp, hg, hu, colorSwapWithChildren,
    setC_apply, hpg, hpg.symm, hpu, hpu.symm, hgu, hgu.symm, isRoot, topColor_eq]

/-- Case 2 of the insert fix-up with an absent or black uncle on the right. -/
theorem insertCase2_blackL {t : RBTree V} {C : List (Frame V)} {pl pr U : T V}
    {n p g : Nat} {pc gc : Color} {pv gv : V}
    (h : Represents t (plug C (T.node (T.node pl p pc pv pr) g gc gv U)))
    (hU : U.color = Color.Black) (hn : (t.mem n).parent = some p)
    (k : RBTree V → Nat → Option (RBTree V)) :
    insertCase2_parentUncleRed k t n = insertCase3_parentRedOrdering t n := by
  have hp := Represents.read (C := Frame.L g gc gv U :: C) h
  have hg := Represents.read (C := C) h
  simp at hp hg
  cases U with
  | nil => simp [insertCase2_parentUncleRed, uncle, grandparent, hn, hp, hg]
  | node ul u uc uv ur =>
    have hu := Represents.read (C := Frame.R (T.node pl p pc pv pr) g gc gv :: C) h
    simp at hu hU
    simp [insertCase2_parentUncleRed, uncle, grandparent, hn, hp, hg, hu, hU]

/-- Case 2 of the insert fix-up with an absent or black uncle on the left. -/
theorem insertCase2_blackR {t : RBTree V} {C : List (Frame V)} {pl pr U : T V}
    {n p g : Nat} {pc gc : Color} {pv gv : V}
    (h : Represents t (plug C (T.node U g gc gv (T.node pl p pc pv pr))))
    (hU : U.color = Color.Black) (hn : (t.mem n).parent = some p)
    (k : RBTree V → Nat → Option (RBTree V)) :
    insertCase2_parentUncleRed k t n = insertCase3_parentRedOrdering t n := by
  have hp := Represents.read (C := Frame.R U g gc gv :: C) h
  have hg := Represents.read (C := C) h
  simp at hp hg
  have hc := h.counts
  simp only [T.addrs_node, List.count_append, count_cons_one] at hc
  have hUp : U.ptr ≠ some p := fun e => by
    have := ptr_count _ _ e; have := hc p; have := one_self p; omega
  cases U with
  | nil => simp [insertCase2_parentUncleRed, uncle, grandparent, hn, hp, hg]
  | node ul u uc uv ur =>
    have hu := Represents.read (C := Frame.L g gc gv (T.node pl p pc pv pr) :: C) h
    simp at hu hU hUp
    have hpu : p ≠ u := fun e => hUp e.symm
    simp [insertCase2_parentUncleRed, uncle, grandparent, hn, hp, hg, hu, hU, hpu]

end InsFix

end nex

set_option autoImplicit false
set_option linter.unnecessarySeqFocus false

namespace nex

section InsFix1

variable {V : Type}

theorem Color.ne_red {c : Color} (h : c ≠ Color.Red) : c = Color.Black := by
  cases c <;> simp at h ⊢

theorem Color.ne_black {c : Color} (h : c ≠ Color.Black) : c = Color.Red := by
  cases c <;> simp at h ⊢

theorem T.red_cases (U : T V) (h : ¬ U.color = Color.Black) :
    ∃ ul u uv ur, U = T.node ul u Color.Red uv ur := by
  cases U with
  | nil => simp at h
  | node ul u uc uv ur =>
    cases uc with
    | Red => exact ⟨ul, u, uv, ur, rfl⟩
    | Black => simp at h

/-- The insert fix-up restores the red-black invariants: started at a red node whose
subtree is fine and whose surroundings were a red-black tree around a black hole, it
terminates and leaves a red-black tree with the same in-order sequence. -/
theorem insertCase1_spec (fuel : Nat) :
    ∀ (C : List (Frame V)) (t : RBTree V) (l r : T V) (n : Nat) (c : Color) (v : V),
      C.length < fuel →
      Represents t (plug C (T.node l n c v r)) →
      (T.node l n c v r).NoRedRed → (T.node l n c v r).Balanced →
      c = topColor C Color.Red →
      CtxOK C (T.node l n c v r).bh Color.Black →
      ∃ t' τ', insertCase1_parentBlack fuel t n = some t' ∧
        Evolves t (plug C (T.node l n c v r)) t' τ' ∧ τ'.RB := by
  induction fuel with
  | zero => intro C t l r n c v hlen; omega
  | succ fuel ih =>
    intro C t l r n c v hlen h hnrr hbal hcol hctx
    have hn := h.read
    cases C with
    | nil =>
      simp at hn hcol
      refine ⟨t, _, by simp [insertCase1_parentBlack, hn], Evolves.same h, ?_⟩
      exact ⟨by simp [hcol], hnrr, hbal⟩
    | cons f C1 =>
      simp at hcol
      subst hcol
      cases f with
      | L p pc pv S =>
        have hp := Represents.read (C := C1) h
        simp at hn hp
        cases pc with
        | Black =>
          refine ⟨t, _, by simp [insertCase1_parentBlack, hn, hp], Evolves.same h, ?_⟩
          exact (RB_plug _ _).2 ⟨hnrr, hbal, CtxOK_black_frame _ _ _ _ _ rfl hctx⟩
        | Red =>
          simp only [CtxOK, Frame.sib_L, Frame.col_L, Frame.sib_R, Frame.col_R] at hctx
          obtain ⟨hS1, hS2, hS3, hS4, hctx1⟩ := hctx
          have hSc := (hS4 trivial).2
          simp at hctx1 hS3
          cases C1 with
          | nil => simp [CtxOK] at hctx1
          | cons g C2 =>
            cases g with
            | L g gc gv U =>
              simp only [CtxOK, Frame.sib_L, Frame.col_L, Frame.sib_R, Frame.col_R] at hctx1
              obtain ⟨hU1, hU2, hU3, hU4, hctx2⟩ := hctx1
              have hgc : gc = Color.Black := Color.ne_red (fun e => by simpa using (hU4 e).1)
              subst hgc
              simp at hctx2
              simp at hnrr hbal
              by_cases hUc : U.color = Color.Black
              · obtain ⟨t', ht', e⟩ := insertCase3_LL (C := C2) h
                refine ⟨t', _, ?_, e, ?_⟩
                · simp only [insertCase1_parentBlack, hn, hp]
                  simp
                  rw [insertCase2_blackL (C := C2) h hUc (by simp [hn])]
                  exact ht'
                · refine (RB_plug _ _).2 ⟨?_, ?_, ?_⟩
                  · simp [hnrr, hS1, hU1, hSc, hUc]
                  · simp [hbal.2, hS2, hU2] <;> omega
                  · have hb : ∀ k, k = l.bh + 1 → CtxOK C2 k Color.Black := fun k e => e ▸ hctx2
                    exact hb _ (by simp <;> omega)
              · obtain ⟨ul, u, uv, ur, rfl⟩ := T.red_cases U hUc
                obtain ⟨t1, hk, e1⟩ := insertCase2_redL (C := C2) h (n := n) (by simp [hn])
                simp at hU1 hU2 hU3
                obtain ⟨t', τ', ht', e2, hrb⟩ := ih C2 t1 _ _ g _ gv (by simp at hlen; omega)
                  e1.rep
                  (by simp [hnrr, hS1, hU1, hSc])
                  (by simp [hbal.2, hS2, hU2.2] <;> omega)
                  rfl
                  (by
                    cases C2 with
                    | nil => simp [CtxOK]
                    | cons g2 C3 =>
                      have hb : ∀ k, k = l.bh + 1 → CtxOK (g2 :: C3) k Color.Black :=
                        fun k e => e ▸ hctx2
                      exact hb _ (by simp <;> omega))
                refine ⟨t', τ', ?_, e1.andThen e2, hrb⟩
                simp only [insertCase1_parentBlack, hn, hp]
                simp
                rw [hk]
                exact ht'
            | R U g gc gv =>
              simp only [CtxOK, Frame.sib_L, Frame.col_L, Frame.sib_R, Frame.col_R] at hctx1
              obtain ⟨hU1, hU2, hU3, hU4, hctx2⟩ := hctx1
              have hgc : gc = Color.Black := Color.ne_red (fun e => by simpa using (hU4 e).1)
              subst hgc
              simp at hctx2
              simp at hnrr hbal
              by_cases hUc : U.color = Color.Black
              · obtain ⟨t', ht', e⟩ := insertCase3_RL (C := C2) h
                refine ⟨t', _, ?_, e, ?_⟩
                · simp only [insertCase1_parentBlack, hn, hp]
                  simp
                  rw [insertCase2_blackR (C := C2) h hUc (by simp [hn])]
                  exact ht'
                · refine (RB_plug _ _).2 ⟨?_, ?_, ?_⟩
                  · simp [hnrr, hS1, hU1, hSc, hUc]
                  · simp [hbal.2, hS2, hU2] <;> omega
                  · have hb : ∀ k, k = l.bh + 1 → CtxOK C2 k Color.Black := fun k e => e ▸ hctx2
                    exact hb _ (by simp <;> omega)
              · obtain ⟨ul, u, uv, ur, rfl⟩ := T.red_cases U hUc
                obtain ⟨t1, hk, e1⟩ := insertCase2_redR (C := C2) h (n := n) (by simp [hn])
                simp at hU1 hU2 hU3
                obtain ⟨t', τ', ht', e2, hrb⟩ := ih C2 t1 _ _ g _ gv (by simp at hlen; omega)
                  e1.rep
                  (by simp [hnrr, hS1, hU1, hSc])
                  (by simp [hbal.2, hS2, hU2.2] <;> omega)
                  rfl
                  (by
                    cases C2 with
                    | nil => simp [CtxOK]
                    | cons g2 C3 =>
                      have hb : ∀ k, k = l.bh + 1 → CtxOK (g2 :: C3) k Color.Black :=
                        fun k e => e ▸ hctx2
                      exact hb _ (by simp <;> omega))
                refine ⟨t', τ', ?_, e1.andThen e2, hrb⟩
                simp only [insertCase1_parentBlack, hn, hp]
                simp
                rw [hk]
                exact ht'
      | R S p pc pv =>
        have hp := Represents.read (C := C1) h
        simp at hn hp
        cases pc with
        | Black =>
          refine ⟨t, _, by simp [insertCase1_parentBlack, hn, hp], Evolves.same h, ?_⟩
          exact (RB_plug _ _).2 ⟨hnrr, hbal, CtxOK_black_frame _ _ _ _ _ rfl hctx⟩
        | Red =>
          simp only [CtxOK, Frame.sib_L, Frame.col_L, Frame.sib_R, Frame.col_R] at hctx
          obtain ⟨hS1, hS2, hS3, hS4, hctx1⟩ := hctx
          have hSc := (hS4 trivial).2
          simp at hctx1 hS3
          cases C1 with
          | nil => simp [CtxOK] at hctx1
          | cons g C2 =>
            cases g with
            | L g gc gv U =>
              simp only [CtxOK, Frame.sib_L, Frame.col_L, Frame.sib_R, Frame.col_R] at hctx1
              obtain ⟨hU1, hU2, hU3, hU4, hctx2⟩ := hctx1
              have hgc : gc = Color.Black := Color.ne_red (fun e => by simpa using (hU4 e).1)
              subst hgc
              simp at hctx2
              simp at hnrr hbal
              by_cases hUc : U.color = Color.Black
              · obtain ⟨t', ht', e⟩ := insertCase3_LR (C := C2) h
                refine ⟨t', _, ?_, e, ?_⟩
                · simp only [insertCase1_parentBlack, hn, hp]
                  simp
                  rw [insertCase2_blackL (C := C2) h hUc (by simp [hn])]
                  exact ht'
                · refine (RB_plug _ _).2 ⟨?_, ?_, ?_⟩
                  · simp [hnrr, hS1, hU1, hSc, hUc]
                  · simp [hbal.2, hS2, hU2] <;> omega
                  · have hb : ∀ k, k = l.bh + 1 → CtxOK C2 k Color.Black := fun k e => e ▸ hctx2
                    exact hb _ (by simp <;> omega)
              · obtain ⟨ul, u, uv, ur, rfl⟩ := T.red_cases U hUc
                obtain ⟨t1, hk, e1⟩ := insertCase2_redL (C := C2) h (n := n) (by simp [hn])
                simp at hU1 hU2 hU3
                obtain ⟨t', τ', ht', e2, hrb⟩ := ih C2 t1 _ _ g _ gv (by simp at hlen; omega)
                  e1.rep
                  (by simp [hnrr, hS1, hU1, hSc])
                  (by simp [hbal.2, hS2, hU2.2] <;> omega)
                  rfl
                  (by
                    cases C2 with
                    | nil => simp [CtxOK]
                    | cons g2 C3 =>
                      have hb : ∀ k, k = l.bh + 1 → CtxOK (g2 :: C3) k Color.Black :=
                        fun k e => e ▸ hctx2
                      exact hb _ (by simp <;> omega))
                refine ⟨t', τ', ?_, e1.andThen e2, hrb⟩
                simp only [insertCase1_parentBlack, hn, hp]
                simp
                rw [hk]
                exact ht'
            | R U g gc gv =>
              simp only [CtxOK, Frame.sib_L, Frame.col_L, Frame.sib_R, Frame.col_R] at hctx1
              obtain ⟨hU1, hU2, hU3, hU4, hctx2⟩ := hctx1
              have hgc : gc = Color.Black := Color.ne_red (fun e => by simpa using (hU4 e).1)
              subst hgc
              simp at hctx2
              simp at hnrr hbal
              by_cases hUc : U.color = Color.Black
              · obtain ⟨t', ht', e⟩ := insertCase3_RR (C := C2) h
                refine ⟨t', _, ?_, e, ?_⟩
                · simp only [insertCase1_parentBlack, hn, hp]
                  simp
                  rw [insertCase2_blackR (C := C2) h hUc (by simp [hn])]
                  exact ht'
                · refine (RB_plug _ _).2 ⟨?_, ?_, ?_⟩
                  · simp [hnrr, hS1, hU1, hSc, hUc]
                  · simp [hbal.2, hS2, hU2] <;> omega
                  · have hb : ∀ k, k = l.bh + 1 → CtxOK C2 k Color.Black := fun k e => e ▸ hctx2
                    exact hb _ (by simp <;> omega)
              · obtain ⟨ul, u, uv, ur, rfl⟩ := T.red_cases U hUc
                obtain ⟨t1, hk, e1⟩ := insertCase2_redR (C := C2) h (n := n) (by simp [hn])
                simp at hU1 hU2 hU3
                obtain ⟨t', τ', ht', e2, hrb⟩ := ih C2 t1 _ _ g _ gv (by simp at hlen; omega)
                  e1.rep
                  (by simp [hnrr, hS1, hU1, hSc])
                  (by simp [hbal.2, hS2, hU2.2] <;> omega)
                  rfl
                  (by
                    cases C2 with
                    | nil => simp [CtxOK]
                    | cons g2 C3 =>
                      have hb : ∀ k, k = l.bh + 1 → CtxOK (g2 :: C3) k Color.Black :=
                        fun k e => e ▸ hctx2
                      exact hb _ (by simp <;> omega))
                refine ⟨t', τ', ?_, e1.andThen e2, hrb⟩
                simp only [insertCase1_parentBlack, hn, hp]
                simp
                rw [hk]
                exact ht'

end InsFix1

end nex

set_option autoImplicit false
set_option linter.unnecessarySeqFocus false
set_option linter.unusedTactic false
set_option linter.unreachableTactic false

namespace nex

section Ins

variable {K V : Type} [LinearOrder K]

theorem T.ordered_iff (key : V → K) (τ : T V) :
    τ.Ordered key ↔ τ.toList.Pairwise (KeyLE key) := by
  unfold T.Ordered T.values List.Sorted
  rw [List.pairwise_map, List.pairwise_map]

@[simp] theorem T.values_nil : (T.nil : T V).values = [] := rfl

@[simp] theorem T.values_node (l : T V) (a : Nat) (c : Color) (v : V) (r : T V) :
    (T.node l a c v r).values = l.values ++ v :: r.values := by
  simp [T.values]

theorem descend_plug (key : V → K) (Multi : Bool) (k : K) (s : T V) :
    ∀ (C C' : List (Frame V)), descend key Multi k s C = some C' → plug C' T.nil = plug C s := by
  induction s with
  | nil => intro C C' h; simp [descend] at h; subst h; rfl
  | node l a c v r ihl ihr =>
    intro C C' h
    simp only [descend] at h
    split_ifs at h with h1 h2
    · exact ihl _ _ h
    · exact ihr _ _ h

theorem descend_path (key : V → K) (Multi : Bool) (k : K) (s : T V) :
    ∀ (C C' : List (Frame V)), descend key Multi k s C = some C' → PathOK key Multi k C →
      PathOK key Multi k C' := by
  induction s with
  | nil => intro C C' h hp; simp [descend] at h; subst h; exact hp
  | node l a c v r ihl ihr =>
    intro C C' h hp
    simp only [descend] at h
    split_ifs at h with h1 h2
    · exact ihl _ _ h ⟨h1, hp⟩
    · refine ihr _ _ h ⟨not_lt.1 h1, ?_, hp⟩
      intro hm
      exact lt_of_le_of_ne (not_lt.1 h1) (fun e => h2 ⟨hm, e.symm⟩)

theorem descend_length (key : V → K) (Multi : Bool) (k : K) (s : T V) :
    ∀ (C C' : List (Frame V)), descend key Multi k s C = some C' →
      C'.length ≤ C.length + s.height := by
  induction s with
  | nil => intro C C' h; simp [descend] at h; subst h; simp [T.height]
  | node l a c v r ihl ihr =>
    intro C C' h
    simp only [descend] at h
    have hl : l.height ≤ Nat.max l.height r.height := Nat.le_max_left _ _
    have hr : r.height ≤ Nat.max l.height r.height := Nat.le_max_right _ _
    split_ifs at h with h1 h2
    · have := ihl _ _ h; simp [T.height] at this ⊢; omega
    · have := ihr _ _ h; simp [T.height] at this ⊢; omega

theorem descend_nonempty (key : V → K) (Multi : Bool) (k : K) (s : T V) :
    ∀ (C C' : List (Frame V)), descend key Multi k s C = some C' → s ≠ T.nil ∨ C ≠ [] →
      C' ≠ [] := by
  induction s with
  | nil => intro C C' h hne; simp [descend] at h; subst h; simpa using hne
  | node l a c v r ihl ihr =>
    intro C C' h _
    simp only [descend] at h
    split_ifs at h with h1 h2
    · exact ihl _ _ h (Or.inr (by simp))
    · exact ihr _ _ h (Or.inr (by simp))

theorem descend_none (key : V → K) (Multi : Bool) (k : K) (s : T V) :
    ∀ (C : List (Frame V)), descend key Multi k s C = none →
      Multi = false ∧ k ∈ s.values.map key := by
  induction s with
  | nil => intro C h; simp [descend] at h
  | node l a c v r ihl ihr =>
    intro C h
    simp only [descend] at h
    split_ifs at h with h1 h2
    · have := ihl _ h
      exact ⟨this.1, by
        rw [T.values_node, List.map_append, List.mem_append]; exact Or.inl this.2⟩
    · exact ⟨h2.1, by
        rw [T.values_node, List.map_append, List.mem_append, List.map_cons]
        exact Or.inr (by rw [h2.2]; exact List.mem_cons_self _ _)⟩
    · have := ihr _ h
      exact ⟨this.1, by
        rw [T.values_node, List.map_append, List.mem_append, List.map_cons]
        exact Or.inr (List.mem_cons_of_mem _ this.2)⟩

/-- Along a path that followed the comparisons, everything to the left of the hole is
not larger than `k` and everything to the right is larger. -/
theorem path_bounds (key : V → K) (Multi : Bool) (k : K) :
    ∀ (C : List (Frame V)), PathOK key Multi k C →
      (ctxBeforeL C ++ ctxAfterL C).Pairwise (KeyLE key) →
      (∀ x ∈ ctxBeforeL C, key x.2 ≤ k ∧ (Multi = false → key x.2 < k)) ∧
      (∀ y ∈ ctxAfterL C, k < key y.2) := by
  intro C
  induction C with
  | nil => intro _ _; simp
  | cons f C ih =>
    cases f with
    | L a c v r =>
      intro hp hs
      simp only [PathOK] at hp
      simp only [ctxBeforeL_L, ctxAfterL_L] at hs ⊢
      have hsub : (ctxBeforeL C ++ ctxAfterL C).Sublist
          (ctxBeforeL C ++ ((a, v) :: r.toList ++ ctxAfterL C)) :=
        List.Sublist.append (List.Sublist.refl _) (List.sublist_append_right _ _)
      obtain ⟨ih1, ih2⟩ := ih hp.2 (hs.sublist hsub)
      refine ⟨ih1, ?_⟩
      intro y hy
      simp only [List.cons_append, List.mem_cons, List.mem_append] at hy
      rcases hy with rfl | hy | hy
      · exact hp.1
      · have h2 := (List.pairwise_append.1 hs).2.1
        simp only [List.cons_append, List.pairwise_cons] at h2
        exact lt_of_lt_of_le hp.1 (h2.1 y (by simp [hy]))
      · exact ih2 y hy
    | R l a c v =>
      intro hp hs
      simp only [PathOK] at hp
      simp only [ctxBeforeL_R, ctxAfterL_R] at hs ⊢
      have hsub : (ctxBeforeL C ++ ctxAfterL C).Sublist
          (ctxBeforeL C ++ (l.toList ++ [(a, v)]) ++ ctxAfterL C) :=
        List.Sublist.append (List.sublist_append_left _ _) (List.Sublist.refl _)
      obtain ⟨ih1, ih2⟩ := ih hp.2.2 (hs.sublist hsub)
      refine ⟨?_, ih2⟩
      intro x hx
      simp only [List.mem_append, List.mem_singleton] at hx
      rcases hx with hx | hx | rfl
      · exact ih1 x hx
      · have h2 := (List.pairwise_append.1 (List.pairwise_append.1 hs).1).2.1
        have h3 := (List.pairwise_append.1 h2).2.2 x hx (a, v) (by simp)
        exact ⟨le_trans h3 hp.1, fun hm => lt_of_le_of_lt h3 (hp.2.1 hm)⟩
      · exact ⟨hp.1, hp.2.1⟩

theorem compareKeys_lt (a b : K) : compareKeys a b < 0 ↔ a < b := by
  unfold compareKeys
  split_ifs with h1 h2 <;> simp [h1]

theorem compareKeys_eq (a b : K) : compareKeys a b = 0 ↔ a = b := by
  unfold compareKeys
  split_ifs with h1 h2
  · simp; exact ne_of_lt h1
  · simp [h2]
  · simp [h2]

/-- The descent loop of `insertNode` follows `descend`. -/
theorem insertDescend_spec (key : V → K) (Multi : Bool) (t : RBTree V) (node : Nat) (k : K)
    (hk : key (t.mem node).value = k) :
    ∀ (s : T V) (fuel : Nat) (C : List (Frame V)) (a : Nat), s.ptr = some a →
      Represents t (plug C s) → s.height ≤ fuel →
      (descend key Multi k s C = none →
        insertDescend key Multi t.mem node fuel a = some none) ∧
      (∀ C', descend key Multi k s C = some C' →
        ∃ p cmp, insertDescend key Multi t.mem node fuel a = some (some (p, cmp)) ∧
          ctxPar C' = some p ∧
          ((cmp < 0 ∧ ∃ b c v r fs, C' = Frame.L b c v r :: fs) ∨
           (¬ cmp < 0 ∧ ∃ l b c v fs, C' = Frame.R l b c v :: fs))) := by
  intro s
  induction s with
  | nil => intro fuel C a h; simp at h
  | node l b c v r ihl ihr =>
    intro fuel C a ha h hfuel
    simp at ha
    subst ha
    have hb := h.read
    cases fuel with
    | zero => simp [T.height] at hfuel
    | succ fuel =>
      have hl : l.height ≤ fuel := by
        have := Nat.le_max_left l.height r.height
        simp [T.height] at hfuel; omega
      have hr : r.height ≤ fuel := by
        have := Nat.le_max_right l.height r.height
        simp [T.height] at hfuel; omega
      by_cases h1 : k < key v
      · have hc1 : compareKeys k (key v) < 0 := (compareKeys_lt _ _).2 h1
        have hc2 : ¬ compareKeys k (key v) = 0 := by omega
        have hd : descend key Multi k (T.node l b c v r) C =
            descend key Multi k l (Frame.L b c v r :: C) := by simp [descend, h1]
        rw [hd]
        cases l with
        | nil =>
          have e : insertDescend key Multi t.mem node (fuel + 1) b =
              some (some (b, compareKeys k (key v))) := by
            simp [insertDescend, hk, hb, hc1, hc2]
          refine ⟨fun hh => by simp [descend] at hh, fun C' hC' => ?_⟩
          simp [descend] at hC'
          subst hC'
          exact ⟨b, _, e, rfl, Or.inl ⟨hc1, _, _, _, _, _, rfl⟩⟩
        | node ll x lc lv lr =>
          have e : insertDescend key Multi t.mem node (fuel + 1) b =
              insertDescend key Multi t.mem node fuel x := by
            simp [insertDescend, hk, hb, hc1, hc2]
          rw [e]
          exact ihl fuel (Frame.L b c v r :: C) x rfl h hl
      · have hc1 : ¬ compareKeys k (key v) < 0 := fun hh => h1 ((compareKeys_lt _ _).1 hh)
        by_cases h2 : Multi = false ∧ k = key v
        · have hc2 : compareKeys k (key v) = 0 := (compareKeys_eq _ _).2 h2.2
          have hd : descend key Multi k (T.node l b c v r) C = none := by
            simp [descend, h1, h2.1, h2.2]
          have e : insertDescend key Multi t.mem node (fuel + 1) b = some none := by
            simp [insertDescend, hk, hb, hc2, h2.1]
          rw [hd]
          exact ⟨fun _ => e, fun C' hC' => by simp at hC'⟩
        · have hc2 : ¬ ((!Multi) = true ∧ compareKeys k (key v) = 0) := by
            intro hh
            exact h2 ⟨by simpa using hh.1, (compareKeys_eq _ _).1 hh.2⟩
          have hd : descend key Multi k (T.node l b c v r) C =
              descend key Multi k r (Frame.R l b c v :: C) := by
            simp only [descend, h1, h2, if_false]
          rw [hd]
          cases r with
          | nil =>
            have e : insertDescend key Multi t.mem node (fuel + 1) b =
                some (some (b, compareKeys k (key v))) := by
              simp only [insertDescend, hk, hb, hc1, hc2, if_false, T.ptr_nil]
            refine ⟨fun hh => by simp [descend] at hh, fun C' hC' => ?_⟩
            simp [descend] at hC'
            subst hC'
            exact ⟨b, _, e, rfl, Or.inr ⟨hc1, _, _, _, _, _, rfl⟩⟩
          | node rl x rc rv rr =>
            have e : insertDescend key Multi t.mem node (fuel + 1) b =
                insertDescend key Multi t.mem node fuel x := by
              simp only [insertDescend, hk, hb, hc1, hc2, if_false, T.ptr_node]
            rw [e]
            exact ihr fuel (Frame.R l b c v :: C) x rfl h hr

end Ins

end nex

set_option autoImplicit false
set_option linter.unnecessarySeqFocus false
set_option linter.unusedTactic false
set_option linter.unreachableTactic false

namespace nex

section InsNode

variable {K V : Type} [LinearOrder K]

theorem Represents.set_size {t : RBTree V} {τ : T V} (h : Represents t τ) (k : Nat) :
    Represents { mem := t.mem, rootNode_ := t.rootNode_, size_ := k } τ := h

/-- Linking a fresh node as the left child at the end of a path. -/
theorem attach_L {t : RBTree V} {C : List (Frame V)} {p n : Nat} {pc c : Color} {pv v : V}
    {pr : T V} {par0 : Option Nat}
    (h : Represents t (plug (Frame.L p pc pv pr :: C) T.nil))
    (hn : n ∉ (plug (Frame.L p pc pv pr :: C) T.nil).addrs)
    (hmem : t.mem n = { left := none, right := none, parent := par0, value := v, color := c }) :
    Represents { mem := setLeft t.mem p (some n), rootNode_ := t.rootNode_, size_ := t.size_ }
        (plug (Frame.L p pc pv pr :: C) (T.node T.nil n c v T.nil)) ∧
      SameOutside t.mem (setLeft t.mem p (some n))
        (n :: (plug (Frame.L p pc pv pr :: C) T.nil).addrs) := by
  have hnp : n ≠ p := fun e => hn (by subst e; simp [addrs_plug])
  constructor
  · refine Represents.replace (s := T.nil) h ?_ rfl ?_ ?_ ?_
    · have := h.2.2
      rw [addrs_plug] at this hn ⊢
      simp only [T.addrs_nil, List.append_nil, T.addrs_node, List.nil_append] at this hn ⊢
      rw [List.append_assoc]
      refine List.Nodup.append (this.sublist (List.sublist_append_left _ _)) ?_ ?_
      · rw [List.cons_append, List.nil_append, List.nodup_cons]
        exact ⟨fun hx => hn (List.mem_append_right _ hx),
          this.sublist (List.sublist_append_right _ _)⟩
      · intro x hx1 hx2
        simp only [List.cons_append, List.nil_append, List.mem_cons] at hx2
        rcases hx2 with rfl | hx2
        · exact hn (List.mem_append_left _ hx1)
        · exact (List.disjoint_of_nodup_append this) hx1 hx2
    · intro f fs' hfs
      simp at hfs
      obtain ⟨rfl, rfl⟩ := hfs
      simp [setLeft, setP_apply, setL_apply, hnp.symm]
    · intro x hx hxp
      have hxn : x ≠ n := fun e => hn (by
        subst e; rw [addrs_plug]; simp only [List.mem_append]; tauto)
      have hxp' : x ≠ p := fun e => hxp (by simp [e])
      simp [setLeft, setP_apply, setL_apply, hxn, hxp']
    · simp [setLeft, setP_apply, setL_apply, hnp, hmem]
  · intro x hx
    simp only [List.mem_cons, not_or] at hx
    have hxp : x ≠ p := fun e => hx.2 (by subst e; simp [addrs_plug])
    simp [setLeft, setP_apply, setL_apply, hx.1, hxp]

/-- Linking a fresh node as the right child at the end of a path. -/
theorem attach_R {t : RBTree V} {C : List (Frame V)} {p n : Nat} {pc c : Color} {pv v : V}
    {pl : T V} {par0 : Option Nat}
    (h : Represents t (plug (Frame.R pl p pc pv :: C) T.nil))
    (hn : n ∉ (plug (Frame.R pl p pc pv :: C) T.nil).addrs)
    (hmem : t.mem n = { left := none, right := none, parent := par0, value := v, color := c }) :
    Represents { mem := setRight t.mem p (some n), rootNode_ := t.rootNode_, size_ := t.size_ }
        (plug (Frame.R pl p pc pv :: C) (T.node T.nil n c v T.nil)) ∧
      SameOutside t.mem (setRight t.mem p (some n))
        (n :: (plug (Frame.R pl p pc pv :: C) T.nil).addrs) := by
  have hnp : n ≠ p := fun e => hn (by subst e; simp [addrs_plug])
  constructor
  · refine Represents.replace (s := T.nil) h ?_ rfl ?_ ?_ ?_
    · have := h.2.2
      rw [addrs_plug] at this hn ⊢
      simp only [T.addrs_nil, List.append_nil, T.addrs_node, List.nil_append] at this hn ⊢
      rw [List.append_assoc]
      refine List.Nodup.append (this.sublist (List.sublist_append_left _ _)) ?_ ?_
      · rw [List.cons_append, List.nil_append, List.nodup_cons]
        exact ⟨fun hx => hn (List.mem_append_right _ hx),
          this.sublist (List.sublist_append_right _ _)⟩
      · intro x hx1 hx2
        simp only [List.cons_append, List.nil_append, List.mem_cons] at hx2
        rcases hx2 with rfl | hx2
        · exact hn (List.mem_append_left _ hx1)
        · exact (List.disjoint_of_nodup_append this) hx1 hx2
    · intro f fs' hfs
      simp at hfs
      obtain ⟨rfl, rfl⟩ := hfs
      simp [setRight, setP_apply, setR_apply, hnp.symm]
    · intro x hx hxp
      have hxn : x ≠ n := fun e => hn (by
        subst e; rw [addrs_plug]; simp only [List.mem_append]; tauto)
      have hxp' : x ≠ p := fun e => hxp (by simp [e])
      simp [setRight, setP_apply, setR_apply, hxn, hxp']
    · simp [setRight, setP_apply, setR_apply, hnp, hmem]
  · intro x hx
    simp only [List.mem_cons, not_or] at hx
    have hxp : x ≠ p := fun e => hx.2 (by subst e; simp [addrs_plug])
    simp [setRight, setP_apply, setR_apply, hx.1, hxp]

/-- What `insertNode` returns and leaves behind: it rejects the node without touching
anything exactly when duplicates are disallowed and the key is present; otherwise it
links the node after all keys not larger than its own and restores the colouring. -/
theorem insertNode_spec (key : V → K) (Multi : Bool) (fuel : Nat) (t : RBTree V) (τ : T V)
    (n : Nat) (v : V)
    (h : Represents t τ) (hrb : τ.RB) (hord : τ.Ordered key) (hn : n ∉ τ.addrs)
    (hmem : t.mem n = TreeNode.fresh v) (hfuel : τ.height < fuel) :
    (Multi = false ∧ key v ∈ τ.values.map key ∧
      insertNode key Multi fuel t n = some (false, t)) ∨
    (¬ (Multi = false ∧ key v ∈ τ.values.map key) ∧
      ∃ t' τ' xs ys, insertNode key Multi fuel t n = some (true, t') ∧
        Represents t' τ' ∧ τ'.RB ∧
        τ.toList = xs ++ ys ∧ τ'.toList = xs ++ (n, v) :: ys ∧
        (∀ x ∈ xs, key x.2 ≤ key v ∧ (Multi = false → key x.2 < key v)) ∧
        (∀ y ∈ ys, key v < key y.2) ∧
        t'.size_ = (t.size_ + 1) % sizeModulus ∧
        SameOutside t.mem t'.mem (n :: τ.addrs)) := by
  have hkv : key (t.mem n).value = key v := by rw [hmem]; rfl
  unfold TreeNode.fresh at hmem
  cases hτ : τ with
  | nil =>
    subst hτ
    right
    refine ⟨by simp, ?_⟩
    have hroot : t.rootNode_ = none := h.1
    refine ⟨{ mem := setC t.mem n Color.Black, rootNode_ := some n,
              size_ := (t.size_ + 1) % sizeModulus },
      T.node T.nil n Color.Black v T.nil, [], [], by simp [insertNode, hroot],
      ?_, ?_, rfl, rfl, by simp, by simp, rfl, ?_⟩
    · refine ⟨rfl, ?_, by simp⟩
      simp [setC_apply, hmem]
    · simp [T.RB]
    · exact SameOutside_setC _ _ _ _ (by simp)
  | node l a c av r =>
    rw [← hτ]
    have hroot : t.rootNode_ = some a := by rw [h.1, hτ]; rfl
    have hlen : (T.node l a c av r).height ≤ fuel := by rw [← hτ]; omega
    have hrep0 : Represents t (plug [] (T.node l a c av r)) := by rw [← hτ] at *; exact h
    obtain ⟨hnone, hsome⟩ := insertDescend_spec key Multi t n (key v) hkv
      (T.node l a c av r) fuel [] a rfl hrep0 hlen
    cases hd : descend key Multi (key v) (T.node l a c av r) [] with
    | none =>
      left
      have := descend_none key Multi (key v) _ _ hd
      refine ⟨this.1, by rw [hτ]; exact this.2, ?_⟩
      simp [insertNode, hroot, hnone hd]
    | some C' =>
      right
      obtain ⟨p, cmp, hdesc, hpar, hside⟩ := hsome C' hd
      have hplug : plug C' T.nil = τ := by rw [hτ]; exact descend_plug key Multi _ _ _ _ hd
      have hpath := descend_path key Multi (key v) _ _ _ hd trivial
      have hlenC : C'.length < fuel := by
        have := descend_length key Multi (key v) _ _ _ hd
        simp at this; rw [← hτ] at this; omega
      have hlist : τ.toList = ctxBeforeL C' ++ ctxAfterL C' := by
        rw [← hplug, toList_plug]; simp
      have hbounds := path_bounds key Multi (key v) C' hpath (by
        rw [← hlist]; exact (T.ordered_iff key τ).1 hord)
      have hrepC : Represents t (plug C' T.nil) := by rw [hplug]; exact h
      have hnC : n ∉ (plug C' T.nil).addrs := by rw [hplug]; exact hn
      have hctx : CtxOK C' 0 Color.Black := by
        have := (RB_plug C' T.nil).1 (by rw [hplug]; exact hrb)
        exact this.2.2
      refine ⟨?_, ?_⟩
      · rintro ⟨hm, hmemk⟩
        rw [T.values, List.map_map, hlist, List.map_append, List.mem_append] at hmemk
        rcases hmemk with hx | hx
        · obtain ⟨x, hx, e⟩ := List.mem_map.1 hx
          have := (hbounds.1 x hx).2 hm
          simp at e; rw [e] at this; exact lt_irrefl _ this
        · obtain ⟨x, hx, e⟩ := List.mem_map.1 hx
          have := hbounds.2 x hx
          simp at e; rw [e] at this; exact lt_irrefl _ this
      · -- link the node and run the fix-up
        have key_step : ∀ (t1 : RBTree V), t1.size_ = t.size_ →
            Represents t1 (plug C' (T.node T.nil n Color.Red v T.nil)) →
            SameOutside t.mem t1.mem (n :: τ.addrs) →
            ∃ t' τ', insertCase1_parentBlack fuel t1 n = some t' ∧ Represents t' τ' ∧ τ'.RB ∧
              τ'.toList = ctxBeforeL C' ++ (n, v) :: ctxAfterL C' ∧ t'.size_ = t.size_ ∧
              SameOutside t.mem t'.mem (n :: τ.addrs) := by
          intro t1 hs1 hr1 ho1
          have hC'ne : C' ≠ [] := by
            rcases hside with ⟨_, _, _, _, _, _, rfl⟩ | ⟨_, _, _, _, _, _, rfl⟩ <;> simp
          obtain ⟨t', τ', ht', e, hrb'⟩ := insertCase1_spec fuel C' t1 T.nil T.nil n Color.Red v
            hlenC hr1 (by simp) (by simp)
            (by cases C' with
              | nil => exact absurd rfl hC'ne
              | cons f fs => rfl)
            (by simpa using hctx)
          refine ⟨t', τ', ht', e.1, hrb', ?_, e.2.2.1.trans hs1, ?_⟩
          · rw [e.2.1, toList_plug]; simp
          · refine ho1.trans (e.2.2.2.mono ?_)
            intro x hx
            rw [addrs_plug] at hx
            rw [← hplug, addrs_plug]
            simp at hx ⊢
            tauto
        rcases hside with ⟨hcmp, b, pc, pv, pr, fs, rfl⟩ | ⟨hcmp, pl, b, pc, pv, fs, rfl⟩
        · simp at hpar
          subst hpar
          obtain ⟨hr1, ho1⟩ := attach_L hrepC hnC hmem
          rw [hplug] at ho1
          simp only [hroot] at hr1
          obtain ⟨t', τ', ht', hr', hrb', hl', hs', ho'⟩ := key_step
            { mem := setLeft t.mem b (some n), rootNode_ := some a, size_ := t.size_ } rfl hr1 ho1
          refine ⟨{ mem := t'.mem, rootNode_ := t'.rootNode_,
                    size_ := (t'.size_ + 1) % sizeModulus }, τ', ctxBeforeL (Frame.L b pc pv pr :: fs),
            ctxAfterL (Frame.L b pc pv pr :: fs), ?_, hr'.set_size _, hrb', hlist, hl',
            hbounds.1, hbounds.2, ?_, ho'⟩
          · simp [insertNode, hroot, hdesc, hcmp, ht']
          · simp [hs']
        · simp at hpar
          subst hpar
          obtain ⟨hr1, ho1⟩ := attach_R hrepC hnC hmem
          rw [hplug] at ho1
          simp only [hroot] at hr1
          obtain ⟨t', τ', ht', hr', hrb', hl', hs', ho'⟩ := key_step
            { mem := setRight t.mem b (some n), rootNode_ := some a, size_ := t.size_ } rfl hr1 ho1
          refine ⟨{ mem := t'.mem, rootNode_ := t'.rootNode_,
                    size_ := (t'.size_ + 1) % sizeModulus }, τ', ctxBeforeL (Frame.R pl b pc pv :: fs),
            ctxAfterL (Frame.R pl b pc pv :: fs), ?_, hr'.set_size _, hrb', hlist, hl',
            hbounds.1, hbounds.2, ?_, ho'⟩
          · simp [insertNode, hroot, hdesc, hcmp, ht']
          · simp [hs']

end InsNode

end nex

set_option autoImplicit false
set_option linter.unnecessarySeqFocus false
set_option linter.unusedTactic false
set_option linter.unreachableTactic false

namespace nex

section DelFix

variable {V : Type}

theorem nullOrBlack_read {t : RBTree V} {C : List (Frame V)} {s : T V}
    (h : Represents t (plug C s)) :
    nullOrBlack t.mem s.ptr = decide (s.color = Color.Black) := by
  cases s with
  | nil => simp [nullOrBlack]
  | node l a c v r =>
    have := h.read
    simp [nullOrBlack, this]

theorem presentRed_read {t : RBTree V} {C : List (Frame V)} {s : T V}
    (h : Represents t (plug C s)) :
    presentRed t.mem s.ptr = decide (s.color = Color.Red) := by
  cases s with
  | nil => simp [presentRed]
  | node l a c v r =>
    have := h.read
    simp [presentRed, this]

/-- Delete case 1 with a red brother on the right: recolour, rotate left at the parent. -/
theorem deleteCase1_redL {t : RBTree V} {C : List (Frame V)} {l r sl sr : T V}
    {n p s : Nat} {c pc : Color} {v pv sv : V} (fuel : Nat)
    (h : Represents t (plug C (T.node (T.node l n c v r) p pc pv
      (T.node sl s Color.Red sv sr)))) :
    ∃ t1, deleteCase1_brotherRed (fuel + 1) t n =
        deleteCase2_parentBrotherChildrenBlack (deleteCase1_brotherRed fuel) t1 n ∧
      Evolves t (plug C (T.node (T.node l n c v r) p pc pv (T.node sl s Color.Red sv sr)))
        t1 (plug C (T.node (T.node (T.node l n c v r) p Color.Red pv sl) s Color.Black sv sr)) := by
  have hn := Represents.read (C := Frame.L p pc pv (T.node sl s Color.Red sv sr) :: C) h
  have hp := Represents.read (C := C) h
  have hs := Represents.read (C := Frame.R (T.node l n c v r) p pc pv :: C) h
  simp at hn hp hs
  have hc := h.counts
  simp only [T.addrs_node, List.count_append, count_cons_one] at hc
  have hnp : n ≠ p := ne_of_one (by have := hc n; have := one_self n; omega)
  have hns : n ≠ s := ne_of_one (by have := hc n; have := one_self n; omega)
  have hps : p ≠ s := ne_of_one (by have := hc p; have := one_self p; omega)
  have e1 := setC_evolves (C := C) Color.Red h
  have e2 := setC_evolves (C := Frame.R (T.node l n c v r) p Color.Red pv :: C)
    Color.Black e1.rep
  obtain ⟨t1, ht1, e3⟩ := rotateLeft_evolves (C := C) e2.rep
  simp only [topColor_black] at e3
  dsimp only at ht1
  refine ⟨t1, ?_, (e1.andThen e2).andThen e3⟩
  simp [deleteCase1_brotherRed, brother, hn, hp, hs, setC_apply, hnp, hns, hps, hps.symm, ht1]

/-- Delete case 1 with a black brother on the right: nothing to do before case 2. -/
theorem deleteCase1_blackL {t : RBTree V} {C : List (Frame V)} {l r S : T V}
    {n p : Nat} {c pc : Color} {v pv : V} (fuel : Nat)
    (h : Represents t (plug C (T.node (T.node l n c v r) p pc pv S)))
    (hS : S.color = Color.Black) :
    deleteCase1_brotherRed (fuel + 1) t n =
      deleteCase2_parentBrotherChildrenBlack (deleteCase1_brotherRed fuel) t n := by
  have hn := Represents.read (C := Frame.L p pc pv S :: C) h
  have hp := Represents.read (C := C) h
  simp at hn hp
  cases S with
  | nil => simp [deleteCase1_brotherRed, brother, hn, hp]
  | node sl s sc sv sr =>
    have hs := Represents.read (C := Frame.R (T.node l n c v r) p pc pv :: C) h
    simp at hs hS
    simp [deleteCase1_brotherRed, brother, hn, hp, hs, hS]

/-- Delete case 2, brother on the right: parent, brother and nephews black. The brother
turns red and the fix-up re-enters at the parent. -/
theorem deleteCase2_recL {t : RBTree V} {C : List (Frame V)} {l r sl sr : T V}
    {n p s : Nat} {c : Color} {v pv sv : V}
    (h : Represents t (plug C (T.node (T.node l n c v r) p Color.Black pv
      (T.node sl s Color.Black sv sr))))
    (hsl : sl.color = Color.Black) (hsr : sr.color = Color.Black) :
    ∃ t1, (∀ k : RBTree V → Nat → Option (RBTree V),
        deleteCase2_parentBrotherChildrenBlack k t n = k t1 p) ∧
      Evolves t (plug C (T.node (T.node l n c v r) p Color.Black pv
          (T.node sl s Color.Black sv sr)))
        t1 (plug C (T.node (T.node l n c v r) p Color.Black pv
          (T.node sl s Color.Red sv sr))) := by
  have hn := Represents.read (C := Frame.L p Color.Black pv (T.node sl s Color.Black sv sr) :: C) h
  have hp := Represents.read (C := C) h
  have hs := Represents.read (C := Frame.R (T.node l n c v r) p Color.Black pv :: C) h
  have h1 := nullOrBlack_read
    (C := Frame.L s Color.Black sv sr :: Frame.R (T.node l n c v r) p Color.Black pv :: C) h
  have h2 := nullOrBlack_read
    (C := Frame.R sl s Color.Black sv :: Frame.R (T.node l n c v r) p Color.Black pv :: C) h
  simp at hn hp hs
  have hc := h.counts
  simp only [T.addrs_node, List.count_append, count_cons_one] at hc
  have hns : n ≠ s := ne_of_one (by have := hc n; have := one_self n; omega)
  have e1 := setC_evolves (C := Frame.R (T.node l n c v r) p Color.Black pv :: C)
    Color.Red h
  refine ⟨_, ?_, e1⟩
  intro k
  simp [deleteCase2_parentBrotherChildrenBlack, brother, hn, hp, hs, h1, h2, hsl, hsr,
    setC_apply, hns]

/-- Delete case 2, brother on the right: the condition fails, on to case 3. -/
theorem deleteCase2_skipL {t : RBTree V} {C : List (Frame V)} {l r sl sr : T V}
    {n p s : Nat} {c pc sc : Color} {v pv sv : V}
    (h : Represents t (plug C (T.node (T.node l n c v r) p pc pv (T.node sl s sc sv sr))))
    (hcond : ¬ (pc = Color.Black ∧ sc = Color.Black ∧ sl.color = Color.Black ∧
      sr.color = Color.Black))
    (k : RBTree V → Nat → Option (RBTree V)) :
    deleteCase2_parentBrotherChildrenBlack k t n =
      deleteCase3_parentRedBrotherChildrenBlack t n := by
  have hn := Represents.read (C := Frame.L p pc pv (T.node sl s sc sv sr) :: C) h
  have hp := Represents.read (C := C) h
  have hs := Represents.read (C := Frame.R (T.node l n c v r) p pc pv :: C) h
  have h1 := nullOrBlack_read
    (C := Frame.L s sc sv sr :: Frame.R (T.node l n c v r) p pc pv :: C) h
  have h2 := nullOrBlack_read
    (C := Frame.R sl s sc sv :: Frame.R (T.node l n c v r) p pc pv :: C) h
  simp at hn hp hs
  simp [deleteCase2_parentBrotherChildrenBlack, brother, hn, hp, hs, h1, h2]
  intro a1 a2 a3 a4
  exact absurd ⟨a1, a2, a3, a4⟩ hcond

/-- Delete case 3, brother on the right: red parent, black brother and nephews. -/
theorem deleteCase3_doneL {t : RBTree V} {C : List (Frame V)} {l r sl sr : T V}
    {n p s : Nat} {c : Color} {v pv sv : V}
    (h : Represents t (plug C (T.node (T.node l n c v r) p Color.Red pv
      (T.node sl s Color.Black sv sr))))
    (hsl : sl.color = Color.Black) (hsr : sr.color = Color.Black) :
    ∃ t1, deleteCase3_parentRedBrotherChildrenBlack t n = some t1 ∧
      Evolves t (plug C (T.node (T.node l n c v r) p Color.Red pv
          (T.node sl s Color.Black sv sr)))
        t1 (plug C (T.node (T.node l n c v r) p Color.Black pv
          (T.node sl s Color.Red sv sr))) := by
  have hn := Represents.read (C := Frame.L p Color.Red pv (T.node sl s Color.Black sv sr) :: C) h
  have hp := Represents.read (C := C) h
  have hs := Represents.read (C := Frame.R (T.node l n c v r) p Color.Red pv :: C) h
  have h1 := nullOrBlack_read
    (C := Frame.L s Color.Black sv sr :: Frame.R (T.node l n c v r) p Color.Red pv :: C) h
  have h2 := nullOrBlack_read
    (C := Frame.R sl s Color.Black sv :: Frame.R (T.node l n c v r) p Color.Red pv :: C) h
  simp at hn hp hs
  have hc := h.counts
  simp only [T.addrs_node, List.count_append, count_cons_one] at hc
  have hns : n ≠ s := ne_of_one (by have := hc n; have := one_self n; omega)
  have e1 := setC_evolves (C := Frame.R (T.node l n c v r) p Color.Red pv :: C)
    Color.Red h
  have e2 := setC_evolves (C := C) Color.Black e1.rep
  refine ⟨_, ?_, e1.andThen e2⟩
  simp [deleteCase3_parentRedBrotherChildrenBlack, brother, hn, hp, hs, h1, h2, hsl, hsr,
    setC_apply, hns]

/-- Delete case 3, brother on the right: the condition fails, on to case 4. -/
theorem deleteCase3_skipL {t : RBTree V} {C : List (Frame V)} {l r sl sr : T V}
    {n p s : Nat} {c pc sc : Color} {v pv sv : V}
    (h : Represents t (plug C (T.node (T.node l n c v r) p pc pv (T.node sl s sc sv sr))))
    (hcond : ¬ (pc = Color.Red ∧ sc = Color.Black ∧ sl.color = Color.Black ∧
      sr.color = Color.Black)) :
    deleteCase3_parentRedBrotherChildrenBlack t n =
      deleteCase4_brotherBlackChildRed t n := by
  have hn := Represents.read (C := Frame.L p pc pv (T.node sl s sc sv sr) :: C) h
  have hp := Represents.read (C := C) h
  have hs := Represents.read (C := Frame.R (T.node l n c v r) p pc pv :: C) h
  have h1 := nullOrBlack_read
    (C := Frame.L s sc sv sr :: Frame.R (T.node l n c v r) p pc pv :: C) h
  have h2 := nullOrBlack_read
    (C := Frame.R sl s sc sv :: Frame.R (T.node l n c v r) p pc pv :: C) h
  simp at hn hp hs
  simp [deleteCase3_parentRedBrotherChildrenBlack, brother, hn, hp, hs, h1, h2]
  intro a1 a2 a3 a4
  exact absurd ⟨a1, a2, a3, a4⟩ hcond

/-- Delete case 4, brother on the right with a red near nephew and a black far nephew:
recolour and rotate right at the brother. -/
theorem deleteCase4_rotL {t : RBTree V} {C : List (Frame V)} {l r sll slr sr : T V}
    {n p s x : Nat} {c pc : Color} {v pv sv xv : V}
    (h : Represents t (plug C (T.node (T.node l n c v r) p pc pv
      (T.node (T.node sll x Color.Red xv slr) s Color.Black sv sr))))
    (hsr : sr.color = Color.Black) :
    ∃ t1, deleteCase4_brotherBlackChildRed t n = deleteCase5_balanceRotations t1 n ∧
      Evolves t (plug C (T.node (T.node l n c v r) p pc pv
          (T.node (T.node sll x Color.Red xv slr) s Color.Black sv sr)))
        t1 (plug C (T.node (T.node l n c v r) p pc pv
          (T.node sll x Color.Black xv (T.node slr s Color.Red sv sr)))) := by
  have hn := Represents.read (C := Frame.L p pc pv
    (T.node (T.node sll x Color.Red xv slr) s Color.Black sv sr) :: C) h
  have hp := Represents.read (C := C) h
  have hs := Represents.read (C := Frame.R (T.node l n c v r) p pc pv :: C) h
  have hx := Represents.read
    (C := Frame.L s Color.Black sv sr :: Frame.R (T.node l n c v r) p pc pv :: C) h
  have h2 := nullOrBlack_read
    (C := Frame.R (T.node sll x Color.Red xv slr) s Color.Black sv ::
      Frame.R (T.node l n c v r) p pc pv :: C) h
  simp at hn hp hs hx
  have hc := h.counts
  simp only [T.addrs_node, List.count_append, count_cons_one] at hc
  have hsx : s ≠ x := ne_of_one (by have := hc s; have := one_self s; omega)
  have e1 := setC_evolves (C := Frame.R (T.node l n c v r) p pc pv :: C) Color.Red h
  have e2 := setC_evolves
    (C := Frame.L s Color.Red sv sr :: Frame.R (T.node l n c v r) p pc pv :: C)
    Color.Black e1.rep
  obtain ⟨t1, ht1, e3⟩ := rotateRight_evolves
    (C := Frame.R (T.node l n c v r) p pc pv :: C) e2.rep
  simp only [topColor_cons] at e3
  dsimp only at ht1
  refine ⟨t1, ?_, (e1.andThen e2).andThen e3⟩
  simp [deleteCase4_brotherBlackChildRed, brother, hn, hp, hs, hx, h2, hsr, presentRed,
    setC_apply, hsx, hsx.symm, ht1]

/-- Delete case 4, brother on the right with a red far nephew: straight on to case 5. -/
theorem deleteCase4_skipL {t : RBTree V} {C : List (Frame V)} {l r sl sr : T V}
    {n p s : Nat} {c pc : Color} {v pv sv : V}
    (h : Represents t (plug C (T.node (T.node l n c v r) p pc pv
      (T.node sl s Color.Black sv sr))))
    (hsr : sr.color = Color.Red) :
    deleteCase4_brotherBlackChildRed t n = deleteCase5_balanceRotations t n := by
  have hn := Represents.read (C := Frame.L p pc pv (T.node sl s Color.Black sv sr) :: C) h
  have hp := Represents.read (C := C) h
  have hs := Represents.read (C := Frame.R (T.node l n c v r) p pc pv :: C) h
  have h2 := nullOrBlack_read
    (C := Frame.R sl s Color.Black sv :: Frame.R (T.node l n c v r) p pc pv :: C) h
  simp at hn hp hs
  have hc := h.counts
  simp only [T.addrs_node, List.count_append, count_cons_one] at hc
  have hns : n ≠ s := ne_of_one (by have := hc n; have := one_self n; omega)
  simp [deleteCase4_brotherBlackChildRed, brother, hn, hp, hs, h2, hsr, hns]

/-- Delete case 5, brother on the right with a far nephew: recolour and rotate left at
the parent. -/
theorem deleteCase5_L {t : RBTree V} {C : List (Frame V)} {l r sl srl srr : T V}
    {n p s y : Nat} {c pc sc yc : Color} {v pv sv yv : V}
    (h : Represents t (plug C (T.node (T.node l n c v r) p pc pv
      (T.node sl s sc sv (T.node srl y yc yv srr))))) :
    ∃ t1, deleteCase5_balanceRotations t n = some t1 ∧
      Evolves t (plug C (T.node (T.node l n c v r) p pc pv
          (T.node sl s sc sv (T.node srl y yc yv srr))))
        t1 (plug C (T.node (T.node (T.node l n c v r) p Color.Black pv sl) s (topColor C pc) sv
          (T.node srl y Color.Black yv srr))) := by
  have hn := Represents.read (C := Frame.L p pc pv
    (T.node sl s sc sv (T.node srl y yc yv srr)) :: C) h
  have hp := Represents.read (C := C) h
  have hs := Represents.read (C := Frame.R (T.node l n c v r) p pc pv :: C) h
  simp at hn hp hs
  have hc := h.counts
  simp only [T.addrs_node, List.count_append, count_cons_one] at hc
  have hps : p ≠ s := ne_of_one (by have := hc p; have := one_self p; omega)
  have hpy : p ≠ y := ne_of_one (by have := hc p; have := one_self p; omega)
  have hsy : s ≠ y := ne_of_one (by have := hc s; have := one_self s; omega)
  have e1 := setC_evolves (C := Frame.R (T.node l n c v r) p pc pv :: C) pc h
  have e2 := setC_evolves (C := C) Color.Black e1.rep
  have e3 := setC_evolves
    (C := Frame.R sl s pc sv :: Frame.R (T.node l n c v r) p Color.Black pv :: C)
    Color.Black e2.rep
  obtain ⟨t1, ht1, e4⟩ := rotateLeft_evolves (C := C) e3.rep
  dsimp only at ht1
  refine ⟨t1, ?_, ((e1.andThen e2).andThen e3).andThen e4⟩
  simp [deleteCase5_balanceRotations, brother, hn, hp, hs, setC_apply, hps, hps.symm, hpy,
    hpy.symm, hsy, hsy.symm, ht1]

/-- Delete case 1 with a red brother on the left: recolour, rotate right at the parent. -/
theorem deleteCase1_redR {t : RBTree V} {C : List (Frame V)} {l r sl sr : T V}
    {n p s : Nat} {c pc : Color} {v pv sv : V} (fuel : Nat)
    (h : Represents t (plug C (T.node (T.node sl s Color.Red sv sr) p pc pv
      (T.node l n c v r)))) :
    ∃ t1, deleteCase1_brotherRed (fuel + 1) t n =
        deleteCase2_parentBrotherChildrenBlack (deleteCase1_brotherRed fuel) t1 n ∧
      Evolves t (plug C (T.node (T.node sl s Color.Red sv sr) p pc pv (T.node l n c v r)))
        t1 (plug C (T.node sl s Color.Black sv (T.node sr p Color.Red pv (T.node l n c v r)))) := by
  have hn := Represents.read (C := Frame.R (T.node sl s Color.Red sv sr) p pc pv :: C) h
  have hp := Represents.read (C := C) h
  have hs := Represents.read (C := Frame.L p pc pv (T.node l n c v r) :: C) h
  simp at hn hp hs
  have hc := h.counts
  simp only [T.addrs_node, List.count_append, count_cons_one] at hc
  have hnp : n ≠ p := ne_of_one (by have := hc n; have := one_self n; omega)
  have hns : n ≠ s := ne_of_one (by have := hc n; have := one_self n; omega)
  have hps : p ≠ s := ne_of_one (by have := hc p; have := one_self p; omega)
  have e1 := setC_evolves (C := C) Color.Red h
  have e2 := setC_evolves (C := Frame.L p Color.Red pv (T.node l n c v r) :: C)
    Color.Black e1.rep
  obtain ⟨t1, ht1, e3⟩ := rotateRight_evolves (C := C) e2.rep
  simp only [topColor_black] at e3
  dsimp only at ht1
  refine ⟨t1, ?_, (e1.andThen e2).andThen e3⟩
  simp [deleteCase1_brotherRed, brother, hn, hp, hs, setC_apply, hnp, hns, hns.symm, hps,
    hps.symm, ht1]

/-- Delete case 1 with a black brother on the left: nothing to do before case 2. -/
theorem deleteCase1_blackR {t : RBTree V} {C : List (Frame V)} {l r S : T V}
    {n p : Nat} {c pc : Color} {v pv : V} (fuel : Nat)
    (h : Represents t (plug C (T.node S p pc pv (T.node l n c v r))))
    (hS : S.color = Color.Black) :
    deleteCase1_brotherRed (fuel + 1) t n =
      deleteCase2_parentBrotherChildrenBlack (deleteCase1_brotherRed fuel) t n := by
  have hn := Represents.read (C := Frame.R S p pc pv :: C) h
  have hp := Represents.read (C := C) h
  simp at hn hp
  have hc := h.counts
  simp only [T.addrs_node, List.count_append, count_cons_one] at hc
  have hSn : S.ptr ≠ some n := fun e => by
    have := ptr_count _ _ e; have := hc n; have := one_self n; omega
  cases S with
  | nil => simp [deleteCase1_brotherRed, brother, hn, hp]
  | node sl s sc sv sr =>
    have hs := Represents.read (C := Frame.L p pc pv (T.node l n c v r) :: C) h
    simp at hs hS hSn
    have hns : n ≠ s := fun e => hSn e.symm
    simp [deleteCase1_brotherRed, brother, hn, hp, hs, hS, hns]

/-- Delete case 2, brother on the left: parent, brother and nephews black. -/
theorem deleteCase2_recR {t : RBTree V} {C : List (Frame V)} {l r sl sr : T V}
    {n p s : Nat} {c : Color} {v pv sv : V}
    (h : Represents t (plug C (T.node (T.node sl s Color.Black sv sr) p Color.Black pv
      (T.node l n c v r))))
    (hsl : sl.color = Color.Black) (hsr : sr.color = Color.Black) :
    ∃ t1, (∀ k : RBTree V → Nat → Option (RBTree V),
        deleteCase2_parentBrotherChildrenBlack k t n = k t1 p) ∧
      Evolves t (plug C (T.node (T.node sl s Color.Black sv sr) p Color.Black pv
          (T.node l n c v r)))
        t1 (plug C (T.node (T.node sl s Color.Red sv sr) p Color.Black pv
          (T.node l n c v r))) := by
  have hn := Represents.read (C := Frame.R (T.node sl s Color.Black sv sr) p Color.Black pv :: C) h
  have hp := Represents.read (C := C) h
  have hs := Represents.read (C := Frame.L p Color.Black pv (T.node l n c v r) :: C) h
  have h1 := nullOrBlack_read
    (C := Frame.L s Color.Black sv sr :: Frame.L p Color.Black pv (T.node l n c v r) :: C) h
  have h2 := nullOrBlack_read
    (C := Frame.R sl s Color.Black sv :: Frame.L p Color.Black pv (T.node l n c v r) :: C) h
  simp at hn hp hs
  have hc := h.counts
  simp only [T.addrs_node, List.count_append, count_cons_one] at hc
  have hns : n ≠ s := ne_of_one (by have := hc n; have := one_self n; omega)
  have e1 := setC_evolves (C := Frame.L p Color.Black pv (T.node l n c v r) :: C)
    Color.Red h
  refine ⟨_, ?_, e1⟩
  intro k
  simp [deleteCase2_parentBrotherChildrenBlack, brother, hn, hp, hs, h1, h2, hsl, hsr,
    setC_apply, hns]

/-- Delete case 2, brother on the left: the condition fails, on to case 3. -/
theorem deleteCase2_skipR {t : RBTree V} {C : List (Frame V)} {l r sl sr : T V}
    {n p s : Nat} {c pc sc : Color} {v pv sv : V}
    (h : Represents t (plug C (T.node (T.node sl s sc sv sr) p pc pv (T.node l n c v r))))
    (hcond : ¬ (pc = Color.Black ∧ sc = Color.Black ∧ sl.color = Color.Black ∧
      sr.color = Color.Black))
    (k : RBTree V → Nat → Option (RBTree V)) :
    deleteCase2_parentBrotherChildrenBlack k t n =
      deleteCase3_parentRedBrotherChildrenBlack t n := by
  have hn := Represents.read (C := Frame.R (T.node sl s sc sv sr) p pc pv :: C) h
  have hp := Represents.read (C := C) h
  have hs := Represents.read (C := Frame.L p pc pv (T.node l n c v r) :: C) h
  have h1 := nullOrBlack_read
    (C := Frame.L s sc sv sr :: Frame.L p pc pv (T.node l n c v r) :: C) h
  have h2 := nullOrBlack_read
    (C := Frame.R sl s sc sv :: Frame.L p pc pv (T.node l n c v r) :: C) h
  simp at hn hp hs
  have hc := h.counts
  simp only [T.addrs_node, List.count_append, count_cons_one] at hc
  have hns : n ≠ s := ne_of_one (by have := hc n; have := one_self n; omega)
  simp [deleteCase2_parentBrotherChildrenBlack, brother, hn, hp, hs, h1, h2, hns]
  intro a1 a2 a3 a4
  exact absurd ⟨a1, a2, a3, a4⟩ hcond

/-- Delete case 3, brother on the left: red parent, black brother and nephews. -/
theorem deleteCase3_doneR {t : RBTree V} {C : List (Frame V)} {l r sl sr : T V}
    {n p s : Nat} {c : Color} {v pv sv : V}
    (h : Represents t (plug C (T.node (T.node sl s Color.Black sv sr) p Color.Red pv
      (T.node l n c v r))))
    (hsl : sl.color = Color.Black) (hsr : sr.color = Color.Black) :
    ∃ t1, deleteCase3_parentRedBrotherChildrenBlack t n = some t1 ∧
      Evolves t (plug C (T.node (T.node sl s Color.Black sv sr) p Color.Red pv
          (T.node l n c v r)))
        t1 (plug C (T.node (T.node sl s Color.Red sv sr) p Color.Black pv
          (T.node l n c v r))) := by
  have hn := Represents.read (C := Frame.R (T.node sl s Color.Black sv sr) p Color.Red pv :: C) h
  have hp := Represents.read (C := C) h
  have hs := Represents.read (C := Frame.L p Color.Red pv (T.node l n c v r) :: C) h
  have h1 := nullOrBlack_read
    (C := Frame.L s Color.Black sv sr :: Frame.L p Color.Red pv (T.node l n c v r) :: C) h
  have h2 := nullOrBlack_read
    (C := Frame.R sl s Color.Black sv :: Frame.L p Color.Red pv (T.node l n c v r) :: C) h
  simp at hn hp hs
  have hc := h.counts
  simp only [T.addrs_node, List.count_append, count_cons_one] at hc
  have hns : n ≠ s := ne_of_one (by have := hc n; have := one_self n; omega)
  have e1 := setC_evolves (C := Frame.L p Color.Red pv (T.node l n c v r) :: C)
    Color.Red h
  have e2 := setC_evolves (C := C) Color.Black e1.rep
  refine ⟨_, ?_, e1.andThen e2⟩
  simp [deleteCase3_parentRedBrotherChildrenBlack, brother, hn, hp, hs, h1, h2, hsl, hsr,
    setC_apply, hns]

/-- Delete case 3, brother on the left: the condition fails, on to case 4. -/
theorem deleteCase3_skipR {t : RBTree V} {C : List (Frame V)} {l r sl sr : T V}
    {n p s : Nat} {c pc sc : Color} {v pv sv : V}
    (h : Represents t (plug C (T.node (T.node sl s sc sv sr) p pc pv (T.node l n c v r))))
    (hcond : ¬ (pc = Color.Red ∧ sc = Color.Black ∧ sl.color = Color.Black ∧
      sr.color = Color.Black)) :
    deleteCase3_parentRedBrotherChildrenBlack t n =
      deleteCase4_brotherBlackChildRed t n := by
  have hn := Represents.read (C := Frame.R (T.node sl s sc sv sr) p pc pv :: C) h
  have hp := Represents.read (C := C) h
  have hs := Represents.read (C := Frame.L p pc pv (T.node l n c v r) :: C) h
  have h1 := nullOrBlack_read
    (C := Frame.L s sc sv sr :: Frame.L p pc pv (T.node l n c v r) :: C) h
  have h2 := nullOrBlack_read
    (C := Frame.R sl s sc sv :: Frame.L p pc pv (T.node l n c v r) :: C) h
  simp at hn hp hs
  have hc := h.counts
  simp only [T.addrs_node, List.count_append, count_cons_one] at hc
  have hns : n ≠ s := ne_of_one (by have := hc n; have := one_self n; omega)
  simp [deleteCase3_parentRedBrotherChildrenBlack, brother, hn, hp, hs, h1, h2, hns]
  intro a1 a2 a3 a4
  exact absurd ⟨a1, a2, a3, a4⟩ hcond

/-- Delete case 4, brother on the left with a red near nephew and a black far nephew:
recolour and rotate left at the brother. -/
theorem deleteCase4_rotR {t : RBTree V} {C : List (Frame V)} {l r sl srl srr : T V}
    {n p s x : Nat} {c pc : Color} {v pv sv xv : V}
    (h : Represents t (plug C (T.node
      (T.node sl s Color.Black sv (T.node srl x Color.Red xv srr)) p pc pv (T.node l n c v r))))
    (hsl : sl.color = Color.Black) :
    ∃ t1, deleteCase4_brotherBlackChildRed t n = deleteCase5_balanceRotations t1 n ∧
      Evolves t (plug C (T.node
          (T.node sl s Color.Black sv (T.node srl x Color.Red xv srr)) p pc pv
          (T.node l n c v r)))
        t1 (plug C (T.node
          (T.node (T.node sl s Color.Red sv srl) x Color.Black xv srr) p pc pv
          (T.node l n c v r))) := by
  have hn := Represents.read (C := Frame.R
    (T.node sl s Color.Black sv (T.node srl x Color.Red xv srr)) p pc pv :: C) h
  have hp := Represents.read (C := C) h
  have hs := Represents.read (C := Frame.L p pc pv (T.node l n c v r) :: C) h
  have hx := Represents.read
    (C := Frame.R sl s Color.Black sv :: Frame.L p pc pv (T.node l n c v r) :: C) h
  have h2 := nullOrBlack_read
    (C := Frame.L s Color.Black sv (T.node srl x Color.Red xv srr) ::
      Frame.L p pc pv (T.node l n c v r) :: C) h
  simp at hn hp hs hx
  have hc := h.counts
  simp only [T.addrs_node, List.count_append, count_cons_one] at hc
  have hsx : s ≠ x := ne_of_one (by have := hc s; have := one_self s; omega)
  have hns : n ≠ s := ne_of_one (by have := hc n; have := one_self n; omega)
  have e1 := setC_evolves (C := Frame.L p pc pv (T.node l n c v r) :: C) Color.Red h
  have e2 := setC_evolves
    (C := Frame.R sl s Color.Red sv :: Frame.L p pc pv (T.node l n c v r) :: C)
    Color.Black e1.rep
  obtain ⟨t1, ht1, e3⟩ := rotateLeft_evolves
    (C := Frame.L p pc pv (T.node l n c v r) :: C) e2.rep
  simp only [topColor_cons] at e3
  dsimp only at ht1
  refine ⟨t1, ?_, (e1.andThen e2).andThen e3⟩
  simp [deleteCase4_brotherBlackChildRed, brother, hn, hp, hs, hx, h2, hsl, presentRed,
    setC_apply, hsx, hsx.symm, hns, ht1]

/-- Delete case 4, brother on the left with a red far nephew: straight on to case 5. -/
theorem deleteCase4_skipR {t : RBTree V} {C : List (Frame V)} {l r sl sr : T V}
    {n p s : Nat} {c pc : Color} {v pv sv : V}
    (h : Represents t (plug C (T.node (T.node sl s Color.Black sv sr) p pc pv
      (T.node l n c v r))))
    (hsl : sl.color = Color.Red) :
    deleteCase4_brotherBlackChildRed t n = deleteCase5_balanceRotations t n := by
  have hn := Represents.read (C := Frame.R (T.node sl s Color.Black sv sr) p pc pv :: C) h
  have hp := Represents.read (C := C) h
  have hs := Represents.read (C := Frame.L p pc pv (T.node l n c v r) :: C) h
  have h1 := nullOrBlack_read
    (C := Frame.L s Color.Black sv sr :: Frame.L p pc pv (T.node l n c v r) :: C) h
  simp at hn hp hs
  have hc := h.counts
  simp only [T.addrs_node, List.count_append, count_cons_one] at hc
  have hns : n ≠ s := ne_of_one (by have := hc n; have := one_self n; omega)
  simp [deleteCase4_brotherBlackChildRed, brother, hn, hp, hs, h1, hsl, hns]

/-- Delete case 5, brother on the left with a far nephew: recolour and rotate right at
the parent. -/
theorem deleteCase5_R {t : RBTree V} {C : List (Frame V)} {l r sll slr sr : T V}
    {n p s y : Nat} {c pc sc yc : Color} {v pv sv yv : V}
    (h : Represents t (plug C (T.node
      (T.node (T.node sll y yc yv slr) s sc sv sr) p pc pv (T.node l n c v r)))) :
    ∃ t1, deleteCase5_balanceRotations t n = some t1 ∧
      Evolves t (plug C (T.node
          (T.node (T.node sll y yc yv slr) s sc sv sr) p pc pv (T.node l n c v r)))
        t1 (plug C (T.node (T.node sll y Color.Black yv slr) s (topColor C pc) sv
          (T.node sr p Color.Black pv (T.node l n c v r)))) := by
  have hn := Represents.read (C := Frame.R
    (T.node (T.node sll y yc yv slr) s sc sv sr) p pc pv :: C) h
  have hp := Represents.read (C := C) h
  have hs := Represents.read (C := Frame.L p pc pv (T.node l n c v r) :: C) h
  simp at hn hp hs
  have hc := h.counts
  simp only [T.addrs_node, List.count_append, count_cons_one] at hc
  have hps : p ≠ s := ne_of_one (by have := hc p; have := one_self p; omega)
  have hpy : p ≠ y := ne_of_one (by have := hc p; have := one_self p; omega)
  have hsy : s ≠ y := ne_of_one (by have := hc s; have := one_self s; omega)
  have hns : n ≠ s := ne_of_one (by have := hc n; have := one_self n; omega)
  have e1 := setC_evolves (C := Frame.L p pc pv (T.node l n c v r) :: C) pc h
  have e2 := setC_evolves (C := C) Color.Black e1.rep
  have e3 := setC_evolves
    (C := Frame.L s pc sv sr :: Frame.L p Color.Black pv (T.node l n c v r) :: C)
    Color.Black e2.rep
  obtain ⟨t1, ht1, e4⟩ := rotateRight_evolves (C := C) e3.rep
  dsimp only at ht1
  refine ⟨t1, ?_, ((e1.andThen e2).andThen e3).andThen e4⟩
  simp [deleteCase5_balanceRotations, brother, hn, hp, hs, setC_apply, hps, hps.symm, hpy,
    hpy.symm, hsy, hsy.symm, hns, ht1]

end DelFix

end nex

set_option autoImplicit false
set_option linter.unnecessarySeqFocus false
set_option linter.unusedTactic false
set_option linter.unreachableTactic false

namespace nex

section DelFix1

variable {V : Type}

theorem CtxOK_to_black (C : List (Frame V)) (k : Nat) (c : Color) (h : CtxOK C k c) :
    CtxOK C k Color.Black := by
  cases C with
  | nil => simp [CtxOK]
  | cons f C =>
    simp only [CtxOK] at h ⊢
    exact ⟨h.1, h.2.1, h.2.2.1, fun hr => ⟨trivial, (h.2.2.2.1 hr).2⟩, h.2.2.2.2⟩

theorem CtxOK_topColor (C : List (Frame V)) (k : Nat) (c : Color) (h : CtxOK C k c) :
    topColor C c = c := by
  cases C with
  | nil => simp [CtxOK] at h; simp [h]
  | cons f C => rfl

theorem T.black_node_of_bh (s : T V) (k : Nat) (h : s.bh = k + 1) :
    ∃ l a c v r, s = T.node l a c v r := by
  cases s with
  | nil => simp at h
  | node l a c v r => exact ⟨l, a, c, v, r, rfl⟩

theorem Evolves.addrs_eq {t t' : RBTree V} {τ τ' : T V} (h : Evolves t τ t' τ') :
    τ'.addrs = τ.addrs := by
  rw [T.addrs_eq_map, T.addrs_eq_map, h.2.1]

/-- Build the outcome of a fix-up step from an `Evolves` fact between explicit paths. -/
theorem DelPost.of_evolves {t t' : RBTree V} {C C' : List (Frame V)} {N : T V} {k : Nat}
    (e : Evolves t (plug C N) t' (plug C' N)) (hok : CtxOK C' k Color.Black)
    (hb : ctxBeforeL C' = ctxBeforeL C) (ha : ctxAfterL C' = ctxAfterL C)
    (hne : C = [] ↔ C' = []) : DelPost t C N k t' C' :=
  ⟨e.1, hok, hb, ha, e.2.2.1, e.2.2.2, hne⟩

/-- Fix-up with a black brother on the right (cases 2 to 5). -/
theorem delete_inner_L (fuel : Nat)
    (ih : ∀ (C : List (Frame V)) (t : RBTree V) (l r : T V) (n : Nat) (c : Color) (v : V)
      (k : Nat), C.length < fuel → Represents t (plug C (T.node l n c v r)) →
      CtxOK C (k + 1) Color.Black →
      ∃ t' C', deleteCase1_brotherRed fuel t n = some t' ∧
        DelPost t C (T.node l n c v r) k t' C')
    (C1 : List (Frame V)) (t : RBTree V) (l r sl sr : T V) (n p s : Nat) (c pc : Color)
    (v pv sv : V) (k : Nat)
    (hlen : pc = Color.Black → C1.length < fuel)
    (h : Represents t (plug C1 (T.node (T.node l n c v r) p pc pv
      (T.node sl s Color.Black sv sr))))
    (hsl1 : sl.NoRedRed) (hsr1 : sr.NoRedRed) (hsl2 : sl.Balanced) (hsr2 : sr.Balanced)
    (hsl3 : sl.bh = k) (hsr3 : sr.bh = k)
    (hctx : CtxOK C1 (k + 1 + (if pc = Color.Black then 1 else 0)) pc) :
    ∃ t' C', deleteCase2_parentBrotherChildrenBlack (deleteCase1_brotherRed fuel) t n
        = some t' ∧
      DelPost t (Frame.L p pc pv (T.node sl s Color.Black sv sr) :: C1) (T.node l n c v r) k
        t' C' := by
  by_cases hch : sl.color = Color.Black ∧ sr.color = Color.Black
  · cases pc with
    | Black =>
      obtain ⟨t1, hk1, e1⟩ := deleteCase2_recL h hch.1 hch.2
      simp at hctx
      obtain ⟨t', C1', ht', hpost⟩ := ih C1 t1 _ _ p _ pv (k + 1) (hlen rfl) e1.rep hctx
      obtain ⟨hr', hok', hb', ha', hs', ho', hne'⟩ := hpost
      refine ⟨t', Frame.L p Color.Black pv (T.node sl s Color.Red sv sr) :: C1', ?_, hr', ?_,
        ?_, ?_, hs'.trans e1.2.2.1, ?_, by simp⟩
      · rw [hk1]; exact ht'
      · simp only [CtxOK, Frame.sib_L, Frame.col_L]
        exact ⟨by simp [hsl1, hsr1, hch], by simp [hsl2, hsr2, hsl3, hsr3], by simp [hsl3],
          by simp, by simpa using hok'⟩
      · simp [hb']
      · simp [ha']
      · refine e1.2.2.2.trans (ho'.mono ?_)
        intro x hx
        have := e1.addrs_eq
        simp only [plug_cons, fill_L] at this ⊢
        rw [← this]; exact hx
    | Red =>
      obtain ⟨t1, ht1, e1⟩ := deleteCase3_doneL h hch.1 hch.2
      simp at hctx
      refine ⟨t1, Frame.L p Color.Black pv (T.node sl s Color.Red sv sr) :: C1, ?_,
        DelPost.of_evolves e1 ?_ (by simp) (by simp) (by simp)⟩
      · rw [deleteCase2_skipL h (by simp)]; exact ht1
      · simp only [CtxOK, Frame.sib_L, Frame.col_L]
        exact ⟨by simp [hsl1, hsr1, hch], by simp [hsl2, hsr2, hsl3, hsr3], by simp [hsl3],
          by simp, by simpa using CtxOK_to_black _ _ _ hctx⟩
  · have hc2 : ¬ (pc = Color.Black ∧ Color.Black = Color.Black ∧ sl.color = Color.Black ∧
        sr.color = Color.Black) := fun hh => hch ⟨hh.2.2.1, hh.2.2.2⟩
    have hc3 : ¬ (pc = Color.Red ∧ Color.Black = Color.Black ∧ sl.color = Color.Black ∧
        sr.color = Color.Black) := fun hh => hch ⟨hh.2.2.1, hh.2.2.2⟩
    have htop := CtxOK_topColor _ _ _ hctx
    by_cases hsr : sr.color = Color.Black
    · have hslr : ¬ sl.color = Color.Black := fun hh => hch ⟨hh, hsr⟩
      obtain ⟨sll, x, xv, slr, rfl⟩ := T.red_cases sl hslr
      obtain ⟨t1, ht1, e1⟩ := deleteCase4_rotL h hsr
      obtain ⟨t2, ht2, e2⟩ := deleteCase5_L (C := C1) e1.rep
      rw [htop] at e2
      simp at hsl1 hsl2 hsl3
      refine ⟨t2, Frame.L p Color.Black pv sll ::
        Frame.L x pc xv (T.node slr s Color.Black sv sr) :: C1, ?_,
        DelPost.of_evolves (e1.andThen e2) ?_ (by simp) (by simp) (by simp)⟩
      · rw [deleteCase2_skipL h hc2, deleteCase3_skipL h hc3, ht1]; exact ht2
      · simp only [CtxOK, Frame.sib_L, Frame.col_L]
        refine ⟨hsl1.2.1, hsl2.2.1, hsl3, by simp, by simp [hsl1, hsr1],
          by simp [hsl2, hsr2]; omega, by simp; omega, by simp, ?_⟩
        simpa using hctx
    · obtain ⟨srl, y, yv, srr, rfl⟩ := T.red_cases sr hsr
      obtain ⟨t2, ht2, e2⟩ := deleteCase5_L (C := C1) h
      rw [htop] at e2
      simp at hsr1 hsr2 hsr3
      refine ⟨t2, Frame.L p Color.Black pv sl ::
        Frame.L s pc sv (T.node srl y Color.Black yv srr) :: C1, ?_,
        DelPost.of_evolves e2 ?_ (by simp) (by simp) (by simp)⟩
      · rw [deleteCase2_skipL h hc2, deleteCase3_skipL h hc3, deleteCase4_skipL h (by simp)]
        exact ht2
      · simp only [CtxOK, Frame.sib_L, Frame.col_L]
        refine ⟨hsl1, hsl2, hsl3, by simp, by simp [hsr1],
          by simp [hsr2], by simp; omega, by simp, ?_⟩
        simpa using hctx

/-- Fix-up with a black brother on the left (cases 2 to 5). -/
theorem delete_inner_R (fuel : Nat)
    (ih : ∀ (C : List (Frame V)) (t : RBTree V) (l r : T V) (n : Nat) (c : Color) (v : V)
      (k : Nat), C.length < fuel → Represents t (plug C (T.node l n c v r)) →
      CtxOK C (k + 1) Color.Black →
      ∃ t' C', deleteCase1_brotherRed fuel t n = some t' ∧
        DelPost t C (T.node l n c v r) k t' C')
    (C1 : List (Frame V)) (t : RBTree V) (l r sl sr : T V) (n p s : Nat) (c pc : Color)
    (v pv sv : V) (k : Nat)
    (hlen : pc = Color.Black → C1.length < fuel)
    (h : Represents t (plug C1 (T.node (T.node sl s Color.Black sv sr) p pc pv
      (T.node l n c v r))))
    (hsl1 : sl.NoRedRed) (hsr1 : sr.NoRedRed) (hsl2 : sl.Balanced) (hsr2 : sr.Balanced)
    (hsl3 : sl.bh = k) (hsr3 : sr.bh = k)
    (hctx : CtxOK C1 (k + 1 + (if pc = Color.Black then 1 else 0)) pc) :
    ∃ t' C', deleteCase2_parentBrotherChildrenBlack (deleteCase1_brotherRed fuel) t n
        = some t' ∧
      DelPost t (Frame.R (T.node sl s Color.Black sv sr) p pc pv :: C1) (T.node l n c v r) k
        t' C' := by
  by_cases hch : sl.color = Color.Black ∧ sr.color = Color.Black
  · cases pc with
    | Black =>
      obtain ⟨t1, hk1, e1⟩ := deleteCase2_recR h hch.1 hch.2
      simp at hctx
      obtain ⟨t', C1', ht', hpost⟩ := ih C1 t1 _ _ p _ pv (k + 1) (hlen rfl) e1.rep hctx
      obtain ⟨hr', hok', hb', ha', hs', ho', hne'⟩ := hpost
      refine ⟨t', Frame.R (T.node sl s Color.Red sv sr) p Color.Black pv :: C1', ?_, hr', ?_,
        ?_, ?_, hs'.trans e1.2.2.1, ?_, by simp⟩
      · rw [hk1]; exact ht'
      · simp only [CtxOK, Frame.sib_R, Frame.col_R]
        exact ⟨by simp [hsl1, hsr1, hch], by simp [hsl2, hsr2, hsl3, hsr3], by simp [hsl3],
          by simp, by simpa using hok'⟩
      · simp [hb']
      · simp [ha']
      · refine e1.2.2.2.trans (ho'.mono ?_)
        intro x hx
        have := e1.addrs_eq
        simp only [plug_cons, fill_R] at this ⊢
        rw [← this]; exact hx
    | Red =>
      obtain ⟨t1, ht1, e1⟩ := deleteCase3_doneR h hch.1 hch.2
      simp at hctx
      refine ⟨t1, Frame.R (T.node sl s Color.Red sv sr) p Color.Black pv :: C1, ?_,
        DelPost.of_evolves e1 ?_ (by simp) (by simp) (by simp)⟩
      · rw [deleteCase2_skipR h (by simp)]; exact ht1
      · simp only [CtxOK, Frame.sib_R, Frame.col_R]
        exact ⟨by simp [hsl1, hsr1, hch], by simp [hsl2, hsr2, hsl3, hsr3], by simp [hsl3],
          by simp, by simpa using CtxOK_to_black _ _ _ hctx⟩
  · have hc2 : ¬ (pc = Color.Black ∧ Color.Black = Color.Black ∧ sl.color = Color.Black ∧
        sr.color = Color.Black) := fun hh => hch ⟨hh.2.2.1, hh.2.2.2⟩
    have hc3 : ¬ (pc = Color.Red ∧ Color.Black = Color.Black ∧ sl.color = Color.Black ∧
        sr.color = Color.Black) := fun hh => hch ⟨hh.2.2.1, hh.2.2.2⟩
    have htop := CtxOK_topColor _ _ _ hctx
    by_cases hsl : sl.color = Color.Black
    · have hsrr : ¬ sr.color = Color.Black := fun hh => hch ⟨hsl, hh⟩
      obtain ⟨srl, x, xv, srr, rfl⟩ := T.red_cases sr hsrr
      obtain ⟨t1, ht1, e1⟩ := deleteCase4_rotR h hsl
      obtain ⟨t2, ht2, e2⟩ := deleteCase5_R (C := C1) e1.rep
      rw [htop] at e2
      simp at hsr1 hsr2 hsr3
      refine ⟨t2, Frame.R srr p Color.Black pv ::
        Frame.R (T.node sl s Color.Black sv srl) x pc xv :: C1, ?_,
        DelPost.of_evolves (e1.andThen e2) ?_ (by simp) (by simp) (by simp)⟩
      · rw [deleteCase2_skipR h hc2, deleteCase3_skipR h hc3, ht1]; exact ht2
      · simp only [CtxOK, Frame.sib_R, Frame.col_R]
        refine ⟨hsr1.2.2, hsr2.2.2, by omega, by simp, by simp [hsl1, hsr1],
          by simp [hsl2, hsr2]; omega, by simp; omega, by simp, ?_⟩
        simpa using hctx
    · obtain ⟨sll, y, yv, slr, rfl⟩ := T.red_cases sl hsl
      obtain ⟨t2, ht2, e2⟩ := deleteCase5_R (C := C1) h
      rw [htop] at e2
      simp at hsl1 hsl2 hsl3
      refine ⟨t2, Frame.R sr p Color.Black pv ::
        Frame.R (T.node sll y Color.Black yv slr) s pc sv :: C1, ?_,
        DelPost.of_evolves e2 ?_ (by simp) (by simp) (by simp)⟩
      · rw [deleteCase2_skipR h hc2, deleteCase3_skipR h hc3, deleteCase4_skipR h (by simp)]
        exact ht2
      · simp only [CtxOK, Frame.sib_R, Frame.col_R]
        refine ⟨hsr1, hsr2, hsr3, by simp, by simp [hsl1],
          by simp [hsl2], by simp; omega, by simp, ?_⟩
        simpa using hctx

theorem DelPost.after_evolves {t t1 t' : RBTree V} {C E C' : List (Frame V)} {N : T V}
    {k : Nat} (e : Evolves t (plug C N) t1 (plug E N)) (hp : DelPost t1 E N k t' C')
    (hb : ctxBeforeL E = ctxBeforeL C) (ha : ctxAfterL E = ctxAfterL C)
    (hne : C = [] ↔ E = []) : DelPost t C N k t' C' := by
  obtain ⟨hr', hok', hb', ha', hs', ho', hne'⟩ := hp
  refine ⟨hr', hok', hb'.trans hb, ha'.trans ha, hs'.trans e.2.2.1, ?_, hne.trans hne'⟩
  refine e.2.2.2.trans (ho'.mono ?_)
  intro x hx
  rw [← e.addrs_eq]; exact hx

/-- The delete fix-up terminates and repairs a black-height deficit of one at the subject:
afterwards the subject sits in a path that is fine for a black subtree one shorter than
before, with the same nodes on either side. -/
theorem deleteCase1_spec (fuel : Nat) :
    ∀ (C : List (Frame V)) (t : RBTree V) (l r : T V) (n : Nat) (c : Color) (v : V)
      (k : Nat), C.length < fuel → Represents t (plug C (T.node l n c v r)) →
      CtxOK C (k + 1) Color.Black →
      ∃ t' C', deleteCase1_brotherRed fuel t n = some t' ∧
        DelPost t C (T.node l n c v r) k t' C' := by
  induction fuel with
  | zero => intro C t l r n c v k hlen; omega
  | succ fuel ih =>
    intro C t l r n c v k hlen h hctx
    have hn := h.read
    cases C with
    | nil =>
      simp at hn
      refine ⟨t, [], by simp [deleteCase1_brotherRed, hn], h, by simp [CtxOK], rfl, rfl, rfl,
        SameOutside.refl _ _, by simp⟩
    | cons f C1 =>
      have hlen1 : C1.length < fuel := by simp at hlen; omega
      cases f with
      | L p pc pv S =>
        simp only [CtxOK, Frame.sib_L, Frame.col_L] at hctx
        obtain ⟨hS1, hS2, hS3, hS4, hctx1⟩ := hctx
        obtain ⟨sl, s, sc, sv, sr, rfl⟩ := T.black_node_of_bh S k hS3
        simp at hS1 hS2 hS3 hS4
        cases sc with
        | Black =>
          simp at hS3
          obtain ⟨t', C', ht', hpost⟩ := delete_inner_L fuel ih C1 t l r sl sr n p s c pc v pv sv k
            (fun _ => hlen1) h hS1.2.1 hS1.2.2 hS2.2.1 hS2.2.2 hS3 (by omega) hctx1
          exact ⟨t', C', by rw [deleteCase1_blackL fuel h rfl]; exact ht', hpost⟩
        | Red =>
          have hpc : pc = Color.Black := Color.ne_red (fun e => by simpa using hS4 e)
          subst hpc
          simp at hS3 hS1 hctx1
          obtain ⟨t1, ht1, e1⟩ := deleteCase1_redL fuel h
          obtain ⟨sll, x, xc, xv, slr, rfl⟩ := T.black_node_of_bh sl k hS3
          have hxc : xc = Color.Black := by simpa using hS1.1.1
          subst hxc
          simp at hS1 hS2 hS3
          obtain ⟨t', C', ht', hpost⟩ := delete_inner_L fuel ih
            (Frame.L s Color.Black sv sr :: C1) t1 l r sll slr n p x c Color.Red v pv xv k
            (fun e => by cases e) e1.rep hS1.2.1.1 hS1.2.1.2 hS2.2.1.2.1 hS2.2.1.2.2 hS3
            (by omega)
            (by
              simp only [CtxOK, Frame.sib_L, Frame.col_L]
              exact ⟨hS1.2.2, hS2.2.2, by simp; omega, by simp, by simpa using hctx1⟩)
          refine ⟨t', C', by rw [ht1]; exact ht', ?_⟩
          exact DelPost.after_evolves
            (E := Frame.L p Color.Red pv (T.node sll x Color.Black xv slr) ::
              Frame.L s Color.Black sv sr :: C1) e1 hpost (by simp) (by simp) (by simp)
      | R S p pc pv =>
        simp only [CtxOK, Frame.sib_R, Frame.col_R] at hctx
        obtain ⟨hS1, hS2, hS3, hS4, hctx1⟩ := hctx
        obtain ⟨sl, s, sc, sv, sr, rfl⟩ := T.black_node_of_bh S k hS3
        simp at hS1 hS2 hS3 hS4
        cases sc with
        | Black =>
          simp at hS3
          obtain ⟨t', C', ht', hpost⟩ := delete_inner_R fuel ih C1 t l r sl sr n p s c pc v pv sv k
            (fun _ => hlen1) h hS1.2.1 hS1.2.2 hS2.2.1 hS2.2.2 hS3 (by omega) hctx1
          exact ⟨t', C', by rw [deleteCase1_blackR fuel h rfl]; exact ht', hpost⟩
        | Red =>
          have hpc : pc = Color.Black := Color.ne_red (fun e => by simpa using hS4 e)
          subst hpc
          simp at hS3 hS1 hctx1
          obtain ⟨t1, ht1, e1⟩ := deleteCase1_redR fuel h
          have hsr3 : sr.bh = k + 1 := by omega
          obtain ⟨srl, x, xc, xv, srr, rfl⟩ := T.black_node_of_bh sr k hsr3
          have hxc : xc = Color.Black := by simpa using hS1.1.2
          subst hxc
          simp at hS1 hS2 hS3 hsr3
          obtain ⟨t', C', ht', hpost⟩ := delete_inner_R fuel ih
            (Frame.R sl s Color.Black sv :: C1) t1 l r srl srr n p x c Color.Red v pv xv k
            (fun e => by cases e) e1.rep hS1.2.2.1 hS1.2.2.2 hS2.2.2.2.1 hS2.2.2.2.2
            (by omega) (by omega)
            (by
              simp only [CtxOK, Frame.sib_R, Frame.col_R]
              exact ⟨hS1.2.1, hS2.2.1, by simp; omega, by simp, by simpa using hctx1⟩)
          refine ⟨t', C', by rw [ht1]; exact ht', ?_⟩
          exact DelPost.after_evolves
            (E := Frame.R (T.node srl x Color.Black xv srr) p Color.Red pv ::
              Frame.R sl s Color.Black sv :: C1) e1 hpost (by simp) (by simp) (by simp)

end DelFix1

end nex

set_option autoImplicit false
set_option linter.unnecessarySeqFocus false
set_option linter.unusedTactic false
set_option linter.unreachableTactic false

namespace nex

section Inner

variable {V : Type}

@[simp] theorem ctxParT_nil (top : Option Nat) : ctxParT top ([] : List (Frame V)) = top := rfl
@[simp] theorem ctxParT_cons (top : Option Nat) (f : Frame V) (fs : List (Frame V)) :
    ctxParT top (f :: fs) = some f.addr := rfl

theorem ctxParT_none (fs : List (Frame V)) : ctxParT none fs = ctxPar fs := by
  cases fs <;> rfl

@[simp] theorem ReprCtxT_nil (m : Mem V) (top hole : Option Nat) : ReprCtxT m top [] hole :=
  trivial
@[simp] theorem ReprCtxT_L (m : Mem V) (top : Option Nat) (a : Nat) (c : Color) (v : V)
    (r : T V) (fs : List (Frame V)) (hole : Option Nat) :
    ReprCtxT m top (Frame.L a c v r :: fs) hole ↔
      m a = { left := hole, right := r.ptr, parent := ctxParT top fs, value := v, color := c } ∧
      Repr m r (some a) ∧ ReprCtxT m top fs (some a) := Iff.rfl
@[simp] theorem ReprCtxT_R (m : Mem V) (top : Option Nat) (a : Nat) (c : Color) (v : V)
    (l : T V) (fs : List (Frame V)) (hole : Option Nat) :
    ReprCtxT m top (Frame.R l a c v :: fs) hole ↔
      m a = { left := l.ptr, right := hole, parent := ctxParT top fs, value := v, color := c } ∧
      Repr m l (some a) ∧ ReprCtxT m top fs (some a) := Iff.rfl

theorem Repr_plugT (m : Mem V) (top : Option Nat) (fs : List (Frame V)) (t : T V) :
    Repr m (plug fs t) top ↔ ReprCtxT m top fs t.ptr ∧ Repr m t (ctxParT top fs) := by
  induction fs generalizing t with
  | nil => simp
  | cons f fs ih =>
    cases f with
    | L a c v r => simp [ih]; tauto
    | R l a c v => simp [ih]; tauto

theorem plug_append (D E : List (Frame V)) (s : T V) :
    plug (D ++ E) s = plug E (plug D s) := by
  induction D generalizing s with
  | nil => rfl
  | cons f D ih => simp [ih]

theorem ctxBeforeL_append (D E : List (Frame V)) :
    ctxBeforeL (D ++ E) = ctxBeforeL E ++ ctxBeforeL D := by
  induction D with
  | nil => simp
  | cons f D ih => cases f <;> simp [ih]

theorem ctxAfterL_append (D E : List (Frame V)) :
    ctxAfterL (D ++ E) = ctxAfterL D ++ ctxAfterL E := by
  induction D with
  | nil => simp
  | cons f D ih => cases f <;> simp [ih]

theorem ctxBefore_append (D E : List (Frame V)) :
    ctxBefore (D ++ E) = ctxBefore E ++ ctxBefore D := by
  induction D with
  | nil => simp
  | cons f D ih => cases f <;> simp [ih]

theorem ctxAfter_append (D E : List (Frame V)) :
    ctxAfter (D ++ E) = ctxAfter D ++ ctxAfter E := by
  induction D with
  | nil => simp
  | cons f D ih => cases f <;> simp [ih]

theorem ReprCtxT_congr (m m' : Mem V) (top : Option Nat) (fs : List (Frame V))
    (hole : Option Nat)
    (h : ∀ a, a ∈ ctxBefore fs ∨ a ∈ ctxAfter fs → m' a = m a) (hr : ReprCtxT m top fs hole) :
    ReprCtxT m' top fs hole := by
  induction fs generalizing hole with
  | nil => trivial
  | cons f fs ih =>
    cases f with
    | L a c v r =>
      simp at hr ⊢
      refine ⟨?_, Repr_congr m m' r _ ?_ hr.2.1, ih _ ?_ hr.2.2⟩
      · rw [h a (by simp)]; exact hr.1
      · intro x hx; exact h x (by simp [hx])
      · intro x hx; exact h x (by simp; tauto)
    | R l a c v =>
      simp at hr ⊢
      refine ⟨?_, Repr_congr m m' l _ ?_ hr.2.1, ih _ ?_ hr.2.2⟩
      · rw [h a (by simp)]; exact hr.1
      · intro x hx; exact h x (by simp [hx])
      · intro x hx; exact h x (by simp; tauto)

/-- The root pointer of a non-empty path closed over anything. -/
theorem ptr_plug_mem (f : Frame V) (fs : List (Frame V)) (s : T V) :
    ∃ x, (plug (f :: fs) s).ptr = some x ∧ (x ∈ ctxBefore (f :: fs) ∨ x ∈ ctxAfter (f :: fs)) := by
  induction fs generalizing f s with
  | nil => cases f <;> simp
  | cons g fs ih =>
    obtain ⟨x, hx, hm⟩ := ih g (f.fill s)
    refine ⟨x, hx, ?_⟩
    cases f <;> simp at hm ⊢ <;> tauto

/-- Re-hanging an inner path below another parent: only the parent link of its topmost
node changes. -/
theorem ReprCtxT_retop (m m' : Mem V) (top top' : Option Nat) :
    ∀ (D : List (Frame V)) (hole : Option Nat),
      (ctxBefore D ++ ctxAfter D).Nodup →
      ReprCtxT m top D hole →
      (∀ x, (plug D T.nil).ptr = some x → D ≠ [] → m' x = { m x with parent := top' }) →
      (∀ x, x ∈ ctxBefore D ∨ x ∈ ctxAfter D → (plug D T.nil).ptr ≠ some x → m' x = m x) →
      ReprCtxT m' top' D hole := by
  intro D
  induction D with
  | nil => intro hole _ _ _ _; trivial
  | cons g D ih =>
    intro hole hnd hr htop hrest
    have hc := counts_of_nodup hnd
    have hsubnd : (ctxBefore D ++ ctxAfter D).Nodup := by
      cases g with
      | L a c v r =>
        refine hnd.sublist ?_
        simp only [ctxBefore_L, ctxAfter_L]
        exact List.Sublist.append (List.Sublist.refl _)
          ((List.sublist_append_right _ _).trans (List.sublist_cons_self _ _))
      | R l a c v =>
        refine hnd.sublist ?_
        simp only [ctxBefore_R, ctxAfter_R]
        exact List.Sublist.append (List.sublist_append_left _ _) (List.Sublist.refl _)
    cases D with
    | nil =>
      cases g with
      | L a c v r =>
        simp at hr ⊢
        simp only [ctxBefore_L, ctxAfter_L, ctxBefore_nil, ctxAfter_nil, List.count_append,
          count_cons_one, List.count_nil] at hc
        have := htop a (by simp) (by simp)
        refine ⟨by rw [this, hr.1], Repr_congr m m' r _ ?_ hr.2⟩
        intro x hx
        refine hrest x (by simp [hx]) ?_
        have : x ≠ a := ne_of_one (by have := hc x; have := mem_pos hx; omega)
        simpa using fun e => this e.symm
      | R l a c v =>
        simp at hr ⊢
        simp only [ctxBefore_R, ctxAfter_R, ctxBefore_nil, ctxAfter_nil, List.count_append,
          count_cons_one, List.count_nil] at hc
        have := htop a (by simp) (by simp)
        refine ⟨by rw [this, hr.1], Repr_congr m m' l _ ?_ hr.2⟩
        intro x hx
        refine hrest x (by simp [hx]) ?_
        have : x ≠ a := ne_of_one (by have := hc x; have := mem_pos hx; omega)
        simpa using fun e => this e.symm
    | cons g2 D2 =>
      obtain ⟨top0, htop0, htopmem⟩ := ptr_plug_mem g2 D2 (T.nil : T V)
      have hptr : ∀ s : T V, (plug (g :: g2 :: D2) s).ptr = some top0 := by
        intro s
        rw [plug_cons, ← htop0]
        exact ptr_plug_cons g2 D2 _ _
      have hrec : ReprCtxT m' top' (g2 :: D2) (some g.addr) := by
        refine ih (some g.addr) hsubnd ?_ ?_ ?_
        · cases g <;> simp at hr <;> exact hr.2.2
        · intro x hx _
          exact htop x (by rw [hptr]; rw [htop0] at hx; exact hx) (by simp)
        · intro x hx hne
          refine hrest x ?_ (by rw [hptr]; rw [htop0] at hne; exact hne)
          cases g <;> simp at hx ⊢ <;> tauto
      cases g with
      | L a c v r =>
        simp only [ReprCtxT_L] at hr ⊢
        simp only [ctxBefore_L, ctxAfter_L, List.count_append, count_cons_one] at hc
        have hane : a ≠ top0 := fun e => by
          subst e
          have := hc a; have := one_self a
          rcases htopmem with hm | hm <;> have := mem_pos hm <;> omega
        have h1 := hrest a (by simp) (by rw [hptr]; simpa using fun e => hane e.symm)
        refine ⟨by rw [h1, hr.1]; rfl, Repr_congr m m' r _ ?_ hr.2.1, hrec⟩
        intro x hx
        refine hrest x (by simp [hx]) ?_
        rw [hptr]
        have : x ≠ top0 := fun e => by
          subst e
          have := hc x; have := mem_pos hx
          rcases htopmem with hm | hm <;> have := mem_pos hm <;> omega
        simpa using fun e => this e.symm
      | R l a c v =>
        simp only [ReprCtxT_R] at hr ⊢
        simp only [ctxBefore_R, ctxAfter_R, List.count_append, count_cons_one,
          List.count_nil] at hc
        have hane : a ≠ top0 := fun e => by
          subst e
          have := hc a; have := one_self a
          rcases htopmem with hm | hm <;> have := mem_pos hm <;> omega
        have h1 := hrest a (by simp) (by rw [hptr]; simpa using fun e => hane e.symm)
        refine ⟨by rw [h1, hr.1]; rfl, Repr_congr m m' l _ ?_ hr.2.1, hrec⟩
        intro x hx
        refine hrest x (by simp [hx]) ?_
        rw [hptr]
        have : x ≠ top0 := fun e => by
          subst e
          have := hc x; have := mem_pos hx
          rcases htopmem with hm | hm <;> have := mem_pos hm <;> omega
        simpa using fun e => this e.symm

end Inner

end nex

set_option autoImplicit false
set_option linter.unnecessarySeqFocus false
set_option linter.unusedTactic false
set_option linter.unreachableTactic false
set_option maxHeartbeats 1600000

namespace nex

section SwapEval

variable {V : Type}

/-- `swapValues` on the rightmost node `d` of the left subtree of `n`, where `d` is the
right child of a node `p` other than `n`. -/
theorem swapValues_far (m : Mem V) (n d p lr : Nat) (dlp rp par plp ppar : Option Nat)
    (v dv pv : V) (c dc pc : Color)
    (hn : m n = { left := some lr, right := rp, parent := par, value := v, color := c })
    (hd : m d = { left := dlp, right := none, parent := some p, value := dv, color := dc })
    (hp : m p = { left := plp, right := some d, parent := ppar, value := pv, color := pc })
    (hnd : n ≠ d) (hnp : n ≠ p) (hdp : d ≠ p) (hlrn : lr ≠ n) (hlrd : lr ≠ d)
    (hdl1 : dlp ≠ some n) (hdl2 : dlp ≠ some d) (hdl3 : dlp ≠ some p) (hdl4 : dlp ≠ some lr)
    (hr1 : rp ≠ some n) (hr2 : rp ≠ some d) (hr3 : rp ≠ some p) (hr4 : rp ≠ some lr)
    (hdlr : dlp = none ∨ dlp ≠ rp)
    (hg1 : par ≠ some n) (hg2 : par ≠ some d) (hg3 : par ≠ some p) (hg4 : par ≠ some lr)
    (hg5 : par = none ∨ (par ≠ dlp ∧ par ≠ rp))
    (hplp : plp ≠ some d) :
    swapValues m d n d =
        { left := some lr, right := rp, parent := par, value := dv, color := c } ∧
      swapValues m d n n =
        { left := dlp, right := none, parent := some p, value := v, color := dc } ∧
      swapValues m d n p =
        { left := plp, right := some n, parent := if lr = p then some d else ppar,
          value := pv, color := pc } ∧
      (lr ≠ p → swapValues m d n lr = { m lr with parent := some d }) ∧
      (∀ x, dlp = some x → swapValues m d n x = { m x with parent := some n }) ∧
      (∀ x, rp = some x → swapValues m d n x = { m x with parent := some d }) ∧
      (∀ g, par = some g → swapValues m d n g =
        if (m g).left = some n then { m g with left := some d }
        else { m g with right := some d }) ∧
      (∀ x, x ≠ n → x ≠ d → x ≠ p → x ≠ lr → dlp ≠ some x → rp ≠ some x → par ≠ some x →
        swapValues m d n x = m x) := by
  have hdn := hnd.symm
  have hpn := hnp.symm
  have hpd := hdp.symm
  have hnlr := hlrn.symm
  have hdlr' := hlrd.symm
  rcases dlp with _ | dl <;> rcases rp with _ | rr <;> rcases par with _ | g <;>
    simp at hdl1 hdl2 hdl3 hdl4 hr1 hr2 hr3 hr4 hdlr hg1 hg2 hg3 hg4 hg5
  all_goals (first | have hdl1' := Ne.symm hdl1 | skip)
  all_goals (first | have hdl2' := Ne.symm hdl2 | skip)
  all_goals (first | have hdl3' := Ne.symm hdl3 | skip)
  all_goals (first | have hdl4' := Ne.symm hdl4 | skip)
  all_goals (first | have hr1' := Ne.symm hr1 | skip)
  all_goals (first | have hr2' := Ne.symm hr2 | skip)
  all_goals (first | have hr3' := Ne.symm hr3 | skip)
  all_goals (first | have hr4' := Ne.symm hr4 | skip)
  all_goals (first | have hdlr'' := Ne.symm hdlr | skip)
  all_goals (first | have hg1' := Ne.symm hg1 | skip)
  all_goals (first | have hg2' := Ne.symm hg2 | skip)
  all_goals (first | have hg3' := Ne.symm hg3 | skip)
  all_goals (first | have hg4' := Ne.symm hg4 | skip)
  all_goals (first | have hg5a := Ne.symm hg5.1 | have hg5a := Ne.symm hg5 | skip)
  all_goals (first | have hg5b := Ne.symm hg5.2 | skip)
  all_goals (first | have hg5c := hg5.1 | skip)
  all_goals (first | have hg5d := hg5.2 | skip)
  all_goals (first | (by_cases hgl : (m g).left = some n) | skip)
  all_goals
    by_cases hlp : lr = p
    · subst hlp
      refine ⟨?_, ?_, ?_, ?_, ?_, ?_, ?_, ?_⟩
      · simp [swapValues, setLeft, setRight, setP_apply, setL_apply, setR_apply, setC_apply,
          hn, hd, hp, *]
      · simp [swapValues, setLeft, setRight, setP_apply, setL_apply, setR_apply, setC_apply,
          hn, hd, hp, *]
      · simp [swapValues, setLeft, setRight, setP_apply, setL_apply, setR_apply, setC_apply,
          hn, hd, hp, *]
      · intro h; exact absurd rfl h
      · intro x hx
        simp at hx <;>
        (subst hx
         simp [swapValues, setLeft, setRight, setP_apply, setL_apply, setR_apply, setC_apply,
          hn, hd, hp, *])
      · intro x hx
        simp at hx <;>
        (subst hx
         simp [swapValues, setLeft, setRight, setP_apply, setL_apply, setR_apply, setC_apply,
          hn, hd, hp, *])
      · intro x hx
        simp at hx <;>
        (subst hx
         simp [swapValues, setLeft, setRight, setP_apply, setL_apply, setR_apply, setC_apply,
          hn, hd, hp, *])
      · intro x h1 h2 h3 h4 h5 h6 h7
        simp at h5 h6 h7
        first | have h5' := Ne.symm h5 | skip
        first | have h6' := Ne.symm h6 | skip
        first | have h7' := Ne.symm h7 | skip
        simp [swapValues, setLeft, setRight, setP_apply, setL_apply, setR_apply, setC_apply,
          hn, hd, hp, *]
    · have hlp' := Ne.symm hlp
      refine ⟨?_, ?_, ?_, ?_, ?_, ?_, ?_, ?_⟩
      · simp [swapValues, setLeft, setRight, setP_apply, setL_apply, setR_apply, setC_apply,
          hn, hd, hp, *]
      · simp [swapValues, setLeft, setRight, setP_apply, setL_apply, setR_apply, setC_apply,
          hn, hd, hp, *]
      · simp [swapValues, setLeft, setRight, setP_apply, setL_apply, setR_apply, setC_apply,
          hn, hd, hp, *]
      · intro _
        simp [swapValues, setLeft, setRight, setP_apply, setL_apply, setR_apply, setC_apply,
          hn, hd, hp, *]
      · intro x hx
        simp at hx <;>
        (subst hx
         simp [swapValues, setLeft, setRight, setP_apply, setL_apply, setR_apply, setC_apply,
          hn, hd, hp, *])
      · intro x hx
        simp at hx <;>
        (subst hx
         simp [swapValues, setLeft, setRight, setP_apply, setL_apply, setR_apply, setC_apply,
          hn, hd, hp, *])
      · intro x hx
        simp at hx <;>
        (subst hx
         simp [swapValues, setLeft, setRight, setP_apply, setL_apply, setR_apply, setC_apply,
          hn, hd, hp, *])
      · intro x h1 h2 h3 h4 h5 h6 h7
        simp at h5 h6 h7
        first | have h5' := Ne.symm h5 | skip
        first | have h6' := Ne.symm h6 | skip
        first | have h7' := Ne.symm h7 | skip
        simp [swapValues, setLeft, setRight, setP_apply, setL_apply, setR_apply, setC_apply,
          hn, hd, hp, *]

/-- `swapValues` on `n` and its left child `d`, which has no right child. -/
theorem swapValues_adjL (m : Mem V) (n d : Nat) (dlp rp par : Option Nat)
    (v dv : V) (c dc : Color)
    (hn : m n = { left := some d, right := rp, parent := par, value := v, color := c })
    (hd : m d = { left := dlp, right := none, parent := some n, value := dv, color := dc })
    (hnd : n ≠ d)
    (hdl1 : dlp ≠ some n) (hdl2 : dlp ≠ some d)
    (hr1 : rp ≠ some n) (hr2 : rp ≠ some d)
    (hdlr : dlp = none ∨ dlp ≠ rp)
    (hg1 : par ≠ some n) (hg2 : par ≠ some d)
    (hg5 : par = none ∨ (par ≠ dlp ∧ par ≠ rp)) :
    swapValues m d n d =
        { left := some n, right := rp, parent := par, value := dv, color := c } ∧
      swapValues m d n n =
        { left := dlp, right := none, parent := some d, value := v, color := dc } ∧
      (∀ x, dlp = some x → swapValues m d n x = { m x with parent := some n }) ∧
      (∀ x, rp = some x → swapValues m d n x = { m x with parent := some d }) ∧
      (∀ g, par = some g → swapValues m d n g =
        if (m g).left = some n then { m g with left := some d }
        else { m g with right := some d }) ∧
      (∀ x, x ≠ n → x ≠ d → dlp ≠ some x → rp ≠ some x → par ≠ some x →
        swapValues m d n x = m x) := by
  have hdn := hnd.symm
  rcases dlp with _ | dl <;> rcases rp with _ | rr <;> rcases par with _ | g <;>
    simp at hdl1 hdl2 hr1 hr2 hdlr hg1 hg2 hg5
  all_goals (first | have hdl1' := Ne.symm hdl1 | skip)
  all_goals (first | have hdl2' := Ne.symm hdl2 | skip)
  all_goals (first | have hr1' := Ne.symm hr1 | skip)
  all_goals (first | have hr2' := Ne.symm hr2 | skip)
  all_goals (first | have hdlr'' := Ne.symm hdlr | skip)
  all_goals (first | have hg1' := Ne.symm hg1 | skip)
  all_goals (first | have hg2' := Ne.symm hg2 | skip)
  all_goals (first | have hg5a := Ne.symm hg5.1 | have hg5a := Ne.symm hg5 | skip)
  all_goals (first | have hg5b := Ne.symm hg5.2 | skip)
  all_goals (first | have hg5c := hg5.1 | skip)
  all_goals (first | have hg5d := hg5.2 | skip)
  all_goals (first | (by_cases hgl : (m g).left = some n) | skip)
  all_goals
    refine ⟨?_, ?_, ?_, ?_, ?_, ?_⟩
    · simp [swapValues, setLeft, setRight, setP_apply, setL_apply, setR_apply, setC_apply,
          hn, hd, *]
    · simp [swapValues, setLeft, setRight, setP_apply, setL_apply, setR_apply, setC_apply,
          hn, hd, *]
    · intro x hx
      simp at hx <;>
      (subst hx
       simp [swapValues, setLeft, setRight, setP_apply, setL_apply, setR_apply, setC_apply,
          hn, hd, *])
    · intro x hx
      simp at hx <;>
      (subst hx
       simp [swapValues, setLeft, setRight, setP_apply, setL_apply, setR_apply, setC_apply,
          hn, hd, *])
    · intro x hx
      simp at hx <;>
      (subst hx
       simp [swapValues, setLeft, setRight, setP_apply, setL_apply, setR_apply, setC_apply,
          hn, hd, *])
    · intro x h1 h2 h5 h6 h7
      simp at h5 h6 h7
      first | have h5' := Ne.symm h5 | skip
      first | have h6' := Ne.symm h6 | skip
      first | have h7' := Ne.symm h7 | skip
      simp [swapValues, setLeft, setRight, setP_apply, setL_apply, setR_apply, setC_apply,
          hn, hd, *]

/-- `swapValues` on `n`, which has no left child, and its right child `d`, which has no
left child. -/
theorem swapValues_adjR (m : Mem V) (n d : Nat) (dlp par : Option Nat)
    (v dv : V) (c dc : Color)
    (hn : m n = { left := none, right := some d, parent := par, value := v, color := c })
    (hd : m d = { left := none, right := dlp, parent := some n, value := dv, color := dc })
    (hnd : n ≠ d)
    (hdl1 : dlp ≠ some n) (hdl2 : dlp ≠ some d)
    (hg1 : par ≠ some n) (hg2 : par ≠ some d)
    (hg5 : par = none ∨ par ≠ dlp) :
    swapValues m d n d =
        { left := none, right := some n, parent := par, value := dv, color := c } ∧
      swapValues m d n n =
        { left := none, right := dlp, parent := some d, value := v, color := dc } ∧
      (∀ x, dlp = some x → swapValues m d n x = { m x with parent := some n }) ∧
      (∀ g, par = some g → swapValues m d n g =
        if (m g).left = some n then { m g with left := some d }
        else { m g with right := some d }) ∧
      (∀ x, x ≠ n → x ≠ d → dlp ≠ some x → par ≠ some x →
        swapValues m d n x = m x) := by
  have hdn := hnd.symm
  rcases dlp with _ | dl <;> rcases par with _ | g <;>
    simp at hdl1 hdl2 hg1 hg2 hg5
  all_goals (first | have hdl1' := Ne.symm hdl1 | skip)
  all_goals (first | have hdl2' := Ne.symm hdl2 | skip)
  all_goals (first | have hg1' := Ne.symm hg1 | skip)
  all_goals (first | have hg2' := Ne.symm hg2 | skip)
  all_goals (first | have hg5a := Ne.symm hg5 | skip)
  all_goals (first | (by_cases hgl : (m g).left = some n) | skip)
  all_goals
    refine ⟨?_, ?_, ?_, ?_, ?_⟩
    · simp [swapValues, setLeft, setRight, setP_apply, setL_apply, setR_apply, setC_apply,
          hn, hd, *]
    · simp [swapValues, setLeft, setRight, setP_apply, setL_apply, setR_apply, setC_apply,
          hn, hd, *]
    · intro x hx
      simp at hx <;>
      (subst hx
       simp [swapValues, setLeft, setRight, setP_apply, setL_apply, setR_apply, setC_apply,
          hn, hd, *])
    · intro x hx
      simp at hx <;>
      (subst hx
       simp [swapValues, setLeft, setRight, setP_apply, setL_apply, setR_apply, setC_apply,
          hn, hd, *])
    · intro x h1 h2 h5 h7
      simp at h5 h7
      first | have h5' := Ne.symm h5 | skip
      first | have h7' := Ne.symm h7 | skip
      simp [swapValues, setLeft, setRight, setP_apply, setL_apply, setR_apply, setC_apply,
          hn, hd, *]

end SwapEval

end nex

set_option autoImplicit false
set_option linter.unnecessarySeqFocus false
set_option linter.unusedTactic false
set_option linter.unreachableTactic false

namespace nex

section SwapSpec

variable {V : Type}

/-- Position swap of `n` with its left child `d` (which has no right child), followed by
the root update of `takeNode`. -/
theorem swap_adjL_spec {t : RBTree V} {C : List (Frame V)} {dl r : T V} {n d : Nat}
    {c dc : Color} {v dv : V}
    (h : Represents t (plug C (T.node (T.node dl d dc dv T.nil) n c v r))) :
    ∃ t1 : RBTree V,
      (if isRoot (swapValues t.mem d n) d then
          ({ t with mem := setC (swapValues t.mem d n) d Color.Black, rootNode_ := some d } :
            RBTree V)
        else { t with mem := swapValues t.mem d n }) = t1 ∧
      Represents t1 (plug C (T.node (T.node dl n dc v T.nil) d (topColor C c) dv r)) ∧
      t1.size_ = t.size_ ∧
      SameOutside t.mem t1.mem (plug C (T.node (T.node dl d dc dv T.nil) n c v r)).addrs := by
  have hn := Represents.read (C := C) h
  have hd := Represents.read (C := Frame.L n c v r :: C) h
  simp at hn hd
  have hc := h.counts
  simp only [T.addrs_node, T.addrs_nil, List.count_append, count_cons_one, List.count_nil] at hc
  have hsub := h.sub
  simp at hsub
  obtain ⟨-, ⟨-, hdl⟩, hr⟩ := hsub
  have hnd : n ≠ d := ne_of_one (by have := hc n; have := one_self n; omega)
  have hdl1 : dl.ptr ≠ some n := fun e => by
    have := ptr_count _ _ e; have := hc n; have := one_self n; omega
  have hdl2 : dl.ptr ≠ some d := fun e => by
    have := ptr_count _ _ e; have := hc d; have := one_self d; omega
  have hr1 : r.ptr ≠ some n := fun e => by
    have := ptr_count _ _ e; have := hc n; have := one_self n; omega
  have hr2 : r.ptr ≠ some d := fun e => by
    have := ptr_count _ _ e; have := hc d; have := one_self d; omega
  have hdlr : dl.ptr = none ∨ dl.ptr ≠ r.ptr := by
    rcases hq : dl.ptr with _ | x
    · exact Or.inl rfl
    · right; intro e
      have := ptr_count _ _ hq; have := ptr_count _ _ e.symm; have := hc x; omega
  have hg1 : ctxPar C ≠ some n := fun e => by
    have := ctxPar_count _ _ e; have := hc n; have := one_self n; omega
  have hg2 : ctxPar C ≠ some d := fun e => by
    have := ctxPar_count _ _ e; have := hc d; have := one_self d; omega
  have hg5 : ctxPar C = none ∨ (ctxPar C ≠ dl.ptr ∧ ctxPar C ≠ r.ptr) := by
    rcases hq : ctxPar C with _ | x
    · exact Or.inl rfl
    · right
      constructor <;> intro e <;>
      · have := ptr_count _ _ e.symm; have := ctxPar_count _ _ hq; have := hc x; omega
  obtain ⟨ed, en, edl, er, eg, efr⟩ := swapValues_adjL t.mem n d dl.ptr r.ptr (ctxPar C) v dv
    c dc hn hd hnd hdl1 hdl2 hr1 hr2 hdlr hg1 hg2 hg5
  refine ⟨_, rfl, ?_, ?_, ?_⟩
  · -- memory of the new state, uniformly in the root test
    have hm1d : ∀ m1 : Mem V, (m1 = setC (swapValues t.mem d n) d Color.Black ∧ C = []) ∨
        (m1 = swapValues t.mem d n ∧ C ≠ []) →
        m1 d = { left := some n, right := r.ptr, parent := ctxPar C, value := dv,
                 color := topColor C c } ∧ ∀ x, x ≠ d → m1 x = swapValues t.mem d n x := by
      intro m1 hm1
      rcases hm1 with ⟨rfl, rfl⟩ | ⟨rfl, hne⟩
      · refine ⟨by simp [setC_apply, ed], fun x hx => by simp [setC_apply, hx]⟩
      · cases C with
        | nil => exact absurd rfl hne
        | cons f fs => exact ⟨by simp [ed], fun _ _ => rfl⟩
    have key : ∀ t1 : RBTree V, ((t1.mem = setC (swapValues t.mem d n) d Color.Black ∧ C = []) ∨
        (t1.mem = swapValues t.mem d n ∧ C ≠ [])) →
        (t1.rootNode_ = match C with
          | [] => some d
          | _ :: _ => t.rootNode_) →
        Represents t1 (plug C (T.node (T.node dl n dc v T.nil) d (topColor C c) dv r)) := by
      intro t1 hm1 hroot1
      obtain ⟨h1d, h1x⟩ := hm1d t1.mem hm1
      refine Represents.replace h ?_ ?_ ?_ ?_ ?_
      · refine nodup_of_counts fun y => ?_
        simp only [addrs_plug, T.addrs_node, T.addrs_nil, List.count_append, count_cons_one,
          List.count_nil]
        have := hc y; omega
      · cases C <;> simpa using hroot1
      · intro f fs' hfs
        subst hfs
        have hctx := h.ctx
        have hfd : f.addr ≠ d := fun e => hg2 (by simp [e])
        rw [h1x _ hfd, eg f.addr rfl]
        cases f with
        | L p pc pv pr =>
          simp at hctx
          simp [hctx.1]
        | R pl p pc pv =>
          simp at hctx
          have hne : pl.ptr ≠ some n := fun e => by
            have := ptr_count _ _ e; have := hc n; have := one_self n
            simp only [ctxBefore_R, List.count_append] at *
            omega
          simp [hctx.1, hne]
      · intro x hx hxp
        have hxd : x ≠ d := ne_of_one (by
          have := hc x
          rcases hx with hx | hx <;> have := mem_pos hx <;> omega)
        rw [h1x x hxd]
        refine efr x ?_ hxd ?_ ?_ (fun e => hxp e)
        · exact ne_of_one (by
            have := hc x
            rcases hx with hx | hx <;> have := mem_pos hx <;> omega)
        · intro e
          have := ptr_count _ _ e; have := hc x
          rcases hx with hx | hx <;> have := mem_pos hx <;> omega
        · intro e
          have := ptr_count _ _ e; have := hc x
          rcases hx with hx | hx <;> have := mem_pos hx <;> omega
      · simp
        refine ⟨h1d, ⟨by rw [h1x n hnd, en], ?_⟩, ?_⟩
        · refine Repr_reparent t.mem _ dl (some d) (some n) ?_ ?_ ?_ hdl
          · refine nodup_of_counts fun y => ?_
            have := hc y; omega
          · intro x hx
            have hxd : x ≠ d := fun e => hdl2 (e ▸ hx)
            rw [h1x x hxd, edl x hx]
          · intro x hx hxr
            have hxd : x ≠ d := ne_of_one (by have := hc x; have := mem_pos hx; omega)
            rw [h1x x hxd]
            refine efr x ?_ hxd (fun e => hxr e) ?_ ?_
            · exact ne_of_one (by have := hc x; have := mem_pos hx; omega)
            · intro e
              have := ptr_count _ _ e; have := hc x; have := mem_pos hx; omega
            · intro e
              have := ctxPar_count _ _ e; have := hc x; have := mem_pos hx; omega
        · refine Repr_reparent t.mem _ r (some n) (some d) ?_ ?_ ?_ hr
          · refine nodup_of_counts fun y => ?_
            have := hc y; omega
          · intro x hx
            have hxd : x ≠ d := fun e => hr2 (e ▸ hx)
            rw [h1x x hxd, er x hx]
          · intro x hx hxr
            have hxd : x ≠ d := ne_of_one (by have := hc x; have := mem_pos hx; omega)
            rw [h1x x hxd]
            refine efr x ?_ hxd ?_ (fun e => hxr e) ?_
            · exact ne_of_one (by have := hc x; have := mem_pos hx; omega)
            · intro e
              have := ptr_count _ _ e; have := hc x; have := mem_pos hx; omega
            · intro e
              have := ctxPar_count _ _ e; have := hc x; have := mem_pos hx; omega
    cases C with
    | nil =>
      have hroot : isRoot (swapValues t.mem d n) d = true := by simp [isRoot, ed]
      simp only [hroot, if_true]
      exact key _ (Or.inl ⟨rfl, rfl⟩) rfl
    | cons f fs =>
      have hroot : isRoot (swapValues t.mem d n) d = false := by simp [isRoot, ed]
      simp only [hroot]
      exact key _ (Or.inr ⟨rfl, by simp⟩) rfl
  · split_ifs <;> rfl
  · intro x hx
    have hxn : x ≠ n := fun e => hx (by subst e; simp [addrs_plug])
    have hxd : x ≠ d := fun e => hx (by subst e; simp [addrs_plug])
    have hfr := efr x hxn hxd
      (fun e => hx (by have := T.ptr_mem _ _ e; simp [addrs_plug]; tauto))
      (fun e => hx (by have := T.ptr_mem _ _ e; simp [addrs_plug]; tauto))
      (fun e => hx (by have := ctxPar_mem _ _ e; simp [addrs_plug]; tauto))
    split_ifs
    · simp [setC_apply, hxd, hfr]
    · exact hfr

/-- Position swap of `n` (no left child) with its right child `d` (no left child),
followed by the root update of `takeNode`. -/
theorem swap_adjR_spec {t : RBTree V} {C : List (Frame V)} {dr : T V} {n d : Nat}
    {c dc : Color} {v dv : V}
    (h : Represents t (plug C (T.node T.nil n c v (T.node T.nil d dc dv dr)))) :
    ∃ t1 : RBTree V,
      (if isRoot (swapValues t.mem d n) d then
          ({ t with mem := setC (swapValues t.mem d n) d Color.Black, rootNode_ := some d } :
            RBTree V)
        else { t with mem := swapValues t.mem d n }) = t1 ∧
      Represents t1 (plug C (T.node T.nil d (topColor C c) dv (T.node T.nil n dc v dr))) ∧
      t1.size_ = t.size_ ∧
      SameOutside t.mem t1.mem (plug C (T.node T.nil n c v (T.node T.nil d dc dv dr))).addrs := by
  have hn := Represents.read (C := C) h
  have hd := Represents.read (C := Frame.R T.nil n c v :: C) h
  simp at hn hd
  have hc := h.counts
  simp only [T.addrs_node, T.addrs_nil, List.count_append, count_cons_one, List.count_nil] at hc
  have hsub := h.sub
  simp at hsub
  obtain ⟨-, -, hdr⟩ := hsub
  have hnd : n ≠ d := ne_of_one (by have := hc n; have := one_self n; omega)
  have hdl1 : dr.ptr ≠ some n := fun e => by
    have := ptr_count _ _ e; have := hc n; have := one_self n; omega
  have hdl2 : dr.ptr ≠ some d := fun e => by
    have := ptr_count _ _ e; have := hc d; have := one_self d; omega
  have hg1 : ctxPar C ≠ some n := fun e => by
    have := ctxPar_count _ _ e; have := hc n; have := one_self n; omega
  have hg2 : ctxPar C ≠ some d := fun e => by
    have := ctxPar_count _ _ e; have := hc d; have := one_self d; omega
  have hg5 : ctxPar C = none ∨ ctxPar C ≠ dr.ptr := by
    rcases hq : ctxPar C with _ | x
    · exact Or.inl rfl
    · right
      intro e
      have := ptr_count _ _ e.symm; have := ctxPar_count _ _ hq; have := hc x; omega
  obtain ⟨ed, en, edl, eg, efr⟩ := swapValues_adjR t.mem n d dr.ptr (ctxPar C) v dv
    c dc hn hd hnd hdl1 hdl2 hg1 hg2 hg5
  refine ⟨_, rfl, ?_, ?_, ?_⟩
  · have hm1d : ∀ m1 : Mem V, (m1 = setC (swapValues t.mem d n) d Color.Black ∧ C = []) ∨
        (m1 = swapValues t.mem d n ∧ C ≠ []) →
        m1 d = { left := none, right := some n, parent := ctxPar C, value := dv,
                 color := topColor C c } ∧ ∀ x, x ≠ d → m1 x = swapValues t.mem d n x := by
      intro m1 hm1
      rcases hm1 with ⟨rfl, rfl⟩ | ⟨rfl, hne⟩
      · refine ⟨by simp [setC_apply, ed], fun x hx => by simp [setC_apply, hx]⟩
      · cases C with
        | nil => exact absurd rfl hne
        | cons f fs => exact ⟨by simp [ed], fun _ _ => rfl⟩
    have key : ∀ t1 : RBTree V, ((t1.mem = setC (swapValues t.mem d n) d Color.Black ∧ C = []) ∨
        (t1.mem = swapValues t.mem d n ∧ C ≠ [])) →
        (t1.rootNode_ = match C with
          | [] => some d
          | _ :: _ => t.rootNode_) →
        Represents t1 (plug C (T.node T.nil d (topColor C c) dv (T.node T.nil n dc v dr))) := by
      intro t1 hm1 hroot1
      obtain ⟨h1d, h1x⟩ := hm1d t1.mem hm1
      refine Represents.replace h ?_ ?_ ?_ ?_ ?_
      · refine nodup_of_counts fun y => ?_
        simp only [addrs_plug, T.addrs_node, T.addrs_nil, List.count_append, count_cons_one,
          List.count_nil]
        have := hc y; omega
      · cases C <;> simpa using hroot1
      · intro f fs' hfs
        subst hfs
        have hctx := h.ctx
        have hfd : f.addr ≠ d := fun e => hg2 (by simp [e])
        rw [h1x _ hfd, eg f.addr rfl]
        cases f with
        | L p pc pv pr =>
          simp at hctx
          simp [hctx.1]
        | R pl p pc pv =>
          simp at hctx
          have hne : pl.ptr ≠ some n := fun e => by
            have := ptr_count _ _ e; have := hc n; have := one_self n
            simp only [ctxBefore_R, List.count_append] at *
            omega
          simp [hctx.1, hne]
      · intro x hx hxp
        have hxd : x ≠ d := ne_of_one (by
          have := hc x
          rcases hx with hx | hx <;> have := mem_pos hx <;> omega)
        rw [h1x x hxd]
        refine efr x ?_ hxd ?_ (fun e => hxp e)
        · exact ne_of_one (by
            have := hc x
            rcases hx with hx | hx <;> have := mem_pos hx <;> omega)
        · intro e
          have := ptr_count _ _ e; have := hc x
          rcases hx with hx | hx <;> have := mem_pos hx <;> omega
      · simp
        refine ⟨h1d, by rw [h1x n hnd, en], ?_⟩
        refine Repr_reparent t.mem _ dr (some d) (some n) ?_ ?_ ?_ hdr
        · refine nodup_of_counts fun y => ?_
          have := hc y; omega
        · intro x hx
          have hxd : x ≠ d := fun e => hdl2 (e ▸ hx)
          rw [h1x x hxd, edl x hx]
        · intro x hx hxr
          have hxd : x ≠ d := ne_of_one (by have := hc x; have := mem_pos hx; omega)
          rw [h1x x hxd]
          refine efr x ?_ hxd (fun e => hxr e) ?_
          · exact ne_of_one (by have := hc x; have := mem_pos hx; omega)
          · intro e
            have := ctxPar_count _ _ e; have := hc x; have := mem_pos hx; omega
    cases C with
    | nil =>
      have hroot : isRoot (swapValues t.mem d n) d = true := by simp [isRoot, ed]
      simp only [hroot, if_true]
      exact key _ (Or.inl ⟨rfl, rfl⟩) rfl
    | cons f fs =>
      have hroot : isRoot (swapValues t.mem d n) d = false := by simp [isRoot, ed]
      simp only [hroot]
      exact key _ (Or.inr ⟨rfl, by simp⟩) rfl
  · split_ifs <;> rfl
  · intro x hx
    have hxn : x ≠ n := fun e => hx (by subst e; simp [addrs_plug])
    have hxd : x ≠ d := fun e => hx (by subst e; simp [addrs_plug])
    have hfr := efr x hxn hxd
      (fun e => hx (by have := T.ptr_mem _ _ e; simp [addrs_plug]; tauto))
      (fun e => hx (by have := ctxPar_mem _ _ e; simp [addrs_plug]; tauto))
    split_ifs
    · simp [setC_apply, hxd, hfr]
    · exact hfr

end SwapSpec

end nex

set_option autoImplicit false
set_option linter.unnecessarySeqFocus false
set_option linter.unusedTactic false
set_option linter.unreachableTactic false

namespace nex

section SwapFar

variable {V : Type}

/-- Position swap of `n` with the rightmost node `d` of its left subtree, where `d` is the
right child of a node `p` other than `n`; followed by the root update of `takeNode`. -/
theorem swap_far_spec {t : RBTree V} {C D : List (Frame V)} {dl pl r : T V} {n d p : Nat}
    {c dc pc : Color} {v dv pv : V}
    (h : Represents t (plug C (T.node
      (plug (Frame.R pl p pc pv :: D) (T.node dl d dc dv T.nil)) n c v r))) :
    ∃ t1 : RBTree V,
      (if isRoot (swapValues t.mem d n) d then
          ({ t with mem := setC (swapValues t.mem d n) d Color.Black, rootNode_ := some d } :
            RBTree V)
        else { t with mem := swapValues t.mem d n }) = t1 ∧
      Represents t1 (plug C (T.node
        (plug (Frame.R pl p pc pv :: D) (T.node dl n dc v T.nil)) d (topColor C c) dv r)) ∧
      t1.size_ = t.size_ ∧
      SameOutside t.mem t1.mem (plug C (T.node
        (plug (Frame.R pl p pc pv :: D) (T.node dl d dc dv T.nil)) n c v r)).addrs := by
  have hn := Represents.read (C := C) h
  have hc := h.counts
  simp only [T.addrs_node, T.addrs_nil, addrs_plug, ctxBefore_R, ctxAfter_R, List.count_append,
    count_cons_one, List.count_nil] at hc
  have hsub := h.sub
  rw [Repr_node] at hsub
  obtain ⟨-, hl, hr⟩ := hsub
  obtain ⟨hctxD, hdsub⟩ := (Repr_plugT _ _ _ _).1 hl
  simp at hdsub hctxD
  obtain ⟨hd, hdl⟩ := hdsub
  obtain ⟨hp, hpl, hD⟩ := hctxD
  -- the root of the left subtree
  have hlr : ∃ lr, (∀ s : T V, (plug (Frame.R pl p pc pv :: D) s).ptr = some lr) ∧
      (lr = p ∧ D = [] ∨ (lr ≠ p ∧ D ≠ [] ∧ (lr ∈ ctxBefore D ∨ lr ∈ ctxAfter D) ∧
        ∀ s : T V, (plug D s).ptr = some lr)) := by
    cases D with
    | nil => exact ⟨p, fun s => rfl, Or.inl ⟨rfl, rfl⟩⟩
    | cons g D' =>
      obtain ⟨x, hx, hm⟩ := ptr_plug_mem g D' (T.nil : T V)
      have hall : ∀ s : T V, (plug (g :: D') s).ptr = some x := fun s => by
        rw [← hx]; exact ptr_plug_cons g D' _ _
      refine ⟨x, fun s => hall _, Or.inr ⟨?_, by simp, hm, hall⟩⟩
      intro e
      subst e
      have := hc x; have := one_self x
      rcases hm with hm | hm <;> have := mem_pos hm <;> omega
  obtain ⟨lr, hlrp, hlrD⟩ := hlr
  rw [hlrp] at hn
  have hlrc : 0 < List.count lr (ctxBefore D) + one p lr + List.count lr (ctxAfter D) := by
    rcases hlrD with ⟨rfl, -⟩ | ⟨-, -, hm, -⟩
    · have := one_self lr; omega
    · rcases hm with hm | hm <;> have := mem_pos hm <;> omega
  have hnd : n ≠ d := ne_of_one (by have := hc n; have := one_self n; omega)
  have hnp : n ≠ p := ne_of_one (by have := hc n; have := one_self n; omega)
  have hdp : d ≠ p := ne_of_one (by have := hc d; have := one_self d; omega)
  have hlrn : lr ≠ n := ne_of_one (by have := hc lr; omega)
  have hlrd : lr ≠ d := ne_of_one (by have := hc lr; omega)
  have hdl1 : dl.ptr ≠ some n := fun e => by
    have := ptr_count _ _ e; have := hc n; have := one_self n; omega
  have hdl2 : dl.ptr ≠ some d := fun e => by
    have := ptr_count _ _ e; have := hc d; have := one_self d; omega
  have hdl3 : dl.ptr ≠ some p := fun e => by
    have := ptr_count _ _ e; have := hc p; have := one_self p; omega
  have hdl4 : dl.ptr ≠ some lr := fun e => by
    have := ptr_count _ _ e; have := hc lr; omega
  have hr1 : r.ptr ≠ some n := fun e => by
    have := ptr_count _ _ e; have := hc n; have := one_self n; omega
  have hr2 : r.ptr ≠ some d := fun e => by
    have := ptr_count _ _ e; have := hc d; have := one_self d; omega
  have hr3 : r.ptr ≠ some p := fun e => by
    have := ptr_count _ _ e; have := hc p; have := one_self p; omega
  have hr4 : r.ptr ≠ some lr := fun e => by
    have := ptr_count _ _ e; have := hc lr; omega
  have hdlr : dl.ptr = none ∨ dl.ptr ≠ r.ptr := by
    rcases hq : dl.ptr with _ | x
    · exact Or.inl rfl
    · right; intro e
      have := ptr_count _ _ hq; have := ptr_count _ _ e.symm; have := hc x; omega
  have hg1 : ctxPar C ≠ some n := fun e => by
    have := ctxPar_count _ _ e; have := hc n; have := one_self n; omega
  have hg2 : ctxPar C ≠ some d := fun e => by
    have := ctxPar_count _ _ e; have := hc d; have := one_self d; omega
  have hg3 : ctxPar C ≠ some p := fun e => by
    have := ctxPar_count _ _ e; have := hc p; have := one_self p; omega
  have hg4 : ctxPar C ≠ some lr := fun e => by
    have := ctxPar_count _ _ e; have := hc lr; omega
  have hg5 : ctxPar C = none ∨ (ctxPar C ≠ dl.ptr ∧ ctxPar C ≠ r.ptr) := by
    rcases hq : ctxPar C with _ | x
    · exact Or.inl rfl
    · right
      constructor <;> intro e <;>
      · have := ptr_count _ _ e.symm; have := ctxPar_count _ _ hq; have := hc x; omega
  have hplp : pl.ptr ≠ some d := fun e => by
    have := ptr_count _ _ e; have := hc d; have := one_self d; omega
  obtain ⟨ed, en, ep, elr, edl, er, eg, efr⟩ := swapValues_far t.mem n d p lr dl.ptr r.ptr
    (ctxPar C) pl.ptr (ctxParT (some n) D) v dv pv c dc pc hn hd hp hnd hnp hdp hlrn hlrd
    hdl1 hdl2 hdl3 hdl4 hr1 hr2 hr3 hr4 hdlr hg1 hg2 hg3 hg4 hg5 hplp
  refine ⟨_, rfl, ?_, ?_, ?_⟩
  · have hm1d : ∀ m1 : Mem V, (m1 = setC (swapValues t.mem d n) d Color.Black ∧ C = []) ∨
        (m1 = swapValues t.mem d n ∧ C ≠ []) →
        m1 d = { left := some lr, right := r.ptr, parent := ctxPar C, value := dv,
                 color := topColor C c } ∧ ∀ x, x ≠ d → m1 x = swapValues t.mem d n x := by
      intro m1 hm1
      rcases hm1 with ⟨rfl, rfl⟩ | ⟨rfl, hne⟩
      · refine ⟨by simp [setC_apply, ed], fun x hx => by simp [setC_apply, hx]⟩
      · cases C with
        | nil => exact absurd rfl hne
        | cons f fs => exact ⟨by simp [ed], fun _ _ => rfl⟩
    have key : ∀ t1 : RBTree V, ((t1.mem = setC (swapValues t.mem d n) d Color.Black ∧ C = []) ∨
        (t1.mem = swapValues t.mem d n ∧ C ≠ [])) →
        (t1.rootNode_ = match C with
          | [] => some d
          | _ :: _ => t.rootNode_) →
        Represents t1 (plug C (T.node
          (plug (Frame.R pl p pc pv :: D) (T.node dl n dc v T.nil)) d (topColor C c) dv r)) := by
      intro t1 hm1 hroot1
      obtain ⟨h1d, h1x⟩ := hm1d t1.mem hm1
      -- addresses untouched by the swap
      have hsame : ∀ x, x ≠ n → x ≠ d → x ≠ p → x ≠ lr → dl.ptr ≠ some x → r.ptr ≠ some x →
          ctxPar C ≠ some x → t1.mem x = t.mem x := by
        intro x a1 a2 a3 a4 a5 a6 a7
        rw [h1x x a2]; exact efr x a1 a2 a3 a4 a5 a6 a7
      refine Represents.replace h ?_ ?_ ?_ ?_ ?_
      · refine nodup_of_counts fun y => ?_
        simp only [addrs_plug, T.addrs_node, T.addrs_nil, ctxBefore_R, ctxAfter_R,
          List.count_append, count_cons_one, List.count_nil]
        have := hc y; omega
      · cases C <;> simpa using hroot1
      · intro f fs' hfs
        subst hfs
        have hctx := h.ctx
        have hfd : f.addr ≠ d := fun e => hg2 (by simp [e])
        rw [h1x _ hfd, eg f.addr rfl]
        cases f with
        | L g gc gv gr =>
          simp at hctx
          simp [hctx.1]
        | R gl g gc gv =>
          simp at hctx
          have hne : gl.ptr ≠ some n := fun e => by
            have := ptr_count _ _ e; have := hc n; have := one_self n
            simp only [ctxBefore_R, List.count_append] at *
            omega
          simp [hctx.1, hne]
      · intro x hx hxp
        have hcx := hc x
        refine hsame x ?_ ?_ ?_ ?_ ?_ ?_ (fun e => hxp e)
        · exact ne_of_one (by rcases hx with hx | hx <;> have := mem_pos hx <;> omega)
        · exact ne_of_one (by rcases hx with hx | hx <;> have := mem_pos hx <;> omega)
        · exact ne_of_one (by rcases hx with hx | hx <;> have := mem_pos hx <;> omega)
        · intro e; subst e
          rcases hx with hx | hx <;> have := mem_pos hx <;> omega
        · intro e
          have := ptr_count _ _ e
          rcases hx with hx | hx <;> have := mem_pos hx <;> omega
        · intro e
          have := ptr_count _ _ e
          rcases hx with hx | hx <;> have := mem_pos hx <;> omega
      · rw [Repr_node]
        refine ⟨by rw [h1d, hlrp], ?_, ?_⟩
        · refine (Repr_plugT _ _ _ _).2 ⟨?_, ?_⟩
          · simp only [T.ptr_node, ReprCtxT_R]
            refine ⟨?_, ?_, ?_⟩
            · rw [h1x p hdp.symm, ep]
              rcases hlrD with ⟨hlp, hDn⟩ | ⟨hlp, hDn, -, -⟩
              · subst hDn; simp [hlp]
              · cases D with
                | nil => exact absurd rfl hDn
                | cons g D' => simp [hlp]
            · refine Repr_congr t.mem _ pl _ ?_ hpl
              intro x hx
              have hcx := hc x
              have hxm := mem_pos hx
              refine hsame x ?_ ?_ ?_ ?_ ?_ ?_ ?_
              · exact ne_of_one (by omega)
              · exact ne_of_one (by omega)
              · exact ne_of_one (by omega)
              · intro e; subst e
                rcases hlrD with ⟨hlp, -⟩ | ⟨-, -, hm, -⟩
                · subst hlp; have := one_self x; omega
                · rcases hm with hm | hm <;> have := mem_pos hm <;> omega
              · intro e; have := ptr_count _ _ e; omega
              · intro e; have := ptr_count _ _ e; omega
              · intro e; have := ctxPar_count _ _ e; omega
            · refine ReprCtxT_retop t.mem _ (some n) (some d) D (some p) ?_ hD ?_ ?_
              · refine nodup_of_counts fun y => ?_
                simp only [List.count_append]
                have := hc y; omega
              · intro x hx hDne
                rcases hlrD with ⟨-, hDn⟩ | ⟨hlp, -, -, hall⟩
                · exact absurd hDn hDne
                · rw [hall] at hx
                  simp at hx
                  subst hx
                  rw [h1x _ hlrd, elr hlp]
              · intro x hx hxtop
                have hcx := hc x
                rcases hlrD with ⟨-, hDn⟩ | ⟨hlp, -, -, hall⟩
                · subst hDn; simp at hx
                · rw [hall] at hxtop
                  have hxlr : x ≠ lr := fun e => hxtop (by rw [e])
                  refine hsame x ?_ ?_ ?_ hxlr ?_ ?_ ?_
                  · exact ne_of_one (by rcases hx with hx | hx <;> have := mem_pos hx <;> omega)
                  · exact ne_of_one (by rcases hx with hx | hx <;> have := mem_pos hx <;> omega)
                  · exact ne_of_one (by rcases hx with hx | hx <;> have := mem_pos hx <;> omega)
                  · intro e; have := ptr_count _ _ e
                    rcases hx with hx | hx <;> have := mem_pos hx <;> omega
                  · intro e; have := ptr_count _ _ e
                    rcases hx with hx | hx <;> have := mem_pos hx <;> omega
                  · intro e; have := ctxPar_count _ _ e
                    rcases hx with hx | hx <;> have := mem_pos hx <;> omega
          · simp only [ctxParT_cons, Frame.addr_R, Repr_node, T.ptr_nil, Repr_nil, and_true]
            refine ⟨by rw [h1x n hnd, en], ?_⟩
            refine Repr_reparent t.mem _ dl (some d) (some n) ?_ ?_ ?_ hdl
            · refine nodup_of_counts fun y => ?_
              have := hc y; omega
            · intro x hx
              have hxd : x ≠ d := fun e => hdl2 (e ▸ hx)
              rw [h1x x hxd, edl x hx]
            · intro x hx hxr
              have hcx := hc x
              have hxm := mem_pos hx
              refine hsame x ?_ ?_ ?_ ?_ (fun e => hxr e) ?_ ?_
              · exact ne_of_one (by omega)
              · exact ne_of_one (by omega)
              · exact ne_of_one (by omega)
              · intro e; subst e; omega
              · intro e; have := ptr_count _ _ e; omega
              · intro e; have := ctxPar_count _ _ e; omega
        · refine Repr_reparent t.mem _ r (some n) (some d) ?_ ?_ ?_ hr
          · refine nodup_of_counts fun y => ?_
            have := hc y; omega
          · intro x hx
            have hxd : x ≠ d := fun e => hr2 (e ▸ hx)
            rw [h1x x hxd, er x hx]
          · intro x hx hxr
            have hcx := hc x
            have hxm := mem_pos hx
            refine hsame x ?_ ?_ ?_ ?_ ?_ (fun e => hxr e) ?_
            · exact ne_of_one (by omega)
            · exact ne_of_one (by omega)
            · exact ne_of_one (by omega)
            · intro e; subst e; omega
            · intro e; have := ptr_count _ _ e; omega
            · intro e; have := ctxPar_count _ _ e; omega
    cases C with
    | nil =>
      have hroot : isRoot (swapValues t.mem d n) d = true := by simp [isRoot, ed]
      simp only [hroot, if_true]
      exact key _ (Or.inl ⟨rfl, rfl⟩) rfl
    | cons f fs =>
      have hroot : isRoot (swapValues t.mem d n) d = false := by simp [isRoot, ed]
      simp only [hroot]
      exact key _ (Or.inr ⟨rfl, by simp⟩) rfl
  · split_ifs <;> rfl
  · intro x hx
    have hz : List.count x (plug C (T.node
        (plug (Frame.R pl p pc pv :: D) (T.node dl d dc dv T.nil)) n c v r)).addrs = 0 :=
      List.count_eq_zero.2 hx
    simp only [T.addrs_node, T.addrs_nil, addrs_plug, ctxBefore_R, ctxAfter_R, List.count_append,
      count_cons_one, List.count_nil] at hz
    have hxn : x ≠ n := ne_of_one (by omega)
    have hxd : x ≠ d := ne_of_one (by omega)
    have hxp : x ≠ p := ne_of_one (by omega)
    have hxlr : x ≠ lr := by
      intro e; subst e; omega
    have hfr := efr x hxn hxd hxp hxlr
      (fun e => by have := ptr_count _ _ e; omega)
      (fun e => by have := ptr_count _ _ e; omega)
      (fun e => by have := ctxPar_count _ _ e; omega)
    split_ifs
    · simp [setC_apply, hxd, hfr]
    · exact hfr

end SwapFar

end nex

set_option autoImplicit false
set_option linter.unnecessarySeqFocus false
set_option linter.unusedTactic false
set_option linter.unreachableTactic false

namespace nex

section Detach

variable {V : Type}

theorem nodup_plug_sub {C : List (Frame V)} {s : T V} (s' : T V)
    (h : (plug C s).addrs.Nodup) (hs : s'.addrs.Sublist s.addrs) : (plug C s').addrs.Nodup := by
  rw [addrs_plug] at h ⊢
  exact h.sublist (List.Sublist.append (List.Sublist.append (List.Sublist.refl _) hs)
    (List.Sublist.refl _))

/-- `clearParent` on a node below a parent: the node leaves the tree with its subtree. -/
theorem detach_spec {t : RBTree V} {C : List (Frame V)} {l r : T V} {n : Nat} {c : Color}
    {v : V} (f : Frame V) (h : Represents t (plug (f :: C) (T.node l n c v r))) :
    Represents { mem := clearParent t.mem n, rootNode_ := t.rootNode_, size_ := t.size_ }
        (plug (f :: C) T.nil) ∧
      SameOutside t.mem (clearParent t.mem n) (plug (f :: C) (T.node l n c v r)).addrs ∧
      (clearParent t.mem n n).parent = none := by
  have hn := h.read
  have hc := h.counts
  have hctx := h.ctx
  simp only [T.addrs_node, List.count_append, count_cons_one] at hc
  simp at hn
  cases f with
  | L p pc pv pr =>
    simp at hctx hn
    simp only [ctxBefore_L, ctxAfter_L, List.count_append, count_cons_one] at hc
    have hnp : n ≠ p := ne_of_one (by have := hc n; have := one_self n; omega)
    have hm : clearParent t.mem n = setP (setL t.mem p none) n none := by
      simp [clearParent, hn, hctx.1]
    rw [hm]
    refine ⟨?_, ?_, by simp [setP_apply]⟩
    · refine Represents.replace (u := T.nil) h (nodup_plug_sub _ h.2.2 (by simp)) rfl ?_ ?_
        trivial
      · intro f fs' hfs
        simp at hfs
        obtain ⟨rfl, rfl⟩ := hfs
        simp [setP_apply, setL_apply, hnp.symm]
      · intro x hx hxp
        have hxn : x ≠ n := ne_of_one (by
          have := hc x
          simp only [ctxBefore_L, ctxAfter_L, List.mem_append, List.mem_cons] at hx
          rcases hx with hx | (hx | hx) | hx
          · have := mem_pos hx; omega
          · subst hx; have := one_self x; omega
          · have := mem_pos hx; omega
          · have := mem_pos hx; omega)
        have hxp' : x ≠ p := fun e => hxp (by simp [e])
        simp [setP_apply, setL_apply, hxn, hxp']
    · intro x hx
      have hxn : x ≠ n := fun e => hx (by subst e; simp [addrs_plug])
      have hxp : x ≠ p := fun e => hx (by subst e; simp [addrs_plug])
      simp [setP_apply, setL_apply, hxn, hxp]
  | R pl p pc pv =>
    simp at hctx hn
    simp only [ctxBefore_R, ctxAfter_R, List.count_append, count_cons_one, List.count_nil] at hc
    have hnp : n ≠ p := ne_of_one (by have := hc n; have := one_self n; omega)
    have hpl : pl.ptr ≠ some n := fun e => by
      have := ptr_count _ _ e; have := hc n; have := one_self n; omega
    have hm : clearParent t.mem n = setP (setR t.mem p none) n none := by
      simp [clearParent, hn, hctx.1, hpl]
    rw [hm]
    refine ⟨?_, ?_, by simp [setP_apply]⟩
    · refine Represents.replace (u := T.nil) h (nodup_plug_sub _ h.2.2 (by simp)) rfl ?_ ?_
        trivial
      · intro f fs' hfs
        simp at hfs
        obtain ⟨rfl, rfl⟩ := hfs
        simp [setP_apply, setR_apply, hnp.symm]
      · intro x hx hxp
        have hxn : x ≠ n := ne_of_one (by
          have := hc x
          simp only [ctxBefore_R, ctxAfter_R, List.mem_append, List.mem_singleton] at hx
          rcases hx with (hx | hx | hx) | hx
          · have := mem_pos hx; omega
          · have := mem_pos hx; omega
          · subst hx; have := one_self x; omega
          · have := mem_pos hx; omega)
        have hxp' : x ≠ p := fun e => hxp (by simp [e])
        simp [setP_apply, setR_apply, hxn, hxp']
    · intro x hx
      have hxn : x ≠ n := fun e => hx (by subst e; simp [addrs_plug])
      have hxp : x ≠ p := fun e => hx (by subst e; simp [addrs_plug])
      simp [setP_apply, setR_apply, hxn, hxp]

/-- The one-child branch of `takeNode`: the child takes the node's place and turns black,
then the node is unlinked. -/
theorem splice_spec {t : RBTree V} {C : List (Frame V)} {cl cr r : T V} {n ch : Nat}
    {c cc : Color} {v cv : V} (f : Frame V)
    (h : Represents t (plug (f :: C) (T.node (T.node cl ch cc cv cr) n c v r))) :
    ∃ m1, replaceParentTo t.mem n ch = some m1 ∧ (m1 ch).color = cc ∧
      Represents { mem := clearParent (setC m1 ch Color.Black) n, rootNode_ := t.rootNode_,
                   size_ := t.size_ }
        (plug (f :: C) (T.node cl ch Color.Black cv cr)) ∧
      SameOutside t.mem (clearParent (setC m1 ch Color.Black) n)
        (plug (f :: C) (T.node (T.node cl ch cc cv cr) n c v r)).addrs ∧
      (clearParent (setC m1 ch Color.Black) n n).parent = none := by
  have hn := h.read
  have hch := Represents.read (C := Frame.L n c v r :: f :: C) h
  have hc := h.counts
  have hctx := h.ctx
  have hsub := h.sub
  simp only [T.addrs_node, List.count_append, count_cons_one] at hc
  simp at hn hch hsub
  obtain ⟨-, ⟨-, hcl, hcr⟩, -⟩ := hsub
  have hnch : n ≠ ch := ne_of_one (by have := hc n; have := one_self n; omega)
  have hnd' : (plug (f :: C) (T.node cl ch Color.Black cv cr)).addrs.Nodup :=
    nodup_plug_sub _ h.2.2 (by
      simp only [T.addrs_node]
      exact (List.sublist_append_left _ _))
  cases f with
  | L p pc pv pr =>
    simp at hctx hn hch
    simp only [ctxBefore_L, ctxAfter_L, List.count_append, count_cons_one] at hc
    have hnp : n ≠ p := ne_of_one (by have := hc n; have := one_self n; omega)
    have hchp : ch ≠ p := ne_of_one (by have := hc ch; have := one_self ch; omega)
    have hpr : pr.ptr ≠ some n := fun e => by
      have := ptr_count _ _ e; have := hc n; have := one_self n; omega
    have hm1 : replaceParentTo t.mem n ch =
        some (setL (setP t.mem ch (some p)) p (some ch)) := by
      simp [replaceParentTo, hn, setP_apply, hnch, hchp.symm, hctx.1]
    have hm3 : clearParent (setC (setL (setP t.mem ch (some p)) p (some ch)) ch Color.Black) n =
        setP (setC (setL (setP t.mem ch (some p)) p (some ch)) ch Color.Black) n none := by
      simp [clearParent, setC_apply, setL_apply, setP_apply, hn, hnch, hnp, hchp, hchp.symm,
        hctx.1, hnch.symm, hpr]
    refine ⟨_, hm1, by simp [setL_apply, setP_apply, hchp, hch], ?_, ?_, ?_⟩
    · rw [hm3]
      refine Represents.replace h hnd' rfl ?_ ?_ ?_
      · intro f fs' hfs
        simp at hfs
        obtain ⟨rfl, rfl⟩ := hfs
        simp [setP_apply, setC_apply, setL_apply, hnp.symm, hchp.symm]
      · intro x hx hxp
        have hcx := hc x
        have hxp' : x ≠ p := fun e => hxp (by simp [e])
        have hxn : x ≠ n := ne_of_one (by
          simp only [ctxBefore_L, ctxAfter_L, List.mem_append, List.mem_cons] at hx
          rcases hx with hx | (hx | hx) | hx
          · have := mem_pos hx; omega
          · exact absurd hx hxp'
          · have := mem_pos hx; omega
          · have := mem_pos hx; omega)
        have hxch : x ≠ ch := ne_of_one (by
          simp only [ctxBefore_L, ctxAfter_L, List.mem_append, List.mem_cons] at hx
          rcases hx with hx | (hx | hx) | hx
          · have := mem_pos hx; omega
          · exact absurd hx hxp'
          · have := mem_pos hx; omega
          · have := mem_pos hx; omega)
        simp [setP_apply, setC_apply, setL_apply, hxn, hxch, hxp']
      · simp
        refine ⟨by simp [setP_apply, setC_apply, setL_apply, hnch.symm, hchp, hch],
          Repr_congr _ _ _ _ ?_ hcl, Repr_congr _ _ _ _ ?_ hcr⟩
        · intro x hx
          have hcx := hc x; have hxm := mem_pos hx
          have hxn : x ≠ n := ne_of_one (by omega)
          have hxch : x ≠ ch := ne_of_one (by omega)
          have hxp : x ≠ p := ne_of_one (by omega)
          simp [setP_apply, setC_apply, setL_apply, hxn, hxch, hxp]
        · intro x hx
          have hcx := hc x; have hxm := mem_pos hx
          have hxn : x ≠ n := ne_of_one (by omega)
          have hxch : x ≠ ch := ne_of_one (by omega)
          have hxp : x ≠ p := ne_of_one (by omega)
          simp [setP_apply, setC_apply, setL_apply, hxn, hxch, hxp]
    · rw [hm3]
      intro x hx
      have hxn : x ≠ n := fun e => hx (by subst e; simp [addrs_plug])
      have hxch : x ≠ ch := fun e => hx (by subst e; simp [addrs_plug])
      have hxp : x ≠ p := fun e => hx (by subst e; simp [addrs_plug])
      simp [setP_apply, setC_apply, setL_apply, hxn, hxch, hxp]
    · rw [hm3]; simp [setP_apply]
  | R pl p pc pv =>
    simp at hctx hn hch
    simp only [ctxBefore_R, ctxAfter_R, List.count_append, count_cons_one, List.count_nil] at hc
    have hnp : n ≠ p := ne_of_one (by have := hc n; have := one_self n; omega)
    have hchp : ch ≠ p := ne_of_one (by have := hc ch; have := one_self ch; omega)
    have hpl : pl.ptr ≠ some n := fun e => by
      have := ptr_count _ _ e; have := hc n; have := one_self n; omega
    have hm1 : replaceParentTo t.mem n ch =
        some (setR (setP t.mem ch (some p)) p (some ch)) := by
      simp [replaceParentTo, hn, setP_apply, hnch, hchp.symm, hctx.1, hpl]
    have hm3 : clearParent (setC (setR (setP t.mem ch (some p)) p (some ch)) ch Color.Black) n =
        setP (setC (setR (setP t.mem ch (some p)) p (some ch)) ch Color.Black) n none := by
      simp [clearParent, setC_apply, setR_apply, setP_apply, hn, hnch, hnp, hchp, hchp.symm,
        hctx.1, hnch.symm, hpl]
    refine ⟨_, hm1, by simp [setR_apply, setP_apply, hchp, hch], ?_, ?_, ?_⟩
    · rw [hm3]
      refine Represents.replace h hnd' rfl ?_ ?_ ?_
      · intro f fs' hfs
        simp at hfs
        obtain ⟨rfl, rfl⟩ := hfs
        simp [setP_apply, setC_apply, setR_apply, hnp.symm, hchp.symm]
      · intro x hx hxp
        have hcx := hc x
        have hxp' : x ≠ p := fun e => hxp (by simp [e])
        have hxn : x ≠ n := ne_of_one (by
          simp only [ctxBefore_R, ctxAfter_R, List.mem_append, List.mem_singleton] at hx
          rcases hx with (hx | hx | hx) | hx
          · have := mem_pos hx; omega
          · have := mem_pos hx; omega
          · exact absurd hx hxp'
          · have := mem_pos hx; omega)
        have hxch : x ≠ ch := ne_of_one (by
          simp only [ctxBefore_R, ctxAfter_R, List.mem_append, List.mem_singleton] at hx
          rcases hx with (hx | hx | hx) | hx
          · have := mem_pos hx; omega
          · have := mem_pos hx; omega
          · exact absurd hx hxp'
          · have := mem_pos hx; omega)
        simp [setP_apply, setC_apply, setR_apply, hxn, hxch, hxp']
      · simp
        refine ⟨by simp [setP_apply, setC_apply, setR_apply, hnch.symm, hchp, hch],
          Repr_congr _ _ _ _ ?_ hcl, Repr_congr _ _ _ _ ?_ hcr⟩
        · intro x hx
          have hcx := hc x; have hxm := mem_pos hx
          have hxn : x ≠ n := ne_of_one (by omega)
          have hxch : x ≠ ch := ne_of_one (by omega)
          have hxp : x ≠ p := ne_of_one (by omega)
          simp [setP_apply, setC_apply, setR_apply, hxn, hxch, hxp]
        · intro x hx
          have hcx := hc x; have hxm := mem_pos hx
          have hxn : x ≠ n := ne_of_one (by omega)
          have hxch : x ≠ ch := ne_of_one (by omega)
          have hxp : x ≠ p := ne_of_one (by omega)
          simp [setP_apply, setC_apply, setR_apply, hxn, hxch, hxp]
    · rw [hm3]
      intro x hx
      have hxn : x ≠ n := fun e => hx (by subst e; simp [addrs_plug])
      have hxch : x ≠ ch := fun e => hx (by subst e; simp [addrs_plug])
      have hxp : x ≠ p := fun e => hx (by subst e; simp [addrs_plug])
      simp [setP_apply, setC_apply, setR_apply, hxn, hxch, hxp]
    · rw [hm3]; simp [setP_apply]

end Detach

end nex

set_option autoImplicit false
set_option linter.unnecessarySeqFocus false
set_option linter.unusedTactic false
set_option linter.unreachableTactic false

namespace nex

section Rest

variable {V : Type}

theorem T.nil_of_black_bh0 (s : T V) (hc : s.color = Color.Black) (hb : s.bh = 0) :
    s = T.nil := by
  cases s with
  | nil => rfl
  | node l a c v r => simp at hc hb; subst hc; simp at hb

/-- The root pointer of a tree with a non-empty path is not the node in the hole. -/
theorem Represents.root_ne {t : RBTree V} {C : List (Frame V)} {l r : T V} {n : Nat}
    {c : Color} {v : V} (f : Frame V) (h : Represents t (plug (f :: C) (T.node l n c v r))) :
    ¬ some n = t.rootNode_ := by
  intro e
  have hc := h.counts n
  simp only [T.addrs_node, List.count_append, count_cons_one] at hc
  have h1 := one_self n
  obtain ⟨x, hx, hm⟩ := ptr_plug_mem f C (T.node l n c v r)
  rw [h.1, hx] at e
  simp at e
  subst e
  rcases hm with hm | hm <;> have := mem_pos hm <;> omega

/-- The second half of `takeNode` on a node with no right child and at most a left child,
in a tree whose colouring is fine: the node leaves, the colouring is repaired and the
other nodes keep their in-order sequence. -/
theorem takeNodeRest_spec (fuel : Nat) {t1 : RBTree V} {Cn : List (Frame V)} {nl : T V}
    {n : Nat} {nc : Color} {v : V}
    (h : Represents t1 (plug Cn (T.node nl n nc v T.nil)))
    (hlen : Cn.length < fuel)
    (hnrr : (T.node nl n nc v T.nil).NoRedRed) (hbal : (T.node nl n nc v T.nil).Balanced)
    (hctx : CtxOK Cn (T.node nl n nc v T.nil).bh nc)
    (hne : nl ≠ T.nil → Cn ≠ []) :
    ∃ t' τ', takeNodeRest fuel t1 n = some (n, t') ∧ Represents t' τ' ∧ τ'.RB ∧
      τ'.toList = ctxBeforeL Cn ++ nl.toList ++ ctxAfterL Cn ∧
      t'.size_ = (t1.size_ + sizeModulus - 1) % sizeModulus ∧
      SameOutside t1.mem t'.mem (plug Cn (T.node nl n nc v T.nil)).addrs ∧
      (t'.mem n).parent = none := by
  have hn := h.read
  simp at hn hnrr hbal hctx
  cases nc with
  | Red =>
    have hnl : nl = T.nil := T.nil_of_black_bh0 nl (hnrr.1 rfl) hbal.1
    subst hnl
    simp at hctx hn
    cases Cn with
    | nil => simp [CtxOK] at hctx
    | cons f C =>
      obtain ⟨hr, ho, hp⟩ := detach_spec f h
      have hroot := h.root_ne f
      refine ⟨_, plug (f :: C) T.nil, ?_, hr.set_size _, ?_,
        by cases f <;> simp [toList_plug], rfl, ho, hp⟩
      · simp [takeNodeRest, hn, hroot]
      · exact (RB_plug _ _).2 ⟨trivial, trivial, CtxOK_to_black _ _ _ hctx⟩
  | Black =>
    simp at hctx
    cases nl with
    | nil =>
      simp at hctx hn
      obtain ⟨t2, C', ht2, hr2, hok2, hb2, ha2, hs2, ho2, hne2⟩ :=
        deleteCase1_spec fuel Cn t1 T.nil T.nil n Color.Black v 0 hlen h (by simpa using hctx)
      have hn2 := hr2.read
      simp at hn2
      cases C' with
      | nil =>
        have hroot2 : t2.rootNode_ = some n := hr2.1
        refine ⟨{ mem := clearParent t2.mem n, rootNode_ := none,
                  size_ := (t2.size_ + sizeModulus - 1) % sizeModulus }, T.nil, ?_,
          ⟨rfl, trivial, by simp⟩, ⟨rfl, trivial, trivial⟩, ?_, ?_, ?_, ?_⟩
        · simp [takeNodeRest, hn, ht2, hroot2]
        · rw [← hb2, ← ha2]; simp
        · simp [hs2]
        · intro x hx
          simp [clearParent, hn2]
          exact ho2 x hx
        · simp [clearParent, hn2]
      | cons f C2 =>
        obtain ⟨hr, ho, hp⟩ := detach_spec f hr2
        have hroot := hr2.root_ne f
        refine ⟨_, plug (f :: C2) T.nil, ?_,
          hr.set_size ((t2.size_ + sizeModulus - 1) % sizeModulus), ?_, ?_, ?_, ?_, hp⟩
        · simp [takeNodeRest, hn, ht2, hroot]
        · exact (RB_plug _ _).2 ⟨trivial, trivial, hok2⟩
        · rw [toList_plug, hb2, ha2]
        · simp [hs2]
        · refine ho2.trans (ho.mono ?_)
          intro x hx
          rw [T.addrs_eq_map, toList_plug, hb2, ha2, ← toList_plug, ← T.addrs_eq_map] at hx
          exact hx
    | node cl ch cc cv cr =>
      have hcc : cc = Color.Red := by
        by_contra hcon
        have := Color.ne_red hcon
        subst this
        simp at hbal
      subst hcc
      simp at hbal hnrr hctx hn
      cases Cn with
      | nil => exact absurd rfl (hne (by simp))
      | cons f C =>
        obtain ⟨m1, hm1, hcol, hr, ho, hp⟩ := splice_spec f h
        have hroot := h.root_ne f
        refine ⟨_, plug (f :: C) (T.node cl ch Color.Black cv cr), ?_, hr.set_size _, ?_,
          by cases f <;> simp [toList_plug], rfl, ho, hp⟩
        · simp [takeNodeRest, hn, hm1, hcol, hroot]
        · refine (RB_plug _ _).2 ⟨by simp [hnrr], by simp; exact ⟨hbal.2.1, hbal.2.2.1, hbal.2.2.2⟩, ?_⟩
          simpa [hbal.1] using hctx

end Rest

end nex

set_option autoImplicit false
set_option linter.unnecessarySeqFocus false
set_option linter.unusedTactic false
set_option linter.unreachableTactic false

namespace nex

section TakePure

variable {V : Type}

theorem maxNode_shape (s : T V) (hs : s ≠ T.nil) :
    ∃ dl d dc dv, maxNode s = T.node dl d dc dv T.nil := by
  induction s with
  | nil => exact absurd rfl hs
  | node l a c v r _ ihr =>
    cases r with
    | nil => exact ⟨l, a, c, v, rfl⟩
    | node rl ra rc rv rr =>
      simpa [maxNode] using ihr (by simp)

theorem plug_maxPath (s : T V) : plug (maxPath s) (maxNode s) = s := by
  induction s with
  | nil => rfl
  | node l a c v r _ ihr =>
    cases r with
    | nil => rfl
    | node rl ra rc rv rr =>
      have e1 : maxPath (T.node l a c v (T.node rl ra rc rv rr)) =
          maxPath (T.node rl ra rc rv rr) ++ [Frame.R l a c v] := rfl
      have e2 : maxNode (T.node l a c v (T.node rl ra rc rv rr)) =
          maxNode (T.node rl ra rc rv rr) := rfl
      rw [e1, e2, plug_append, ihr]
      rfl

theorem maxPath_R (s : T V) : ∀ f ∈ maxPath s, ∃ l a c v, f = Frame.R l a c v := by
  induction s with
  | nil => simp [maxPath]
  | node l a c v r _ ihr =>
    cases r with
    | nil => simp [maxPath]
    | node rl ra rc rv rr =>
      intro f hf
      simp only [maxPath, List.mem_append, List.mem_singleton] at hf
      rcases hf with hf | hf
      · exact ihr f hf
      · exact ⟨l, a, c, v, hf⟩

theorem ctxAfterL_allR (D : List (Frame V)) (h : ∀ f ∈ D, ∃ l a c v, f = Frame.R l a c v) :
    ctxAfterL D = [] := by
  induction D with
  | nil => rfl
  | cons f D ih =>
    obtain ⟨l, a, c, v, rfl⟩ := h f (by simp)
    simpa using ih (fun g hg => h g (by simp [hg]))

theorem ctxAfter_allR (D : List (Frame V)) (h : ∀ f ∈ D, ∃ l a c v, f = Frame.R l a c v) :
    ctxAfter D = [] := by
  induction D with
  | nil => rfl
  | cons f D ih =>
    obtain ⟨l, a, c, v, rfl⟩ := h f (by simp)
    simpa using ih (fun g hg => h g (by simp [hg]))

theorem max_spec (m : Mem V) (s : T V) :
    ∀ (fuel : Nat) (par : Option Nat), Repr m s par → s.height ≤ fuel →
      max m fuel s.ptr = some (maxNode s).ptr := by
  induction s with
  | nil => intro fuel par _ _; cases fuel <;> rfl
  | node l a c v r _ ihr =>
    intro fuel par h hf
    cases fuel with
    | zero => simp [T.height] at hf
    | succ fuel =>
      simp only [Repr_node] at h
      cases r with
      | nil => simp [max, h.1, maxNode]
      | node rl ra rc rv rr =>
        have := ihr fuel (some a) h.2.2 (by
          simp only [T.height] at hf ⊢
          have : Nat.max rl.height rr.height + 1 ≤
              Nat.max l.height (Nat.max rl.height rr.height + 1) := Nat.le_max_right _ _
          omega)
        simpa [max, h.1, maxNode] using this

theorem height_plug (C : List (Frame V)) (s : T V) :
    C.length + s.height ≤ (plug C s).height := by
  induction C generalizing s with
  | nil => simp
  | cons f C ih =>
    have := ih (f.fill s)
    cases f with
    | L a c v r =>
      simp only [plug_cons, fill_L, T.height, List.length_cons] at this ⊢
      have : s.height ≤ Nat.max s.height r.height := Nat.le_max_left _ _
      omega
    | R l a c v =>
      simp only [plug_cons, fill_R, T.height, List.length_cons] at this ⊢
      have : s.height ≤ Nat.max l.height s.height := Nat.le_max_right _ _
      omega

theorem T.split_mem (τ : T V) (n : Nat) (hn : n ∈ τ.addrs) :
    ∃ C l c v r, τ = plug C (T.node l n c v r) := by
  induction τ with
  | nil => simp at hn
  | node l a c v r ihl ihr =>
    simp only [T.addrs_node, List.mem_append, List.mem_cons] at hn
    rcases hn with hn | hn | hn
    · obtain ⟨C, l1, c1, v1, r1, e⟩ := ihl hn
      exact ⟨C ++ [Frame.L a c v r], l1, c1, v1, r1, by rw [plug_append, ← e]; rfl⟩
    · subst hn
      exact ⟨[], l, c, v, r, rfl⟩
    · obtain ⟨C, l1, c1, v1, r1, e⟩ := ihr hn
      exact ⟨C ++ [Frame.R l a c v], l1, c1, v1, r1, by rw [plug_append, ← e]; rfl⟩

/-- The colouring of a tree does not change when the subtree in the hole is exchanged for
one of the same colour, black height and colouring. -/
theorem plug_rb_congr (D : List (Frame V)) :
    ∀ (s s' : T V), s.color = s'.color → s.bh = s'.bh → (s.NoRedRed ↔ s'.NoRedRed) →
      (s.Balanced ↔ s'.Balanced) →
      (plug D s).color = (plug D s').color ∧ (plug D s).bh = (plug D s').bh ∧
        ((plug D s).NoRedRed ↔ (plug D s').NoRedRed) ∧
        ((plug D s).Balanced ↔ (plug D s').Balanced) := by
  induction D with
  | nil => intro s s' h1 h2 h3 h4; exact ⟨h1, h2, h3, h4⟩
  | cons f D ih =>
    intro s s' h1 h2 h3 h4
    cases f with
    | L a c v r =>
      exact ih _ _ rfl (by simp [h2]) (by simp [h1, h3]) (by simp [h2, h4])
    | R l a c v =>
      exact ih _ _ rfl (by simp) (by simp [h1, h3]) (by simp [h2, h4])

end TakePure

end nex

set_option autoImplicit false
set_option linter.unnecessarySeqFocus false
set_option linter.unusedTactic false
set_option linter.unreachableTactic false

namespace nex

section TakeSwap

variable {V : Type}

/-- Exchanging a node with the rightmost node of its left subtree: the three shapes of
`swapValues` met by `takeNode` in one statement. -/
theorem swap_left_spec {t : RBTree V} {C D : List (Frame V)} {dl r : T V} {n d : Nat}
    {c dc : Color} {v dv : V} (hD : ∀ f ∈ D, ∃ l a c v, f = Frame.R l a c v)
    (h : Represents t (plug C (T.node (plug D (T.node dl d dc dv T.nil)) n c v r))) :
    ∃ t1 : RBTree V,
      (if isRoot (swapValues t.mem d n) d then
          ({ t with mem := setC (swapValues t.mem d n) d Color.Black, rootNode_ := some d } :
            RBTree V)
        else { t with mem := swapValues t.mem d n }) = t1 ∧
      Represents t1 (plug C (T.node (plug D (T.node dl n dc v T.nil)) d (topColor C c) dv r)) ∧
      t1.size_ = t.size_ ∧
      SameOutside t.mem t1.mem
        (plug C (T.node (plug D (T.node dl d dc dv T.nil)) n c v r)).addrs := by
  cases D with
  | nil => exact swap_adjL_spec h
  | cons f D =>
    obtain ⟨pl, p, pc, pv, rfl⟩ := hD f (by simp)
    exact swap_far_spec h

theorem takeNode_eq_with (fuel : Nat) (t : RBTree V) (node : Nat) :
    takeNode fuel t node = takeNodeWith takeNodeRest fuel t node := rfl

/-- The first half of `takeNode` on a node of a red-black tree: the node changes places
with its neighbour by value and ends with no right child and at most a left child; a node
without left child ends without any child. -/
theorem takeNodeWith_swap (fuel : Nat) {t : RBTree V} {C : List (Frame V)} {l r : T V} {n : Nat}
    {c : Color} {v : V}
    (h : Represents t (plug C (T.node l n c v r)))
    (hrb : (plug C (T.node l n c v r)).RB)
    (hfuel : (plug C (T.node l n c v r)).height ≤ fuel) :
    ∃ (t1 : RBTree V) (Cn : List (Frame V)) (nl : T V) (nc : Color)
      (xs ys : List (Nat × V)),
      (∀ rest : Nat → RBTree V → Nat → Option (Nat × RBTree V),
        takeNodeWith rest fuel t n = rest fuel t1 n) ∧
      Represents t1 (plug Cn (T.node nl n nc v T.nil)) ∧
      (plug Cn (T.node nl n nc v T.nil)).RB ∧
      Cn.length < fuel ∧ (nl ≠ T.nil → Cn ≠ []) ∧
      (plug C (T.node l n c v r)).toList = xs ++ (n, v) :: ys ∧
      ctxBeforeL Cn ++ nl.toList ++ ctxAfterL Cn = xs ++ ys ∧
      t1.size_ = t.size_ ∧
      SameOutside t.mem t1.mem (plug C (T.node l n c v r)).addrs ∧
      (∀ x, x ∈ (plug Cn (T.node nl n nc v T.nil)).addrs →
        x ∈ (plug C (T.node l n c v r)).addrs) ∧
      (l = T.nil → nl = T.nil) := by
  obtain ⟨hnrr, hbal, hctx⟩ := (RB_plug _ _).1 hrb
  have hn := h.read
  simp only [T.ptr_node] at hn
  have hlen := height_plug C (T.node l n c v r)
  cases l with
  | nil =>
    cases r with
    | nil =>
      refine ⟨t, C, T.nil, c, ctxBeforeL C, ctxAfterL C, ?_, h, hrb, ?_, by simp, ?_, by simp,
        rfl, SameOutside.refl _ _, fun x hx => hx, fun _ => rfl⟩
      · intro rest
        simp [takeNodeWith, hn]
      · simp [T.height] at hlen; omega
      · simp [toList_plug]
    | node rl d dc dv rr =>
      simp at hbal hnrr hctx
      have hdc : dc = Color.Red := by
        by_contra hcon
        have := Color.ne_red hcon
        subst this
        simp at hbal
      subst hdc
      simp at hbal hnrr
      have hrl : rl = T.nil := T.nil_of_black_bh0 rl hnrr.2.1.1 hbal.1.symm
      have hrr : rr = T.nil := T.nil_of_black_bh0 rr hnrr.2.1.2 (by omega)
      subst hrl hrr
      have hcb : c = Color.Black := by
        by_contra hcon
        exact hnrr.1 (Color.ne_black hcon)
      subst hcb
      obtain ⟨t1, ht1, hr1, hs1, ho1⟩ := swap_adjR_spec h
      have hd := Represents.read (C := Frame.R T.nil n Color.Black v :: C) h
      simp at hd
      have hc := h.counts
      simp only [T.addrs_node, T.addrs_nil, List.count_append, count_cons_one,
        List.count_nil] at hc
      have hnd : d ≠ n := ne_of_one (by have := hc d; have := one_self d; omega)
      have htc : topColor C Color.Black = Color.Black := by cases C <;> rfl
      rw [htc] at hr1
      obtain ⟨k, rfl⟩ : ∃ k, fuel = k + 1 := ⟨fuel - 1, by
        simp [T.height] at hlen; omega⟩
      refine ⟨t1, Frame.R T.nil d Color.Black dv :: C, T.nil, Color.Red,
        ctxBeforeL C, (d, dv) :: ctxAfterL C, ?_, hr1, ?_, ?_, by simp, ?_, by simp,
        hs1, ho1, ?_, fun _ => rfl⟩
      · intro rest
        rw [← ht1]
        simp [takeNodeWith, hn, min, hd, hnd]
      · refine (RB_plug _ _).2 ⟨by simp, by simp, ?_⟩
        simp only [CtxOK]
        simpa using hctx
      · simp [T.height] at hlen ⊢; omega
      · simp [toList_plug]
      · intro x
        simp only [addrs_plug, ctxBefore_R, T.addrs_node, T.addrs_nil, List.mem_append,
          List.mem_cons, ctxAfter_R]
        simp
        tauto
  | node ll la lc lv lr =>
    have hLne : T.node ll la lc lv lr ≠ T.nil := by simp
    have hLne0 : T.node ll la lc lv lr ≠ T.nil := by simp
    have hLptr : (T.node ll la lc lv lr).ptr ≠ none := by simp
    generalize T.node ll la lc lv lr = L at *
    obtain ⟨dl, d, dc, dv, hmn⟩ := maxNode_shape L hLne
    have hL := plug_maxPath L
    have hD := maxPath_R L
    have hsub := h.sub
    rw [Repr_node] at hsub
    have hLh : L.height ≤ fuel := by
      simp only [T.height] at hlen
      have : L.height ≤ Nat.max L.height r.height := Nat.le_max_left _ _
      omega
    have hmax := max_spec t.mem L fuel (some n) hsub.2.1 hLh
    rw [hmn] at hmax hL
    generalize maxPath L = D at hL hD
    subst hL
    obtain ⟨t1, ht1, hr1, hs1, ho1⟩ := swap_left_spec hD h
    have hc := h.counts
    simp only [T.addrs_node, T.addrs_nil, addrs_plug, List.count_append, count_cons_one,
      List.count_nil] at hc
    have hnd : d ≠ n := ne_of_one (by have := hc d; have := one_self d; omega)
    rw [CtxOK_topColor C _ c hctx] at hr1
    have hA := ctxAfterL_allR D hD
    have hA2 := ctxAfter_allR D hD
    have hcong := plug_rb_congr D (T.node dl d dc dv T.nil) (T.node dl n dc v T.nil) rfl rfl
      (by simp) (by simp)
    have hrb1 : (plug C (T.node (plug D (T.node dl n dc v T.nil)) d c dv r)).RB := by
      refine (RB_plug _ _).2 ?_
      simp only [T.NoRedRed_node, T.Balanced_node, T.bh_node, T.color_node] at hnrr hbal hctx ⊢
      rw [← hcong.1, ← hcong.2.1, ← hcong.2.2.1, ← hcong.2.2.2]
      exact ⟨hnrr, hbal, hctx⟩
    have hplug : plug C (T.node (plug D (T.node dl n dc v T.nil)) d c dv r) =
        plug (D ++ Frame.L d c dv r :: C) (T.node dl n dc v T.nil) := by
      rw [plug_append]; rfl
    rw [hplug] at hr1 hrb1
    have hlen2 := height_plug D (T.node dl d dc dv T.nil)
    refine ⟨t1, D ++ Frame.L d c dv r :: C, dl, dc,
      ctxBeforeL C ++ (plug D (T.node dl d dc dv T.nil)).toList, r.toList ++ ctxAfterL C,
      ?_, hr1, hrb1, ?_, by simp, ?_, ?_, hs1, ho1, ?_, fun e => absurd e hLne0⟩
    · intro rest
      rw [← ht1]
      simp [takeNodeWith, hn, hLptr, hmax, hnd]
    · simp only [T.height, List.length_append, List.length_cons] at hlen hlen2 ⊢
      have : (plug D (T.node dl d dc dv T.nil)).height ≤
          Nat.max (plug D (T.node dl d dc dv T.nil)).height r.height := Nat.le_max_left _ _
      omega
    · simp [toList_plug]
    · simp [toList_plug, ctxBeforeL_append, ctxAfterL_append, hA]
    · intro x
      simp only [addrs_plug, ctxBefore_append, ctxAfter_append, hA2, ctxBefore_L, ctxAfter_L,
        T.addrs_node, T.addrs_nil, List.mem_append, List.mem_cons]
      simp
      tauto

theorem takeNode_swap (fuel : Nat) {t : RBTree V} {C : List (Frame V)} {l r : T V} {n : Nat}
    {c : Color} {v : V}
    (h : Represents t (plug C (T.node l n c v r)))
    (hrb : (plug C (T.node l n c v r)).RB)
    (hfuel : (plug C (T.node l n c v r)).height ≤ fuel) :
    ∃ (t1 : RBTree V) (Cn : List (Frame V)) (nl : T V) (nc : Color)
      (xs ys : List (Nat × V)),
      takeNode fuel t n = takeNodeRest fuel t1 n ∧
      Represents t1 (plug Cn (T.node nl n nc v T.nil)) ∧
      (plug Cn (T.node nl n nc v T.nil)).RB ∧
      Cn.length < fuel ∧ (nl ≠ T.nil → Cn ≠ []) ∧
      (plug C (T.node l n c v r)).toList = xs ++ (n, v) :: ys ∧
      ctxBeforeL Cn ++ nl.toList ++ ctxAfterL Cn = xs ++ ys ∧
      t1.size_ = t.size_ ∧
      SameOutside t.mem t1.mem (plug C (T.node l n c v r)).addrs ∧
      (∀ x, x ∈ (plug Cn (T.node nl n nc v T.nil)).addrs →
        x ∈ (plug C (T.node l n c v r)).addrs) := by
  obtain ⟨t1, Cn, nl, nc, xs, ys, e, h1, h2, h3, h4, h5, h6, h7, h8, h9, -⟩ :=
    takeNodeWith_swap fuel h hrb hfuel
  exact ⟨t1, Cn, nl, nc, xs, ys, (takeNode_eq_with fuel t n).trans (e takeNodeRest), h1, h2, h3, h4, h5, h6,
    h7, h8, h9⟩

end TakeSwap

end nex

set_option autoImplicit false
set_option linter.unnecessarySeqFocus false
set_option linter.unusedTactic false
set_option linter.unreachableTactic false

namespace nex

section TakeSpec

variable {V : Type}

/-- Refinement of `takeNode`: on a state holding a red-black tree that contains node `n`,
with enough budget, `takeNode` returns `n` and a state holding a red-black tree whose
in-order sequence is the old one without `n`; `size_` went down by one, nothing outside
the tree was written, and the parent link of `n` is null. -/
theorem takeNode_spec (fuel : Nat) (t : RBTree V) (τ : T V) (n : Nat)
    (h : Represents t τ) (hrb : τ.RB) (hn : n ∈ τ.addrs) (hfuel : τ.height ≤ fuel) :
    ∃ t' τ' xs ys v, takeNode fuel t n = some (n, t') ∧ Represents t' τ' ∧ τ'.RB ∧
      τ.toList = xs ++ (n, v) :: ys ∧ τ'.toList = xs ++ ys ∧
      t'.size_ = (t.size_ + sizeModulus - 1) % sizeModulus ∧
      SameOutside t.mem t'.mem τ.addrs ∧ (t'.mem n).parent = none := by
  obtain ⟨C, l, c, v, r, rfl⟩ := T.split_mem τ n hn
  obtain ⟨t1, Cn, nl, nc, xs, ys, e1, hr1, hrb1, hlen, hne, hxs, hys, hs1, ho1, hsub⟩ :=
    takeNode_swap fuel h hrb hfuel
  obtain ⟨hnrr, hbal, hctx⟩ := (RB_plug _ _).1 hrb1
  obtain ⟨t', τ', e2, hr2, hrb2, hl2, hs2, ho2, hp2⟩ :=
    takeNodeRest_spec fuel hr1 hlen hnrr hbal hctx hne
  refine ⟨t', τ', xs, ys, v, e1.trans e2, hr2, hrb2, hxs, hl2.trans hys, ?_, ?_, hp2⟩
  · rw [hs2, hs1]
  · exact ho1.trans (ho2.mono hsub)

end TakeSpec

end nex

set_option autoImplicit false
set_option linter.unnecessarySeqFocus false
set_option linter.unusedTactic false
set_option linter.unreachableTactic false

namespace nex

section Search

variable {K V : Type} [LinearOrder K]

theorem T.ordered_node (key : V → K) (l r : T V) (a : Nat) (c : Color) (v : V) :
    (T.node l a c v r).Ordered key ↔
      l.Ordered key ∧ r.Ordered key ∧ (∀ x ∈ l.values, key x ≤ key v) ∧
        (∀ y ∈ r.values, key v ≤ key y) ∧
        (∀ x ∈ l.values, ∀ y ∈ r.values, key x ≤ key y) := by
  unfold T.Ordered List.Sorted
  simp only [T.values_node, List.map_append, List.map_cons, List.pairwise_append,
    List.pairwise_cons, List.mem_map, List.mem_cons]
  constructor
  · rintro ⟨h1, ⟨h2, h3⟩, h4⟩
    refine ⟨h1, h3, ?_, ?_, ?_⟩
    · intro x hx; exact h4 _ ⟨x, hx, rfl⟩ _ (Or.inl rfl)
    · intro y hy; exact h2 _ ⟨y, hy, rfl⟩
    · intro x hx y hy; exact h4 _ ⟨x, hx, rfl⟩ _ (Or.inr ⟨y, hy, rfl⟩)
  · rintro ⟨h1, h3, h5, h6, h7⟩
    refine ⟨h1, ⟨?_, h3⟩, ?_⟩
    · rintro _ ⟨y, hy, rfl⟩; exact h6 y hy
    · rintro _ ⟨x, hx, rfl⟩ b hb
      rcases hb with rfl | ⟨y, hy, rfl⟩
      · exact h5 x hx
      · exact h7 x hx y hy

theorem T.mem_values_iff (s : T V) (x : V) : x ∈ s.values ↔ ∃ a, (a, x) ∈ s.toList := by
  unfold T.values
  simp

/-- The loop of `searchNode` on an ordered subtree: it ends on a node holding the key
when the subtree has one, and on the null pointer otherwise. -/
theorem searchLoop_spec (key : V → K) (m : Mem V) (k : K) (s : T V) :
    ∀ (fuel : Nat) (par : Option Nat) (cmp0 : Int), Repr m s par → s.Ordered key →
      s.height ≤ fuel →
      (k ∈ s.values.map key →
        ∃ a v, searchLoop key m k fuel s.ptr cmp0 = some (some a, 0) ∧
          (a, v) ∈ s.toList ∧ key v = k) ∧
      (k ∉ s.values.map key → ∃ c, searchLoop key m k fuel s.ptr cmp0 = some (none, c)) := by
  induction s with
  | nil =>
    intro fuel par cmp0 _ _ _
    refine ⟨by simp, fun _ => ⟨cmp0, ?_⟩⟩
    cases fuel <;> rfl
  | node l a c v r ihl ihr =>
    intro fuel par cmp0 h hord hf
    obtain ⟨ol, or, hl, hr, -⟩ := (T.ordered_node key l r a c v).1 hord
    rw [Repr_node] at h
    cases fuel with
    | zero => simp [T.height] at hf
    | succ fuel =>
      have hlf : l.height ≤ fuel := by
        simp only [T.height] at hf
        have : l.height ≤ Nat.max l.height r.height := Nat.le_max_left _ _
        omega
      have hrf : r.height ≤ fuel := by
        simp only [T.height] at hf
        have : r.height ≤ Nat.max l.height r.height := Nat.le_max_right _ _
        omega
      simp only [T.ptr_node, searchLoop, h.1]
      rcases lt_trichotomy k (key v) with hlt | heq | hgt
      · have hc : compareKeys k (key v) < 0 := (compareKeys_lt _ _).2 hlt
        have hc0 : compareKeys k (key v) ≠ 0 := by omega
        simp only [hc0, hc, ne_eq, not_false_eq_true, if_true]
        obtain ⟨i1, i2⟩ := ihl fuel (some a) (compareKeys k (key v)) h.2.1 ol hlf
        constructor
        · intro hk
          have hk' : k ∈ l.values.map key := by
            simp only [T.values_node, List.map_append, List.map_cons, List.mem_append,
              List.mem_cons, List.mem_map] at hk
            rcases hk with hk | hk | ⟨y, hy, rfl⟩
            · simpa using hk
            · exact absurd hk (ne_of_lt hlt)
            · exact absurd (hr y hy) (not_le.2 hlt)
          obtain ⟨b, w, e, hm, hw⟩ := i1 hk'
          exact ⟨b, w, e, by simp [hm], hw⟩
        · intro hk
          exact i2 (fun hk' => hk (by
            rw [T.values_node, List.map_append, List.mem_append]; exact Or.inl hk'))
      · have hc0 : compareKeys k (key v) = 0 := (compareKeys_eq _ _).2 heq
        simp only [hc0, ne_eq, not_true_eq_false, if_false]
        constructor
        · intro _; exact ⟨a, v, rfl, by simp, heq.symm⟩
        · intro hk; exact absurd (by simp [T.values_node, heq]) hk
      · have hc : ¬ compareKeys k (key v) < 0 := by
          rw [compareKeys_lt]; exact not_lt.2 (le_of_lt hgt)
        have hc0 : compareKeys k (key v) ≠ 0 := by
          rw [ne_eq, compareKeys_eq]; exact ne_of_gt hgt
        simp only [hc0, hc, ne_eq, not_false_eq_true, if_true, if_false]
        obtain ⟨i1, i2⟩ := ihr fuel (some a) (compareKeys k (key v)) h.2.2 or hrf
        constructor
        · intro hk
          have hk' : k ∈ r.values.map key := by
            simp only [T.values_node, List.map_append, List.map_cons, List.mem_append,
              List.mem_cons, List.mem_map] at hk
            rcases hk with ⟨x, hx, rfl⟩ | hk | hk
            · exact absurd (hl x hx) (not_le.2 hgt)
            · exact absurd hk (ne_of_gt hgt)
            · simpa using hk
          obtain ⟨b, w, e, hm, hw⟩ := i1 hk'
          exact ⟨b, w, e, by simp [hm], hw⟩
        · intro hk
          exact i2 (fun hk' => hk (by
            rw [T.values_node, List.map_append, List.mem_append, List.map_cons, List.mem_cons]
            exact Or.inr (Or.inr hk')))

/-- Refinement of `searchNode` on an ordered tree. -/
theorem searchNode_spec (key : V → K) (fuel : Nat) (t : RBTree V) (τ : T V) (k : K)
    (h : Represents t τ) (hord : τ.Ordered key) (hfuel : τ.height ≤ fuel) :
    (k ∈ τ.values.map key →
      ∃ a v, searchNode key fuel t k = some (some a) ∧ (a, v) ∈ τ.toList ∧ key v = k) ∧
    (k ∉ τ.values.map key → searchNode key fuel t k = some none) := by
  obtain ⟨i1, i2⟩ := searchLoop_spec key t.mem k τ fuel none 0 h.2.1 hord hfuel
  constructor
  · intro hk
    obtain ⟨a, v, e, hm, hv⟩ := i1 hk
    refine ⟨a, v, ?_, hm, hv⟩
    simp [searchNode, h.1, e]
  · intro hk
    obtain ⟨c, e⟩ := i2 hk
    simp [searchNode, h.1, e]

end Search

end nex

set_option autoImplicit false
set_option linter.unnecessarySeqFocus false
set_option linter.unusedTactic false
set_option linter.unreachableTactic false

namespace nex

section Iter

variable {V : Type}

theorem nodup_split_unique {a : Nat} :
    ∀ {xs ys xs' ys' : List Nat}, (xs ++ a :: ys).Nodup → xs ++ a :: ys = xs' ++ a :: ys' →
      xs = xs' ∧ ys = ys' := by
  intro xs
  induction xs with
  | nil =>
    intro ys xs' ys' hnd e
    cases xs' with
    | nil => simp at e; exact ⟨rfl, e⟩
    | cons b xs' =>
      simp at e hnd
      obtain ⟨rfl, e2⟩ := e
      exact absurd (by rw [e2]; simp) hnd.1
  | cons x xs ih =>
    intro ys xs' ys' hnd e
    cases xs' with
    | nil =>
      simp only [List.nil_append, List.cons_append, List.cons.injEq] at e
      obtain ⟨rfl, -⟩ := e
      exact absurd (by simp) (List.nodup_cons.1 hnd).1
    | cons b xs' =>
      simp only [List.cons_append, List.cons.injEq] at e
      obtain ⟨rfl, e2⟩ := e
      have := ih (List.nodup_cons.1 hnd).2 e2
      exact ⟨by rw [this.1], this.2⟩

theorem T.addrs_ne_nil (l r : T V) (a : Nat) (c : Color) (v : V) :
    (T.node l a c v r).addrs ≠ [] := by simp

theorem head_append_of_ne_nil {xs ys : List Nat} (h : xs ≠ []) :
    (xs ++ ys).head? = xs.head? := by
  cases xs with
  | nil => exact absurd rfl h
  | cons x xs => rfl

theorem getLast_append_of_ne_nil {xs ys : List Nat} (h : ys ≠ []) :
    (xs ++ ys).getLast? = ys.getLast? := by
  cases ys with
  | nil => exact absurd rfl h
  | cons y ys => simp [List.getLast?_append, List.getLast?_cons]

theorem min_spec (m : Mem V) (s : T V) :
    ∀ (fuel : Nat) (par : Option Nat), Repr m s par → s.height ≤ fuel →
      min m fuel s.ptr = some s.addrs.head? := by
  induction s with
  | nil => intro fuel par _ _; cases fuel <;> rfl
  | node l a c v r ihl _ =>
    intro fuel par h hf
    cases fuel with
    | zero => simp [T.height] at hf
    | succ fuel =>
      simp only [Repr_node] at h
      have hlf : l.height ≤ fuel := by
        simp only [T.height] at hf
        have : l.height ≤ Nat.max l.height r.height := Nat.le_max_left _ _
        omega
      have := ihl fuel (some a) h.2.1 hlf
      cases l with
      | nil => simp [min, h.1]
      | node ll la lc lv lr =>
        rw [T.addrs_node, head_append_of_ne_nil (T.addrs_ne_nil _ _ _ _ _)]
        simpa [min, h.1] using this

theorem max_last (m : Mem V) (s : T V) :
    ∀ (fuel : Nat) (par : Option Nat), Repr m s par → s.height ≤ fuel →
      max m fuel s.ptr = some s.addrs.getLast? := by
  induction s with
  | nil => intro fuel par _ _; cases fuel <;> rfl
  | node l a c v r _ ihr =>
    intro fuel par h hf
    cases fuel with
    | zero => simp [T.height] at hf
    | succ fuel =>
      simp only [Repr_node] at h
      have hrf : r.height ≤ fuel := by
        simp only [T.height] at hf
        have : r.height ≤ Nat.max l.height r.height := Nat.le_max_right _ _
        omega
      have := ihr fuel (some a) h.2.2 hrf
      cases r with
      | nil => simp [max, h.1]
      | node rl ra rc rv rr =>
        have e : (T.node l a c v (T.node rl ra rc rv rr)).addrs =
            (l.addrs ++ [a]) ++ (T.node rl ra rc rv rr).addrs := by simp
        rw [e, getLast_append_of_ne_nil (T.addrs_ne_nil _ _ _ _ _)]
        simpa [max, h.1] using this

/-- Climbing from a node without right child reaches the next node in order. -/
theorem climbRight_spec {t : RBTree V} :
    ∀ (C : List (Frame V)) (fuel : Nat) (l r : T V) (p : Nat) (c : Color) (v : V),
      Represents t (plug C (T.node l p c v r)) → C.length < fuel →
      climbRight t.mem fuel p = some (ctxAfter C).head? := by
  intro C
  induction C with
  | nil =>
    intro fuel l r p c v h hf
    have hp := h.read
    obtain ⟨k, rfl⟩ : ∃ k, fuel = k + 1 := ⟨fuel - 1, by simp at hf; omega⟩
    simp [climbRight, hp]
  | cons f C ih =>
    intro fuel l r p c v h hf
    have hp := h.read
    obtain ⟨k, rfl⟩ : ∃ k, fuel = k + 1 := ⟨fuel - 1, by simp at hf; omega⟩
    cases f with
    | L a fc fv fr =>
      have ha := Represents.read (C := C) h
      have hc := h.counts p
      simp only [T.addrs_node, List.count_append, count_cons_one, ctxAfter_L] at hc
      have hne : fr.ptr ≠ some p := fun e => by
        have := ptr_count _ _ e; have := one_self p; omega
      simp [climbRight, hp, ha, hne]
    | R fl a fc fv =>
      have ha := Represents.read (C := C) h
      have := ih k fl (T.node l p c v r) a fc fv h (by simp at hf; omega)
      simpa [climbRight, hp, ha] using this

/-- Climbing from a node without left child reaches the previous node in order. -/
theorem climbLeft_spec {t : RBTree V} :
    ∀ (C : List (Frame V)) (fuel : Nat) (l r : T V) (p : Nat) (c : Color) (v : V),
      Represents t (plug C (T.node l p c v r)) → C.length < fuel →
      climbLeft t.mem fuel p = some (ctxBefore C).getLast? := by
  intro C
  induction C with
  | nil =>
    intro fuel l r p c v h hf
    have hp := h.read
    obtain ⟨k, rfl⟩ : ∃ k, fuel = k + 1 := ⟨fuel - 1, by simp at hf; omega⟩
    simp [climbLeft, hp]
  | cons f C ih =>
    intro fuel l r p c v h hf
    have hp := h.read
    obtain ⟨k, rfl⟩ : ∃ k, fuel = k + 1 := ⟨fuel - 1, by simp at hf; omega⟩
    cases f with
    | R fl a fc fv =>
      have ha := Represents.read (C := C) h
      have hc := h.counts p
      simp only [T.addrs_node, List.count_append, count_cons_one, ctxBefore_R] at hc
      have hne : fl.ptr ≠ some p := fun e => by
        have := ptr_count _ _ e; have := one_self p; omega
      simp [climbLeft, hp, ha, hne]
    | L a fc fv fr =>
      have ha := Represents.read (C := C) h
      have := ih k (T.node l p c v r) fr a fc fv h (by simp at hf; omega)
      simpa [climbLeft, hp, ha] using this

end Iter

end nex

set_option autoImplicit false
set_option linter.unnecessarySeqFocus false
set_option linter.unusedTactic false
set_option linter.unreachableTactic false

namespace nex

section IterSpec

variable {V : Type}

/-- Where a node sits in the in-order sequence of a tree without repeated addresses. -/
theorem split_at_node {C : List (Frame V)} {l r : T V} {a : Nat} {c : Color} {v : V}
    {xs ys : List Nat} (hnd : (plug C (T.node l a c v r)).addrs.Nodup)
    (e : (plug C (T.node l a c v r)).addrs = xs ++ a :: ys) :
    xs = ctxBefore C ++ l.addrs ∧ ys = r.addrs ++ ctxAfter C := by
  have e2 : (plug C (T.node l a c v r)).addrs =
      (ctxBefore C ++ l.addrs) ++ a :: (r.addrs ++ ctxAfter C) := by
    simp [addrs_plug]
  rw [e] at hnd
  exact nodup_split_unique hnd (e.symm.trans e2)

/-- Refinement of `operator++`: the iterator moves to the next node in order, to the end
position after the last one. -/
theorem operator_inc_spec {t : RBTree V} {τ : T V} (fuel : Nat) (h : Represents t τ)
    (hfuel : τ.height ≤ fuel) (xs ys : List Nat) (a : Nat) (e : τ.addrs = xs ++ a :: ys) :
    operator_inc fuel t.mem (some a) = some ys.head? := by
  obtain ⟨C, l, c, v, r, rfl⟩ := T.split_mem τ a (by rw [e]; simp)
  obtain ⟨-, rfl⟩ := split_at_node h.2.2 e
  have ha := h.read
  have hlen := height_plug C (T.node l a c v r)
  have hsub := h.sub
  rw [Repr_node] at hsub
  cases r with
  | nil =>
    have := climbRight_spec C fuel l T.nil a c v h (by simp [T.height] at hlen; omega)
    simpa [operator_inc, ha] using this
  | node rl ra rc rv rr =>
    have hrf : (T.node rl ra rc rv rr).height ≤ fuel := by
      simp only [T.height] at hlen hfuel ⊢
      have : Nat.max rl.height rr.height + 1 ≤
          Nat.max l.height (Nat.max rl.height rr.height + 1) := Nat.le_max_right _ _
      omega
    have := min_spec t.mem (T.node rl ra rc rv rr) fuel (some a) hsub.2.2 hrf
    rw [head_append_of_ne_nil (T.addrs_ne_nil _ _ _ _ _)]
    simpa [operator_inc, ha] using this

/-- Refinement of `operator--`: the iterator moves to the previous node in order. -/
theorem operator_dec_spec {t : RBTree V} {τ : T V} (fuel : Nat) (h : Represents t τ)
    (hfuel : τ.height ≤ fuel) (xs ys : List Nat) (a : Nat) (e : τ.addrs = xs ++ a :: ys) :
    operator_dec fuel t.mem (some a) = some xs.getLast? := by
  obtain ⟨C, l, c, v, r, rfl⟩ := T.split_mem τ a (by rw [e]; simp)
  obtain ⟨rfl, -⟩ := split_at_node h.2.2 e
  have ha := h.read
  have hlen := height_plug C (T.node l a c v r)
  have hsub := h.sub
  rw [Repr_node] at hsub
  cases l with
  | nil =>
    have := climbLeft_spec C fuel T.nil r a c v h (by simp [T.height] at hlen; omega)
    simpa [operator_dec, ha] using this
  | node ll la lc lv lr =>
    have hlf : (T.node ll la lc lv lr).height ≤ fuel := by
      simp only [T.height] at hlen hfuel ⊢
      have : Nat.max ll.height lr.height + 1 ≤
          Nat.max (Nat.max ll.height lr.height + 1) r.height := Nat.le_max_left _ _
      omega
    have := max_last t.mem (T.node ll la lc lv lr) fuel (some a) hsub.2.1 hlf
    rw [getLast_append_of_ne_nil (T.addrs_ne_nil _ _ _ _ _)]
    simpa [operator_dec, ha] using this

theorem walk_stop (step : Option Nat → Option (Option Nat)) (stop : Option Nat) (n : Nat) :
    walk step stop n stop = some [] := by
  cases n <;> simp [walk]

/-- Stepping forward from a node up to a later node passes the in-order sequence between
them. -/
theorem walk_inc_spec {t : RBTree V} {τ : T V} (fuel : Nat) (h : Represents t τ)
    (hfuel : τ.height ≤ fuel) (zs : List Nat) :
    ∀ (ys xs : List Nat) (n : Nat), τ.addrs = xs ++ ys ++ zs → ys.length ≤ n →
      walk (operator_inc fuel t.mem) zs.head? n (ys ++ zs).head? = some ys := by
  intro ys
  induction ys with
  | nil => intro xs n _ _; exact walk_stop _ _ _
  | cons a ys ih =>
    intro xs n e hn
    obtain ⟨k, rfl⟩ : ∃ k, n = k + 1 := ⟨n - 1, by simp at hn; omega⟩
    have h1 := operator_inc_spec fuel h hfuel xs (ys ++ zs) a (by simp [e])
    have h2 := ih (xs ++ [a]) k (by simp [e]) (by simp at hn; omega)
    have hne : ¬ (some a = zs.head?) := by
      intro hz
      have hnd := h.2.2
      rw [e] at hnd
      cases zs with
      | nil => simp at hz
      | cons z zs =>
        simp at hz
        subst hz
        have := counts_of_nodup hnd a
        simp only [List.count_append, count_cons_one] at this
        have := one_self a
        omega
    simp only [List.cons_append, List.head?_cons, walk, hne, if_false, h1, h2, Option.map_some']

/-- Stepping backward from any node to the end passes the earlier part of the in-order
sequence in reverse. -/
theorem walk_dec_spec {t : RBTree V} {τ : T V} (fuel : Nat) (h : Represents t τ)
    (hfuel : τ.height ≤ fuel) :
    ∀ (sx ys : List Nat) (n : Nat), τ.addrs = sx.reverse ++ ys → sx.length ≤ n →
      walk (operator_dec fuel t.mem) none n sx.head? = some sx := by
  intro sx
  induction sx with
  | nil => intro ys n _ _; exact walk_stop _ _ _
  | cons a sx ih =>
    intro ys n e hn
    obtain ⟨k, rfl⟩ : ∃ k, n = k + 1 := ⟨n - 1, by simp at hn; omega⟩
    have h1 := operator_dec_spec fuel h hfuel sx.reverse ys a (by simpa using e)
    have h2 := ih (a :: ys) k (by simpa using e) (by simp at hn; omega)
    rw [List.getLast?_reverse] at h1
    simp [walk, h1, h2]

theorem Repr_values (m : Mem V) (s : T V) :
    ∀ par, Repr m s par → s.addrs.map (fun a => (m a).value) = s.values := by
  induction s with
  | nil => intro _ _; rfl
  | node l a c v r ihl ihr =>
    intro par h
    rw [Repr_node] at h
    simp [T.values_node, ihl _ h.2.1, ihr _ h.2.2, h.1]

theorem T.height_le_size (s : T V) : s.height ≤ s.size := by
  induction s with
  | nil => simp [T.height, T.size]
  | node l a c v r ihl ihr =>
    simp only [T.height, T.size]
    have : Nat.max l.height r.height ≤ l.height + r.height :=
      Nat.max_le.2 ⟨Nat.le_add_right _ _, Nat.le_add_left _ _⟩
    omega

end IterSpec

end nex

set_option autoImplicit false
set_option linter.unnecessarySeqFocus false
set_option linter.unusedTactic false
set_option linter.unreachableTactic false

namespace nex

section Range

variable {K V : Type} [LinearOrder K]

theorem T.firstGT_node (key : V → K) (k : K) (l r : T V) (a : Nat) (c : Color) (v : V)
    (hord : (T.node l a c v r).Ordered key) :
    (T.node l a c v r).firstGT key k =
      if k < key v then (l.firstGT key k).or (some a) else r.firstGT key k := by
  obtain ⟨-, -, hl, -, -⟩ := (T.ordered_node key l r a c v).1 hord
  unfold T.firstGT
  simp only [T.toList, List.find?_append, List.find?_cons]
  by_cases hk : k < key v
  · simp only [hk, decide_True, if_true]
    cases List.find? (fun x => decide (k < key x.2)) l.toList <;> simp
  · have hnone : List.find? (fun x => decide (k < key x.2)) l.toList = none := by
      rw [List.find?_eq_none]
      intro x hx
      have := hl x.2 ((T.mem_values_iff l x.2).2 ⟨x.1, hx⟩)
      simp only [decide_eq_true_eq, not_lt]
      exact le_trans this (not_lt.1 hk)
    simp [hk, hnone]

theorem T.firstGE_node (key : V → K) (k : K) (l r : T V) (a : Nat) (c : Color) (v : V)
    (hord : (T.node l a c v r).Ordered key) :
    (T.node l a c v r).firstGE key k =
      if key v < k then r.firstGE key k else (l.firstGE key k).or (some a) := by
  obtain ⟨-, -, hl, -, -⟩ := (T.ordered_node key l r a c v).1 hord
  unfold T.firstGE
  simp only [T.toList, List.find?_append, List.find?_cons]
  by_cases hk : key v < k
  · have hnone : List.find? (fun x => decide (k ≤ key x.2)) l.toList = none := by
      rw [List.find?_eq_none]
      intro x hx
      have := hl x.2 ((T.mem_values_iff l x.2).2 ⟨x.1, hx⟩)
      simp only [decide_eq_true_eq, not_le]
      exact lt_of_le_of_lt this hk
    have hk' : ¬ k ≤ key v := not_le.2 hk
    simp [hk, hk', hnone]
  · have hk' : k ≤ key v := not_lt.1 hk
    simp only [hk, hk', decide_True, if_false]
    cases List.find? (fun x => decide (k ≤ key x.2)) l.toList <;> simp

theorem T.firstGT_none_of_le (key : V → K) (k : K) (s : T V)
    (h : ∀ x ∈ s.values, key x ≤ k) : s.firstGT key k = none := by
  unfold T.firstGT
  simp only [Option.map_eq_none', List.find?_eq_none, decide_eq_true_eq, not_lt]
  intro x hx
  exact h x.2 ((T.mem_values_iff s x.2).2 ⟨x.1, hx⟩)

/-- The second loop of `equal_range` on an ordered subtree. -/
theorem equalRangeUpper_spec (key : V → K) (m : Mem V) (k : K) (s : T V) :
    ∀ (fuel : Nat) (par upper : Option Nat), Repr m s par → s.Ordered key → s.height ≤ fuel →
      equalRangeUpper key m k fuel s.ptr upper = some ((s.firstGT key k).or upper) := by
  induction s with
  | nil =>
    intro fuel par upper _ _ _
    cases fuel <;> simp [equalRangeUpper, T.firstGT]
  | node l a c v r ihl ihr =>
    intro fuel par upper h hord hf
    obtain ⟨ol, or, -, -, -⟩ := (T.ordered_node key l r a c v).1 hord
    rw [Repr_node] at h
    cases fuel with
    | zero => simp [T.height] at hf
    | succ fuel =>
      have hlf : l.height ≤ fuel := by
        simp only [T.height] at hf
        have : l.height ≤ Nat.max l.height r.height := Nat.le_max_left _ _
        omega
      have hrf : r.height ≤ fuel := by
        simp only [T.height] at hf
        have : r.height ≤ Nat.max l.height r.height := Nat.le_max_right _ _
        omega
      rw [T.firstGT_node key k l r a c v hord]
      simp only [T.ptr_node, equalRangeUpper, h.1]
      by_cases hk : k < key v
      · simp only [hk, if_true]
        rw [ihl fuel (some a) (some a) h.2.1 ol hlf]
        cases l.firstGT key k <;> simp
      · simp only [hk, if_false]
        exact ihr fuel (some a) upper h.2.2 or hrf

/-- The first loop of `equal_range` on an ordered subtree: the lower node is the first one
not less than `k`; the upper node, when the loop sets it, is a node whose left subtree
holds the rest of the search. -/
theorem equalRangeLower_spec (key : V → K) (m : Mem V) (k : K) (s : T V) :
    ∀ (fuel : Nat) (par lower upper : Option Nat), Repr m s par → s.Ordered key →
      s.height ≤ fuel →
      ∃ up, equalRangeLower key m k fuel s.ptr lower upper =
          some ((s.firstGE key k).or lower, up) ∧
        (upper ≠ none → up = upper) ∧
        (upper = none → up = none ∨
          ∃ (u : Nat) (su : T V) (par' : Option Nat), up = some u ∧ (m u).left = su.ptr ∧
            Repr m su par' ∧ su.Ordered key ∧ su.height ≤ s.height ∧
            s.firstGT key k = (su.firstGT key k).or (some u)) := by
  induction s with
  | nil =>
    intro fuel par lower upper _ _ _
    refine ⟨upper, ?_, fun _ => rfl, fun e => Or.inl e⟩
    cases fuel <;> simp [equalRangeLower, T.firstGE]
  | node l a c v r ihl ihr =>
    intro fuel par lower upper h hord hf
    obtain ⟨ol, or, hl, -, -⟩ := (T.ordered_node key l r a c v).1 hord
    rw [Repr_node] at h
    cases fuel with
    | zero => simp [T.height] at hf
    | succ fuel =>
      have hlh : l.height ≤ (T.node l a c v r).height := by
        simp only [T.height]
        have : l.height ≤ Nat.max l.height r.height := Nat.le_max_left _ _
        omega
      have hrh : r.height ≤ (T.node l a c v r).height := by
        simp only [T.height]
        have : r.height ≤ Nat.max l.height r.height := Nat.le_max_right _ _
        omega
      have hlf : l.height ≤ fuel := by
        simp only [T.height] at hf
        have : l.height ≤ Nat.max l.height r.height := Nat.le_max_left _ _
        omega
      have hrf : r.height ≤ fuel := by
        simp only [T.height] at hf
        have : r.height ≤ Nat.max l.height r.height := Nat.le_max_right _ _
        omega
      rw [T.firstGE_node key k l r a c v hord, T.firstGT_node key k l r a c v hord]
      simp only [T.ptr_node, equalRangeLower, h.1]
      by_cases hk : key v < k
      · have hk2 : ¬ k < key v := not_lt.2 (le_of_lt hk)
        simp only [hk, hk2, if_true, if_false]
        obtain ⟨up, e, h1, h2⟩ := ihr fuel (some a) lower upper h.2.2 or hrf
        refine ⟨up, e, h1, fun hu => ?_⟩
        rcases h2 hu with h2 | ⟨u, su, par', e1, e2, e3, e4, e5, e6⟩
        · exact Or.inl h2
        · exact Or.inr ⟨u, su, par', e1, e2, e3, e4, le_trans e5 hrh, e6⟩
      · simp only [hk, if_false]
        by_cases hu : upper = none
        · subst hu
          by_cases hk2 : k < key v
          · simp only [hk2, true_and, if_true]
            obtain ⟨up, e, h1, -⟩ := ihl fuel (some a) (some a) (some a) h.2.1 ol hlf
            have hup := h1 (by simp)
            subst hup
            refine ⟨some a, ?_, fun hne => absurd rfl hne, fun _ => Or.inr ?_⟩
            · rw [e]
              cases l.firstGE key k <;> simp
            · exact ⟨a, l, some a, rfl, by rw [h.1], h.2.1, ol, hlh, rfl⟩
          · simp only [hk2, and_false, if_false]
            obtain ⟨up, e, -, h2⟩ := ihl fuel (some a) (some a) none h.2.1 ol hlf
            have hnone : l.firstGT key k = none :=
              T.firstGT_none_of_le key k l (fun x hx => le_trans (hl x hx) (not_lt.1 hk2))
            refine ⟨up, ?_, fun hne => absurd rfl hne, fun _ => ?_⟩
            · rw [e]
              cases l.firstGE key k <;> simp
            · rcases h2 rfl with h2 | ⟨u, su, par', e1, e2, e3, e4, e5, e6⟩
              · exact Or.inl h2
              · rw [hnone] at e6
                cases hsu : su.firstGT key k <;> rw [hsu] at e6 <;> simp at e6
        · have hif : ¬ (upper = none ∧ k < key v) := fun hh => hu hh.1
          simp only [hif, if_false]
          obtain ⟨up, e, h1, -⟩ := ihl fuel (some a) (some a) upper h.2.1 ol hlf
          refine ⟨up, ?_, h1, fun hn => absurd hn hu⟩
          rw [e]
          cases l.firstGE key k <;> simp

/-- Refinement of `multiset::equal_range` on an ordered tree. -/
theorem equal_range_spec (key : V → K) (fuel : Nat) (t : RBTree V) (τ : T V) (k : K)
    (h : Represents t τ) (hord : τ.Ordered key) (hfuel : τ.height ≤ fuel) :
    equal_range key fuel t k = some (τ.firstGE key k, τ.firstGT key k) := by
  obtain ⟨up, e, -, h2⟩ := equalRangeLower_spec key t.mem k τ fuel none none none h.2.1 hord hfuel
  have e' : equalRangeLower key t.mem k fuel t.rootNode_ none none =
      some (τ.firstGE key k, up) := by
    rw [h.1, e]; simp [Option.or_none]
  rcases h2 rfl with h2 | ⟨u, su, par', e1, e2, e3, e4, e5, e6⟩
  · subst h2
    have := equalRangeUpper_spec key t.mem k τ fuel none none h.2.1 hord hfuel
    simp only [Option.or_none] at this
    simp only [equal_range, e']
    rw [h.1, this]
  · subst e1
    have := equalRangeUpper_spec key t.mem k su fuel par' (some u) e3 e4 (le_trans e5 hfuel)
    simp only [equal_range, e']
    rw [e2, this, e6]

end Range

end nex

set_option autoImplicit false
set_option linter.unnecessarySeqFocus false
set_option linter.unusedTactic false
set_option linter.unreachableTactic false

namespace nex

section Count

variable {K V : Type} [LinearOrder K]

/-- A sequence sorted by key splits into the part below `k`, the part equal to `k` and the
part above `k`. -/
theorem sorted_split (key : V → K) (k : K) :
    ∀ L : List (Nat × V), L.Pairwise (KeyLE key) →
      ∃ A B C, L = A ++ B ++ C ∧ (∀ x ∈ A, key x.2 < k) ∧ (∀ x ∈ B, key x.2 = k) ∧
        (∀ x ∈ C, k < key x.2) := by
  intro L
  induction L with
  | nil => intro _; exact ⟨[], [], [], rfl, by simp, by simp, by simp⟩
  | cons x L ih =>
    intro hp
    rw [List.pairwise_cons] at hp
    obtain ⟨A, B, C, e, hA, hB, hC⟩ := ih hp.2
    rcases lt_trichotomy (key x.2) k with hlt | heq | hgt
    · refine ⟨x :: A, B, C, by simp [e], ?_, hB, hC⟩
      intro y hy
      rcases List.mem_cons.1 hy with rfl | hy
      · exact hlt
      · exact hA y hy
    · have hA' : A = [] := by
        cases A with
        | nil => rfl
        | cons y A =>
          have h1 : key x.2 ≤ key y.2 := hp.1 y (by simp [e])
          have h2 := hA y (by simp)
          exact absurd (lt_of_le_of_lt h1 h2) (by rw [heq]; exact lt_irrefl _)
      subst hA'
      refine ⟨[], x :: B, C, by simp [e], by simp, ?_, hC⟩
      intro y hy
      rcases List.mem_cons.1 hy with rfl | hy
      · exact heq
      · exact hB y hy
    · have hA' : A = [] := by
        cases A with
        | nil => rfl
        | cons y A =>
          have h1 : key x.2 ≤ key y.2 := hp.1 y (by simp [e])
          have h2 := hA y (by simp)
          exact absurd (lt_trans hgt (lt_of_le_of_lt h1 h2)) (lt_irrefl _)
      have hB' : B = [] := by
        cases B with
        | nil => rfl
        | cons y B =>
          have h1 : key x.2 ≤ key y.2 := hp.1 y (by simp [e])
          have h2 := hB y (by simp)
          exact absurd (lt_of_lt_of_le hgt h1) (by rw [h2]; exact lt_irrefl _)
      subst hA' hB'
      refine ⟨[], [], x :: C, by simp [e], by simp, by simp, ?_⟩
      intro y hy
      rcases List.mem_cons.1 hy with rfl | hy
      · exact hgt
      · exact hC y hy

theorem find_all {α : Type} (p : α → Bool) (R : List α) (h : ∀ x ∈ R, p x = true) :
    R.find? p = R.head? := by
  cases R with
  | nil => rfl
  | cons y R => simp [h y (by simp)]

theorem firstGE_of_split (key : V → K) (k : K) (τ : T V) (A B C : List (Nat × V))
    (e : τ.toList = A ++ B ++ C) (hA : ∀ x ∈ A, key x.2 < k) (hB : ∀ x ∈ B, key x.2 = k)
    (hC : ∀ x ∈ C, k < key x.2) :
    τ.firstGE key k = ((B ++ C).map Prod.fst).head? := by
  unfold T.firstGE
  rw [e, List.append_assoc, List.find?_append]
  have h1 : List.find? (fun x => decide (k ≤ key x.2)) A = none := by
    rw [List.find?_eq_none]
    intro x hx
    simpa using hA x hx
  have h2 : List.find? (fun x => decide (k ≤ key x.2)) (B ++ C) = (B ++ C).head? := by
    apply find_all
    intro x hx
    rcases List.mem_append.1 hx with hx | hx
    · simpa using le_of_eq (hB x hx).symm
    · simpa using le_of_lt (hC x hx)
  rw [h1, h2, Option.none_or, List.head?_map]

theorem firstGT_of_split (key : V → K) (k : K) (τ : T V) (A B C : List (Nat × V))
    (e : τ.toList = A ++ B ++ C) (hA : ∀ x ∈ A, key x.2 < k) (hB : ∀ x ∈ B, key x.2 = k)
    (hC : ∀ x ∈ C, k < key x.2) :
    τ.firstGT key k = (C.map Prod.fst).head? := by
  unfold T.firstGT
  rw [e, List.find?_append]
  have h1 : List.find? (fun x => decide (k < key x.2)) (A ++ B) = none := by
    rw [List.find?_eq_none]
    intro x hx
    rcases List.mem_append.1 hx with hx | hx
    · simpa using le_of_lt (hA x hx)
    · simpa using le_of_eq (hB x hx)
  have h2 : List.find? (fun x => decide (k < key x.2)) C = C.head? := by
    apply find_all
    intro x hx
    simpa using hC x hx
  rw [h1, h2, Option.none_or, List.head?_map]

theorem count_of_split (key : V → K) (k : K) (A B C : List (Nat × V))
    (hA : ∀ x ∈ A, key x.2 < k) (hB : ∀ x ∈ B, key x.2 = k) (hC : ∀ x ∈ C, k < key x.2) :
    List.count k (((A ++ B ++ C).map Prod.snd).map key) = B.length := by
  simp only [List.map_append, List.count_append]
  have h1 : List.count k ((A.map Prod.snd).map key) = 0 := by
    rw [List.count_eq_zero]
    intro hm
    simp only [List.mem_map] at hm
    obtain ⟨_, ⟨x, hx, rfl⟩, hk⟩ := hm
    exact absurd hk (ne_of_lt (hA x hx))
  have h3 : List.count k ((C.map Prod.snd).map key) = 0 := by
    rw [List.count_eq_zero]
    intro hm
    simp only [List.mem_map] at hm
    obtain ⟨_, ⟨x, hx, rfl⟩, hk⟩ := hm
    exact absurd hk (ne_of_gt (hC x hx))
  have h2 : List.count k ((B.map Prod.snd).map key) = B.length := by
    rw [List.count_eq_length.2]
    · simp
    · intro y hy
      simp only [List.mem_map] at hy
      obtain ⟨_, ⟨x, hx, rfl⟩, hk⟩ := hy
      rw [← hk]; exact (hB x hx).symm
  omega

end Count

section CountLoop

variable {V : Type}

theorem ne_stop_of_nodup {xs ys zs : List Nat} {a : Nat}
    (hnd : (xs ++ a :: ys ++ zs).Nodup) : ¬ (some a = zs.head?) := by
  intro hz
  cases zs with
  | nil => simp at hz
  | cons z zs =>
    simp at hz
    subst hz
    have := counts_of_nodup hnd a
    simp only [List.count_append, count_cons_one] at this
    have := one_self a
    omega

/-- The loop of `count` between two positions of the in-order sequence counts the nodes
from the first (included) to the second (excluded). -/
theorem countLoop_spec {t : RBTree V} {τ : T V} (fuel : Nat) (h : Represents t τ)
    (hfuel : τ.height ≤ fuel) (cs : List Nat) :
    ∀ (bs xs : List Nat) (n acc : Nat), τ.addrs = xs ++ bs ++ cs → bs.length < n →
      acc < sizeModulus →
      countLoop fuel t.mem cs.head? n (bs ++ cs).head? acc =
        some ((acc + bs.length) % sizeModulus) := by
  intro bs
  induction bs with
  | nil =>
    intro xs n acc _ hn hacc
    obtain ⟨k, rfl⟩ : ∃ k, n = k + 1 := ⟨n - 1, by simp at hn; omega⟩
    simp [countLoop, Nat.mod_eq_of_lt hacc]
  | cons b bs ih =>
    intro xs n acc e hn hacc
    obtain ⟨k, rfl⟩ : ∃ k, n = k + 1 := ⟨n - 1, by simp at hn; omega⟩
    have h1 := operator_inc_spec fuel h hfuel xs (bs ++ cs) b (by simp [e])
    have hnd := h.2.2
    rw [e] at hnd
    have hne := ne_stop_of_nodup hnd
    have h2 := ih (xs ++ [b]) k ((acc + 1) % sizeModulus) (by simp [e])
      (by simp at hn; omega) (Nat.mod_lt _ (by decide))
    simp only [List.cons_append, List.head?_cons, countLoop, hne, if_false, h1, h2]
    rw [Nat.mod_add_mod]
    simp only [List.length_cons]
    congr 2
    omega

end CountLoop

end nex

set_option autoImplicit false
set_option linter.unnecessarySeqFocus false
set_option linter.unusedTactic false
set_option linter.unreachableTactic false

namespace nex

section RangeSpec

variable {K V : Type} [LinearOrder K]

/-- Refinement of `equal_range`, of the iteration between the two positions it returns,
and of `count`, on an ordered tree: the in-order sequence splits into the nodes below `k`,
the nodes with key `k` and the nodes above `k`. -/
theorem range_spec (key : V → K) (fuel : Nat) (t : RBTree V) (τ : T V) (k : K)
    (h : Represents t τ) (hord : τ.Ordered key) (hfuel : τ.size < fuel) :
    ∃ A B C : List (Nat × V), τ.toList = A ++ B ++ C ∧ (∀ x ∈ A, key x.2 < k) ∧
      (∀ x ∈ B, key x.2 = k) ∧ (∀ x ∈ C, k < key x.2) ∧
      equal_range key fuel t k =
        some (((B ++ C).map Prod.fst).head?, (C.map Prod.fst).head?) ∧
      walk (operator_inc fuel t.mem) (C.map Prod.fst).head? fuel
        ((B ++ C).map Prod.fst).head? = some (B.map Prod.fst) ∧
      count key fuel t k = some (B.length % sizeModulus) ∧
      B.length = List.count k (τ.values.map key) := by
  have hh : τ.height ≤ fuel := le_trans (T.height_le_size τ) (le_of_lt hfuel)
  obtain ⟨A, B, C, e, hA, hB, hC⟩ := sorted_split key k τ.toList ((T.ordered_iff key τ).1 hord)
  have haddr : τ.addrs = A.map Prod.fst ++ B.map Prod.fst ++ C.map Prod.fst := by
    rw [T.addrs_eq_map, e]; simp
  have hlen : B.length ≤ τ.size := by
    rw [T.size_eq_length, haddr]; simp; omega
  have her : equal_range key fuel t k =
      some (((B ++ C).map Prod.fst).head?, (C.map Prod.fst).head?) := by
    rw [equal_range_spec key fuel t τ k h hord hh, firstGE_of_split key k τ A B C e hA hB hC,
      firstGT_of_split key k τ A B C e hA hB hC]
  refine ⟨A, B, C, e, hA, hB, hC, her, ?_, ?_, ?_⟩
  · have := walk_inc_spec fuel h hh (C.map Prod.fst) (B.map Prod.fst) (A.map Prod.fst) fuel
      haddr (by simp; omega)
    rw [List.map_append]
    exact this
  · have := countLoop_spec fuel h hh (C.map Prod.fst) (B.map Prod.fst) (A.map Prod.fst) fuel 0
      haddr (by simp; omega) (by decide)
    simp only [count, her]
    rw [List.map_append, this]
    simp
  · unfold T.values
    rw [e, count_of_split key k A B C hA hB hC]

end RangeSpec

section Validity

variable {V : Type}

theorem T.bh_mem_paths (s : T V) : s.bh ∈ s.pathBlackCounts := by
  induction s with
  | nil => simp [T.pathBlackCounts, T.bh]
  | node l a c v r ihl _ =>
    simp only [T.pathBlackCounts, T.bh, List.mem_map, List.mem_append]
    exact ⟨l.bh, Or.inl ihl, rfl⟩

theorem T.paths_of_balanced (s : T V) (h : s.Balanced) : ∀ x ∈ s.pathBlackCounts, x = s.bh := by
  induction s with
  | nil => intro x hx; simpa [T.pathBlackCounts, T.bh] using hx
  | node l a c v r ihl ihr =>
    intro x hx
    simp only [T.Balanced] at h
    simp only [T.pathBlackCounts, List.mem_map, List.mem_append] at hx
    obtain ⟨y, hy, rfl⟩ := hx
    simp only [T.bh]
    rcases hy with hy | hy
    · rw [ihl h.2.1 y hy]
    · rw [ihr h.2.2 y hy, h.1]

/-- Equal black height on every root-to-leaf path is the same as every node having
subtrees of equal black height. -/
theorem T.balanced_iff (s : T V) : s.Balanced ↔ s.EqualBlackHeight := by
  constructor
  · intro h x hx y hy
    rw [T.paths_of_balanced s h x hx, T.paths_of_balanced s h y hy]
  · induction s with
    | nil => intro _; trivial
    | node l a c v r ihl ihr =>
      intro h
      have hsub : ∀ x ∈ l.pathBlackCounts ++ r.pathBlackCounts,
          ∀ y ∈ l.pathBlackCounts ++ r.pathBlackCounts, x = y := by
        intro x hx y hy
        have := h (x + (if c = Color.Black then 1 else 0))
          (by simp only [T.pathBlackCounts, List.mem_map]; exact ⟨x, hx, rfl⟩)
          (y + (if c = Color.Black then 1 else 0))
          (by simp only [T.pathBlackCounts, List.mem_map]; exact ⟨y, hy, rfl⟩)
        omega
      refine ⟨?_, ihl ?_, ihr ?_⟩
      · exact hsub _ (List.mem_append.2 (Or.inl (T.bh_mem_paths l))) _
          (List.mem_append.2 (Or.inr (T.bh_mem_paths r)))
      · intro x hx y hy
        exact hsub x (List.mem_append.2 (Or.inl hx)) y (List.mem_append.2 (Or.inl hy))
      · intro x hx y hy
        exact hsub x (List.mem_append.2 (Or.inr hx)) y (List.mem_append.2 (Or.inr hy))

end Validity

end nex

set_option autoImplicit false
set_option linter.unnecessarySeqFocus false
set_option linter.unusedTactic false
set_option linter.unreachableTactic false

namespace nex

section Helpers

variable {K V : Type} [LinearOrder K]

theorem T.Valid.rb {key : V → K} {τ : T V} (h : τ.Valid key) : τ.RB :=
  ⟨h.2.1, h.2.2.1, (T.balanced_iff τ).2 h.2.2.2⟩

theorem T.Valid.of_rb {key : V → K} {τ : T V} (hord : τ.Ordered key) (h : τ.RB) :
    τ.Valid key :=
  ⟨hord, h.1, h.2.1, (T.balanced_iff τ).1 h.2.2⟩

theorem exTree_represents : Represents exTree exShape :=
  ⟨rfl, ⟨rfl, ⟨rfl, trivial, trivial⟩, ⟨rfl, trivial, trivial⟩⟩, by decide⟩

theorem exShape_valid : exShape.Valid id := by
  refine ⟨?_, rfl, ?_, ?_⟩
  · simp [T.Ordered, T.values, exShape, T.toList]
  · simp [exShape, T.NoRedRed, T.color]
  · simp [T.EqualBlackHeight, exShape, T.pathBlackCounts]

theorem exDupTree_represents : Represents exDupTree exDupShape :=
  ⟨rfl, ⟨rfl, ⟨rfl, trivial, trivial⟩, ⟨rfl, trivial, trivial⟩⟩, by decide⟩

theorem exDupShape_valid : exDupShape.Valid id := by
  refine ⟨?_, rfl, ?_, ?_⟩
  · simp [T.Ordered, T.values, exDupShape, T.toList]
  · simp [exDupShape, T.NoRedRed, T.color]
  · simp [T.EqualBlackHeight, exDupShape, T.pathBlackCounts]

theorem Repr_mem_value (m : Mem V) (s : T V) :
    ∀ par, Repr m s par → ∀ a v, (a, v) ∈ s.toList → (m a).value = v := by
  induction s with
  | nil => intro _ _ a v hm; simp at hm
  | node l b c w r ihl ihr =>
    intro par h a v hm
    rw [Repr_node] at h
    simp only [T.toList, List.mem_append, List.mem_cons, Prod.mk.injEq] at hm
    rcases hm with hm | ⟨rfl, rfl⟩ | hm
    · exact ihl _ h.2.1 a v hm
    · rw [h.1]
    · exact ihr _ h.2.2 a v hm

theorem pair_split_unique {a : Nat} {v w : V} :
    ∀ {xs ys xs' ys' : List (Nat × V)}, ((xs ++ (a, v) :: ys).map Prod.fst).Nodup →
      xs ++ (a, v) :: ys = xs' ++ (a, w) :: ys' → xs = xs' ∧ v = w ∧ ys = ys' := by
  intro xs
  induction xs with
  | nil =>
    intro ys xs' ys' hnd e
    cases xs' with
    | nil => simp at e; exact ⟨rfl, e.1, e.2⟩
    | cons b xs' =>
      simp only [List.nil_append, List.cons_append, List.cons.injEq] at e
      obtain ⟨rfl, e2⟩ := e
      simp only [List.nil_append, List.map_cons, List.nodup_cons] at hnd
      exact absurd (by rw [e2]; simp) hnd.1
  | cons x xs ih =>
    intro ys xs' ys' hnd e
    cases xs' with
    | nil =>
      simp only [List.nil_append, List.cons_append, List.cons.injEq] at e
      obtain ⟨rfl, -⟩ := e
      simp only [List.cons_append, List.map_cons, List.nodup_cons] at hnd
      exact absurd (by simp) hnd.1
    | cons b xs' =>
      simp only [List.cons_append, List.cons.injEq] at e
      obtain ⟨rfl, e2⟩ := e
      simp only [List.cons_append, List.map_cons, List.nodup_cons] at hnd
      have := ih hnd.2 e2
      exact ⟨by rw [this.1], this.2⟩

theorem Represents.toList_nodup {t : RBTree V} {τ : T V} (h : Represents t τ) :
    (τ.toList.map Prod.fst).Nodup := by
  rw [← T.addrs_eq_map]; exact h.2.2

theorem ordered_insert (key : V → K) {τ τ' : T V} {xs ys : List (Nat × V)} {n : Nat} {v : V}
    (hord : τ.Ordered key) (e : τ.toList = xs ++ ys) (e' : τ'.toList = xs ++ (n, v) :: ys)
    (hx : ∀ x ∈ xs, key x.2 ≤ key v) (hy : ∀ y ∈ ys, key v < key y.2) : τ'.Ordered key := by
  rw [T.ordered_iff] at hord ⊢
  rw [e] at hord
  rw [e']
  rw [List.pairwise_append] at hord ⊢
  refine ⟨hord.1, List.pairwise_cons.2 ⟨fun y hy' => le_of_lt (hy y hy'), hord.2.1⟩, ?_⟩
  intro x hx' y hy'
  rcases List.mem_cons.1 hy' with rfl | hy'
  · exact hx x hx'
  · exact hord.2.2 x hx' y hy'

theorem ordered_remove (key : V → K) {τ τ' : T V} {xs ys : List (Nat × V)} {x : Nat × V}
    (hord : τ.Ordered key) (e : τ.toList = xs ++ x :: ys) (e' : τ'.toList = xs ++ ys) :
    τ'.Ordered key := by
  rw [T.ordered_iff] at hord ⊢
  rw [e] at hord
  rw [e']
  rw [List.pairwise_append] at hord ⊢
  exact ⟨hord.1, (List.pairwise_cons.1 hord.2.1).2,
    fun a ha b hb => hord.2.2 a ha b (List.mem_cons_of_mem _ hb)⟩

theorem Represents.write_fresh {t : RBTree V} {τ : T V} (h : Represents t τ) (n : Nat)
    (x : TreeNode V) (hn : n ∉ τ.addrs) :
    Represents { t with mem := t.mem.write n x } τ := by
  refine ⟨h.1, Repr_congr t.mem _ τ none ?_ h.2.1, h.2.2⟩
  intro a ha
  have : a ≠ n := fun e => hn (e ▸ ha)
  simp [Mem.write, this]

/-- Refinement of `insertValue`: in unique mode an equal key is found and nothing changes;
otherwise a new node is written at `newNode` and linked by `insertNode`. -/
theorem insertValue_spec (key : V → K) (Multi : Bool) (fuel : Nat) (t : RBTree V) (τ : T V)
    (v : V) (n : Nat) (h : Represents t τ) (hrb : τ.RB) (hord : τ.Ordered key)
    (hn : n ∉ τ.addrs) (hfuel : τ.height < fuel) :
    (Multi = false ∧ ∃ a w, (a, w) ∈ τ.toList ∧ key w = key v ∧
      insertValue key Multi fuel t v n = some ((some a, false), t)) ∨
    (¬ (Multi = false ∧ key v ∈ τ.values.map key) ∧
      ∃ t' τ' xs ys, insertValue key Multi fuel t v n = some ((some n, true), t') ∧
        Represents t' τ' ∧ τ'.RB ∧
        τ.toList = xs ++ ys ∧ τ'.toList = xs ++ (n, v) :: ys ∧
        (∀ x ∈ xs, key x.2 ≤ key v ∧ (Multi = false → key x.2 < key v)) ∧
        (∀ y ∈ ys, key v < key y.2) ∧
        t'.size_ = (t.size_ + 1) % sizeModulus ∧
        SameOutside t.mem t'.mem (n :: τ.addrs)) := by
  obtain ⟨s1, s2⟩ := searchNode_spec key fuel t τ (key v) h hord (le_of_lt hfuel)
  by_cases hc : Multi = false ∧ key v ∈ τ.values.map key
  · obtain ⟨a, w, e, hm, hw⟩ := s1 hc.2
    exact Or.inl ⟨hc.1, a, w, hm, hw, by simp [insertValue, hc.1, e]⟩
  · refine Or.inr ⟨hc, ?_⟩
    have hfound : (if Multi = false then searchNode key fuel t (key v) else some none) =
        some none := by
      by_cases hM : Multi = false
      · simp only [hM, if_true]
        exact s2 (fun hk => hc ⟨hM, hk⟩)
      · simp [hM]
    have h1 := h.write_fresh n (TreeNode.fresh v) hn
    have hmem : ({ t with mem := t.mem.write n (TreeNode.fresh v) } : RBTree V).mem n =
        TreeNode.fresh v := by simp [Mem.write]
    rcases insertNode_spec key Multi fuel _ τ n v h1 hrb hord hn hmem hfuel with
      ⟨hM, hk, -⟩ | ⟨-, t', τ', xs, ys, e, hr, hrb', e1, e2, hx, hy, hs, ho⟩
    · exact absurd ⟨hM, hk⟩ hc
    · refine ⟨t', τ', xs, ys, ?_, hr, hrb', e1, e2, hx, hy, hs, ?_⟩
      · simp only [insertValue, hfound, e]
      · intro x hx'
        rw [ho x hx']
        have : x ≠ n := fun e => hx' (by simp [e])
        simp [Mem.write, this]

end Helpers

end nex

set_option autoImplicit false
set_option linter.unnecessarySeqFocus false
set_option linter.unusedTactic false
set_option linter.unreachableTactic false

namespace nex

section Helpers2

variable {K V : Type} [LinearOrder K]

theorem T.strictOrdered_iff (key : V → K) (τ : T V) :
    τ.StrictOrdered key ↔ τ.toList.Pairwise (fun x y => key x.2 < key y.2) := by
  unfold T.StrictOrdered T.values List.Sorted
  rw [List.pairwise_map, List.pairwise_map]

theorem T.ordered_congr (key : V → K) {τ τ' : T V} (e : τ'.toList = τ.toList)
    (h : τ.Ordered key) : τ'.Ordered key := by
  unfold T.Ordered T.values at h ⊢
  rw [e]; exact h

theorem T.size_toList (τ : T V) : τ.size = τ.toList.length := by
  rw [T.size_eq_length, T.addrs_eq_map, List.length_map]

theorem T.mem_addrs_iff (τ : T V) (a : Nat) : a ∈ τ.addrs ↔ ∃ v, (a, v) ∈ τ.toList := by
  rw [T.addrs_eq_map]
  simp

theorem T.key_mem_of_mem (key : V → K) (τ : T V) (a : Nat) (v : V) (h : (a, v) ∈ τ.toList) :
    key v ∈ τ.values.map key :=
  List.mem_map.2 ⟨v, (T.mem_values_iff τ v).2 ⟨a, h⟩, rfl⟩

/-- Refinement of `count` on an ordered tree whose size fits the counter. -/
theorem count_spec (key : V → K) (fuel : Nat) (t : RBTree V) (τ : T V) (k : K)
    (h : Represents t τ) (hord : τ.Ordered key) (hfuel : τ.size < fuel)
    (hsize : τ.size < sizeModulus) :
    count key fuel t k = some (List.count k (τ.values.map key)) := by
  obtain ⟨A, B, C, e, -, -, -, -, -, hc, hb⟩ := range_spec key fuel t τ k h hord hfuel
  have hle : B.length ≤ τ.size := by
    rw [T.size_toList, e]; simp; omega
  rw [hc, ← hb, Nat.mod_eq_of_lt (lt_of_le_of_lt hle hsize)]

theorem count_insert (key : V → K) (k : K) {τ τ' : T V} {xs ys : List (Nat × V)} {n : Nat}
    {v : V} (e1 : τ.toList = xs ++ ys) (e2 : τ'.toList = xs ++ (n, v) :: ys) :
    List.count k (τ'.values.map key) =
      List.count k (τ.values.map key) + if k = key v then 1 else 0 := by
  unfold T.values
  rw [e1, e2]
  simp only [List.map_append, List.map_cons, List.count_append, List.count_cons]
  by_cases hk : k = key v
  · subst hk; simp; omega
  · have : ¬ (key v = k) := fun e => hk e.symm
    simp [hk, this]

theorem count_remove (key : V → K) (k : K) {τ τ' : T V} {xs ys : List (Nat × V)} {n : Nat}
    {v : V} (e1 : τ.toList = xs ++ (n, v) :: ys) (e2 : τ'.toList = xs ++ ys) :
    List.count k (τ.values.map key) =
      List.count k (τ'.values.map key) + if k = key v then 1 else 0 :=
  count_insert key k e2 e1

end Helpers2

end nex

set_option autoImplicit false
set_option linter.unnecessarySeqFocus false
set_option linter.unusedTactic false
set_option linter.unreachableTactic false

namespace nex

section Claims

variable {K V : Type} [LinearOrder K]

/-- C1: for every engine state `t` that holds a tree `τ` with consistent parent links
(`Represents`) and the red-black invariants (`T.Valid`: ordered keys, black root, no red
node with a red child, equal black height on every path), and every fresh unlinked red
node `n` outside the tree, `insertNode` returns, and the tree it leaves again has no red
node with a red child and the same number of black nodes on every root-to-leaf path. -/
theorem insertNode_keeps_coloring (key : V → K) (Multi : Bool) (fuel : Nat) (t : RBTree V)
    (τ : T V) (n : Nat) (v : V) (h : Represents t τ) (hv : τ.Valid key) (hn : n ∉ τ.addrs)
    (hmem : t.mem n = TreeNode.fresh v) (hfuel : τ.height < fuel) :
    ∃ b t' τ', insertNode key Multi fuel t n = some (b, t') ∧ Represents t' τ' ∧
      τ'.NoRedRed ∧ τ'.EqualBlackHeight := by
  rcases insertNode_spec key Multi fuel t τ n v h hv.rb hv.1 hn hmem hfuel with
    ⟨-, -, e⟩ | ⟨-, t', τ', xs, ys, e, hr, hrb, -⟩
  · exact ⟨false, t, τ, e, h, hv.2.2.1, hv.2.2.2⟩
  · exact ⟨true, t', τ', e, hr, hrb.2.1, (T.balanced_iff τ').1 hrb.2.2⟩

/-- Witness of C1: inserting the fresh node 4 (value 40) into the example set 10, 20, 30. -/
theorem insertNode_keeps_coloring_witness :
    ∃ b t' τ', insertNode id false 3 exTree 4 = some (b, t') ∧ Represents t' τ' ∧
      τ'.NoRedRed ∧ τ'.EqualBlackHeight :=
  insertNode_keeps_coloring id false 3 exTree exShape 4 40 exTree_represents exShape_valid
    (by decide) rfl (by decide)

/-- C2: for every engine state that holds a valid red-black tree and every node `n` of
it, `takeNode` (hence `erase` at `n`) returns `n`, and the remaining tree again has no
red node with a red child and the same number of black nodes on every root-to-leaf
path. -/
theorem takeNode_keeps_coloring (key : V → K) (fuel : Nat) (t : RBTree V) (τ : T V) (n : Nat)
    (h : Represents t τ) (hv : τ.Valid key) (hn : n ∈ τ.addrs) (hfuel : τ.height ≤ fuel) :
    ∃ t' τ', takeNode fuel t n = some (n, t') ∧ erase fuel t (some n) = some t' ∧
      Represents t' τ' ∧ τ'.NoRedRed ∧ τ'.EqualBlackHeight := by
  obtain ⟨t', τ', xs, ys, v, e, hr, hrb, -⟩ := takeNode_spec fuel t τ n h hv.rb hn hfuel
  exact ⟨t', τ', e, by simp [erase, deleteNode, e], hr, hrb.2.1, (T.balanced_iff τ').1 hrb.2.2⟩

/-- Witness of C2: taking the root (node 2, value 20) out of the example set 10, 20, 30. -/
theorem takeNode_keeps_coloring_witness :
    ∃ t' τ', takeNode 2 exTree 2 = some (2, t') ∧ erase 2 exTree (some 2) = some t' ∧
      Represents t' τ' ∧ τ'.NoRedRed ∧ τ'.EqualBlackHeight :=
  takeNode_keeps_coloring id 2 exTree exShape 2 exTree_represents exShape_valid
    (by decide) (by decide)

/-- C3: for every valid tree and every fresh node whose insertion succeeds (any key in
multi mode, an absent key in unique mode), `insertNode` returns true and the in-order
sequence of (node, value) afterwards is the previous one with the new node put in at one
place, the keys still ascending: nothing is lost, duplicated or reordered. -/
theorem insertNode_inorder (key : V → K) (Multi : Bool) (fuel : Nat) (t : RBTree V)
    (τ : T V) (n : Nat) (v : V) (h : Represents t τ) (hv : τ.Valid key) (hn : n ∉ τ.addrs)
    (hmem : t.mem n = TreeNode.fresh v) (hfuel : τ.height < fuel)
    (hok : Multi = true ∨ key v ∉ τ.values.map key) :
    ∃ t' τ' xs ys, insertNode key Multi fuel t n = some (true, t') ∧ Represents t' τ' ∧
      τ.toList = xs ++ ys ∧ τ'.toList = xs ++ (n, v) :: ys ∧ τ'.Ordered key := by
  rcases insertNode_spec key Multi fuel t τ n v h hv.rb hv.1 hn hmem hfuel with
    ⟨hM, hk, -⟩ | ⟨-, t', τ', xs, ys, e, hr, -, e1, e2, hx, hy, -⟩
  · rcases hok with hok | hok
    · rw [hM] at hok; cases hok
    · exact absurd hk hok
  · exact ⟨t', τ', xs, ys, e, hr, e1, e2,
      ordered_insert key hv.1 e1 e2 (fun x hx' => (hx x hx').1) hy⟩

/-- Witness of C3: inserting the fresh node 4 (value 40) into the example set. -/
theorem insertNode_inorder_witness :
    ∃ t' τ' xs ys, insertNode id false 3 exTree 4 = some (true, t') ∧ Represents t' τ' ∧
      exShape.toList = xs ++ ys ∧ τ'.toList = xs ++ (4, 40) :: ys ∧ τ'.Ordered id :=
  insertNode_inorder id false 3 exTree exShape 4 40 exTree_represents exShape_valid
    (by decide) rfl (by decide) (Or.inr (by decide))

/-- C4: for every valid tree and every node `n` of it, the in-order sequence of
(node, value) after `takeNode` is the previous one without the entry of `n` (one entry,
carrying the value stored in `n`), and the keys are still ascending. -/
theorem takeNode_inorder (key : V → K) (fuel : Nat) (t : RBTree V) (τ : T V) (n : Nat)
    (h : Represents t τ) (hv : τ.Valid key) (hn : n ∈ τ.addrs) (hfuel : τ.height ≤ fuel) :
    ∃ t' τ' xs ys, takeNode fuel t n = some (n, t') ∧ Represents t' τ' ∧
      τ.toList = xs ++ (n, (t.mem n).value) :: ys ∧ τ'.toList = xs ++ ys ∧
      τ'.Ordered key := by
  obtain ⟨t', τ', xs, ys, v, e, hr, -, e1, e2, -⟩ := takeNode_spec fuel t τ n h hv.rb hn hfuel
  have hval : (t.mem n).value = v := Repr_mem_value t.mem τ none h.2.1 n v (by rw [e1]; simp)
  exact ⟨t', τ', xs, ys, e, hr, by rw [hval]; exact e1, e2, ordered_remove key hv.1 e1 e2⟩

/-- Witness of C4: taking the root (node 2, value 20) out of the example set. -/
theorem takeNode_inorder_witness :
    ∃ t' τ' xs ys, takeNode 2 exTree 2 = some (2, t') ∧ Represents t' τ' ∧
      exShape.toList = xs ++ (2, (exTree.mem 2).value) :: ys ∧ τ'.toList = xs ++ ys ∧
      τ'.Ordered id :=
  takeNode_inorder id 2 exTree exShape 2 exTree_represents exShape_valid (by decide) (by decide)

/-- C6: in unique mode, on a valid tree whose size counter is not at its maximum,
`insertNode` of a fresh node returns false exactly when the tree already holds the key
of the new node, and then the whole engine state (root, size, every node of the memory,
the rejected node included) is the one before; otherwise it returns true and `size_` has
grown by one. -/
theorem insertNode_unique (key : V → K) (fuel : Nat) (t : RBTree V) (τ : T V) (n : Nat)
    (v : V) (h : Represents t τ) (hv : τ.Valid key) (hn : n ∉ τ.addrs)
    (hmem : t.mem n = TreeNode.fresh v) (hfuel : τ.height < fuel)
    (hsize : t.size_ + 1 < sizeModulus) :
    ∃ b t', insertNode key false fuel t n = some (b, t') ∧
      (b = false ↔ key v ∈ τ.values.map key) ∧ (b = false → t' = t) ∧
      (b = true → t'.size_ = t.size_ + 1) := by
  rcases insertNode_spec key false fuel t τ n v h hv.rb hv.1 hn hmem hfuel with
    ⟨-, hk, e⟩ | ⟨hk, t', τ', xs, ys, e, -, -, -, -, -, -, hs, -⟩
  · exact ⟨false, t, e, by simp [hk], fun _ => rfl, fun hb => by cases hb⟩
  · refine ⟨true, t', e, ?_, (fun hb => by cases hb), fun _ => ?_⟩
    · simp only [true_and] at hk
      simp [hk]
    · rw [hs, Nat.mod_eq_of_lt hsize]

/-- Witness of C6: inserting the fresh node 4 (value 40) into the example set. -/
theorem insertNode_unique_witness :
    ∃ b t', insertNode id false 3 exTree 4 = some (b, t') ∧
      (b = false ↔ id 40 ∈ exShape.values.map id) ∧ (b = false → t' = exTree) ∧
      (b = true → t'.size_ = exTree.size_ + 1) :=
  insertNode_unique id 3 exTree exShape 4 40 exTree_represents exShape_valid
    (by decide) rfl (by decide) (by decide)

/-- C7: for a unique container (`set` with the value as key, `map` with the first
component as key), `insertValue` of a value whose key is present returns the node that
holds the key, with flag false and the engine state (size, stored values) unchanged;
for an absent key it returns the new node with flag true, and the new node is in the
tree with the value. -/
theorem insertValue_unique (key : V → K) (fuel : Nat) (t : RBTree V) (τ : T V) (v : V)
    (n : Nat) (h : Represents t τ) (hv : τ.Valid key) (hn : n ∉ τ.addrs)
    (hfuel : τ.height < fuel) :
    (key v ∈ τ.values.map key →
      ∃ a w, (a, w) ∈ τ.toList ∧ key w = key v ∧
        insertValue key false fuel t v n = some ((some a, false), t)) ∧
    (key v ∉ τ.values.map key →
      ∃ t' τ', insertValue key false fuel t v n = some ((some n, true), t') ∧
        Represents t' τ' ∧ (n, v) ∈ τ'.toList ∧ τ'.size = τ.size + 1) := by
  rcases insertValue_spec key false fuel t τ v n h hv.rb hv.1 hn hfuel with
    ⟨-, a, w, hm, hw, e⟩ | ⟨hk, t', τ', xs, ys, e, hr, -, e1, e2, -⟩
  · refine ⟨fun _ => ⟨a, w, hm, hw, e⟩, fun hk => absurd ?_ hk⟩
    rw [← hw]
    exact List.mem_map.2 ⟨w, (T.mem_values_iff τ w).2 ⟨a, hm⟩, rfl⟩
  · simp only [true_and] at hk
    refine ⟨fun hk' => absurd hk' hk, fun _ => ⟨t', τ', e, hr, by rw [e2]; simp, ?_⟩⟩
    rw [T.size_eq_length, T.size_eq_length, T.addrs_eq_map, T.addrs_eq_map, e1, e2]
    simp
    omega

/-- Witness of C7: inserting the value 40 (new node 4) into the example set. -/
theorem insertValue_unique_witness :
    (id 40 ∈ exShape.values.map id →
      ∃ a w, (a, w) ∈ exShape.toList ∧ id w = id 40 ∧
        insertValue id false 3 exTree 40 4 = some ((some a, false), exTree)) ∧
    (id 40 ∉ exShape.values.map id →
      ∃ t' τ', insertValue id false 3 exTree 40 4 = some ((some 4, true), t') ∧
        Represents t' τ' ∧ (4, 40) ∈ τ'.toList ∧ τ'.size = exShape.size + 1) :=
  insertValue_unique id 3 exTree exShape 40 4 exTree_represents exShape_valid
    (by decide) (by decide)

end Claims

end nex

set_option autoImplicit false
set_option linter.unnecessarySeqFocus false
set_option linter.unusedTactic false
set_option linter.unreachableTactic false

namespace nex

section Claims

variable {K V : Type} [LinearOrder K]

/-- C8: for every valid unique tree (keys strictly ascending) and every value `v`:
`contains` of the key of `v` is true right after `insertValue` of `v` (whether the key
was new or already there), and `contains` is false right after erasing the node that
holds the key. -/
theorem contains_after_insert_erase (key : V → K) (fuel : Nat) (t : RBTree V) (τ : T V)
    (h : Represents t τ) (hv : τ.Valid key) (hs : τ.StrictOrdered key)
    (hfuel : τ.size + 1 < fuel) :
    (∀ v n, n ∉ τ.addrs → ∃ r t', insertValue key false fuel t v n = some (r, t') ∧
      contains key fuel t' (key v) = some true) ∧
    (∀ a v, (a, v) ∈ τ.toList → ∃ t', erase fuel t (some a) = some t' ∧
      contains key fuel t' (key v) = some false) := by
  have hh : τ.height < fuel := lt_of_le_of_lt (T.height_le_size τ) (by omega)
  constructor
  · intro v n hn
    rcases insertValue_spec key false fuel t τ v n h hv.rb hv.1 hn hh with
      ⟨-, a, w, hm, hw, e⟩ | ⟨-, t', τ', xs, ys, e, hr, -, e1, e2, hx, hy, -⟩
    · refine ⟨_, t, e, ?_⟩
      obtain ⟨b, u, e3, -, -⟩ := (searchNode_spec key fuel t τ (key v) h hv.1 (le_of_lt hh)).1
        (by rw [← hw]; exact T.key_mem_of_mem key τ a w hm)
      simp [contains, e3]
    · refine ⟨_, t', e, ?_⟩
      have hord' := ordered_insert key hv.1 e1 e2 (fun x hx' => (hx x hx').1) hy
      have hh' : τ'.height ≤ fuel := by
        refine le_trans (T.height_le_size τ') ?_
        rw [T.size_toList, e2]
        rw [T.size_toList, e1] at hfuel
        simp at hfuel ⊢
        omega
      obtain ⟨b, u, e3, -, -⟩ := (searchNode_spec key fuel t' τ' (key v) hr hord' hh').1
        (T.key_mem_of_mem key τ' n v (by rw [e2]; simp))
      simp [contains, e3]
  · intro a v hm
    obtain ⟨t', τ', xs, ys, w, e, hr, -, e1, e2, -⟩ :=
      takeNode_spec fuel t τ a h hv.rb ((T.mem_addrs_iff τ a).2 ⟨v, hm⟩) (le_of_lt hh)
    have hw : w = v := by
      rw [← Repr_mem_value t.mem τ none h.2.1 a w (by rw [e1]; simp),
        Repr_mem_value t.mem τ none h.2.1 a v hm]
    subst hw
    refine ⟨t', by simp [erase, deleteNode, e], ?_⟩
    have hord' := ordered_remove key hv.1 e1 e2
    have hh' : τ'.height ≤ fuel := by
      refine le_trans (T.height_le_size τ') ?_
      rw [T.size_toList, e2]
      rw [T.size_toList, e1] at hfuel
      simp at hfuel ⊢
      omega
    have hnot : key w ∉ τ'.values.map key := by
      rw [T.strictOrdered_iff, e1, List.pairwise_append] at hs
      unfold T.values
      rw [e2]
      simp only [List.map_append, List.map_map, List.mem_append, List.mem_map,
        Function.comp_apply, not_or, not_exists, not_and]
      refine ⟨fun x hx e' => ?_, fun y hy e' => ?_⟩
      · have := hs.2.2 x hx (a, w) (by simp)
        simp only at this
        rw [e'] at this
        exact lt_irrefl _ this
      · have := (List.pairwise_cons.1 hs.2.1).1 y hy
        simp only at this
        rw [e'] at this
        exact lt_irrefl _ this
    have := (searchNode_spec key fuel t' τ' (key w) hr hord' hh').2 hnot
    simp [contains, this]

/-- Witness of C8: the example set 10, 20, 30. -/
theorem contains_after_insert_erase_witness :
    (∀ v n, n ∉ exShape.addrs → ∃ r t', insertValue id false 5 exTree v n = some (r, t') ∧
      contains id 5 t' (id v) = some true) ∧
    (∀ a v, (a, v) ∈ exShape.toList → ∃ t', erase 5 exTree (some a) = some t' ∧
      contains id 5 t' (id v) = some false) :=
  contains_after_insert_erase id 5 exTree exShape exTree_represents exShape_valid
    (by simp [T.StrictOrdered, T.values, exShape, T.toList]) (by decide)

/-- C9: for every valid unique tree and every fresh node whose key is not in the tree,
`insertNode` succeeds and erasing the inserted node afterwards yields a tree with the
same `size_` and the same in-order sequence of (node, value) that again has consistent
parent links and is valid (ordered, black root, no red-red, equal black height). -/
theorem insert_then_erase (key : V → K) (fuel : Nat) (t : RBTree V) (τ : T V) (n : Nat)
    (v : V) (h : Represents t τ) (hv : τ.Valid key) (hn : n ∉ τ.addrs)
    (hmem : t.mem n = TreeNode.fresh v) (hk : key v ∉ τ.values.map key)
    (hfuel : τ.size < fuel) (hsize : t.size_ < sizeModulus) :
    ∃ t1 t2 τ2, insertNode key false fuel t n = some (true, t1) ∧
      erase fuel t1 (some n) = some t2 ∧ Represents t2 τ2 ∧ τ2.Valid key ∧
      τ2.toList = τ.toList ∧ t2.size_ = t.size_ := by
  have hh : τ.height < fuel := lt_of_le_of_lt (T.height_le_size τ) hfuel
  rcases insertNode_spec key false fuel t τ n v h hv.rb hv.1 hn hmem hh with
    ⟨-, hk', -⟩ | ⟨-, t1, τ1, xs, ys, e, hr1, hrb1, e1, e2, hx, hy, hs1, -⟩
  · exact absurd hk' hk
  · have hh1 : τ1.height ≤ fuel := by
      refine le_trans (T.height_le_size τ1) ?_
      rw [T.size_toList, e2]
      rw [T.size_toList, e1] at hfuel
      simp at hfuel ⊢
      omega
    obtain ⟨t2, τ2, xs', ys', w, e', hr2, hrb2, e3, e4, hs2, -⟩ :=
      takeNode_spec fuel t1 τ1 n hr1 hrb1 (by rw [T.mem_addrs_iff]; exact ⟨v, by rw [e2]; simp⟩)
        hh1
    have hnd := hr1.toList_nodup
    rw [e2] at hnd
    obtain ⟨rfl, -, rfl⟩ := pair_split_unique hnd (e2.symm.trans e3)
    have hl : τ2.toList = τ.toList := by rw [e4, e1]
    refine ⟨t1, t2, τ2, e, by simp [erase, deleteNode, e'], hr2,
      T.Valid.of_rb (T.ordered_congr key hl hv.1) hrb2, hl, ?_⟩
    rw [hs2, hs1]
    unfold sizeModulus at hsize ⊢
    omega

/-- Witness of C9: inserting the fresh node 4 (value 40) into the example set and erasing
it again. -/
theorem insert_then_erase_witness :
    ∃ t1 t2 τ2, insertNode id false 4 exTree 4 = some (true, t1) ∧
      erase 4 t1 (some 4) = some t2 ∧ Represents t2 τ2 ∧ τ2.Valid id ∧
      τ2.toList = exShape.toList ∧ t2.size_ = exTree.size_ :=
  insert_then_erase id 4 exTree exShape 4 40 exTree_represents exShape_valid (by decide) rfl
    (by decide) (by decide) (by decide)

end Claims

end nex

set_option autoImplicit false
set_option linter.unnecessarySeqFocus false
set_option linter.unusedTactic false
set_option linter.unreachableTactic false

namespace nex

section Claims

variable {K V : Type} [LinearOrder K]

theorem exFiveTree_represents : Represents exFiveTree exFiveShape :=
  ⟨rfl, ⟨rfl, ⟨rfl, trivial, trivial⟩, ⟨rfl, ⟨rfl, trivial, trivial⟩, ⟨rfl, trivial, trivial⟩⟩⟩,
    by decide⟩

theorem exFiveShape_valid : exFiveShape.Valid id := by
  refine ⟨?_, rfl, ?_, ?_⟩
  · simp [T.Ordered, T.values, exFiveShape, T.toList]
  · simp [exFiveShape, T.NoRedRed, T.color]
  · simp [T.EqualBlackHeight, exFiveShape, T.pathBlackCounts]

/-- The example multiset is what five calls of `multiset::insert` build. -/
theorem exFiveTree_built :
    (insertValues id true 6 [(1, 1), (2, 2), (2, 3), (2, 4), (3, 5)]
        (RBTree.empty (fun _ => TreeNode.fresh 0))).map
      (fun t => (t.rootNode_, t.size_, [t.mem 1, t.mem 2, t.mem 3, t.mem 4, t.mem 5])) =
    some (exFiveTree.rootNode_, exFiveTree.size_,
      [exFiveMem 1, exFiveMem 2, exFiveMem 3, exFiveMem 4, exFiveMem 5]) := by
  rfl

/-- C11: in a valid multiset, erasing a node `n` lowers the count of its key by exactly
one: the count was `c + 1` and is `c` afterwards; every other node stays in the tree with
its value, so with two or more nodes of that key the others remain and can be erased in
turn. -/
theorem multiset_erase_count (fuel : Nat) (t : RBTree K) (τ : T K) (n : Nat)
    (h : Represents t τ) (hv : τ.Valid id) (hn : n ∈ τ.addrs) (hfuel : τ.size < fuel)
    (hsize : τ.size < sizeModulus) :
    ∃ c t' τ', count id fuel t (t.mem n).value = some (c + 1) ∧
      erase fuel t (some n) = some t' ∧ Represents t' τ' ∧ τ'.Valid id ∧
      count id fuel t' (t.mem n).value = some c ∧
      (∀ a w, a ≠ n → (a, w) ∈ τ.toList → (a, w) ∈ τ'.toList) := by
  have hh : τ.height ≤ fuel := le_trans (T.height_le_size τ) (le_of_lt hfuel)
  obtain ⟨t', τ', xs, ys, v, e, hr, hrb, e1, e2, -⟩ := takeNode_spec fuel t τ n h hv.rb hn hh
  have hval : (t.mem n).value = v := Repr_mem_value t.mem τ none h.2.1 n v (by rw [e1]; simp)
  have hord' := ordered_remove id hv.1 e1 e2
  have hs' : τ'.size ≤ τ.size := by
    rw [T.size_toList, T.size_toList, e1, e2]; simp
  have c0 := count_spec id fuel t τ v h hv.1 hfuel hsize
  have c1 := count_spec id fuel t' τ' v hr hord' (by omega) (by omega)
  have i1 := count_remove id v e1 e2
  refine ⟨List.count v (τ'.values.map id), t', τ', ?_, by simp [erase, deleteNode, e], hr,
    T.Valid.of_rb hord' hrb, by rw [hval]; exact c1, ?_⟩
  · rw [hval, c0, i1]; simp
  · intro a w ha hm
    rw [e1] at hm
    rw [e2]
    simp only [List.mem_append, List.mem_cons, Prod.mk.injEq] at hm ⊢
    rcases hm with hm | ⟨rfl, -⟩ | hm
    · exact Or.inl hm
    · exact absurd rfl ha
    · exact Or.inr hm

/-- Witness of C11: erasing node 3, one of the two nodes holding 20 in the example
multiset 10, 20, 20. -/
theorem multiset_erase_count_witness :
    ∃ c t' τ', count id 4 exDupTree (exDupTree.mem 3).value = some (c + 1) ∧
      erase 4 exDupTree (some 3) = some t' ∧ Represents t' τ' ∧ τ'.Valid id ∧
      count id 4 t' (exDupTree.mem 3).value = some c ∧
      (∀ a w, a ≠ 3 → (a, w) ∈ exDupShape.toList → (a, w) ∈ τ'.toList) :=
  multiset_erase_count 4 exDupTree exDupShape 3 exDupTree_represents exDupShape_valid
    (by decide) (by decide) (by decide)

/-- C12: for every multiset whose in-order sequence is sorted and every key `k`, the
sequence splits into the nodes below `k`, the nodes `B` with key `k` and the nodes above
`k`; `equal_range k` returns the first node that is not below `k` and the first node
above `k` (null, the end position, when there is none), `lower_bound` and `upper_bound`
return the same two positions, and stepping from the first to the second visits exactly
the nodes `B`. -/
theorem equal_range_bounds (fuel : Nat) (t : RBTree K) (τ : T K) (k : K)
    (h : Represents t τ) (hord : τ.Ordered id) (hfuel : τ.size < fuel) :
    ∃ A B C : List (Nat × K), τ.toList = A ++ B ++ C ∧ (∀ x ∈ A, x.2 < k) ∧
      (∀ x ∈ B, x.2 = k) ∧ (∀ x ∈ C, k < x.2) ∧
      equal_range id fuel t k =
        some (((B ++ C).map Prod.fst).head?, (C.map Prod.fst).head?) ∧
      lower_bound id fuel t k = some ((B ++ C).map Prod.fst).head? ∧
      upper_bound id fuel t k = some (C.map Prod.fst).head? ∧
      walk (operator_inc fuel t.mem) (C.map Prod.fst).head? fuel
        ((B ++ C).map Prod.fst).head? = some (B.map Prod.fst) := by
  obtain ⟨A, B, C, e, hA, hB, hC, her, hw, -⟩ := range_spec id fuel t τ k h hord hfuel
  exact ⟨A, B, C, e, hA, hB, hC, her, by simp [lower_bound, her], by simp [upper_bound, her], hw⟩

/-- Witness of C12: the multiset 1, 2, 2, 2, 3 (nodes 1 to 5 in this order) and `k = 2`:
the range goes from node 2, the first 2, to node 5, which holds 3, and stepping through
it visits the nodes 2, 3, 4, the three 2s. -/
theorem equal_range_bounds_witness :
    (∃ A B C : List (Nat × Nat), exFiveShape.toList = A ++ B ++ C ∧ (∀ x ∈ A, x.2 < 2) ∧
      (∀ x ∈ B, x.2 = 2) ∧ (∀ x ∈ C, 2 < x.2) ∧
      equal_range id 6 exFiveTree 2 =
        some (((B ++ C).map Prod.fst).head?, (C.map Prod.fst).head?) ∧
      lower_bound id 6 exFiveTree 2 = some ((B ++ C).map Prod.fst).head? ∧
      upper_bound id 6 exFiveTree 2 = some (C.map Prod.fst).head? ∧
      walk (operator_inc 6 exFiveTree.mem) (C.map Prod.fst).head? 6
        ((B ++ C).map Prod.fst).head? = some (B.map Prod.fst)) ∧
    exFiveShape.toList = [(1, 1), (2, 2), (3, 2), (4, 2), (5, 3)] ∧
    equal_range id 6 exFiveTree 2 = some (some 2, some 5) ∧
    lower_bound id 6 exFiveTree 2 = some (some 2) ∧
    upper_bound id 6 exFiveTree 2 = some (some 5) ∧
    walk (operator_inc 6 exFiveTree.mem) (some 5) 6 (some 2) = some [2, 3, 4] :=
  ⟨equal_range_bounds 6 exFiveTree exFiveShape 2 exFiveTree_represents exFiveShape_valid.1
    (by decide), rfl, rfl, rfl, rfl, rfl⟩

/-- C18: for every valid tree whose `size_` is its number of nodes, stepping forward from
`cbegin` (the leftmost node) until the end position visits the nodes of the tree in their
in-order sequence, every node exactly once, in ascending key order, and the end is reached
after exactly `size_` steps. -/
theorem forward_iteration (key : V → K) (fuel : Nat) (t : RBTree V) (τ : T V)
    (h : Represents t τ) (hv : τ.Valid key) (hsz : t.size_ = τ.size) (hfuel : τ.height ≤ fuel) :
    ∃ b, cbegin fuel t = some b ∧
      walk (operator_inc fuel t.mem) none t.size_ b = some τ.addrs ∧
      τ.addrs.Nodup ∧ τ.addrs.length = t.size_ ∧
      (τ.addrs.map (fun a => key (t.mem a).value)).Sorted (fun x y => x ≤ y) := by
  refine ⟨τ.addrs.head?, ?_, ?_, h.2.2, ?_, ?_⟩
  · unfold cbegin
    rw [h.1]
    exact min_spec t.mem τ fuel none h.2.1 hfuel
  · have := walk_inc_spec fuel h hfuel [] τ.addrs [] t.size_ (by simp)
      (by rw [hsz, T.size_eq_length])
    simpa using this
  · rw [hsz, T.size_eq_length]
  · have := hv.1
    unfold T.Ordered at this
    rw [← Repr_values t.mem τ none h.2.1, List.map_map] at this
    exact this

/-- Witness of C18: the example set 10, 20, 30. -/
theorem forward_iteration_witness :
    ∃ b, cbegin 2 exTree = some b ∧
      walk (operator_inc 2 exTree.mem) none exTree.size_ b = some exShape.addrs ∧
      exShape.addrs.Nodup ∧ exShape.addrs.length = exTree.size_ ∧
      (exShape.addrs.map (fun a => id (exTree.mem a).value)).Sorted (fun x y => x ≤ y) :=
  forward_iteration id 2 exTree exShape exTree_represents exShape_valid rfl (by decide)

/-- C19: for every valid tree whose `size_` is its number of nodes, stepping backward
from `crbegin` (the rightmost node) until the end position yields exactly the reverse of
the forward iteration sequence, in descending key order; and whenever a forward step
leads from a node `a` of the tree to a node `b`, the backward step from `b` leads back
to `a`. -/
theorem backward_iteration (key : V → K) (fuel : Nat) (t : RBTree V) (τ : T V)
    (h : Represents t τ) (hv : τ.Valid key) (hsz : t.size_ = τ.size) (hfuel : τ.height ≤ fuel) :
    (∃ b rb fwd, cbegin fuel t = some b ∧
      walk (operator_inc fuel t.mem) none t.size_ b = some fwd ∧
      crbegin fuel t = some rb ∧
      walk (operator_dec fuel t.mem) none t.size_ rb = some fwd.reverse ∧
      (fwd.reverse.map (fun a => key (t.mem a).value)).Sorted (fun x y => x ≥ y)) ∧
    (∀ a b, a ∈ τ.addrs → operator_inc fuel t.mem (some a) = some (some b) →
      operator_dec fuel t.mem (some b) = some (some a)) := by
  constructor
  · refine ⟨τ.addrs.head?, τ.addrs.getLast?, τ.addrs, ?_, ?_, ?_, ?_, ?_⟩
    · unfold cbegin
      rw [h.1]
      exact min_spec t.mem τ fuel none h.2.1 hfuel
    · have := walk_inc_spec fuel h hfuel [] τ.addrs [] t.size_ (by simp)
        (by rw [hsz, T.size_eq_length])
      simpa using this
    · unfold crbegin
      rw [h.1]
      exact max_last t.mem τ fuel none h.2.1 hfuel
    · have := walk_dec_spec fuel h hfuel τ.addrs.reverse [] t.size_ (by simp)
        (by rw [hsz, T.size_eq_length]; simp)
      simpa using this
    · have := hv.1
      unfold T.Ordered at this
      rw [← Repr_values t.mem τ none h.2.1, List.map_map] at this
      rw [List.map_reverse]
      exact List.pairwise_reverse.2 this
  · intro a b ha hinc
    obtain ⟨xs, ys, e⟩ := List.append_of_mem ha
    have h1 := operator_inc_spec fuel h hfuel xs ys a e
    rw [h1] at hinc
    cases ys with
    | nil => simp at hinc
    | cons y ys =>
      simp at hinc
      subst hinc
      have := operator_dec_spec fuel h hfuel (xs ++ [a]) ys y (by simp [e])
      simpa using this

/-- Witness of C19: the example set 10, 20, 30. -/
theorem backward_iteration_witness :
    (∃ b rb fwd, cbegin 2 exTree = some b ∧
      walk (operator_inc 2 exTree.mem) none exTree.size_ b = some fwd ∧
      crbegin 2 exTree = some rb ∧
      walk (operator_dec 2 exTree.mem) none exTree.size_ rb = some fwd.reverse ∧
      (fwd.reverse.map (fun a => id (exTree.mem a).value)).Sorted (fun x y => x ≥ y)) ∧
    (∀ a b, a ∈ exShape.addrs → operator_inc 2 exTree.mem (some a) = some (some b) →
      operator_dec 2 exTree.mem (some b) = some (some a)) :=
  backward_iteration id 2 exTree exShape exTree_represents exShape_valid rfl (by decide)

/-- C20: for every tree with ordered keys and every key `k`, `searchNode` returns a node
of the tree whose stored key is `k` when the tree has one, and null otherwise, in
particular on the empty tree; `searchNode` only reads the state (it returns a pointer and
no new state). -/
theorem searchNode_correct (key : V → K) (fuel : Nat) (t : RBTree V) (τ : T V) (k : K)
    (h : Represents t τ) (hord : τ.Ordered key) (hfuel : τ.height ≤ fuel) :
    (k ∈ τ.values.map key →
      ∃ a, searchNode key fuel t k = some (some a) ∧ a ∈ τ.addrs ∧ key (t.mem a).value = k) ∧
    (k ∉ τ.values.map key → searchNode key fuel t k = some none) ∧
    (τ = T.nil → searchNode key fuel t k = some none) := by
  obtain ⟨s1, s2⟩ := searchNode_spec key fuel t τ k h hord hfuel
  refine ⟨fun hk => ?_, s2, fun e => s2 (by rw [e]; simp)⟩
  obtain ⟨a, v, e, hm, hk'⟩ := s1 hk
  refine ⟨a, e, (T.mem_addrs_iff τ a).2 ⟨v, hm⟩, ?_⟩
  rw [Repr_mem_value t.mem τ none h.2.1 a v hm, hk']

/-- Witness of C20: searching 30 in the example set 10, 20, 30. -/
theorem searchNode_correct_witness :
    (30 ∈ exShape.values.map id →
      ∃ a, searchNode id 2 exTree 30 = some (some a) ∧ a ∈ exShape.addrs ∧
        id (exTree.mem a).value = 30) ∧
    (30 ∉ exShape.values.map id → searchNode id 2 exTree 30 = some none) ∧
    (exShape = T.nil → searchNode id 2 exTree 30 = some none) :=
  searchNode_correct id 2 exTree exShape 30 exTree_represents exShape_valid.1 (by decide)

end Claims

end nex

set_option autoImplicit false
set_option linter.unnecessarySeqFocus false
set_option linter.unusedTactic false
set_option linter.unreachableTactic false

namespace nex

section Scenarios

/-- C5 (fails on the code): size and reachable node count after the sequence
`A.insert` 4, 3, 5, 2, 1; `B.insert` 1, 2; `B.merge(A)`; `A.erase(A.find(1))`: `size_` of
`A` is 1 while two nodes are reachable from its root. -/
theorem size_differs_after_merge_erase :
    exMergedErased.map (fun t => (t.size_, reachable t.mem 6 t.rootNode_)) =
      some (1, some 2) := by
  rfl

/-- C14 (fails on the code): after `B.merge(A)` for `A` built from 4, 3, 5, 2, 1 and `B`
from 1, 2, the tree `A` has size 2 and root 2, node 1 is the left child of the root, and
the parent link of node 1 is null; a forward iteration over `A` therefore ends after
node 1. The tree `B` holds 1, 2, 3, 4, 5. -/
theorem merge_breaks_parent_link :
    exMerged.map (fun r => (r.2.rootNode_, r.2.size_, (r.2.mem 2).left, (r.2.mem 1).parent,
        inorderValues 6 r.2, inorderValues 6 r.1)) =
      some (some 2, 2, some 1, none, some [1], some [1, 2, 3, 4, 5]) := by
  rfl

/-- C17 (fails on the code): in the set built from 3, 4, 2, 1, `takeNode` of the node
holding 3 returns that node with null `parent` and `right` links but with its `left` link
still pointing to node 1, which stays in the tree as the left child of the new root 2. -/
theorem takeNode_leaves_left_link :
    exTaken.map (fun r => (r.1, (r.2.mem 3).parent, (r.2.mem 3).left, (r.2.mem 3).right,
        r.2.rootNode_, (r.2.mem 2).left, inorderValues 4 r.2)) =
      some (3, none, some 1, none, some 2, some 1, some [1, 2, 4]) := by
  rfl

/-- C15 as stated fails: after inserting 10, 20, 30 the tree is not the one with root 20
and two black children 10 and 30. -/
theorem insert_10_20_30_children_not_black :
    ¬ ∃ t r l g, exBuilt = some t ∧ t.size_ = 3 ∧ t.rootNode_ = some r ∧
      (t.mem r).value = 20 ∧ (t.mem r).color = Color.Black ∧
      (t.mem r).left = some l ∧ (t.mem l).value = 10 ∧ (t.mem l).color = Color.Black ∧
      (t.mem r).right = some g ∧ (t.mem g).value = 30 ∧ (t.mem g).color = Color.Black := by
  rintro ⟨t, r, l, g, e, -, hr, -, -, hl, -, hc, -⟩
  have hk : exBuilt.map (fun t => (t.rootNode_, (t.mem 2).left, (t.mem 1).color)) =
      some (some 2, some 1, Color.Red) := rfl
  rw [e] at hk
  simp only [Option.map_some', Option.some.injEq, Prod.mk.injEq] at hk
  obtain ⟨k1, k2, k3⟩ := hk
  rw [hr] at k1
  cases k1
  rw [hl] at k2
  cases k2
  rw [hc] at k3
  cases k3

/-- C15, amended: inserting 10, 20, 30 in that order into an empty unique tree yields the
shape root = 20 coloured black, left child = 10 coloured red, right child = 30 coloured
red (with consistent parent links), with size 3. -/
theorem insert_10_20_30_shape :
    ∃ t, exBuilt = some t ∧ t.size_ = 3 ∧ Represents t exShape :=
  ⟨_, rfl, rfl, ⟨rfl, ⟨rfl, ⟨rfl, trivial, trivial⟩, ⟨rfl, trivial, trivial⟩⟩, by decide⟩⟩

/-- C16: in the tree built by inserting 10, 20, 30, erasing the node 20 leaves a tree of
size 2 that holds exactly 10 and 30; its root is 10, coloured black, with 30 as red right
child, and each of its three paths from the root to an absent child has exactly one black
node. -/
theorem erase_20_shape :
    ∃ t, exErased = some t ∧ t.size_ = 2 ∧
      Represents t (T.node T.nil 1 Color.Black 10 (T.node T.nil 3 Color.Red 30 T.nil)) ∧
      (T.node T.nil 1 Color.Black 10 (T.node T.nil 3 Color.Red 30 T.nil)).pathBlackCounts =
        [1, 1, 1] ∧
      inorderValues 4 t = some [10, 30] :=
  ⟨_, rfl, rfl, ⟨rfl, ⟨rfl, trivial, rfl, trivial, trivial⟩, by decide⟩, rfl, rfl⟩

/-- The example of C13: for `A` = 1, 3, 5 and `B` = 2, 3, 4, after `B.merge(A)` the tree
`B` holds 1, 2, 3, 4, 5 and `A` holds 3. -/
theorem merge_example :
    exUnion.map (fun r => (inorderValues 6 r.1, r.1.size_, inorderValues 6 r.2, r.2.size_)) =
      some (some [1, 2, 3, 4, 5], 5, some [3], 1) := by
  rfl

end Scenarios

end nex

set_option autoImplicit false
set_option linter.unnecessarySeqFocus false
set_option linter.unusedTactic false
set_option linter.unreachableTactic false

namespace nex

section ParentLinks

variable {V : Type}

/-- In a represented subtree every child's parent link points back to its parent. -/
theorem Repr_parent_links (m : Mem V) (s : T V) :
    ∀ par, Repr m s par → ∀ a ∈ s.addrs,
      (∀ c, (m a).left = some c → (m c).parent = some a) ∧
      (∀ c, (m a).right = some c → (m c).parent = some a) := by
  induction s with
  | nil => intro _ _ a ha; simp at ha
  | node l b c v r ihl ihr =>
    intro par h a ha
    rw [Repr_node] at h
    simp only [T.addrs_node, List.mem_append, List.mem_cons] at ha
    rcases ha with ha | rfl | ha
    · exact ihl _ h.2.1 a ha
    · constructor
      · intro x hx
        rw [h.1] at hx
        simp only at hx
        cases l with
        | nil => simp at hx
        | node ll la lc lv lr =>
          simp at hx
          subst hx
          have := h.2.1
          rw [Repr_node] at this
          rw [this.1]
      · intro x hx
        rw [h.1] at hx
        simp only at hx
        cases r with
        | nil => simp at hx
        | node rl ra rc rv rr =>
          simp at hx
          subst hx
          have := h.2.2
          rw [Repr_node] at this
          rw [this.1]
    · exact ihr _ h.2.2 a ha

theorem Represents.root_parent {t : RBTree V} {τ : T V} (h : Represents t τ) :
    ∀ r, t.rootNode_ = some r → (t.mem r).parent = none := by
  intro r hr
  cases τ with
  | nil => rw [h.1] at hr; simp at hr
  | node l a c v rt =>
    rw [h.1] at hr
    simp at hr
    subst hr
    have := h.2.1
    rw [Repr_node] at this
    rw [this.1]

/-- Assigning a new value to a node of the tree. -/
theorem setValue_spec {t : RBTree V} {C : List (Frame V)} {l r : T V} {a : Nat} {c : Color}
    {v : V} (w : V) (h : Represents t (plug C (T.node l a c v r))) :
    Represents { t with mem := t.mem.write a ({ (t.mem a) with value := w } : TreeNode V) }
      (plug C (T.node l a c w r)) := by
  have hread := h.read
  obtain ⟨hroot, hrep, hnd⟩ := h
  have hc := counts_of_nodup hnd
  simp only [addrs_plug, T.addrs_node, List.count_append, count_cons_one] at hc
  obtain ⟨hctx, hsub⟩ := (Repr_plug _ _ _).1 hrep
  simp at hsub
  refine Represents.mk_plug ?_ ?_ ?_ ?_
  · exact hroot.trans (ptr_plug_congr C (T.node l a c v r) (T.node l a c w r) rfl)
  · refine ReprCtx_congr _ _ _ _ ?_ hctx
    intro x hx
    have : x ≠ a := ne_of_one (by
      have := hc x
      rcases hx with hx | hx <;> have := mem_pos hx <;> omega)
    simp [Mem.write, this]
  · simp
    refine ⟨by simp [Mem.write, hread], Repr_congr _ _ _ _ ?_ hsub.2.1,
      Repr_congr _ _ _ _ ?_ hsub.2.2⟩
    · intro x hx
      have : x ≠ a := ne_of_one (by have := hc x; have := mem_pos hx; omega)
      simp [Mem.write, this]
    · intro x hx
      have : x ≠ a := ne_of_one (by have := hc x; have := mem_pos hx; omega)
      simp [Mem.write, this]
  · simpa [addrs_plug] using hnd

end ParentLinks

end nex

set_option autoImplicit false
set_option linter.unnecessarySeqFocus false
set_option linter.unusedTactic false
set_option linter.unreachableTactic false

namespace nex

section Claims

variable {K V M : Type} [LinearOrder K]

theorem Represents.links {t : RBTree V} {τ : T V} (h : Represents t τ) : LinksOK t τ.addrs :=
  ⟨h.root_parent, Repr_parent_links t.mem τ none h.2.1⟩

theorem exMapTree_represents : Represents exMapTree exMapShape :=
  ⟨rfl, ⟨rfl, ⟨rfl, trivial, trivial⟩, ⟨rfl, trivial, trivial⟩⟩, by decide⟩

theorem exMapShape_valid : exMapShape.Valid Prod.fst := by
  refine ⟨?_, rfl, ?_, ?_⟩
  · simp [T.Ordered, T.values, exMapShape, T.toList]
  · simp [exMapShape, T.NoRedRed, T.color]
  · simp [T.EqualBlackHeight, exMapShape, T.pathBlackCounts]

/-- C21: for every map (ordered by the key, the first component of an entry) and key `k`,
`at k` throws `out_of_range` exactly when no entry has key `k`, and otherwise returns the
mapped value of the entry with key `k`; `at` only reads the state (it returns no new
state). -/
theorem map_at_spec (fuel : Nat) (t : RBTree (K × M)) (τ : T (K × M)) (k : K)
    (h : Represents t τ) (hord : τ.Ordered Prod.fst) (hfuel : τ.height ≤ fuel) :
    (k ∉ τ.values.map Prod.fst →
      map_at fuel t k = some (Except.error MapError.out_of_range)) ∧
    (k ∈ τ.values.map Prod.fst →
      ∃ a v, (a, v) ∈ τ.toList ∧ v.1 = k ∧ map_at fuel t k = some (Except.ok v.2)) := by
  obtain ⟨s1, s2⟩ := searchNode_spec Prod.fst fuel t τ k h hord hfuel
  constructor
  · intro hk
    simp [map_at, s2 hk]
  · intro hk
    obtain ⟨a, v, e, hm, hv⟩ := s1 hk
    refine ⟨a, v, hm, hv, ?_⟩
    simp [map_at, e, Repr_mem_value t.mem τ none h.2.1 a v hm]

/-- Witness of C21: looking up the key 30 in the example map. -/
theorem map_at_spec_witness :
    (30 ∉ exMapShape.values.map Prod.fst →
      map_at 2 exMapTree 30 = some (Except.error MapError.out_of_range)) ∧
    (30 ∈ exMapShape.values.map Prod.fst →
      ∃ a v, (a, v) ∈ exMapShape.toList ∧ v.1 = 30 ∧
        map_at 2 exMapTree 30 = some (Except.ok v.2)) :=
  map_at_spec 2 exMapTree exMapShape 30 exMapTree_represents exMapShape_valid.1 (by decide)

/-- C22: for every valid map with room in the size counter, key `k` and value `obj`:
when `k` is absent, `insert_or_assign` returns the new node with flag true, the entry
`(k, obj)` is put into the in-order sequence at one place and `size_` grows by one; when
`k` is present, it returns the existing node `a` with flag false, `size_` is unchanged, and
the in-order sequence is the old one with the entry of node `a` now `(k, obj)`: the node
is overwritten in place and no other entry changes. The tree stays valid. -/
theorem insert_or_assign_spec (fuel : Nat) (t : RBTree (K × M)) (τ : T (K × M)) (k : K)
    (obj : M) (n : Nat) (h : Represents t τ) (hv : τ.Valid Prod.fst) (hn : n ∉ τ.addrs)
    (hfuel : τ.height < fuel) (hsize : t.size_ + 1 < sizeModulus) :
    (k ∉ τ.values.map Prod.fst →
      ∃ t' τ' xs ys, insert_or_assign fuel t k obj n = some ((some n, true), t') ∧
        Represents t' τ' ∧ τ'.Valid Prod.fst ∧ τ.toList = xs ++ ys ∧
        τ'.toList = xs ++ (n, (k, obj)) :: ys ∧ t'.size_ = t.size_ + 1) ∧
    (k ∈ τ.values.map Prod.fst →
      ∃ t' τ' a w xs ys, insert_or_assign fuel t k obj n = some ((some a, false), t') ∧
        Represents t' τ' ∧ τ'.Valid Prod.fst ∧ w.1 = k ∧ τ.toList = xs ++ (a, w) :: ys ∧
        τ'.toList = xs ++ (a, (k, obj)) :: ys ∧ t'.size_ = t.size_) := by
  rcases insertValue_spec Prod.fst false fuel t τ (k, obj) n h hv.rb hv.1 hn hfuel with
    ⟨-, a, w, hm, hw, e⟩ | ⟨hk, t', τ', xs, ys, e, hr, hrb, e1, e2, hx, hy, hs, -⟩
  · have hkm : k ∈ τ.values.map Prod.fst := by
      have := T.key_mem_of_mem Prod.fst τ a w hm
      rwa [hw] at this
    refine ⟨fun hk => absurd hkm hk, fun _ => ?_⟩
    obtain ⟨C, l, c, w', r, rfl⟩ := T.split_mem τ a ((T.mem_addrs_iff τ a).2 ⟨w, hm⟩)
    have hw' : w' = w := by
      rw [← Repr_mem_value t.mem _ none h.2.1 a w' (by simp [toList_plug]),
        Repr_mem_value t.mem _ none h.2.1 a w hm]
    subst hw'
    have hread := h.read
    have hval : (t.mem a).value.1 = k := by rw [hread]; exact hw
    have hr := setValue_spec ((t.mem a).value.1, obj) h
    rw [hval] at hr
    obtain ⟨hnrr, hbal, hctx⟩ := (RB_plug _ _).1 hv.rb
    have hrb' : (plug C (T.node l a c (k, obj) r)).RB :=
      (RB_plug _ _).2 ⟨by simpa using hnrr, by simpa using hbal, by simpa using hctx⟩
    have hord' : (plug C (T.node l a c (k, obj) r)).Ordered Prod.fst := by
      have := hv.1
      unfold T.Ordered T.values at this ⊢
      simp only [toList_plug, T.toList_node, List.map_append, List.map_cons] at this ⊢
      simpa [hw] using this
    refine ⟨_, _, a, w', ctxBeforeL C ++ l.toList, r.toList ++ ctxAfterL C, ?_, hr,
      T.Valid.of_rb hord' hrb', hw, by simp [toList_plug], by simp [toList_plug], rfl⟩
    simp only [insert_or_assign, e, hval]
    simp
  · simp only [true_and] at hk
    have hk' : k ∉ τ.values.map Prod.fst := hk
    refine ⟨fun _ => ⟨t', τ', xs, ys, by simp [insert_or_assign, e], hr,
      T.Valid.of_rb (ordered_insert Prod.fst hv.1 e1 e2 (fun x hx' => (hx x hx').1) hy) hrb,
      e1, e2, by rw [hs, Nat.mod_eq_of_lt hsize]⟩, fun hkm => absurd hkm hk'⟩

/-- Witness of C22: `insert_or_assign (20, 7)` on the example map (new node 4). -/
theorem insert_or_assign_spec_witness :
    (20 ∉ exMapShape.values.map Prod.fst →
      ∃ t' τ' xs ys, insert_or_assign 3 exMapTree 20 7 4 = some ((some 4, true), t') ∧
        Represents t' τ' ∧ τ'.Valid Prod.fst ∧ exMapShape.toList = xs ++ ys ∧
        τ'.toList = xs ++ (4, (20, 7)) :: ys ∧ t'.size_ = exMapTree.size_ + 1) ∧
    (20 ∈ exMapShape.values.map Prod.fst →
      ∃ t' τ' a w xs ys, insert_or_assign 3 exMapTree 20 7 4 = some ((some a, false), t') ∧
        Represents t' τ' ∧ τ'.Valid Prod.fst ∧ w.1 = 20 ∧
        exMapShape.toList = xs ++ (a, w) :: ys ∧
        τ'.toList = xs ++ (a, (20, 7)) :: ys ∧ t'.size_ = exMapTree.size_) :=
  insert_or_assign_spec 3 exMapTree exMapShape 20 7 4 exMapTree_represents exMapShape_valid
    (by decide) (by decide) (by decide)

end Claims

end nex

set_option autoImplicit false
set_option linter.unnecessarySeqFocus false
set_option linter.unusedTactic false
set_option linter.unreachableTactic false

namespace nex

section Claims

variable {K V : Type} [LinearOrder K]

/-- C24 as stated fails: `erase` at the end (null) position of the example set returns
normally, with the state it was given; no error is signalled. -/
theorem erase_end_no_error : erase 2 exTree none = some exTree := rfl

/-- C24, amended: calling `erase` with the end (null) position does nothing: it returns
normally and the tree (root, size and every node) is left unchanged. -/
theorem erase_end_unchanged (fuel : Nat) (t : RBTree V) : erase fuel t none = some t := rfl

/-- C27: after `insertNode` of a fresh node and after `erase` at a node of a valid tree,
the parent link of the root is null and, for every node of the tree with a left or right
child, the parent link of that child points back to the node. -/
theorem parent_links_after_ops (key : V → K) (Multi : Bool) (fuel : Nat) (t : RBTree V)
    (τ : T V) (n d : Nat) (v : V) (h : Represents t τ) (hv : τ.Valid key)
    (hn : n ∉ τ.addrs) (hmem : t.mem n = TreeNode.fresh v) (hd : d ∈ τ.addrs)
    (hfuel : τ.height < fuel) :
    (∃ b t' τ', insertNode key Multi fuel t n = some (b, t') ∧ Represents t' τ' ∧
      LinksOK t' τ'.addrs) ∧
    (∃ t' τ', erase fuel t (some d) = some t' ∧ Represents t' τ' ∧ LinksOK t' τ'.addrs) := by
  constructor
  · rcases insertNode_spec key Multi fuel t τ n v h hv.rb hv.1 hn hmem hfuel with
      ⟨-, -, e⟩ | ⟨-, t', τ', xs, ys, e, hr, -⟩
    · exact ⟨false, t, τ, e, h, h.links⟩
    · exact ⟨true, t', τ', e, hr, hr.links⟩
  · obtain ⟨t', τ', xs, ys, w, e, hr, -⟩ :=
      takeNode_spec fuel t τ d h hv.rb hd (le_of_lt hfuel)
    exact ⟨t', τ', by simp [erase, deleteNode, e], hr, hr.links⟩

/-- Witness of C27: inserting the fresh node 4 into, and erasing node 1 from, the example
set 10, 20, 30. -/
theorem parent_links_after_ops_witness :
    (∃ b t' τ', insertNode id false 3 exTree 4 = some (b, t') ∧ Represents t' τ' ∧
      LinksOK t' τ'.addrs) ∧
    (∃ t' τ', erase 3 exTree (some 1) = some t' ∧ Represents t' τ' ∧ LinksOK t' τ'.addrs) :=
  parent_links_after_ops id false 3 exTree exShape 4 1 40 exTree_represents exShape_valid
    (by decide) rfl (by decide) (by decide)

/-- C28 (fails on the code): in the example set 10, 20, 30 (nodes 1, 2, 3, root 2),
`swapValues` called on node 1 with node 3 leaves node 1 as the left child of the root,
makes it the right child as well, and hangs node 3 below node 1 as its left child, while
the parent link of node 3 still names the root: the two nodes have not exchanged their
positions and the links are inconsistent. -/
theorem swapValues_left_child_slip :
    ((swapValues exMem 1 3 2).left, (swapValues exMem 1 3 2).right,
      (swapValues exMem 1 3 1).left, (swapValues exMem 1 3 3).parent) =
      (some 1, some 1, some 3, some 2) := rfl

/-- C29: `takeNode` at a node `n` of a valid tree returns `n` itself and removes no other
node: afterwards `n` is not in the tree, and every other node of the tree is still in
the tree and holds the value it held before. -/
theorem takeNode_removes_only_n (key : V → K) (fuel : Nat) (t : RBTree V) (τ : T V) (n : Nat)
    (h : Represents t τ) (hv : τ.Valid key) (hn : n ∈ τ.addrs) (hfuel : τ.height ≤ fuel) :
    ∃ t' τ', takeNode fuel t n = some (n, t') ∧ Represents t' τ' ∧ n ∉ τ'.addrs ∧
      ∀ a, a ∈ τ.addrs → a ≠ n → a ∈ τ'.addrs ∧ (t'.mem a).value = (t.mem a).value := by
  obtain ⟨t', τ', xs, ys, w, e, hr, -, e1, e2, -⟩ := takeNode_spec fuel t τ n h hv.rb hn hfuel
  have hnd := h.toList_nodup
  rw [e1] at hnd
  refine ⟨t', τ', e, hr, ?_, ?_⟩
  · rw [T.addrs_eq_map, e2]
    have hc := counts_of_nodup hnd n
    simp only [List.map_append, List.map_cons, List.count_append, count_cons_one] at hc
    have h1 := one_self n
    intro hm
    rw [List.map_append, List.mem_append] at hm
    rcases hm with hm | hm <;> have := mem_pos hm <;> omega
  · intro a ha hne
    obtain ⟨u, hu⟩ := (T.mem_addrs_iff τ a).1 ha
    have hu' : (a, u) ∈ τ'.toList := by
      rw [e1] at hu
      rw [e2]
      simp only [List.mem_append, List.mem_cons, Prod.mk.injEq] at hu ⊢
      rcases hu with hu | ⟨rfl, -⟩ | hu
      · exact Or.inl hu
      · exact absurd rfl hne
      · exact Or.inr hu
    refine ⟨(T.mem_addrs_iff τ' a).2 ⟨u, hu'⟩, ?_⟩
    rw [Repr_mem_value t'.mem τ' none hr.2.1 a u hu', Repr_mem_value t.mem τ none h.2.1 a u hu]

/-- Witness of C29: taking the root (node 2) out of the example set 10, 20, 30. -/
theorem takeNode_removes_only_n_witness :
    ∃ t' τ', takeNode 2 exTree 2 = some (2, t') ∧ Represents t' τ' ∧ 2 ∉ τ'.addrs ∧
      ∀ a, a ∈ exShape.addrs → a ≠ 2 →
        a ∈ τ'.addrs ∧ (t'.mem a).value = (exTree.mem a).value :=
  takeNode_removes_only_n id 2 exTree exShape 2 exTree_represents exShape_valid
    (by decide) (by decide)

theorem rotate_root_facts {t t' : RBTree V} {C : List (Frame V)} {s s' : T V} {l r : T V}
    {b : Nat} {bc : Color} {bv : V} (h : Represents t (plug C s))
    (hs : s' = T.node l b (topColor C bc) bv r)
    (h' : Represents t' (plug C s')) :
    ((t'.mem b).parent = none → t'.rootNode_ = some b ∧ (t'.mem b).color = Color.Black) ∧
    ((t'.mem b).parent ≠ none → t'.rootNode_ = t.rootNode_) := by
  subst hs
  have hb := h'.read
  cases C with
  | nil =>
    refine ⟨fun _ => ⟨h'.1, by rw [hb]; rfl⟩, fun hne => absurd (by rw [hb]; rfl) hne⟩
  | cons f C =>
    refine ⟨fun he => ?_, fun _ => ?_⟩
    · rw [hb] at he
      simp at he
    · rw [h'.1, h.1]
      exact ptr_plug_cons f C _ _

/-- C30: in a tree with consistent parent links, `rotateLeft` at a node `a` with a right
child `b` and `rotateRight` at a node `a` with a left child `b` return a tree with
consistent parent links and the same in-order sequence of (node, value); when the promoted
child `b` ends with a null parent link it is the new root and is coloured black, and
otherwise the root is the one before. -/
theorem rotation_spec (t u : RBTree V) (C D : List (Frame V)) (l rl rr ll lr r : T V)
    (a b p q : Nat) (c bc pc qc : Color) (v bv pv qv : V)
    (h1 : Represents t (plug C (T.node l a c v (T.node rl b bc bv rr))))
    (h2 : Represents u (plug D (T.node (T.node ll q qc qv lr) p pc pv r))) :
    (∃ t' τ', rotateLeft t a = some t' ∧ Represents t' τ' ∧
      τ'.toList = (plug C (T.node l a c v (T.node rl b bc bv rr))).toList ∧
      ((t'.mem b).parent = none → t'.rootNode_ = some b ∧ (t'.mem b).color = Color.Black) ∧
      ((t'.mem b).parent ≠ none → t'.rootNode_ = t.rootNode_)) ∧
    (∃ u' τ', rotateRight u p = some u' ∧ Represents u' τ' ∧
      τ'.toList = (plug D (T.node (T.node ll q qc qv lr) p pc pv r)).toList ∧
      ((u'.mem q).parent = none → u'.rootNode_ = some q ∧ (u'.mem q).color = Color.Black) ∧
      ((u'.mem q).parent ≠ none → u'.rootNode_ = u.rootNode_)) := by
  constructor
  · obtain ⟨t', e, hr, hl, -⟩ := rotateLeft_evolves h1
    obtain ⟨f1, f2⟩ := rotate_root_facts h1 rfl hr
    exact ⟨t', _, e, hr, hl, f1, f2⟩
  · obtain ⟨u', e, hr, hl, -⟩ := rotateRight_evolves h2
    obtain ⟨f1, f2⟩ := rotate_root_facts h2 rfl hr
    exact ⟨u', _, e, hr, hl, f1, f2⟩

/-- Witness of C30: `rotateLeft` and `rotateRight` at the root (node 2) of the example set
10, 20, 30. -/
theorem rotation_spec_witness :
    (∃ t' τ', rotateLeft exTree 2 = some t' ∧ Represents t' τ' ∧
      τ'.toList = (plug [] (T.node (T.node T.nil 1 Color.Red 10 T.nil) 2 Color.Black 20
        (T.node T.nil 3 Color.Red 30 T.nil))).toList ∧
      ((t'.mem 3).parent = none → t'.rootNode_ = some 3 ∧ (t'.mem 3).color = Color.Black) ∧
      ((t'.mem 3).parent ≠ none → t'.rootNode_ = exTree.rootNode_)) ∧
    (∃ u' τ', rotateRight exTree 2 = some u' ∧ Represents u' τ' ∧
      τ'.toList = (plug [] (T.node (T.node T.nil 1 Color.Red 10 T.nil) 2 Color.Black 20
        (T.node T.nil 3 Color.Red 30 T.nil))).toList ∧
      ((u'.mem 1).parent = none → u'.rootNode_ = some 1 ∧ (u'.mem 1).color = Color.Black) ∧
      ((u'.mem 1).parent ≠ none → u'.rootNode_ = exTree.rootNode_)) :=
  rotation_spec exTree exTree [] [] (T.node T.nil 1 Color.Red 10 T.nil) T.nil T.nil T.nil T.nil
    (T.node T.nil 3 Color.Red 30 T.nil) 2 3 2 1 Color.Black Color.Red Color.Black Color.Red
    20 30 20 10 exTree_represents exTree_represents

end Claims

end nex

set_option autoImplicit false
set_option linter.unnecessarySeqFocus false
set_option linter.unusedTactic false
set_option linter.unreachableTactic false

namespace nex

section Height

variable {K V : Type} [LinearOrder K]

theorem T.pow_bh_le_size (s : T V) (h : s.Balanced) : 2 ^ s.bh ≤ s.size + 1 := by
  induction s with
  | nil => simp [T.bh, T.size]
  | node l a c v r ihl ihr =>
    simp only [T.Balanced] at h
    have h1 := ihl h.2.1
    have h2 := ihr h.2.2
    rw [← h.1] at h2
    simp only [T.bh, T.size]
    by_cases hc : c = Color.Black
    · simp only [hc, if_true, pow_succ]
      omega
    · simp only [hc, if_false, Nat.add_zero]
      omega

theorem T.height_le_bh (s : T V) (h1 : s.NoRedRed) (h2 : s.Balanced) :
    s.height ≤ 2 * s.bh + (if s.color = Color.Red then 1 else 0) := by
  induction s with
  | nil => simp [T.height, T.bh]
  | node l a c v r ihl ihr =>
    simp only [T.Balanced] at h2
    simp only [T.NoRedRed] at h1
    have hl := ihl h1.2.1 h2.2.1
    have hr := ihr h1.2.2 h2.2.2
    rw [← h2.1] at hr
    simp only [T.height, T.bh, T.color]
    have hmax : Nat.max l.height r.height ≤ Nat.max l.height r.height := le_refl _
    cases c with
    | Red =>
      obtain ⟨cl, cr⟩ := h1.1 rfl
      simp only [cl, cr] at hl hr
      simp at hl hr ⊢
      have : Nat.max l.height r.height ≤ 2 * l.bh := Nat.max_le.2 ⟨hl, hr⟩
      omega
    | Black =>
      have hl' : l.height ≤ 2 * l.bh + 1 := by
        refine le_trans hl ?_
        split_ifs <;> omega
      have hr' : r.height ≤ 2 * l.bh + 1 := by
        refine le_trans hr ?_
        split_ifs <;> omega
      have : Nat.max l.height r.height ≤ 2 * l.bh + 1 := Nat.max_le.2 ⟨hl', hr'⟩
      simp
      omega

/-- The height of a red-black tree is at most twice the binary logarithm of its size
plus one. -/
theorem T.RB.height_le_log {s : T V} (h : s.RB) : s.height ≤ 2 * Nat.log 2 (s.size + 1) := by
  have h1 := T.height_le_bh s h.2.1 h.2.2
  have h2 := T.pow_bh_le_size s h.2.2
  have h3 : s.bh ≤ Nat.log 2 (s.size + 1) :=
    (Nat.pow_le_iff_le_log (by decide) (by omega)).1 h2
  rw [h.1] at h1
  simp at h1
  omega

theorem T.strictOrdered_ordered (key : V → K) (τ : T V) (h : τ.StrictOrdered key) :
    τ.Ordered key := by
  unfold T.StrictOrdered at h
  unfold T.Ordered
  exact h.imp (fun hab => le_of_lt hab)

/-- Every reachable engine state holds a valid red-black tree. -/
theorem Reachable.valid (key : V → K) (Multi : Bool) (t : RBTree V)
    (h : Reachable key Multi t) : ∃ τ, Represents t τ ∧ τ.Valid key := by
  induction h with
  | empty m =>
    refine ⟨T.nil, ⟨rfl, trivial, by simp⟩, ?_, rfl, trivial, ?_⟩
    · simp [T.Ordered, T.values, T.toList]
    · simp [T.EqualBlackHeight, T.pathBlackCounts]
  | insert t t' fuel v n r _ hpre e ih =>
    obtain ⟨τ, hr, hv⟩ := ih
    obtain ⟨hn, hf⟩ := hpre τ hr
    rcases insertValue_spec key Multi fuel t τ v n hr hv.rb hv.1 hn hf with
      ⟨-, a, w, -, -, e'⟩ | ⟨-, t2, τ2, xs, ys, e', hr2, hrb2, e1, e2, hx, hy, -⟩
    · rw [e'] at e
      cases e
      exact ⟨τ, hr, hv⟩
    · rw [e'] at e
      cases e
      exact ⟨τ2, hr2,
        T.Valid.of_rb (ordered_insert key hv.1 e1 e2 (fun x hx' => (hx x hx').1) hy) hrb2⟩
  | erase t t' fuel pos _ hpre e ih =>
    obtain ⟨τ, hr, hv⟩ := ih
    obtain ⟨hp, hf⟩ := hpre τ hr
    obtain ⟨t2, τ2, xs, ys, w, e', hr2, hrb2, e1, e2, -⟩ :=
      takeNode_spec fuel t τ pos hr hv.rb hp hf
    simp only [nex.erase, deleteNode, e', Option.map_some', Option.some.injEq] at e
    subst e
    exact ⟨τ2, hr2, T.Valid.of_rb (ordered_remove key hv.1 e1 e2) hrb2⟩

end Height

end nex

set_option autoImplicit false
set_option linter.unnecessarySeqFocus false
set_option linter.unusedTactic false
set_option linter.unreachableTactic false

namespace nex

section Claims

variable {K V : Type} [LinearOrder K]

/-- The shape an engine state holds is determined by the state. -/
theorem Repr_unique (m : Mem V) (s : T V) :
    ∀ (s' : T V) (par par' : Option Nat), Repr m s par → Repr m s' par' → s.ptr = s'.ptr →
      s = s' := by
  induction s with
  | nil =>
    intro s' par par' _ _ e
    cases s' with
    | nil => rfl
    | node l a c v r => simp at e
  | node l a c v r ihl ihr =>
    intro s' par par' h h' e
    cases s' with
    | nil => simp at e
    | node l' a' c' v' r' =>
      simp at e
      subst e
      rw [Repr_node] at h h'
      have hm := h.1.symm.trans h'.1
      simp only [TreeNode.mk.injEq] at hm
      obtain ⟨e1, e2, -, e4, e5⟩ := hm
      rw [ihl l' _ _ h.2.1 h'.2.1 e1, ihr r' _ _ h.2.2 h'.2.2 e2, e4, e5]

theorem Represents.unique {t : RBTree V} {τ τ' : T V} (h : Represents t τ)
    (h' : Represents t τ') : τ = τ' :=
  Repr_unique t.mem τ τ' none none h.2.1 h'.2.1 (h.1.symm.trans h'.1)

/-- C25: every engine state reachable from the empty tree by inserts and erases holds a
valid tree whose height (number of nodes on the longest path from the root to a leaf) is
at most twice the binary logarithm (rounded down) of its size plus one. -/
theorem reachable_height_bound (key : V → K) (Multi : Bool) (t : RBTree V)
    (h : Reachable key Multi t) :
    ∃ τ, Represents t τ ∧ τ.Valid key ∧ τ.height ≤ 2 * Nat.log 2 (τ.size + 1) := by
  obtain ⟨τ, hr, hv⟩ := Reachable.valid key Multi t h
  exact ⟨τ, hr, hv, hv.rb.height_le_log⟩

theorem empty_represents (m : Mem V) : Represents (RBTree.empty m) T.nil :=
  ⟨rfl, trivial, List.nodup_nil⟩

theorem exOne_reachable : Reachable id false exOne :=
  Reachable.insert (RBTree.empty freshMem) exOne 1 10 1 (some 1, true)
    (Reachable.empty freshMem)
    (fun τ hτ => by
      rw [hτ.unique (empty_represents freshMem)]
      exact ⟨by simp, by decide⟩)
    rfl

theorem exOne_represents : Represents exOne (T.node T.nil 1 Color.Black 10 T.nil) :=
  ⟨rfl, ⟨rfl, trivial, trivial⟩, by decide⟩

theorem exRun2_represents : Represents exRun2
    (T.node T.nil 1 Color.Black 10 (T.node T.nil 2 Color.Red 20 T.nil)) :=
  ⟨rfl, ⟨rfl, trivial, ⟨rfl, trivial, trivial⟩⟩, by decide⟩

theorem exRun3_represents : Represents exRun3
    (T.node (T.node T.nil 1 Color.Red 10 T.nil) 2 Color.Black 20
      (T.node T.nil 3 Color.Red 30 T.nil)) :=
  ⟨rfl, ⟨rfl, ⟨rfl, trivial, trivial⟩, ⟨rfl, trivial, trivial⟩⟩, by decide⟩

theorem exRun4_represents : Represents exRun4
    (T.node (T.node T.nil 1 Color.Black 10 T.nil) 2 Color.Black 20
      (T.node T.nil 3 Color.Black 30 (T.node T.nil 4 Color.Red 40 T.nil))) :=
  ⟨rfl, ⟨rfl, ⟨rfl, trivial, trivial⟩, ⟨rfl, trivial, ⟨rfl, trivial, trivial⟩⟩⟩, by decide⟩

theorem exRun5_represents : Represents exRun5
    (T.node (T.node T.nil 1 Color.Black 10 T.nil) 2 Color.Black 20
      (T.node (T.node T.nil 3 Color.Red 30 T.nil) 4 Color.Black 40
        (T.node T.nil 5 Color.Red 50 T.nil))) :=
  ⟨rfl, ⟨rfl, ⟨rfl, trivial, trivial⟩,
    ⟨rfl, ⟨rfl, trivial, trivial⟩, ⟨rfl, trivial, trivial⟩⟩⟩, by decide⟩

theorem exRun6_represents : Represents exRun6
    (T.node (T.node T.nil 2 Color.Black 20 (T.node T.nil 3 Color.Red 30 T.nil)) 4
      Color.Black 40 (T.node T.nil 5 Color.Black 50 T.nil)) :=
  ⟨rfl, ⟨rfl, ⟨rfl, trivial, ⟨rfl, trivial, trivial⟩⟩, ⟨rfl, trivial, trivial⟩⟩, by decide⟩

theorem exRun7_represents : Represents exRun7
    (T.node (T.node T.nil 2 Color.Black 20 T.nil) 3 Color.Black 30
      (T.node T.nil 5 Color.Black 50 T.nil)) :=
  ⟨rfl, ⟨rfl, ⟨rfl, trivial, trivial⟩, ⟨rfl, trivial, trivial⟩⟩, by decide⟩

/-- The example run is a run of inserts and erases from the empty tree: five inserts (with
a rotation at the root, a recolouring that re-enters at the root and a rotation below the
root), the erase of a black leaf (delete fix-up with a rotation) and the erase of the root
(position swap). -/
theorem exRun7_reachable : Reachable id false exRun7 :=
  Reachable.erase exRun6 exRun7 5 4
    (Reachable.erase exRun5 exRun6 5 1
      (Reachable.insert exRun4 exRun5 5 50 5 (some 5, true)
        (Reachable.insert exRun3 exRun4 5 40 4 (some 4, true)
          (Reachable.insert exRun2 exRun3 5 30 3 (some 3, true)
            (Reachable.insert exOne exRun2 5 20 2 (some 2, true) exOne_reachable
              (fun τ hτ => by
                rw [hτ.unique exOne_represents]
                exact ⟨by decide, by decide⟩)
              rfl)
            (fun τ hτ => by
              rw [hτ.unique exRun2_represents]
              exact ⟨by decide, by decide⟩)
            rfl)
          (fun τ hτ => by
            rw [hτ.unique exRun3_represents]
            exact ⟨by decide, by decide⟩)
          rfl)
        (fun τ hτ => by
          rw [hτ.unique exRun4_represents]
          exact ⟨by decide, by decide⟩)
        rfl)
      (fun τ hτ => by
        rw [hτ.unique exRun5_represents]
        exact ⟨by decide, by decide⟩)
      rfl)
    (fun τ hτ => by
      rw [hτ.unique exRun6_represents]
      exact ⟨by decide, by decide⟩)
    rfl

/-- Witness of C25: the state reached from the empty tree by the inserts of 10, 20, 30, 40,
50 and the erases of the node of 10 and of the root (the node of 40). -/
theorem reachable_height_bound_witness :
    ∃ τ, Represents exRun7 τ ∧ τ.Valid id ∧ τ.height ≤ 2 * Nat.log 2 (τ.size + 1) :=
  reachable_height_bound id false exRun7 exRun7_reachable

end Claims

end nex

set_option autoImplicit false
set_option linter.unnecessarySeqFocus false
set_option linter.unusedTactic false
set_option linter.unreachableTactic false

namespace nex

section Claims

variable {K V : Type} [LinearOrder K]

theorem strict_insert (key : V → K) {τ τ' : T V} {xs ys : List (Nat × V)} {n : Nat} {v : V}
    (hord : τ.StrictOrdered key) (e : τ.toList = xs ++ ys)
    (e' : τ'.toList = xs ++ (n, v) :: ys)
    (hx : ∀ x ∈ xs, key x.2 < key v) (hy : ∀ y ∈ ys, key v < key y.2) :
    τ'.StrictOrdered key := by
  rw [T.strictOrdered_iff] at hord ⊢
  rw [e] at hord
  rw [e']
  rw [List.pairwise_append] at hord ⊢
  refine ⟨hord.1, List.pairwise_cons.2 ⟨fun y hy' => hy y hy', hord.2.1⟩, ?_⟩
  intro x hx' y hy'
  rcases List.mem_cons.1 hy' with rfl | hy'
  · exact hx x hx'
  · exact hord.2.2 x hx' y hy'

/-- The loop of the list constructor of `set`: run on a valid tree with strictly ascending
keys, every new node not being a node of the tree at its time, it ends with such a tree
again, holding the old values and the items. -/
theorem set_from_items_loop (key : V → K) (fuel : Nat) :
    ∀ (items : List (V × Nat)) (t : RBTree V) (τ : T V), Represents t τ → τ.RB →
      τ.StrictOrdered key → t.size_ = τ.size →
      NewNodesFresh key fuel items t →
      τ.size + items.length < fuel → τ.size + items.length < sizeModulus →
      ∃ t' τ', set_from_items key fuel items t = some t' ∧ Represents t' τ' ∧ τ'.RB ∧
        τ'.StrictOrdered key ∧ t'.size_ = τ'.size ∧
        τ'.size ≤ τ.size + items.length ∧
        (∀ k, k ∈ τ'.values.map key ↔
          k ∈ τ.values.map key ∨ k ∈ (items.map Prod.fst).map key) := by
  intro items
  induction items with
  | nil =>
    intro t τ h hrb hs hsz _ _ _
    exact ⟨t, τ, rfl, h, hrb, hs, hsz, by simp, by simp⟩
  | cons it items ih =>
    intro t τ h hrb hs hsz hfresh hfuel hsize
    obtain ⟨v, n⟩ := it
    simp only [List.length_cons] at hfuel hsize
    simp only [NewNodesFresh] at hfresh
    obtain ⟨hn, hnext⟩ := hfresh
    have hn := hn τ h
    have h1 := h.write_fresh n (TreeNode.fresh v) hn
    have hmem : ({ t with mem := t.mem.write n (TreeNode.fresh v) } : RBTree V).mem n =
        TreeNode.fresh v := by simp [Mem.write]
    have hh : τ.height < fuel := lt_of_le_of_lt (T.height_le_size τ) (by omega)
    rcases insertNode_spec key false fuel _ τ n v h1 hrb (T.strictOrdered_ordered key τ hs)
        hn hmem hh with
      ⟨-, hk, e⟩ | ⟨-, t2, τ2, xs, ys, e, hr2, hrb2, e1, e2, hx, hy, hs2, -⟩
    · simp only [e] at hnext
      obtain ⟨t', τ', e', hr', hrb', hs', hsz', hle, hmemb⟩ :=
        ih _ τ h1 hrb hs hsz hnext (by omega) (by omega)
      refine ⟨t', τ', ?_, hr', hrb', hs', hsz', by simp only [List.length_cons]; omega, ?_⟩
      · simp only [set_from_items, e]
        exact e'
      · intro k
        rw [hmemb k]
        simp only [List.map_cons, List.mem_cons]
        constructor
        · rintro (hk' | hk')
          · exact Or.inl hk'
          · exact Or.inr (Or.inr hk')
        · rintro (hk' | rfl | hk')
          · exact Or.inl hk'
          · exact Or.inl hk
          · exact Or.inr hk'
    · have hsz2 : τ2.size = τ.size + 1 := by
        rw [T.size_toList, T.size_toList, e1, e2]; simp; omega
      simp only [e] at hnext
      have hsz2' : t2.size_ = τ2.size := by
        rw [hs2, hsz2]
        show (t.size_ + 1) % sizeModulus = τ.size + 1
        rw [hsz, Nat.mod_eq_of_lt (by omega)]
      obtain ⟨t', τ', e', hr', hrb', hs', hsz', hle, hmemb⟩ :=
        ih t2 τ2 hr2 hrb2 (strict_insert key hs e1 e2 (fun x hx' => (hx x hx').2 rfl) hy)
          hsz2' hnext (by omega) (by omega)
      refine ⟨t', τ', ?_, hr', hrb', hs', hsz', by simp only [List.length_cons]; omega, ?_⟩
      · simp only [set_from_items, e]
        exact e'
      · intro k
        rw [hmemb k]
        have hv2 : ∀ k, k ∈ τ2.values.map key ↔ k = key v ∨ k ∈ τ.values.map key := by
          intro k
          unfold T.values
          rw [e1, e2]
          simp only [List.map_append, List.map_cons, List.mem_append, List.mem_cons]
          tauto
        rw [hv2 k]
        simp only [List.map_cons, List.mem_cons]
        tauto

/-- C26: constructing a set (the value is the key) from any list of values, each with the
address its node gets, which is not a node of the tree at that moment (the address of a
rejected and deleted node may come again), and iterating it from `cbegin` to the end
yields a strictly ascending sequence that holds exactly the values of the list, and
`size_` is the number of distinct values of the list. -/
theorem set_from_items_spec (fuel : Nat) (items : List (K × Nat)) (m : Mem K)
    (hfresh : NewNodesFresh id fuel items (RBTree.empty m)) (hfuel : items.length < fuel)
    (hsize : items.length < sizeModulus) :
    ∃ t vs, set_from_items id fuel items (RBTree.empty m) = some t ∧
      inorderValues fuel t = some vs ∧ vs.Sorted (fun x y => x < y) ∧
      (∀ x, x ∈ vs ↔ x ∈ items.map Prod.fst) ∧
      t.size_ = vs.length ∧ t.size_ = (items.map Prod.fst).dedup.length := by
  obtain ⟨t, τ, e, hr, hrb, hs, hsz, hle, hmemb⟩ :=
    set_from_items_loop id fuel items (RBTree.empty m) T.nil (empty_represents m)
      ⟨rfl, trivial, trivial⟩ (by simp [T.StrictOrdered, T.values, T.toList]) rfl
      hfresh (by simpa [T.size] using hfuel) (by simpa [T.size] using hsize)
  have hh : τ.height ≤ fuel := le_trans (T.height_le_size τ) (by simp [T.size] at hle; omega)
  have hmem' : ∀ x, x ∈ τ.values ↔ x ∈ items.map Prod.fst := by
    intro x
    have := hmemb x
    simpa [T.values, T.toList] using this
  have hvs : inorderValues fuel t = some τ.values := by
    have h1 : cbegin fuel t = some τ.addrs.head? := by
      unfold cbegin
      rw [hr.1]
      exact min_spec t.mem τ fuel none hr.2.1 hh
    have h2 := walk_inc_spec fuel hr hh [] τ.addrs [] fuel (by simp)
      (by rw [← T.size_eq_length]; simp [T.size] at hle; omega)
    simp only [List.append_nil, List.head?_nil] at h2
    simp only [inorderValues, h1, Option.some_bind, h2, Option.map_some']
    rw [Repr_values t.mem τ none hr.2.1]
  have hsorted : τ.values.Sorted (fun x y => x < y) := by
    have := hs
    unfold T.StrictOrdered at this
    simpa using this
  have hlen : t.size_ = τ.values.length := by
    rw [hsz, T.size_toList]; simp [T.values]
  refine ⟨t, τ.values, e, hvs, hsorted, hmem', hlen, ?_⟩
  rw [hlen]
  refine List.Perm.length_eq ((List.perm_ext_iff_of_nodup hsorted.nodup
    (List.nodup_dedup _)).2 ?_)
  intro a
  rw [hmem' a, List.mem_dedup]

/-- The run of the list constructor on 30, 10, 30, 20 where the node of the second 30
(address 3) is rejected and deleted and the node of 20 gets the address 3 again: every
address is fresh for the tree at its time. -/
theorem exSetItems_fresh :
    NewNodesFresh id 5 [(30, 1), (10, 2), (30, 3), (20, 3)] (RBTree.empty freshMem) :=
  ⟨fun τ h => by rw [h.unique (empty_represents freshMem)]; decide,
    fun τ h => by
      rw [h.unique (show Represents _ (T.node T.nil 1 Color.Black 30 T.nil) from
        ⟨rfl, ⟨rfl, trivial, trivial⟩, by decide⟩)]
      decide,
    fun τ h => by
      rw [h.unique (show Represents _
        (T.node (T.node T.nil 2 Color.Red 10 T.nil) 1 Color.Black 30 T.nil) from
        ⟨rfl, ⟨rfl, ⟨rfl, trivial, trivial⟩, trivial⟩, by decide⟩)]
      decide,
    fun τ h => by
      rw [h.unique (show Represents _
        (T.node (T.node T.nil 2 Color.Red 10 T.nil) 1 Color.Black 30 T.nil) from
        ⟨rfl, ⟨rfl, ⟨rfl, trivial, trivial⟩, trivial⟩, by decide⟩)]
      decide,
    trivial⟩

/-- Witness of C26: the set constructed from the list 30, 10, 30, 20 (nodes 1, 2, 3 and
again 3, the address of the rejected node). -/
theorem set_from_items_spec_witness :
    ∃ t vs, set_from_items id 5 [(30, 1), (10, 2), (30, 3), (20, 3)]
        (RBTree.empty freshMem) = some t ∧
      inorderValues 5 t = some vs ∧ vs.Sorted (fun x y => x < y) ∧
      (∀ x, x ∈ vs ↔ x ∈ [(30, 1), (10, 2), (30, 3), (20, 3)].map Prod.fst) ∧
      t.size_ = vs.length ∧
      t.size_ = ([(30, 1), (10, 2), (30, 3), (20, 3)].map Prod.fst).dedup.length :=
  set_from_items_spec 5 [(30, 1), (10, 2), (30, 3), (20, 3)] freshMem exSetItems_fresh
    (by decide) (by decide)

end Claims

end nex

set_option autoImplicit false
set_option linter.unnecessarySeqFocus false
set_option linter.unusedTactic false
set_option linter.unreachableTactic false

namespace nex

section Clone

variable {V : Type}

theorem T.clone_append (s : T V) :
    ∀ (used rest : List Nat), used.length = s.size →
      T.clone s (used ++ rest) = ((T.clone s used).1, rest) ∧ (T.clone s used).2 = [] := by
  induction s with
  | nil =>
    intro used rest h
    simp [T.size] at h
    subst h
    simp [T.clone]
  | node l a c v r ihl ihr =>
    intro used rest h
    cases used with
    | nil => simp only [T.size, List.length_nil] at h; omega
    | cons x used =>
      simp only [T.size, List.length_cons] at h
      have hsplit : used = used.take l.size ++ used.drop l.size :=
        (List.take_append_drop _ _).symm
      have h1 : (used.take l.size).length = l.size := by
        rw [List.length_take]; omega
      have h2 : (used.drop l.size).length = r.size := by
        rw [List.length_drop]; omega
      obtain ⟨a1, a2⟩ := ihl (used.take l.size) (used.drop l.size ++ rest) h1
      obtain ⟨a3, -⟩ := ihl (used.take l.size) (used.drop l.size) h1
      obtain ⟨b1, b2⟩ := ihr (used.drop l.size) rest h2
      have e1 : T.clone l (used ++ rest) = ((T.clone l (used.take l.size)).1,
          used.drop l.size ++ rest) := by
        conv_lhs => rw [hsplit, List.append_assoc]
        exact a1
      have e2 : T.clone l used = ((T.clone l (used.take l.size)).1, used.drop l.size) := by
        conv_lhs => rw [hsplit]
        exact a3
      constructor
      · simp only [List.cons_append, T.clone, List.append_eq, e1, e2, b1]
      · simp only [T.clone, e2]
        exact b2

theorem T.clone_node (l r : T V) (a : Nat) (c : Color) (v : V) (x : Nat) (used : List Nat)
    (h : used.length = l.size + r.size) :
    (T.clone (T.node l a c v r) (x :: used)).1 =
      T.node (T.clone l (used.take l.size)).1 x c v (T.clone r (used.drop l.size)).1 := by
  have h1 : (used.take l.size).length = l.size := by rw [List.length_take]; omega
  have e := (T.clone_append l (used.take l.size) (used.drop l.size) h1).1
  rw [List.take_append_drop] at e
  simp only [T.clone, e]

theorem T.clone_unlabel (s : T V) :
    ∀ used : List Nat, used.length = s.size → (T.clone s used).1.unlabel = s.unlabel := by
  induction s with
  | nil => intro used _; simp [T.clone, T.unlabel]
  | node l a c v r ihl ihr =>
    intro used h
    cases used with
    | nil => simp only [T.size, List.length_nil] at h; omega
    | cons x used =>
      simp only [T.size, List.length_cons] at h
      rw [T.clone_node l r a c v x used (by omega)]
      simp only [T.unlabel]
      rw [ihl _ (by rw [List.length_take]; omega), ihr _ (by rw [List.length_drop]; omega)]

theorem T.clone_addrs (s : T V) :
    ∀ used : List Nat, used.length = s.size → (T.clone s used).1.addrs.Perm used := by
  induction s with
  | nil =>
    intro used h
    simp [T.size] at h
    subst h
    simp [T.clone]
  | node l a c v r ihl ihr =>
    intro used h
    cases used with
    | nil => simp only [T.size, List.length_nil] at h; omega
    | cons x used =>
      simp only [T.size, List.length_cons] at h
      rw [T.clone_node l r a c v x used (by omega)]
      simp only [T.addrs_node]
      have p1 := ihl (used.take l.size) (by rw [List.length_take]; omega)
      have p2 := ihr (used.drop l.size) (by rw [List.length_drop]; omega)
      have p3 : (x :: used).Perm (used.take l.size ++ x :: used.drop l.size) := by
        conv_lhs => rw [← List.take_append_drop l.size used]
        exact List.perm_middle.symm
      exact (List.Perm.append p1 (List.Perm.cons x p2)).trans p3.symm

theorem T.clone_ptr (l r : T V) (a : Nat) (c : Color) (v : V) (x : Nat) (used : List Nat) :
    (T.clone (T.node l a c v r) (x :: used)).1.ptr = some x := by
  simp [T.clone]

end Clone

end nex

set_option autoImplicit false
set_option linter.unnecessarySeqFocus false
set_option linter.unusedTactic false
set_option linter.unreachableTactic false
set_option linter.unusedVariables false

namespace nex

section Copy

variable {V : Type}

theorem T.clone_node_append (l r : T V) (a : Nat) (c : Color) (v : V) (x : Nat)
    (ul ur : List Nat) (h1 : ul.length = l.size) (h2 : ur.length = r.size) :
    (T.clone (T.node l a c v r) (x :: (ul ++ ur))).1 =
      T.node (T.clone l ul).1 x c v (T.clone r ur).1 := by
  rw [T.clone_node l r a c v x (ul ++ ur) (by rw [List.length_append]; omega)]
  rw [List.take_left' h1, List.drop_left' h1]

theorem copyChild_spec
    (copyRest : Mem V → Nat → Nat → List Nat → Option (Mem V × List Nat))
    (setChild : Mem V → Nat → Option Nat → Mem V)
    (upd : TreeNode V → Option Nat → TreeNode V)
    (hset_other : ∀ (m : Mem V) (t x y : Nat), y ≠ t → y ≠ x → setChild m t (some x) y = m y)
    (hset_child : ∀ (m : Mem V) (t x : Nat), x ≠ t →
      setChild m t (some x) x = { m x with parent := some t })
    (hset_self : ∀ (m : Mem V) (t x : Nat), x ≠ t →
      setChild m t (some x) t = upd (m t) (some x))
    (ch : T V) (m : Mem V) (a toNode : Nat) (used rest : List Nat)
    (hrepr : Repr m ch (some a))
    (hlen : used.length = ch.size)
    (hnd : (toNode :: used).Nodup)
    (hdisj : ∀ x ∈ toNode :: used, x ∉ ch.addrs)
    (hnone : upd (m toNode) none = m toNode)
    (hrec : ∀ (c x : Nat) (used' : List Nat) (m2 : Mem V), ch.ptr = some c →
      used = x :: used' → Repr m2 ch (some a) →
      m2 x = { left := none, right := none, parent := some toNode, value := (m2 c).value,
               color := (m2 c).color } →
      ∃ m3, copyRest m2 c x (used' ++ rest) = some (m3, rest) ∧
        Repr m3 (T.clone ch (x :: used')).1 (some toNode) ∧
        ∀ y, y ∉ x :: used' → m3 y = m2 y) :
    ∃ m3, copyChild copyRest setChild m ch.ptr toNode (used ++ rest) = some (m3, rest) ∧
      Repr m3 (T.clone ch used).1 (some toNode) ∧
      m3 toNode = upd (m toNode) (T.clone ch used).1.ptr ∧
      ∀ y, y ∉ toNode :: used → m3 y = m y := by
  cases ch with
  | nil =>
    simp only [T.size] at hlen
    have : used = [] := List.length_eq_zero.mp hlen
    subst this
    refine ⟨m, ?_, ?_, ?_, fun _ _ => rfl⟩
    · simp [copyChild, T.ptr]
    · simp [T.clone, Repr]
    · simp [T.clone, T.ptr, hnone]
  | node l c col v r =>
    cases used with
    | nil => simp only [T.size, List.length_nil] at hlen; omega
    | cons x used' =>
      have hxt : x ≠ toNode := by
        intro h
        subst h
        simp at hnd
      have hx : x ∉ (T.node l c col v r).addrs := hdisj x (by simp)
      have ht : toNode ∉ (T.node l c col v r).addrs := hdisj toNode (by simp)
      have hcx : c ≠ x := by
        intro h
        apply hx
        subst h
        simp
      have hct : c ≠ toNode := by
        intro h
        apply ht
        subst h
        simp
      have hm2 : ∀ y, y ≠ toNode → y ≠ x →
          setChild (m.write x (TreeNode.copyOf (m c))) toNode (some x) y = m y := by
        intro y h1 h2
        rw [hset_other _ _ _ _ h1 h2, write_apply, if_neg h2]
      obtain ⟨m3, e3, r3, f3⟩ := hrec c x used'
        (setChild (m.write x (TreeNode.copyOf (m c))) toNode (some x)) rfl rfl
        (Repr_congr m _ _ _ (fun y hy => hm2 y (fun h => ht (h ▸ hy)) (fun h => hx (h ▸ hy)))
          hrepr)
        (by
          rw [hset_child _ _ _ hxt, hm2 c hct hcx, write_apply, if_pos rfl]
          rfl)
      refine ⟨m3, ?_, r3, ?_, ?_⟩
      · simp only [copyChild, T.ptr, List.cons_append]
        exact e3
      · rw [f3 toNode (by
          intro h
          rw [List.mem_cons] at h
          rcases h with h | h
          · exact hxt h.symm
          · simp at hnd
            exact hnd.1.2 h), hset_self _ _ _ hxt, write_apply, if_neg (Ne.symm hxt),
          T.clone_ptr]
      · intro y hy
        have hy1 : y ≠ toNode := fun h => hy (by simp [h])
        have hy2 : y ≠ x := fun h => hy (by simp [h])
        rw [f3 y (fun h => hy (List.mem_cons_of_mem _ h)), hm2 y hy1 hy2]

theorem copyChildNodes_spec (s : T V) :
    ∀ (fuel : Nat) (m : Mem V) (par q : Option Nat) (a toNode : Nat) (used rest : List Nat),
      s.ptr = some a → Repr m s par → used.length + 1 = s.size → s.height ≤ fuel →
      (toNode :: used).Nodup → (∀ x ∈ toNode :: used, x ∉ s.addrs) →
      m toNode = { left := none, right := none, parent := q, value := (m a).value,
                   color := (m a).color } →
      ∃ m', copyChildNodes fuel m a toNode (used ++ rest) = some (m', rest) ∧
        Repr m' (T.clone s (toNode :: used)).1 q ∧
        ∀ y, y ∉ toNode :: used → m' y = m y := by
  induction s with
  | nil =>
    intro fuel m par q a toNode used rest hp
    simp [T.ptr] at hp
  | node l a0 c v r ihl ihr =>
    intro fuel m par q a toNode used rest hp hrepr hlen hh hnd hdisj hmt
    simp only [T.ptr, Option.some.injEq] at hp
    subst hp
    simp only [Repr_node] at hrepr
    obtain ⟨hma, hl, hr⟩ := hrepr
    simp only [T.size] at hlen
    simp only [T.height] at hh
    have hhl : l.height ≤ Nat.max l.height r.height := Nat.le_max_left _ _
    have hhr : r.height ≤ Nat.max l.height r.height := Nat.le_max_right _ _
    obtain ⟨fuel', rfl⟩ : ∃ f, fuel = f + 1 := ⟨fuel - 1, by omega⟩
    obtain ⟨ul, ur, rfl, h1, h2⟩ : ∃ ul ur, used = ul ++ ur ∧ ul.length = l.size ∧
        ur.length = r.size :=
      ⟨used.take l.size, used.drop l.size, (List.take_append_drop _ _).symm,
        by rw [List.length_take]; omega, by rw [List.length_drop]; omega⟩
    have hnd1 : toNode ∉ ul ∧ toNode ∉ ur ∧ ul.Nodup ∧ ur.Nodup ∧ ∀ y ∈ ul, y ∉ ur := by
      simp only [List.nodup_cons, List.nodup_append, List.mem_append, not_or] at hnd
      exact ⟨hnd.1.1, hnd.1.2, hnd.2.1, hnd.2.2.1, fun y h1 h2 => hnd.2.2.2 h1 h2⟩
    obtain ⟨hn1, hn2, hn3, hn4, hn5⟩ := hnd1
    have hda : ∀ x ∈ toNode :: (ul ++ ur), x ≠ a0 ∧ x ∉ l.addrs ∧ x ∉ r.addrs := by
      intro x hx
      have := hdisj x hx
      simp only [T.addrs_node, List.mem_append, List.mem_cons, not_or] at this
      exact ⟨this.2.1, this.1, this.2.2⟩
    have hval : (m toNode) =
        { left := none, right := none, parent := q, value := v, color := c } := by
      rw [hmt, hma]
    -- the left block
    obtain ⟨m3, e3, r3, t3, f3⟩ := copyChild_spec (copyChildNodes fuel') setLeft
      (fun n p => { n with left := p })
      (fun m t x y h1 h2 => by
        rw [setLeft_some, setP_apply, if_neg h2, setL_apply, if_neg h1])
      (fun m t x h => by
        rw [setLeft_some, setP_apply, if_pos rfl, setL_apply, if_neg h])
      (fun m t x h => by
        rw [setLeft_some, setP_apply, if_neg (Ne.symm h), setL_apply, if_pos rfl])
      l m a0 toNode ul (ur ++ rest) hl h1
      (List.nodup_cons.mpr ⟨hn1, hn3⟩)
      (fun x hx => (hda x (by
        rw [List.mem_cons] at hx ⊢
        rcases hx with h | h
        · exact Or.inl h
        · exact Or.inr (List.mem_append_left _ h))).2.1)
      (by rw [hval])
      (fun c x used' m2 hc hu hr2 hm2 =>
        ihl fuel' m2 (some a0) (some toNode) c x used' (ur ++ rest) hc hr2
          (by rw [← h1, hu, List.length_cons])
          (by omega)
          (by rw [← hu]; exact hn3)
          (fun y hy => (hda y (by
            rw [← hu] at hy
            exact List.mem_cons_of_mem _ (List.mem_append_left _ hy))).2.1)
          hm2)
    have ha3 : m3 a0 = m a0 := f3 a0 (by
      intro h
      rw [List.mem_cons] at h
      rcases h with h | h
      · exact (hda toNode (by simp)).1 h.symm
      · exact (hda a0 (List.mem_cons_of_mem _ (List.mem_append_left _ h))).1 rfl)
    -- the right block
    obtain ⟨m6, e6, r6, t6, f6⟩ := copyChild_spec (copyChildNodes fuel') setRight
      (fun n p => { n with right := p })
      (fun m t x y h1 h2 => by
        rw [setRight_some, setP_apply, if_neg h2, setR_apply, if_neg h1])
      (fun m t x h => by
        rw [setRight_some, setP_apply, if_pos rfl, setR_apply, if_neg h])
      (fun m t x h => by
        rw [setRight_some, setP_apply, if_neg (Ne.symm h), setR_apply, if_pos rfl])
      r m3 a0 toNode ur rest
      (Repr_congr m _ _ _ (fun y hy => f3 y (by
        intro h
        rw [List.mem_cons] at h
        rcases h with h | h
        · exact (hda toNode (by simp)).2.2 (h ▸ hy)
        · exact (hda y (List.mem_cons_of_mem _ (List.mem_append_left _ h))).2.2 hy)) hr)
      h2
      (List.nodup_cons.mpr ⟨hn2, hn4⟩)
      (fun x hx => (hda x (by
        rw [List.mem_cons] at hx ⊢
        rcases hx with h | h
        · exact Or.inl h
        · exact Or.inr (List.mem_append_right _ h))).2.2)
      (by rw [t3, hval])
      (fun c x used' m2 hc hu hr2 hm2 =>
        ihr fuel' m2 (some a0) (some toNode) c x used' rest hc hr2
          (by rw [← h2, hu, List.length_cons])
          (by omega)
          (by rw [← hu]; exact hn4)
          (fun y hy => (hda y (by
            rw [← hu] at hy
            exact List.mem_cons_of_mem _ (List.mem_append_right _ hy))).2.2)
          hm2)
    refine ⟨m6, ?_, ?_, ?_⟩
    · simp only [copyChildNodes, hma, List.append_assoc, e3, ha3, e6]
    · rw [T.clone_node_append l r a0 c v toNode ul ur h1 h2, Repr_node]
      refine ⟨?_, ?_, r6⟩
      · rw [t6, t3, hval]
      · refine Repr_congr m3 _ _ _ (fun y hy => f6 y ?_) r3
        have hyu : y ∈ ul := (T.clone_addrs l ul h1).subset hy
        intro h
        rw [List.mem_cons] at h
        rcases h with h | h
        · exact hn1 (h ▸ hyu)
        · exact hn5 y hyu h
    · intro y hy
      have hy1 : y ≠ toNode := fun h => hy (by simp [h])
      have hy2 : y ∉ ul := fun h => hy (List.mem_cons_of_mem _ (List.mem_append_left _ h))
      have hy3 : y ∉ ur := fun h => hy (List.mem_cons_of_mem _ (List.mem_append_right _ h))
      rw [f6 y (by simp [hy1, hy3]), f3 y (by simp [hy1, hy2])]

end Copy

end nex

set_option autoImplicit false
set_option linter.unnecessarySeqFocus false
set_option linter.unusedTactic false
set_option linter.unreachableTactic false
set_option linter.unusedVariables false

namespace nex

section Claims

variable {V : Type}

theorem clear_mem (t : RBTree V) : (clear t).mem = t.mem := by
  unfold clear
  split <;> rfl

theorem clear_root (t : RBTree V) : (clear t).rootNode_ = none := by
  unfold clear
  split
  · rfl
  · rename_i h
    simpa using h

/-- C23: `copyHere(other)` on a destination that is another object than `other`, with
`new` returning nodes that are not nodes of `other`: the call returns, the destination
then holds a well-formed tree (every parent link names the parent, the root has none) with
the same shape and the same colour and value at every position as the tree of `other`,
its size is the size of `other`, all its nodes are new nodes, no node other than the new
ones is written, and `other` still holds its tree. -/
theorem copyHere_spec (fuel : Nat) (this other : RBTree V) (τ : T V) (fresh : List Nat)
    (h : Represents other τ) (hfuel : τ.height ≤ fuel) (hlen : τ.size ≤ fresh.length)
    (hnd : fresh.Nodup) (hdisj : ∀ x ∈ fresh, x ∉ τ.addrs) :
    ∃ t' τ', copyHere fuel this other fresh = some t' ∧ Represents t' τ' ∧
      τ'.unlabel = τ.unlabel ∧ t'.size_ = other.size_ ∧
      (∀ x ∈ τ'.addrs, x ∈ fresh ∧ x ∉ τ.addrs) ∧
      (∀ x, x ∉ fresh → t'.mem x = other.mem x) ∧
      Represents { other with mem := t'.mem } τ := by
  obtain ⟨hroot, hrepr, hnodup⟩ := h
  cases τ with
  | nil =>
    simp only [T.ptr] at hroot
    refine ⟨{ clear { this with mem := other.mem } with size_ := other.size_ }, T.nil,
      ?_, ?_, rfl, ?_, ?_, ?_, ?_⟩
    · simp only [copyHere, hroot]
    · exact ⟨by simp [clear_root, T.ptr], trivial, by simp [T.addrs]⟩
    · rfl
    · intro x hx
      simp [T.addrs] at hx
    · intro x _
      simp [clear_mem]
    · exact ⟨by simpa [T.ptr] using hroot, trivial, by simp [T.addrs]⟩
  | node l a c v r =>
    simp only [T.ptr] at hroot
    cases fresh with
    | nil => simp only [T.size, List.length_nil] at hlen; omega
    | cons root rest0 =>
      simp only [T.size, List.length_cons] at hlen
      obtain ⟨used, rest, rfl, hu⟩ : ∃ used rest, rest0 = used ++ rest ∧
          used.length = l.size + r.size :=
        ⟨rest0.take (l.size + r.size), rest0.drop (l.size + r.size),
          (List.take_append_drop _ _).symm, by rw [List.length_take]; omega⟩
      have hnd' : (root :: used).Nodup := by
        have hsub : List.Sublist (root :: used) (root :: (used ++ rest)) :=
          List.Sublist.cons₂ _ (List.sublist_append_left _ _)
        exact hnd.sublist hsub
      have hd' : ∀ x ∈ root :: used, x ∉ (T.node l a c v r).addrs := by
        intro x hx
        apply hdisj
        rw [List.mem_cons] at hx ⊢
        rcases hx with hx | hx
        · exact Or.inl hx
        · exact Or.inr (List.mem_append_left _ hx)
      have hra : a ≠ root := by
        intro e
        apply hd' root (by simp)
        subst e
        simp
      obtain ⟨m', e, hr', hf⟩ := copyChildNodes_spec (T.node l a c v r) fuel
        (other.mem.write root (TreeNode.copyOf (other.mem a))) none none a root used rest
        rfl
        (Repr_congr other.mem _ _ _ (fun y hy => by
          rw [write_apply, if_neg]
          intro e
          exact hd' root (by simp) (e ▸ hy)) hrepr)
        (by simp only [T.size]; omega) hfuel hnd' hd'
        (by
          rw [write_apply, if_pos rfl, write_apply, if_neg hra]
          rfl)
      have hperm := T.clone_addrs (T.node l a c v r) (root :: used)
        (by simp only [T.size, List.length_cons]; omega)
      have hframe : ∀ x, x ∉ root :: used → m' x = other.mem x := by
        intro x hx
        rw [hf x hx, write_apply, if_neg (fun e => hx (by simp [e]))]
      refine ⟨{ mem := m', rootNode_ := some root, size_ := other.size_ },
        (T.clone (T.node l a c v r) (root :: used)).1, ?_, ?_, ?_, rfl, ?_, ?_, ?_⟩
      · simp only [copyHere, hroot, clear_mem, e]
      · exact ⟨(T.clone_ptr l r a c v root used).symm, hr', hperm.nodup_iff.mpr hnd'⟩
      · exact T.clone_unlabel _ _ (by simp only [T.size, List.length_cons]; omega)
      · intro x hx
        have hx' : x ∈ root :: used := hperm.subset hx
        refine ⟨?_, hd' x hx'⟩
        rw [List.mem_cons] at hx' ⊢
        rcases hx' with hx' | hx'
        · exact Or.inl hx'
        · exact Or.inr (List.mem_append_left _ hx')
      · intro x hx
        apply hframe
        intro hx'
        apply hx
        rw [List.mem_cons] at hx' ⊢
        rcases hx' with hx' | hx'
        · exact Or.inl hx'
        · exact Or.inr (List.mem_append_left _ hx')
      · exact ⟨by simpa [T.ptr] using hroot,
          Repr_congr other.mem _ _ _ (fun y hy => hframe y (fun hy' => hd' y hy' hy)) hrepr,
          hnodup⟩

/-- Witness of C23: the set 10, 20, 30 copied into another tree, the new nodes being 11,
12 and 13. -/
theorem copyHere_spec_witness :
    ∃ t' τ', copyHere 2 exDupTree exTree [11, 12, 13] = some t' ∧ Represents t' τ' ∧
      τ'.unlabel = exShape.unlabel ∧ t'.size_ = exTree.size_ ∧
      (∀ x ∈ τ'.addrs, x ∈ [11, 12, 13] ∧ x ∉ exShape.addrs) ∧
      (∀ x, x ∉ [11, 12, 13] → t'.mem x = exTree.mem x) ∧
      Represents { exTree with mem := t'.mem } exShape :=
  copyHere_spec 2 exDupTree exTree exShape [11, 12, 13] exTree_represents (by decide)
    (by decide) (by decide) (by decide)

end Claims

end nex

set_option autoImplicit false
set_option linter.unnecessarySeqFocus false
set_option linter.unusedTactic false
set_option linter.unreachableTactic false
set_option linter.unusedVariables false

namespace nex

section Claims

variable {K V : Type} [LinearOrder K]

/-- A sequence in ascending key order whose keys are all at most `k` is a run of smaller
keys followed by a run of keys equal to `k`. -/
theorem split_le_run (key : V → K) (k : K) :
    ∀ xs : List (Nat × V), (xs.map (fun x => key x.2)).Sorted (· ≤ ·) →
      (∀ x ∈ xs, key x.2 ≤ k) →
      ∃ lt eq, xs = lt ++ eq ∧ (∀ x ∈ lt, key x.2 < k) ∧ (∀ x ∈ eq, key x.2 = k) := by
  intro xs
  induction xs with
  | nil => intro _ _; exact ⟨[], [], rfl, by simp, by simp⟩
  | cons x xs ih =>
    intro hs hle
    simp only [List.map_cons, List.sorted_cons, List.mem_map, forall_exists_index, and_imp,
      forall_apply_eq_imp_iff₂] at hs
    by_cases hx : key x.2 < k
    · obtain ⟨lt, eq, e, h1, h2⟩ := ih hs.2 (fun y hy => hle y (List.mem_cons_of_mem _ hy))
      refine ⟨x :: lt, eq, by rw [e]; rfl, ?_, h2⟩
      intro y hy
      rcases List.mem_cons.1 hy with rfl | hy
      · exact hx
      · exact h1 y hy
    · have hxk : key x.2 = k := le_antisymm (hle x (List.mem_cons_self _ _)) (not_lt.1 hx)
      refine ⟨[], x :: xs, rfl, by simp, ?_⟩
      intro y hy
      rcases List.mem_cons.1 hy with rfl | hy
      · exact hxk
      · exact le_antisymm (hle y (List.mem_cons_of_mem _ hy)) (hxk ▸ hs.1 y hy)

theorem T.Ordered.searchOrdered (key : V → K) (τ : T V) (h : τ.Ordered key) :
    τ.SearchOrdered key := by
  induction τ with
  | nil => trivial
  | node l a c v r ihl ihr =>
    rw [T.ordered_node] at h
    exact ⟨h.2.2.1, h.2.2.2.1, ihl h.1, ihr h.2.1⟩

/-- A run of multi-mode `insertValue` calls on a valid tree ends with a valid tree that
holds the old values and the items. -/
theorem insertValues_multi_loop (key : V → K) (fuel : Nat) :
    ∀ (items : List (V × Nat)) (t : RBTree V) (τ : T V), Represents t τ → τ.Valid key →
      (∀ n ∈ items.map Prod.snd, n ∉ τ.addrs) → (items.map Prod.snd).Nodup →
      τ.size + items.length < fuel →
      ∃ t' τ', insertValues key true fuel items t = some t' ∧ Represents t' τ' ∧
        τ'.Valid key ∧ τ'.values.Perm (τ.values ++ items.map Prod.fst) := by
  intro items
  induction items with
  | nil =>
    intro t τ h hv _ _ _
    exact ⟨t, τ, rfl, h, hv, by simp⟩
  | cons it items ih =>
    intro t τ h hv hfresh hnd hfuel
    obtain ⟨v, n⟩ := it
    simp only [List.map_cons, List.mem_cons, forall_eq_or_imp, List.nodup_cons,
      List.length_cons] at hfresh hnd hfuel
    have hh : τ.height < fuel := lt_of_le_of_lt (T.height_le_size τ) (by omega)
    rcases insertValue_spec key true fuel t τ v n h hv.rb hv.1 hfresh.1 hh with
      ⟨hM, -⟩ | ⟨-, t2, τ2, xs, ys, e, hr2, hrb2, e1, e2, hx, hy, -⟩
    · cases hM
    · have hsz2 : τ2.size = τ.size + 1 := by
        rw [T.size_toList, T.size_toList, e1, e2]; simp; omega
      have hfresh2 : ∀ x ∈ items.map Prod.snd, x ∉ τ2.addrs := by
        intro x hx' hm
        rw [T.addrs_eq_map, e2] at hm
        have h0 := hfresh.2 x hx'
        rw [T.addrs_eq_map, e1] at h0
        simp only [List.map_append, List.map_cons, List.mem_append, List.mem_cons] at hm h0
        rcases hm with hm | rfl | hm
        · exact h0 (Or.inl hm)
        · exact hnd.1 hx'
        · exact h0 (Or.inr hm)
      have hv2 : τ2.Valid key :=
        T.Valid.of_rb (ordered_insert key hv.1 e1 e2 (fun x hx' => (hx x hx').1) hy) hrb2
      obtain ⟨t', τ', e', hr', hv', hp'⟩ := ih t2 τ2 hr2 hv2 hfresh2 hnd.2 (by omega)
      refine ⟨t', τ', ?_, hr', hv', hp'.trans ?_⟩
      · simp only [insertValues, e]
        exact e'
      · unfold T.values
        rw [e1, e2]
        simp only [List.map_append, List.map_cons, List.append_assoc]
        refine List.Perm.append_left _ ?_
        exact List.perm_middle.symm

/-- C31: in multi mode, `insert` of a value `v` into a valid tree returns, and the in-order
sequence of the new tree is the old one with the new node put in after the nodes with a
smaller key and after all the nodes with an equal key, before the nodes with a larger
key. -/
theorem multi_insert_after_equal (key : V → K) (fuel : Nat) (t : RBTree V) (τ : T V)
    (v : V) (n : Nat) (h : Represents t τ) (hv : τ.Valid key) (hn : n ∉ τ.addrs)
    (hfuel : τ.height < fuel) :
    ∃ t' τ' lt eq gt, multiset_insert key fuel t v n = some (n, t') ∧ Represents t' τ' ∧
      τ.toList = lt ++ eq ++ gt ∧ τ'.toList = lt ++ eq ++ (n, v) :: gt ∧
      (∀ x ∈ lt, key x.2 < key v) ∧ (∀ x ∈ eq, key x.2 = key v) ∧
      (∀ x ∈ gt, key v < key x.2) := by
  have h1 := h.write_fresh n (TreeNode.fresh v) hn
  have hmem : ({ t with mem := t.mem.write n (TreeNode.fresh v) } : RBTree V).mem n =
      TreeNode.fresh v := by simp [Mem.write]
  rcases insertNode_spec key true fuel _ τ n v h1 hv.rb hv.1 hn hmem hfuel with
    ⟨hM, -, -⟩ | ⟨-, t', τ', xs, ys, e, hr, hrb, e1, e2, hx, hy, -⟩
  · cases hM
  · have hs : (xs.map (fun x => key x.2)).Sorted (· ≤ ·) := by
      have := hv.1
      unfold T.Ordered T.values at this
      rw [e1, List.map_append, List.map_append] at this
      have h2 := (List.pairwise_append.1 this).1
      simpa [List.map_map] using h2
    obtain ⟨lt, eq, rfl, hlt, heq⟩ := split_le_run key (key v) xs hs (fun x hx' => (hx x hx').1)
    exact ⟨t', τ', lt, eq, ys, by simp only [multiset_insert, e], hr, e1, e2, hlt, heq, hy⟩

/-- Witness of C31: inserting another 20 (new node 4) into the example multiset 10, 20,
20. -/
theorem multi_insert_after_equal_witness :
    ∃ t' τ' lt eq gt, multiset_insert id 3 exDupTree 20 4 = some (4, t') ∧ Represents t' τ' ∧
      exDupShape.toList = lt ++ eq ++ gt ∧ τ'.toList = lt ++ eq ++ (4, 20) :: gt ∧
      (∀ x ∈ lt, id x.2 < id 20) ∧ (∀ x ∈ eq, id x.2 = id 20) ∧
      (∀ x ∈ gt, id 20 < id x.2) :=
  multi_insert_after_equal id 3 exDupTree exDupShape 20 4 exDupTree_represents
    exDupShape_valid (by decide) (by decide)

/-- C32 as stated fails: after the multi-mode inserts 5, 5, 5 (nodes 1, 2, 3) the root is
node 2 and its left child is node 1, which holds a key equal to the key of the root. -/
theorem multi_equal_key_in_left_subtree :
    exTriple.map (fun t => (t.rootNode_, (t.mem 2).left, (t.mem 2).value, (t.mem 1).value)) =
      some (some 2, some 1, 5, 5) := rfl

/-- C32, amended: in multi mode, any sequence of inserts into an empty tree returns, and in
the tree it leaves no node has a larger key in its left subtree or a smaller key in its
right subtree (equal keys can lie on both sides once a rotation has moved them); its
in-order sequence of keys is ascending and holds exactly the inserted values. -/
theorem multi_inserts_search_ordered (key : V → K) (fuel : Nat) (items : List (V × Nat))
    (m : Mem V) (hnd : (items.map Prod.snd).Nodup) (hfuel : items.length < fuel) :
    ∃ t τ, insertValues key true fuel items (RBTree.empty m) = some t ∧ Represents t τ ∧
      τ.SearchOrdered key ∧ τ.Ordered key ∧ τ.values.Perm (items.map Prod.fst) := by
  obtain ⟨t, τ, e, hr, hv, hp⟩ := insertValues_multi_loop key fuel items (RBTree.empty m)
    T.nil (empty_represents m) (Reachable.valid key true _ (Reachable.empty m) |>.elim
      (fun τ0 h0 => by
        have := (empty_represents m).unique h0.1
        subst this
        exact h0.2))
    (by simp [T.addrs]) hnd (by simpa [T.size] using hfuel)
  exact ⟨t, τ, e, hr, T.Ordered.searchOrdered key τ hv.1, hv.1, by simpa [T.values, T.toList] using hp⟩

/-- Witness of C32 (amended): the inserts 5, 5, 5 at the nodes 1, 2, 3. -/
theorem multi_inserts_search_ordered_witness :
    ∃ t τ, insertValues id true 4 [(5, 1), (5, 2), (5, 3)] (RBTree.empty freshMem) = some t ∧
      Represents t τ ∧ τ.SearchOrdered id ∧ τ.Ordered id ∧
      τ.values.Perm ([(5, 1), (5, 2), (5, 3)].map Prod.fst) :=
  multi_inserts_search_ordered id 4 [(5, 1), (5, 2), (5, 3)] freshMem (by decide) (by decide)

/-- C35: after `insertNode` of a fresh node into a valid tree and after `erase` at a node
of a valid tree, the call has returned and the root, when there is one, is black. -/
theorem root_black_after_ops (key : V → K) (Multi : Bool) (fuel : Nat) (t : RBTree V)
    (τ : T V) (n d : Nat) (v : V) (h : Represents t τ) (hv : τ.Valid key)
    (hn : n ∉ τ.addrs) (hmem : t.mem n = TreeNode.fresh v) (hd : d ∈ τ.addrs)
    (hfuel : τ.height < fuel) :
    (∃ b t', insertNode key Multi fuel t n = some (b, t') ∧
      ∀ r, t'.rootNode_ = some r → (t'.mem r).color = Color.Black) ∧
    (∃ t', erase fuel t (some d) = some t' ∧
      ∀ r, t'.rootNode_ = some r → (t'.mem r).color = Color.Black) := by
  have hroot : ∀ (t' : RBTree V) (τ' : T V), Represents t' τ' → τ'.RB →
      ∀ r, t'.rootNode_ = some r → (t'.mem r).color = Color.Black := by
    intro t' τ' hr hrb r e
    cases τ' with
    | nil =>
      rw [hr.1] at e
      simp [T.ptr] at e
    | node l a c w r' =>
      rw [hr.1] at e
      simp only [T.ptr, Option.some.injEq] at e
      subst e
      have h1 := hr.2.1
      rw [Repr_node] at h1
      rw [h1.1]
      exact hrb.1
  constructor
  · rcases insertNode_spec key Multi fuel t τ n v h hv.rb hv.1 hn hmem hfuel with
      ⟨-, -, e⟩ | ⟨-, t', τ', xs, ys, e, hr, hrb, -⟩
    · exact ⟨false, t, e, hroot t τ h hv.rb⟩
    · exact ⟨true, t', e, hroot t' τ' hr hrb⟩
  · obtain ⟨t', τ', xs, ys, w, e, hr, hrb, -⟩ :=
      takeNode_spec fuel t τ d h hv.rb hd (le_of_lt hfuel)
    exact ⟨t', by simp [erase, deleteNode, e], hroot t' τ' hr hrb⟩

/-- Witness of C35: inserting the fresh node 4 into, and erasing the root (node 2) from,
the example set 10, 20, 30. -/
theorem root_black_after_ops_witness :
    (∃ b t', insertNode id false 3 exTree 4 = some (b, t') ∧
      ∀ r, t'.rootNode_ = some r → (t'.mem r).color = Color.Black) ∧
    (∃ t', erase 3 exTree (some 2) = some t' ∧
      ∀ r, t'.rootNode_ = some r → (t'.mem r).color = Color.Black) :=
  root_black_after_ops id false 3 exTree exShape 4 2 40 exTree_represents exShape_valid
    (by decide) rfl (by decide) (by decide)

end Claims

end nex

set_option autoImplicit false
set_option linter.unnecessarySeqFocus false
set_option linter.unusedTactic false
set_option linter.unreachableTactic false
set_option linter.unusedVariables false

namespace nex

section Claims

variable {V : Type}

theorem TreeNode.eq_of_fields (a b : TreeNode V) (h1 : a.left = b.left)
    (h2 : a.right = b.right) (h3 : a.parent = b.parent) (h4 : a.value = b.value)
    (h5 : a.color = b.color) : a = b := by
  cases a
  cases b
  simp only at h1 h2 h3 h4 h5
  subst h1 h2 h3 h4 h5
  rfl

theorem setP_fields (m : Mem V) (a : Nat) (p : Option Nat) (x : Nat) :
    (setP m a p x).left = (m x).left ∧ (setP m a p x).right = (m x).right ∧
    (setP m a p x).value = (m x).value ∧ (setP m a p x).color = (m x).color ∧
    (setP m a p x).parent = if x = a then p else (m x).parent := by
  rw [setP_apply]
  by_cases h : x = a
  · subst h; simp
  · simp [h]

theorem setL_fields (m : Mem V) (a : Nat) (p : Option Nat) (x : Nat) :
    (setL m a p x).parent = (m x).parent ∧ (setL m a p x).right = (m x).right ∧
    (setL m a p x).value = (m x).value ∧ (setL m a p x).color = (m x).color ∧
    (setL m a p x).left = if x = a then p else (m x).left := by
  rw [setL_apply]
  by_cases h : x = a
  · subst h; simp
  · simp [h]

theorem setR_fields (m : Mem V) (a : Nat) (p : Option Nat) (x : Nat) :
    (setR m a p x).parent = (m x).parent ∧ (setR m a p x).left = (m x).left ∧
    (setR m a p x).value = (m x).value ∧ (setR m a p x).color = (m x).color ∧
    (setR m a p x).right = if x = a then p else (m x).right := by
  rw [setR_apply]
  by_cases h : x = a
  · subst h; simp
  · simp [h]

theorem setC_fields (m : Mem V) (a : Nat) (c : Color) (x : Nat) :
    (setC m a c x).parent = (m x).parent ∧ (setC m a c x).left = (m x).left ∧
    (setC m a c x).value = (m x).value ∧ (setC m a c x).right = (m x).right ∧
    (setC m a c x).color = if x = a then c else (m x).color := by
  rw [setC_apply]
  by_cases h : x = a
  · subst h; simp
  · simp [h]

/-- The guard of the assignment `child->parent = nullptr` in `clearPtrs` changes nothing:
the assignment stores what is there when the link is null already. -/
theorem setP_none_guard (m : Mem V) (l : Nat) :
    (if (m l).parent ≠ none then setP m l none else m) = setP m l none := by
  by_cases hp : (m l).parent = none
  · simp only [hp, ne_eq, not_true_eq_false, if_false]
    funext x
    refine TreeNode.eq_of_fields _ _ ?_ ?_ ?_ ?_ ?_
    · exact (setP_fields m l none x).1.symm
    · exact (setP_fields m l none x).2.1.symm
    · rw [(setP_fields m l none x).2.2.2.2]
      split_ifs with hx
      · rw [hx, hp]
      · rfl
    · exact (setP_fields m l none x).2.2.1.symm
    · exact (setP_fields m l none x).2.2.2.1.symm
  · simp only [ne_eq, hp, not_false_eq_true, if_true]

/-- The fields of every node after `clearParent()` on `n`. -/
theorem clearParent_fields (m : Mem V) (n x : Nat) :
    (clearParent m n x).value = (m x).value ∧ (clearParent m n x).color = (m x).color ∧
    (clearParent m n x).parent = (if x = n then none else (m x).parent) ∧
    (clearParent m n x).left =
      (if (m n).parent = some x ∧ (m x).left = some n then none else (m x).left) ∧
    (clearParent m n x).right =
      (if (m n).parent = some x ∧ (m x).left ≠ some n ∧ (m x).right = some n then none
       else (m x).right) := by
  unfold clearParent
  rcases hP : (m n).parent with _ | p
  · simp only [false_and, if_false, reduceCtorEq]
    refine ⟨(by first | trivial | rfl), (by first | trivial | rfl), ?_, (by first | trivial | rfl), (by first | trivial | rfl)⟩
    split_ifs with hx
    · rw [hx, hP]
    · rfl
  · simp only [Option.some.injEq]
    by_cases h1 : (m p).left = some n
    · simp only [h1, if_true]
      simp only [(setP_fields _ n none x).1, (setP_fields _ n none x).2.1,
        (setP_fields _ n none x).2.2.1, (setP_fields _ n none x).2.2.2.1,
        (setP_fields _ n none x).2.2.2.2, (setL_fields m p none x).1,
        (setL_fields m p none x).2.1, (setL_fields m p none x).2.2.1,
        (setL_fields m p none x).2.2.2.1, (setL_fields m p none x).2.2.2.2]
      refine ⟨(by first | trivial | rfl), (by first | trivial | rfl), (by first | trivial | rfl), ?_, ?_⟩
      · by_cases hx : x = p
        · subst hx; simp [h1]
        · simp [hx, Ne.symm hx]
      · by_cases hx : x = p
        · subst hx; simp [h1]
        · simp [hx, Ne.symm hx]
    · by_cases h2 : (m p).right = some n
      · simp only [h1, h2, if_true, if_false]
        simp only [(setP_fields _ n none x).1, (setP_fields _ n none x).2.1,
          (setP_fields _ n none x).2.2.1, (setP_fields _ n none x).2.2.2.1,
          (setP_fields _ n none x).2.2.2.2, (setR_fields m p none x).1,
          (setR_fields m p none x).2.1, (setR_fields m p none x).2.2.1,
          (setR_fields m p none x).2.2.2.1, (setR_fields m p none x).2.2.2.2]
        refine ⟨(by first | trivial | rfl), (by first | trivial | rfl), (by first | trivial | rfl), ?_, ?_⟩
        · by_cases hx : x = p
          · subst hx; simp [h1]
          · simp [hx, Ne.symm hx]
        · by_cases hx : x = p
          · subst hx; simp [h1, h2]
          · simp [hx, Ne.symm hx]
      · simp only [h1, h2, if_false]
        simp only [(setP_fields _ n none x).1, (setP_fields _ n none x).2.1,
          (setP_fields _ n none x).2.2.1, (setP_fields _ n none x).2.2.2.1,
          (setP_fields _ n none x).2.2.2.2]
        refine ⟨(by first | trivial | rfl), (by first | trivial | rfl), (by first | trivial | rfl), ?_, ?_⟩
        · by_cases hx : x = p
          · subst hx; simp [h1]
          · simp [hx, Ne.symm hx]
        · by_cases hx : x = p
          · subst hx; simp [h1, h2]
          · simp [hx, Ne.symm hx]

/-- The fields of every node after `clearPtrs()` on a node `n` that is not its own
child. -/
theorem clearPtrs_fields (m : Mem V) (n : Nat) (hl : (m n).left ≠ some n)
    (hr : (m n).right ≠ some n) (x : Nat) :
    (clearPtrs m n x).value = (m x).value ∧ (clearPtrs m n x).color = (m x).color ∧
    (clearPtrs m n x).parent =
      (if x = n ∨ (m n).left = some x ∨ (m n).right = some x then none
       else (m x).parent) ∧
    (clearPtrs m n x).left =
      (if x = n ∨ ((m n).parent = some x ∧ (m x).left = some n) then none
       else (m x).left) ∧
    (clearPtrs m n x).right =
      (if x = n ∨ ((m n).parent = some x ∧ (m x).left ≠ some n ∧ (m x).right = some n)
       then none else (m x).right) := by
  -- the memory after the two guarded assignments to the children
  have key : ∀ m2 : Mem V,
      (∀ y, (m2 y).value = (m y).value ∧ (m2 y).color = (m y).color ∧
        (m2 y).left = (m y).left ∧ (m2 y).right = (m y).right ∧
        (m2 y).parent = if (m n).left = some y ∨ (m n).right = some y then none
          else (m y).parent) →
      (let m4 := setR (setL m2 n none) n none
       let m5 := if (m4 n).parent ≠ none then clearParent m4 n else m4
       (m5 x).value = (m x).value ∧ (m5 x).color = (m x).color ∧
       (m5 x).parent =
         (if x = n ∨ (m n).left = some x ∨ (m n).right = some x then none
          else (m x).parent) ∧
       (m5 x).left =
         (if x = n ∨ ((m n).parent = some x ∧ (m x).left = some n) then none
          else (m x).left) ∧
       (m5 x).right =
         (if x = n ∨ ((m n).parent = some x ∧ (m x).left ≠ some n ∧ (m x).right = some n)
          then none else (m x).right)) := by
    intro m2 h2
    intro m4 m5
    have h4 : ∀ y, (m4 y).value = (m y).value ∧ (m4 y).color = (m y).color ∧
        (m4 y).left = (if y = n then none else (m y).left) ∧
        (m4 y).right = (if y = n then none else (m y).right) ∧
        (m4 y).parent = if (m n).left = some y ∨ (m n).right = some y then none
          else (m y).parent := by
      intro y
      obtain ⟨a1, a2, a3, a4, a5⟩ := h2 y
      obtain ⟨b1, b2, b3, b4, b5⟩ := setR_fields (setL m2 n none) n none y
      obtain ⟨c1, c2, c3, c4, c5⟩ := setL_fields m2 n none y
      refine ⟨?_, ?_, ?_, ?_, ?_⟩
      · show (setR (setL m2 n none) n none y).value = _
        rw [b3, c3, a1]
      · show (setR (setL m2 n none) n none y).color = _
        rw [b4, c4, a2]
      · show (setR (setL m2 n none) n none y).left = _
        rw [b2, c5, a3]
      · show (setR (setL m2 n none) n none y).right = _
        rw [b5, c2, a4]
      · show (setR (setL m2 n none) n none y).parent = _
        rw [b1, c1, a5]
    have h4n : (m4 n).parent = (m n).parent := by
      rw [(h4 n).2.2.2.2]
      simp [hl, hr]
    have h5 : m5 = clearParent m4 n := by
      show (if (m4 n).parent ≠ none then clearParent m4 n else m4) = clearParent m4 n
      by_cases hp : (m4 n).parent = none
      · simp only [hp, ne_eq, not_true_eq_false, if_false]
        unfold clearParent
        rw [hp]
      · simp only [ne_eq, hp, not_false_eq_true, if_true]
    rw [h5]
    obtain ⟨d1, d2, d3, d4, d5⟩ := clearParent_fields m4 n x
    obtain ⟨e1, e2, e3, e4, e5⟩ := h4 x
    rw [d1, d2, d3, d4, d5, e1, e2, e3, e4, e5, h4n]
    refine ⟨rfl, rfl, ?_, ?_, ?_⟩
    · by_cases hx : x = n
      · simp [hx]
      · simp [hx]
    · by_cases hx : x = n
      · simp [hx]
      · simp [hx]
    · by_cases hx : x = n
      · simp [hx]
      · simp [hx]
  unfold clearPtrs
  simp only [setP_none_guard]
  rcases hL : (m n).left with _ | l <;> rcases hR : (m n).right with _ | r
  · have := key m (fun y => by simp [hL, hR])
    simpa [hL, hR] using this
  · have := key (setP m r none) (fun y => by
      obtain ⟨a1, a2, a3, a4, a5⟩ := setP_fields m r none y
      rw [a1, a2, a3, a4, a5]
      simp [hL, hR, eq_comm])
    simpa [hL, hR] using this
  · have := key (setP m l none) (fun y => by
      obtain ⟨a1, a2, a3, a4, a5⟩ := setP_fields m l none y
      rw [a1, a2, a3, a4, a5]
      simp [hL, hR, eq_comm])
    have hln : l ≠ n := fun e => hl (by rw [hL, e])
    simpa [hL, hR, setP_apply, Ne.symm hln] using this
  · have hln : l ≠ n := fun e => hl (by rw [hL, e])
    have := key (setP (setP m l none) r none) (fun y => by
      obtain ⟨a1, a2, a3, a4, a5⟩ := setP_fields (setP m l none) r none y
      obtain ⟨b1, b2, b3, b4, b5⟩ := setP_fields m l none y
      rw [a1, a2, a3, a4, a5, b1, b2, b3, b4, b5]
      simp only [hL, hR, Option.some.injEq]
      by_cases h1 : y = r
      · simp [h1]
      · by_cases h2 : y = l
        · simp [h2]
        · simp [h1, h2, Ne.symm h1, Ne.symm h2])
    have hrr : (setP m l none n).right = some r := by
      rw [(setP_fields m l none n).2.1, hR]
    simpa [hL, hR, hrr] using this

/-- C33: `reborn()` on a node `n` that is not its own child leaves `n` with null `left`,
`right` and `parent` links, coloured red, with its value; of every other node `x` the
value and the colour are unchanged, the parent link is null when `x` was a child of `n`
and unchanged otherwise, and the `left` (or else `right`) link is null when `x` was the
parent of `n` and held `n` in that slot, and unchanged otherwise. -/
theorem reborn_spec (m : Mem V) (n : Nat) (hl : (m n).left ≠ some n)
    (hr : (m n).right ≠ some n) :
    reborn m n n = { left := none, right := none, parent := none, value := (m n).value,
                     color := Color.Red } ∧
    ∀ x, x ≠ n →
      (reborn m n x).value = (m x).value ∧ (reborn m n x).color = (m x).color ∧
      (reborn m n x).parent =
        (if (m n).left = some x ∨ (m n).right = some x then none else (m x).parent) ∧
      (reborn m n x).left =
        (if (m n).parent = some x ∧ (m x).left = some n then none else (m x).left) ∧
      (reborn m n x).right =
        (if (m n).parent = some x ∧ (m x).left ≠ some n ∧ (m x).right = some n then none
         else (m x).right) := by
  constructor
  · obtain ⟨a1, a2, a3, a4, a5⟩ := clearPtrs_fields m n hl hr n
    obtain ⟨b1, b2, b3, b4, b5⟩ := setC_fields (clearPtrs m n) n Color.Red n
    refine TreeNode.eq_of_fields _ _ ?_ ?_ ?_ ?_ ?_
    · show (setC (clearPtrs m n) n Color.Red n).left = none
      rw [b2, a4]; simp
    · show (setC (clearPtrs m n) n Color.Red n).right = none
      rw [b4, a5]; simp
    · show (setC (clearPtrs m n) n Color.Red n).parent = none
      rw [b1, a3]; simp
    · show (setC (clearPtrs m n) n Color.Red n).value = (m n).value
      rw [b3, a1]
    · show (setC (clearPtrs m n) n Color.Red n).color = Color.Red
      rw [b5]; simp
  · intro x hx
    obtain ⟨a1, a2, a3, a4, a5⟩ := clearPtrs_fields m n hl hr x
    obtain ⟨b1, b2, b3, b4, b5⟩ := setC_fields (clearPtrs m n) n Color.Red x
    refine ⟨?_, ?_, ?_, ?_, ?_⟩
    · show (setC (clearPtrs m n) n Color.Red x).value = _
      rw [b3, a1]
    · show (setC (clearPtrs m n) n Color.Red x).color = _
      rw [b5, if_neg hx, a2]
    · show (setC (clearPtrs m n) n Color.Red x).parent = _
      rw [b1, a3]; simp [hx]
    · show (setC (clearPtrs m n) n Color.Red x).left = _
      rw [b2, a4]; simp [hx]
    · show (setC (clearPtrs m n) n Color.Red x).right = _
      rw [b4, a5]; simp [hx]

/-- Witness of C33: `reborn()` on node 1 (the left child of the root) of the example set
10, 20, 30. -/
theorem reborn_spec_witness :
    reborn exMem 1 1 = { left := none, right := none, parent := none,
                         value := (exMem 1).value, color := Color.Red } ∧
    ∀ x, x ≠ 1 →
      (reborn exMem 1 x).value = (exMem x).value ∧
      (reborn exMem 1 x).color = (exMem x).color ∧
      (reborn exMem 1 x).parent =
        (if (exMem 1).left = some x ∨ (exMem 1).right = some x then none
         else (exMem x).parent) ∧
      (reborn exMem 1 x).left =
        (if (exMem 1).parent = some x ∧ (exMem x).left = some 1 then none
         else (exMem x).left) ∧
      (reborn exMem 1 x).right =
        (if (exMem 1).parent = some x ∧ (exMem x).left ≠ some 1 ∧ (exMem x).right = some 1
         then none else (exMem x).right) :=
  reborn_spec exMem 1 (by decide) (by decide)

end Claims

end nex

set_option autoImplicit false
set_option linter.unnecessarySeqFocus false
set_option linter.unusedTactic false
set_option linter.unreachableTactic false
set_option linter.unusedVariables false

namespace nex

section Claims

/-- C39 (fails on the code): after `reverse()` of the list 1, 2, 3 the forward traversal is
3, 2, 1 and `front()` is 3, but `end_` still is node 3, now the first node, so `back()`
is 3, the original `back()`, where the original `front()` 1 is expected; the last node
of the traversal is node 1. -/
theorem reverse_keeps_end :
    exReversed.map (fun r => (list.values 4 r.1 r.2, list.forward 4 r.1 r.2.head_, r.2.end_,
      list.back r.1 0 r.2, list.front r.1 0 r.2, r.2.size_)) =
      some (some [3, 2, 1], some [3, 2, 1], some 3, 3, 3, 3) := rfl

/-- C40 (fails on the code): after `unique()` of the list 1, 1, 2, 2 (nodes 1 to 4) the
forward traversal is 1, 2 (nodes 1 and 3) and `size_` is 2, but the `prev_` link of node
3 still points to the removed node 2 where its predecessor node 1 is expected, and `end_`
still is the removed node 4 where the last node 3 is expected. -/
theorem unique_leaves_stale_links :
    exUniqued.map (fun r => (list.values 5 r.1 r.2, list.forward 5 r.1 r.2.head_,
      r.2.size_, (r.1 3).prev_, r.2.end_)) =
      some (some [1, 2], some [1, 3], 2, some 2, some 4) := rfl

end Claims

end nex

set_option autoImplicit false
set_option linter.unnecessarySeqFocus false
set_option linter.unusedTactic false
set_option linter.unreachableTactic false
set_option linter.unusedVariables false

namespace nex

section Chains

variable {V : Type}

theorem lwrite_apply (m : ListMem V) (a : Nat) (n : list.Node V) (b : Nat) :
    (m.write a n) b = if b = a then n else m b := rfl

theorem assignNext_fields (m : ListMem V) (a : Nat) (p : Option Nat) (x : Nat) :
    (assignNext m a p x).value_ = (m x).value_ ∧ (assignNext m a p x).prev_ = (m x).prev_ ∧
    (assignNext m a p x).next_ = if x = a then p else (m x).next_ := by
  unfold assignNext
  rw [lwrite_apply]
  by_cases h : x = a
  · subst h; simp
  · simp [h]

theorem assignPrev_fields (m : ListMem V) (a : Nat) (p : Option Nat) (x : Nat) :
    (assignPrev m a p x).value_ = (m x).value_ ∧ (assignPrev m a p x).next_ = (m x).next_ ∧
    (assignPrev m a p x).prev_ = if x = a then p else (m x).prev_ := by
  unfold assignPrev
  rw [lwrite_apply]
  by_cases h : x = a
  · subst h; simp
  · simp [h]

theorem assignNext_other (m : ListMem V) (a : Nat) (p : Option Nat) (x : Nat) (h : x ≠ a) :
    assignNext m a p x = m x := by
  unfold assignNext
  rw [lwrite_apply, if_neg h]

theorem assignPrev_other (m : ListMem V) (a : Nat) (p : Option Nat) (x : Nat) (h : x ≠ a) :
    assignPrev m a p x = m x := by
  unfold assignPrev
  rw [lwrite_apply, if_neg h]

theorem NextChain_congr (m m' : ListMem V) :
    ∀ as : List Nat, (∀ a ∈ as, (m' a).next_ = (m a).next_) → NextChain m as →
      NextChain m' as := by
  intro as
  induction as with
  | nil => intro _ _; trivial
  | cons a rest ih =>
    intro h hc
    exact ⟨(h a (List.mem_cons_self _ _)).trans hc.1,
      ih (fun x hx => h x (List.mem_cons_of_mem _ hx)) hc.2⟩

theorem PrevChain_congr (m m' : ListMem V) :
    ∀ (as : List Nat) (prev : Option Nat), (∀ a ∈ as, (m' a).prev_ = (m a).prev_) →
      PrevChain m prev as → PrevChain m' prev as := by
  intro as
  induction as with
  | nil => intro _ _ _; trivial
  | cons a rest ih =>
    intro prev h hc
    exact ⟨(h a (List.mem_cons_self _ _)).trans hc.1,
      ih (some a) (fun x hx => h x (List.mem_cons_of_mem _ hx)) hc.2⟩

theorem NextChain_drop (m : ListMem V) :
    ∀ as bs : List Nat, NextChain m (as ++ bs) → NextChain m bs := by
  intro as
  induction as with
  | nil => intro bs h; exact h
  | cons a rest ih => intro bs h; exact ih bs h.2

/-- Cutting a chain behind the node `mid` by the assignment `mid->next_ = nullptr`. -/
theorem NextChain_cut (m m' : ListMem V) (mid : Nat) (R : List Nat) :
    ∀ as : List Nat, (∀ a ∈ as, (m' a).next_ = (m a).next_) → (m' mid).next_ = none →
      NextChain m (as ++ mid :: R) → NextChain m' (as ++ [mid]) := by
  intro as
  induction as with
  | nil => intro _ h _; exact ⟨h, trivial⟩
  | cons a rest ih =>
    intro h hm hc
    refine ⟨?_, ih (fun x hx => h x (List.mem_cons_of_mem _ hx)) hm hc.2⟩
    rw [h a (List.mem_cons_self _ _)]
    have := hc.1
    cases rest <;> simpa using this

theorem PrevChain_take (m : ListMem V) :
    ∀ (as bs : List Nat) (prev : Option Nat), PrevChain m prev (as ++ bs) →
      PrevChain m prev as := by
  intro as
  induction as with
  | nil => intro _ _ _; trivial
  | cons a rest ih => intro bs prev h; exact ⟨h.1, ih bs (some a) h.2⟩

theorem PrevChain_after (m : ListMem V) (r : Nat) (R : List Nat) :
    ∀ (as : List Nat) (prev : Option Nat), PrevChain m prev (as ++ r :: R) →
      PrevChain m (some r) R := by
  intro as
  induction as with
  | nil => intro prev h; exact h.2
  | cons a rest ih => intro prev h; exact ih (some a) h.2

theorem PrevChain_snoc (m : ListMem V) (z : Nat) :
    ∀ (as : List Nat) (prev : Option Nat),
      PrevChain m prev (as ++ [z]) ↔
        PrevChain m prev as ∧ (m z).prev_ = (as.getLast?).or prev := by
  intro as
  induction as with
  | nil =>
    intro prev
    simp [PrevChain]
  | cons a rest ih =>
    intro prev
    show (m a).prev_ = prev ∧ PrevChain m (some a) (rest ++ [z]) ↔
      ((m a).prev_ = prev ∧ PrevChain m (some a) rest) ∧
        (m z).prev_ = ((a :: rest).getLast?).or prev
    rw [ih (some a)]
    cases rest with
    | nil => simp [PrevChain]
    | cons b rest' =>
      rw [List.getLast?_cons_cons, List.getLast?_eq_getLast _ (by simp)]
      simp only [Option.or]
      tauto

/-- The forward traversal of a chain passes its nodes in order. -/
theorem forward_spec (m : ListMem V) :
    ∀ (as : List Nat) (fuel : Nat), NextChain m as → as.length ≤ fuel →
      list.forward fuel m as.head? = some as := by
  intro as
  induction as with
  | nil => intro fuel _ _; cases fuel <;> rfl
  | cons a rest ih =>
    intro fuel h hf
    obtain ⟨k, rfl⟩ : ∃ k, fuel = k + 1 := ⟨fuel - 1, by simp at hf; omega⟩
    simp only [List.head?_cons, list.forward, h.1]
    rw [ih k h.2 (by simpa using hf)]
    rfl

/-- The backward traversal from the last node of a well linked list passes its nodes in
reverse order. -/
theorem backward_spec (m : ListMem V) :
    ∀ (as : List Nat) (fuel : Nat), PrevChain m none as → as.length ≤ fuel →
      list.backward fuel m as.getLast? = some as.reverse := by
  intro as
  induction as using List.reverseRecOn with
  | nil => intro fuel _ _; cases fuel <;> rfl
  | append_singleton as z ih =>
    intro fuel h hf
    rw [PrevChain_snoc] at h
    obtain ⟨k, rfl⟩ : ∃ k, fuel = k + 1 := ⟨fuel - 1, by simp at hf; omega⟩
    have e1 : (as ++ [z]).getLast? = some z := by simp
    have e2 : (as.getLast?).or none = as.getLast? := by cases as.getLast? <;> rfl
    rw [e1]
    simp only [list.backward, h.2, e2, List.reverse_append, List.reverse_singleton,
      List.singleton_append]
    rw [ih k h.1 (by simpa using hf)]
    rfl

/-- The loop of `sort` that looks for the middle: with `current` running `i` nodes ahead
of `middle` in a chain, it stops at the node in the middle of what is left. -/
theorem sortMiddle_spec (m : ListMem V) :
    ∀ (fuel i : Nat) (mid : Nat) (sl : List Nat), NextChain m (mid :: sl) →
      (mid :: sl).length - i < 2 * fuel + 1 →
      ∃ L mid' R, mid :: sl = L ++ mid' :: R ∧
        L.length = ((mid :: sl).length - i - 1) / 2 ∧
        list.sortMiddle fuel m (some mid) ((mid :: sl).drop i).head? = some (some mid') := by
  intro fuel
  induction fuel with
  | zero =>
    intro i mid sl _ hf
    have hd : (mid :: sl).drop i = [] := by
      apply List.drop_eq_nil_of_le
      omega
    refine ⟨[], mid, sl, rfl, ?_, ?_⟩
    · simp only [List.length_nil]; omega
    · rw [hd]; rfl
  | succ fuel ih =>
    intro i mid sl hc hf
    have hdc := NextChain_drop m ((mid :: sl).take i) ((mid :: sl).drop i)
      (by rw [List.take_append_drop]; exact hc)
    have hlen : ((mid :: sl).drop i).length = (mid :: sl).length - i := List.length_drop _ _
    rcases hd : (mid :: sl).drop i with _ | ⟨c, f1⟩
    · rw [hd] at hlen
      simp only [List.length_nil] at hlen
      refine ⟨[], mid, sl, rfl, ?_, rfl⟩
      simp only [List.length_nil]; omega
    · rw [hd] at hdc hlen
      rcases f1 with _ | ⟨nx, f2⟩
      · refine ⟨[], mid, sl, rfl, ?_, ?_⟩
        · simp only [List.length_cons, List.length_nil] at hlen ⊢; omega
        · simp only [List.head?_cons, list.sortMiddle, hdc.1, List.head?_nil]
      · rcases f2 with _ | ⟨c2, f3⟩
        · refine ⟨[], mid, sl, rfl, ?_, ?_⟩
          · simp only [List.length_cons, List.length_nil] at hlen ⊢; omega
          · simp only [List.head?_cons, list.sortMiddle, hdc.1, hdc.2.1, List.head?_nil]
        · simp only [List.length_cons] at hlen
          cases sl with
          | nil => simp only [List.length_cons, List.length_nil] at hlen; omega
          | cons mid2 sl' =>
            have hd2 : (mid2 :: sl').drop (i + 1) = c2 :: f3 := by
              have : (mid :: mid2 :: sl').drop (i + 2) = c2 :: f3 := by
                rw [← List.drop_drop, hd]
                rfl
              simpa using this
            obtain ⟨L, mid', R, e, hL, hs⟩ := ih (i + 1) mid2 sl' hc.2 (by
              simp only [List.length_cons] at hf hlen ⊢; omega)
            refine ⟨mid :: L, mid', R, by rw [e]; rfl, ?_, ?_⟩
            · simp only [List.length_cons] at hL hlen ⊢
              omega
            · simp only [List.head?_cons, list.sortMiddle, hdc.1, hdc.2.1, hc.1]
              rw [hd2] at hs
              exact hs

end Chains

end nex

set_option autoImplicit false
set_option linter.unnecessarySeqFocus false
set_option linter.unusedTactic false
set_option linter.unreachableTactic false
set_option linter.unusedVariables false

namespace nex

section Merge

variable {V : Type}

/-- The block of the merge loop that links the picked node `a` behind `node`. -/
theorem link_fields (m : ListMem V) (node : Option Nat) (a : Nat)
    (hne : ∀ nd, node = some nd → nd ≠ a) :
    (∀ x, (linkMem m node a x).value_ = (m x).value_) ∧
    (linkMem m node a a).prev_ = node ∧
    (linkMem m node a a).next_ = (m a).next_ ∧
    (∀ nd, node = some nd →
      (linkMem m node a nd).next_ = some a ∧ (linkMem m node a nd).prev_ = (m nd).prev_) ∧
    (∀ x, x ≠ a → node ≠ some x → linkMem m node a x = m x) := by
  cases node with
  | none =>
    refine ⟨fun x => (assignPrev_fields m a none x).1, ?_, (assignPrev_fields m a none a).2.1,
      fun nd h => absurd h (by simp), fun x hx _ => assignPrev_other m a none x hx⟩
    show (assignPrev m a none a).prev_ = none
    rw [(assignPrev_fields m a none a).2.2, if_pos rfl]
  | some nd =>
    have hnd : nd ≠ a := hne nd rfl
    refine ⟨fun x => ?_, ?_, ?_, ?_, ?_⟩
    · show (assignPrev (assignNext m nd (some a)) a (some nd) x).value_ = _
      rw [(assignPrev_fields _ a (some nd) x).1, (assignNext_fields m nd (some a) x).1]
    · show (assignPrev (assignNext m nd (some a)) a (some nd) a).prev_ = _
      rw [(assignPrev_fields _ a (some nd) a).2.2, if_pos rfl]
    · show (assignPrev (assignNext m nd (some a)) a (some nd) a).next_ = _
      rw [(assignPrev_fields _ a (some nd) a).2.1, (assignNext_fields m nd (some a) a).2.2,
        if_neg (Ne.symm hnd)]
    · intro nd' h
      have h' : nd = nd' := Option.some.inj h
      subst h'
      constructor
      · show (assignPrev (assignNext m nd (some a)) a (some nd) nd).next_ = _
        rw [(assignPrev_fields _ a (some nd) nd).2.1, (assignNext_fields m nd (some a) nd).2.2,
          if_pos rfl]
      · show (assignPrev (assignNext m nd (some a)) a (some nd) nd).prev_ = _
        rw [(assignPrev_fields _ a (some nd) nd).2.2, if_neg hnd,
          (assignNext_fields m nd (some a) nd).2.1]
    · intro x hx hx2
      show assignPrev (assignNext m nd (some a)) a (some nd) x = m x
      rw [assignPrev_other _ a _ x hx, assignNext_other m nd _ x (fun e => hx2 (by rw [e]))]

theorem getLast?_append_cons (l : List Nat) (a : Nat) (r : List Nat) :
    (l ++ a :: r).getLast? = (a :: r).getLast? := by
  rw [List.getLast?_append]
  rw [List.getLast?_eq_getLast (a :: r) (by simp)]
  rfl

variable [LinearOrder V]

/-- One pass of the loop of `merge_sorted` that picks the node `a`, leaving the chains
`as1` and `bs1`, when the later passes do what `MergePost` says. -/
theorem mergeLoop_step (k : Nat) (m : ListMem V) (as bs : List Nat)
    (node thisHead : Option Nat) (a : Nat) (as1 bs1 : List Nat)
    (ih : ∀ (m : ListMem V) (as bs : List Nat) (node thisHead : Option Nat),
      as.length + bs.length ≤ k →
      (node.toList ++ (as ++ bs)).Nodup →
      NextChain m as → NextChain m bs →
      (as.map (fun a => (m a).value_)).Sorted (· ≤ ·) →
      (bs.map (fun a => (m a).value_)).Sorted (· ≤ ·) →
      (∀ nd, node = some nd → (m nd).next_ = as.head? ∨ (m nd).next_ = bs.head?) →
      (node = none → thisHead = none) →
      MergePost m as bs node thisHead (list.mergeLoop k m as.head? bs.head? node thisHead))
    (hnd : (node.toList ++ (as ++ bs)).Nodup)
    (hperm : (a :: (as1 ++ bs1)).Perm (as ++ bs))
    (hsub1 : ∀ x, x ∈ as1 → x ∈ as) (hsub2 : ∀ x, x ∈ bs1 → x ∈ bs)
    (hca1 : NextChain m as1) (hcb1 : NextChain m bs1)
    (hsa1 : (as1.map (fun a => (m a).value_)).Sorted (· ≤ ·))
    (hsb1 : (bs1.map (fun a => (m a).value_)).Sorted (· ≤ ·))
    (hle : ∀ x ∈ as1 ++ bs1, (m a).value_ ≤ (m x).value_)
    (hnxa : (m a).next_ = as1.head? ∨ (m a).next_ = bs1.head?)
    (hlen : as1.length + bs1.length ≤ k)
    (th2 : Option Nat)
    (hth : th2 = node.elim (some a) (fun _ => thisHead))
    (hunf : list.mergeLoop (k + 1) m as.head? bs.head? node thisHead =
      list.mergeLoop k (linkMem m node a) as1.head? bs1.head? (some a) th2) :
    MergePost m as bs node thisHead
      (list.mergeLoop (k + 1) m as.head? bs.head? node thisHead) := by
  have hnd2 : (node.toList ++ (a :: (as1 ++ bs1))).Nodup :=
    (List.Perm.nodup_iff (List.Perm.append_left _ hperm)).2 hnd
  have hane : ∀ nd, node = some nd → nd ≠ a := by
    intro nd e r
    subst e
    subst r
    simp at hnd2
  obtain ⟨f1, f2, f3, f4, f5⟩ := link_fields m node a hane
  have hnd3 : (a :: (as1 ++ bs1)).Nodup := (List.nodup_append.1 hnd2).2.1
  have hnode_as : ∀ x, x ∈ as1 ++ bs1 → node ≠ some x ∧ x ≠ a := by
    intro x hx
    constructor
    · intro e
      have := (List.nodup_append.1 hnd2).2.2
      exact this (by rw [e]; simp) (List.mem_cons_of_mem _ hx)
    · intro e
      subst e
      exact (List.nodup_cons.1 hnd3).1 hx
  have hsame : ∀ x, x ∈ as1 ++ bs1 → linkMem m node a x = m x := by
    intro x hx
    exact f5 x (hnode_as x hx).2 (hnode_as x hx).1
  have hval : (fun x => (linkMem m node a x).value_) = fun x => (m x).value_ := funext f1
  obtain ⟨m', out, e, hp, hs, hn, hpv, hv, hpa, hfr⟩ := ih (linkMem m node a) as1 bs1 (some a)
    th2 hlen (by simpa using hnd3)
    (NextChain_congr m _ as1 (fun x hx => by
      rw [hsame x (List.mem_append_left _ hx)]) hca1)
    (NextChain_congr m _ bs1 (fun x hx => by
      rw [hsame x (List.mem_append_right _ hx)]) hcb1)
    (by rw [hval]; exact hsa1) (by rw [hval]; exact hsb1)
    (by
      intro nd e
      have e' : a = nd := Option.some.inj e
      subst e'
      rw [f3]
      exact hnxa)
    (by intro h; exact absurd h (by simp))
  have hvals : ∀ x, (m' x).value_ = (m x).value_ := fun x => (hv x).trans (f1 x)
  have hsa : ∀ x, some a ≠ some x ↔ x ≠ a := by
    intro x
    constructor
    · intro h e2; exact h (by rw [e2])
    · intro h e2; exact h (Option.some.inj e2).symm
  refine ⟨m', a :: out, ?_, ?_, ?_, ?_, ?_, hvals, ?_, ?_⟩
  · rw [hunf, e, hth]
    simp only [Option.toList_some, List.singleton_append, List.head?_cons]
    rw [getLast?_append_cons]
    cases node <;> rfl
  · exact (List.Perm.cons a hp).trans hperm
  · rw [List.map_cons, List.sorted_cons]
    refine ⟨?_, hs⟩
    intro y hy
    obtain ⟨x, hx, rfl⟩ := List.mem_map.1 hy
    rw [hvals a, hvals x]
    exact hle x (hp.subset hx)
  · cases node with
    | none => simpa using hn
    | some nd =>
      simp only [Option.toList_some, List.singleton_append] at hn ⊢
      refine ⟨?_, hn⟩
      rw [hfr nd ((hsa nd).2 (hane nd rfl))
        (fun h => (hnode_as nd (List.mem_append_left _ h)).1 rfl)
        (fun h => (hnode_as nd (List.mem_append_right _ h)).1 rfl)]
      exact (f4 nd rfl).1
  · refine ⟨?_, hpv⟩
    rw [hpa a rfl]
    exact f2
  · intro nd e2
    have hnda : nd ≠ a := hane nd e2
    rw [hfr nd ((hsa nd).2 hnda) (fun h => (hnode_as nd (List.mem_append_left _ h)).1 e2)
      (fun h => (hnode_as nd (List.mem_append_right _ h)).1 e2)]
    exact (f4 nd e2).2
  · intro x hx hxa hxb
    have hxa' : x ≠ a := by
      intro e2
      subst e2
      have : x ∈ as ++ bs := hperm.subset (List.mem_cons_self _ _)
      rcases List.mem_append.1 this with h | h
      · exact hxa h
      · exact hxb h
    rw [hfr x ((hsa x).2 hxa') (fun h => hxa (hsub1 x h)) (fun h => hxb (hsub2 x h))]
    exact f5 x hxa' hx

/-- The loop of `merge_sorted` on two ascending chains: the nodes picked so far end with
`node`; the loop links the nodes of both chains behind it in ascending order. -/
theorem mergeLoop_spec :
    ∀ (fuel : Nat) (m : ListMem V) (as bs : List Nat) (node thisHead : Option Nat),
      as.length + bs.length ≤ fuel →
      (node.toList ++ (as ++ bs)).Nodup →
      NextChain m as → NextChain m bs →
      (as.map (fun a => (m a).value_)).Sorted (· ≤ ·) →
      (bs.map (fun a => (m a).value_)).Sorted (· ≤ ·) →
      (∀ nd, node = some nd → (m nd).next_ = as.head? ∨ (m nd).next_ = bs.head?) →
      (node = none → thisHead = none) →
      MergePost m as bs node thisHead
        (list.mergeLoop fuel m as.head? bs.head? node thisHead) := by
  intro fuel
  have base : ∀ (fuel : Nat) (m : ListMem V) (node thisHead : Option Nat),
      (∀ nd, node = some nd → (m nd).next_ = none) → (node = none → thisHead = none) →
      MergePost m [] [] node thisHead (list.mergeLoop fuel m none none node thisHead) := by
    intro fuel m node thisHead hnx hth
    refine ⟨m, [], ?_, by simp, by simp, ?_, trivial, fun _ => rfl, fun _ _ => rfl,
      fun _ _ _ _ => rfl⟩
    · cases node with
      | none => rw [hth rfl]; cases fuel <;> rfl
      | some nd => cases fuel <;> rfl
    · cases node with
      | none => trivial
      | some nd => exact ⟨hnx nd rfl, trivial⟩
  induction fuel with
  | zero =>
    intro m as bs node thisHead hf hnd hca hcb hsa hsb hnx hth
    have ha : as = [] := List.length_eq_zero.mp (by omega)
    have hb : bs = [] := List.length_eq_zero.mp (by omega)
    subst ha hb
    exact base 0 m node thisHead (fun nd e => by
      rcases hnx nd e with h | h <;> simpa using h) hth
  | succ k ih =>
    intro m as bs node thisHead hf hnd hca hcb hsa hsb hnx hth
    cases as with
    | nil =>
      cases bs with
      | nil =>
        exact base (k + 1) m node thisHead (fun nd e => by
          rcases hnx nd e with h | h <;> simpa using h) hth
      | cons b bs' =>
        simp only [List.map_cons, List.sorted_cons, List.mem_map, forall_exists_index,
          and_imp, forall_apply_eq_imp_iff₂] at hsb
        refine mergeLoop_step k m [] (b :: bs') node thisHead b [] bs' ih hnd (by simp)
          (by simp) (fun x hx => List.mem_cons_of_mem _ hx)
          trivial hcb.2 (by simp) hsb.2 (by simpa using hsb.1) (Or.inr hcb.1)
          (by simpa using hf) (node.elim (some b) (fun _ => thisHead)) rfl ?_
        simp only [List.head?_nil, List.head?_cons, list.mergeLoop, list.mergePass, hcb.1]
        cases node <;> rfl
    | cons a as' =>
      simp only [List.map_cons, List.sorted_cons, List.mem_map, forall_exists_index,
        and_imp, forall_apply_eq_imp_iff₂] at hsa
      cases bs with
      | nil =>
        refine mergeLoop_step k m (a :: as') [] node thisHead a as' [] ih hnd (by simp)
          (fun x hx => List.mem_cons_of_mem _ hx) (by simp)
          hca.2 trivial hsa.2 (by simp) (by simpa using hsa.1) (Or.inl hca.1)
          (by simpa using hf) (node.elim (some a) (fun _ => thisHead)) rfl ?_
        simp only [List.head?_nil, List.head?_cons, list.mergeLoop, list.mergePass, hca.1]
        cases node <;> rfl
      | cons b bs' =>
        simp only [List.map_cons, List.sorted_cons, List.mem_map, forall_exists_index,
          and_imp, forall_apply_eq_imp_iff₂] at hsb
        by_cases hab : (m a).value_ ≤ (m b).value_
        · refine mergeLoop_step k m (a :: as') (b :: bs') node thisHead a as' (b :: bs') ih
            hnd (by simp) (fun x hx => List.mem_cons_of_mem _ hx)
            (fun x hx => hx) hca.2 hcb hsa.2
            (by
              simp only [List.map_cons, List.sorted_cons, List.mem_map, forall_exists_index,
                and_imp, forall_apply_eq_imp_iff₂]
              exact hsb)
            ?_ (Or.inl hca.1) (by simp only [List.length_cons] at hf ⊢; omega)
            (node.elim (some a) (fun _ => thisHead)) rfl ?_
          · intro x hx
            rcases List.mem_append.1 hx with h | h
            · exact hsa.1 x h
            · rcases List.mem_cons.1 h with rfl | h
              · exact hab
              · exact le_trans hab (hsb.1 x h)
          · simp only [List.head?_cons, list.mergeLoop, list.mergePass, hca.1, hab, decide_True]
            cases node <;> rfl
        · have hba : (m b).value_ ≤ (m a).value_ := le_of_lt (not_le.1 hab)
          refine mergeLoop_step k m (a :: as') (b :: bs') node thisHead b (a :: as') bs' ih
            hnd ?_ (fun x hx => hx)
            (fun x hx => List.mem_cons_of_mem _ hx) hca hcb.2
            (by
              simp only [List.map_cons, List.sorted_cons, List.mem_map, forall_exists_index,
                and_imp, forall_apply_eq_imp_iff₂]
              exact hsa)
            hsb.2 ?_ (Or.inr hcb.1) (by simp only [List.length_cons] at hf ⊢; omega)
            (node.elim (some b) (fun _ => thisHead)) rfl ?_
          · exact List.perm_middle.symm
          · intro x hx
            rcases List.mem_append.1 hx with h | h
            · rcases List.mem_cons.1 h with rfl | h
              · exact hba
              · exact le_trans hba (hsa.1 x h)
            · exact hsb.1 x h
          · simp only [List.head?_cons, list.mergeLoop, list.mergePass, hcb.1, hab, decide_False]
            cases node <;> rfl

end Merge

end nex

set_option autoImplicit false
set_option linter.unnecessarySeqFocus false
set_option linter.unusedTactic false
set_option linter.unreachableTactic false
set_option linter.unusedVariables false

namespace nex

section ListSort

variable {V : Type}

theorem ListRep_congr (m m' : ListMem V) (l : list) (as : List Nat)
    (h : ∀ a ∈ as, m' a = m a) (hr : ListRep m l as) : ListRep m' l as :=
  ⟨hr.1, hr.2.1, hr.2.2.1,
    NextChain_congr m m' as (fun a ha => by rw [h a ha]) hr.2.2.2.1,
    PrevChain_congr m m' as none (fun a ha => by rw [h a ha]) hr.2.2.2.2⟩

theorem head?_append_cons (L : List Nat) (a : Nat) (R : List Nat) :
    (L ++ a :: R).head? = (L ++ [a]).head? := by
  cases L <;> rfl

variable [LinearOrder V]

/-- Refinement of `merge_sorted` on two well linked ascending lists without a common
node. -/
theorem merge_sorted_spec (fuel : Nat) (m : ListMem V) (left right : list)
    (as bs : List Nat) (hl : ListRep m left as) (hr : ListRep m right bs)
    (hnd : (as ++ bs).Nodup)
    (hsa : (as.map (fun a => (m a).value_)).Sorted (· ≤ ·))
    (hsb : (bs.map (fun a => (m a).value_)).Sorted (· ≤ ·))
    (hf : as.length + bs.length ≤ fuel) :
    ∃ m' this out, list.merge_sorted fuel m left right =
        some (m', this, list.empty, list.empty) ∧
      ListRep m' this out ∧ out.Perm (as ++ bs) ∧
      (out.map (fun a => (m' a).value_)).Sorted (· ≤ ·) ∧
      this.size_ = (left.size_ + right.size_) % sizeModulus ∧
      (∀ x, (m' x).value_ = (m x).value_) ∧
      (∀ x, x ∉ as → x ∉ bs → m' x = m x) := by
  obtain ⟨m', out, e, hp, hs, hn, hpv, hv, -, hfr⟩ := mergeLoop_spec fuel m as bs none none hf
    (by simpa using hnd) hl.2.2.2.1 hr.2.2.2.1 hsa hsb (fun nd h => absurd h (by simp))
    (fun _ => rfl)
  refine ⟨m', { head_ := out.head?, end_ := out.getLast?,
                size_ := (left.size_ + right.size_) % sizeModulus }, out, ?_,
    ⟨(hp.nodup_iff).2 hnd, rfl, rfl, by simpa using hn, hpv⟩, hp, hs,
    rfl, hv, fun x hx1 hx2 => hfr x (by simp) hx1 hx2⟩
  simp only [list.merge_sorted, hl.2.1, hr.2.1, e]
  simp

/-- Refinement of `sort`: a well linked list whose `size_` is its number of nodes ends
well linked over the same nodes in ascending order of their values. -/
theorem sort_spec (fuel : Nat) :
    ∀ (depth : Nat) (m : ListMem V) (l : list) (as : List Nat), ListRep m l as →
      l.size_ = as.length → as.length < depth → as.length ≤ fuel →
      as.length < sizeModulus →
      ∃ m' l' out, list.sort fuel depth m l = some (m', l') ∧ ListRep m' l' out ∧
        out.Perm as ∧ (out.map (fun a => (m' a).value_)).Sorted (· ≤ ·) ∧
        l'.size_ = l.size_ ∧ (∀ x, (m' x).value_ = (m x).value_) ∧
        (∀ x, x ∉ as → m' x = m x) := by
  intro depth
  induction depth with
  | zero => intro m l as _ _ hd; omega
  | succ depth ih =>
    intro m l as hrep hsz hd hf hM
    by_cases h1 : l.size_ ≤ 1
    · refine ⟨m, l, as, by simp [list.sort, h1], hrep, List.Perm.refl _, ?_, rfl,
        fun _ => rfl, fun _ _ => rfl⟩
      rw [hsz] at h1
      rcases as with _ | ⟨a, _ | ⟨b, r⟩⟩
      · simp
      · simp
      · simp at h1
    · obtain ⟨hnd, hhead, hend, hnext, hprev⟩ := hrep
      rw [hsz] at h1
      rcases as with _ | ⟨a0, rest⟩
      · simp at h1
      obtain ⟨L, mid, R, e, hL, hmid⟩ := sortMiddle_spec m fuel 0 a0 rest hnext (by
        simp only [List.length_cons] at hf ⊢; omega)
      simp only [List.drop_zero, List.head?_cons] at hmid
      simp only [List.length_cons] at hL h1 hd hf hM hsz
      have hlen : (L ++ mid :: R).length = rest.length + 1 := by rw [← e]; rfl
      simp only [List.length_append, List.length_cons] at hlen
      rcases R with _ | ⟨rh, R'⟩
      · simp only [List.length_nil] at hlen; omega
      simp only [List.length_cons] at hlen
      have hhead0 : l.head_ = some a0 := hhead
      rw [e] at hnd hhead hend hnext hprev
      have hsplit : L ++ mid :: rh :: R' = (L ++ [mid]) ++ rh :: R' := by simp
      have hmidnext : (m mid).next_ = some rh := (NextChain_drop m L _ hnext).1
      -- distinctness
      have hnd' := hnd
      rw [hsplit] at hnd'
      have hndL : (L ++ [mid]).Nodup := (List.nodup_append.1 hnd').1
      have hndR : (rh :: R').Nodup := (List.nodup_append.1 hnd').2.1
      have hdisj : ∀ x, x ∈ L ++ [mid] → x ∉ rh :: R' := fun x hx hx' =>
        (List.nodup_append.1 hnd').2.2 hx hx'
      have hmidL : mid ∉ L := by
        intro h
        have := (List.nodup_append.1 hndL).2.2 h (List.mem_singleton_self _)
        exact this
      have hrhR : rh ∉ R' := (List.nodup_cons.1 hndR).1
      -- the memory after cutting the chain
      have hm2 : ∀ x, x ≠ mid → x ≠ rh →
          assignPrev (assignNext m mid none) rh none x = m x := by
        intro x h1 h2
        rw [assignPrev_other _ _ _ _ h2, assignNext_other _ _ _ _ h1]
      have hrepL : ListRep (assignPrev (assignNext m mid none) rh none)
          { head_ := l.head_, end_ := some mid,
            size_ := (l.size_ + sizeModulus - l.size_ / 2) % sizeModulus } (L ++ [mid]) := by
        refine ⟨hndL, ?_, by simp, ?_, ?_⟩
        · show l.head_ = _
          rw [hhead, head?_append_cons]
        · refine NextChain_cut m _ mid (rh :: R') L ?_ ?_ hnext
          · intro a ha
            rw [(assignPrev_fields _ rh none a).2.1, (assignNext_fields m mid none a).2.2,
              if_neg (fun e : a = mid => hmidL (e ▸ ha))]
          · rw [(assignPrev_fields _ rh none mid).2.1,
              (assignNext_fields m mid none mid).2.2, if_pos rfl]
        · refine PrevChain_congr m _ _ none ?_ (PrevChain_take m _ (rh :: R') none
            (by rw [← hsplit]; exact hprev))
          intro a ha
          rw [(assignPrev_fields _ rh none a).2.2, if_neg (fun e => hdisj a ha (by simp [e])),
            (assignNext_fields m mid none a).2.1]
      have hrepR : ListRep (assignPrev (assignNext m mid none) rh none)
          { head_ := some rh, end_ := l.end_, size_ := l.size_ / 2 } (rh :: R') := by
        refine ⟨hndR, rfl, ?_, ?_, ?_, ?_⟩
        · show l.end_ = _
          rw [hend, hsplit, getLast?_append_cons]
        · refine NextChain_congr m _ _ ?_ (NextChain_drop m (L ++ [mid]) _
            (by rw [← hsplit]; exact hnext))
          intro a ha
          rw [(assignPrev_fields _ rh none a).2.1, (assignNext_fields m mid none a).2.2,
            if_neg (fun e : a = mid => hdisj mid (by simp) (e ▸ ha))]
        · rw [(assignPrev_fields _ rh none rh).2.2, if_pos rfl]
        · refine PrevChain_congr m _ _ _ ?_ (PrevChain_after m rh R' (L ++ [mid]) none
            (by rw [← hsplit]; exact hprev))
          intro a ha
          rw [(assignPrev_fields _ rh none a).2.2, if_neg (fun e : a = rh => hrhR (e ▸ ha)),
            (assignNext_fields m mid none a).2.1]
      have hszL : (l.size_ + sizeModulus - l.size_ / 2) % sizeModulus = (L ++ [mid]).length := by
        simp only [List.length_append, List.length_cons, List.length_nil]
        rw [hsz]
        have h2 : (rest.length + 1) / 2 ≤ rest.length + 1 := Nat.div_le_self _ _
        rw [show rest.length + 1 + sizeModulus - (rest.length + 1) / 2 =
          (rest.length + 1 - (rest.length + 1) / 2) + sizeModulus by omega,
          Nat.add_mod_right, Nat.mod_eq_of_lt (by omega)]
        omega
      have hszR : l.size_ / 2 = (rh :: R').length := by
        simp only [List.length_cons]
        rw [hsz]
        omega
      -- the two halves
      obtain ⟨m3, l3, L3, e3, hr3, hp3, hs3, hz3, hv3, hf3⟩ :=
        ih _ _ (L ++ [mid]) hrepL hszL
          (by simp only [List.length_append, List.length_cons, List.length_nil]; omega)
          (by simp only [List.length_append, List.length_cons, List.length_nil]; omega)
          (by simp only [List.length_append, List.length_cons, List.length_nil]; omega)
      have hrepR3 : ListRep m3 { head_ := some rh, end_ := l.end_, size_ := l.size_ / 2 }
          (rh :: R') :=
        ListRep_congr _ m3 _ _ (fun a ha => hf3 a (fun h => hdisj a h ha)) hrepR
      obtain ⟨m4, l4, R4, e4, hr4, hp4, hs4, hz4, hv4, hf4⟩ :=
        ih m3 _ (rh :: R') hrepR3 hszR
          (by simp only [List.length_cons]; omega)
          (by simp only [List.length_cons]; omega)
          (by simp only [List.length_cons]; omega)
      have hr3' : ListRep m4 l3 L3 :=
        ListRep_congr m3 m4 _ _ (fun a ha => hf4 a (hdisj a (hp3.subset ha))) hr3
      have hval4 : (fun a => (m4 a).value_) = fun a => (m3 a).value_ := funext hv4
      have hnd34 : (L3 ++ R4).Nodup :=
        ((List.Perm.append hp3 hp4).nodup_iff).2 hnd'
      obtain ⟨m5, this, out, e5, hr5, hp5, hs5, hz5, hv5, hf5⟩ :=
        merge_sorted_spec fuel m4 l3 l4 L3 R4 hr3' hr4 hnd34 (by rw [hval4]; exact hs3) hs4
          (by
            rw [hp3.length_eq, hp4.length_eq]
            simp only [List.length_append, List.length_cons, List.length_nil]
            omega)
      refine ⟨m5, this, out, ?_, hr5, ?_, hs5, ?_, ?_, ?_⟩
      · simp only [list.sort, hsz, h1, if_false, hhead0, hmid, hmidnext]
        rw [← hsz]
        rw [hhead0] at e3
        rw [e3]
        simp only [e4, e5]
      · rw [e, hsplit]
        exact hp5.trans (List.Perm.append hp3 hp4)
      · rw [hz5, hz3, hz4, hszL, hszR, hsz]
        simp only [List.length_append, List.length_cons, List.length_nil]
        rw [Nat.mod_eq_of_lt (by omega)]
        omega
      · intro x
        rw [hv5 x, hv4 x, hv3 x, (assignPrev_fields _ rh none x).1,
          (assignNext_fields m mid none x).1]
      · intro x hx
        rw [e, hsplit] at hx
        have hxL : x ∉ L ++ [mid] := fun h => hx (List.mem_append_left _ h)
        have hxR : x ∉ rh :: R' := fun h => hx (List.mem_append_right _ h)
        rw [hf5 x (fun h => hxL (hp3.subset h)) (fun h => hxR (hp4.subset h)), hf4 x hxR,
          hf3 x hxL]
        exact hm2 x (fun e => hxL (by simp [e])) (fun e => hxR (by simp [e]))

theorem exSortInput_rep : ListRep exSortInput.1 exSortInput.2 [1, 2, 3] :=
  ⟨by decide, rfl, rfl, ⟨rfl, rfl, rfl, trivial⟩, ⟨rfl, rfl, rfl, trivial⟩⟩

/-- C38: `sort()` on a well linked list whose `size_` is its number of nodes returns; the
forward traversal then passes the same nodes in ascending order of their values, which
are a permutation of the original values, the backward traversal from `end_` passes
them in the reverse order, `size_` is unchanged, and `head_`, `end_` and the `next_` and
`prev_` links are consistent. -/
theorem list_sort_spec (fuel depth : Nat) (m : ListMem V) (l : list) (as : List Nat)
    (h : ListRep m l as) (hsz : l.size_ = as.length) (hd : as.length < depth)
    (hf : as.length ≤ fuel) (hM : as.length < sizeModulus) :
    ∃ m' l' out, list.sort fuel depth m l = some (m', l') ∧
      list.forward fuel m' l'.head_ = some out ∧
      list.backward fuel m' l'.end_ = some out.reverse ∧
      (out.map (fun a => (m' a).value_)).Sorted (· ≤ ·) ∧
      (out.map (fun a => (m' a).value_)).Perm (as.map (fun a => (m a).value_)) ∧
      out.Perm as ∧ l'.size_ = l.size_ ∧ ListRep m' l' out := by
  obtain ⟨m', l', out, e, hr, hp, hs, hz, hv, -⟩ := sort_spec fuel depth m l as h hsz hd hf hM
  have hlen : out.length ≤ fuel := by rw [hp.length_eq]; exact hf
  refine ⟨m', l', out, e, ?_, ?_, hs, ?_, hp, hz, hr⟩
  · rw [hr.2.1]
    exact forward_spec m' out fuel hr.2.2.2.1 hlen
  · rw [hr.2.2.1]
    exact backward_spec m' out fuel hr.2.2.2.2 hlen
  · have hval : (fun a => (m' a).value_) = fun a => (m a).value_ := funext hv
    rw [hval]
    exact hp.map _

/-- Witness of C38: sorting the list 3, 1, 2 built by the list constructor. -/
theorem list_sort_spec_witness :
    ∃ m' l' out, list.sort 3 4 exSortInput.1 exSortInput.2 = some (m', l') ∧
      list.forward 3 m' l'.head_ = some out ∧
      list.backward 3 m' l'.end_ = some out.reverse ∧
      (out.map (fun a => (m' a).value_)).Sorted (· ≤ ·) ∧
      (out.map (fun a => (m' a).value_)).Perm
        ([1, 2, 3].map (fun a => (exSortInput.1 a).value_)) ∧
      out.Perm [1, 2, 3] ∧ l'.size_ = exSortInput.2.size_ ∧ ListRep m' l' out :=
  list_sort_spec 3 4 exSortInput.1 exSortInput.2 [1, 2, 3] exSortInput_rep rfl (by decide)
    (by decide) (by decide)

end ListSort

end nex

set_option autoImplicit false
set_option linter.unnecessarySeqFocus false
set_option linter.unusedTactic false
set_option linter.unreachableTactic false
set_option linter.unusedVariables false

namespace nex

section Checked

variable {V : Type}

/-- With no sibling the rotation of case 5 has no child to promote. -/
theorem deleteCase5_none (t : RBTree V) (n : Nat) (hb : brother t.mem n = some none) :
    deleteCase5_balanceRotations t n = none := by
  unfold brother at hb
  rcases hp : (t.mem n).parent with _ | p
  · rw [hp] at hb
    simp at hb
  · rw [hp] at hb
    simp only at hb
    by_cases hl : some n = (t.mem p).left
    · rw [if_pos hl] at hb
      have hr : (t.mem p).right = none := Option.some.inj hb
      simp [deleteCase5_balanceRotations, brother, hp, ← hl, hr, rotateLeft, setC_apply]
    · rw [if_neg hl] at hb
      have hr : (t.mem p).left = none := Option.some.inj hb
      simp [deleteCase5_balanceRotations, brother, hp, hr, rotateRight, setC_apply]

theorem deleteCase4_none (t : RBTree V) (n : Nat) (hb : brother t.mem n = some none) :
    deleteCase4_brotherBlackChildRed t n = none := by
  rcases hp : (t.mem n).parent with _ | p
  · simp [deleteCase4_brotherBlackChildRed, hb, hp]
  · simp [deleteCase4_brotherBlackChildRed, hb, hp, deleteCase5_none t n hb]

theorem deleteCase3_none (t : RBTree V) (n : Nat) (hb : brother t.mem n = some none) :
    deleteCase3_parentRedBrotherChildrenBlack t n = none := by
  rcases hp : (t.mem n).parent with _ | p
  · simp [deleteCase3_parentRedBrotherChildrenBlack, hb, hp]
  · simp [deleteCase3_parentRedBrotherChildrenBlack, hb, hp, deleteCase4_none t n hb]

theorem deleteCase2_none (k : RBTree V → Nat → Option (RBTree V)) (t : RBTree V) (n : Nat)
    (hb : brother t.mem n = some none) :
    deleteCase2_parentBrotherChildrenBlack k t n = none := by
  rcases hp : (t.mem n).parent with _ | p
  · simp [deleteCase2_parentBrotherChildrenBlack, hb, hp]
  · simp [deleteCase2_parentBrotherChildrenBlack, hb, hp, deleteCase3_none t n hb]

theorem deleteCase5_checked_eq (t : RBTree V) (n : Nat) :
    deleteCase5_checked t n = deleteCase5_balanceRotations t n := by
  unfold deleteCase5_checked
  rcases hb : brother t.mem n with _ | _ | b
  · simp [deleteCase5_balanceRotations, hb]
  · simp [deleteCase5_none t n hb]
  · rfl

theorem deleteCase4_checked_eq (t : RBTree V) (n : Nat) :
    deleteCase4_checked t n = deleteCase4_brotherBlackChildRed t n := by
  rcases hb : brother t.mem n with _ | _ | b
  · simp [deleteCase4_checked, deleteCase4_brotherBlackChildRed, hb]
  · rw [deleteCase4_none t n hb]
    simp [deleteCase4_checked, hb]
  · rcases hp : (t.mem n).parent with _ | p
    · simp [deleteCase4_checked, deleteCase4_brotherBlackChildRed, hb, hp]
    · simp only [deleteCase4_checked, deleteCase4_brotherBlackChildRed, hb, hp,
        deleteCase5_checked_eq]
      all_goals rfl

theorem deleteCase3_checked_eq (t : RBTree V) (n : Nat) :
    deleteCase3_checked t n = deleteCase3_parentRedBrotherChildrenBlack t n := by
  rcases hb : brother t.mem n with _ | _ | b
  · simp [deleteCase3_checked, deleteCase3_parentRedBrotherChildrenBlack, hb]
  · rw [deleteCase3_none t n hb]
    simp [deleteCase3_checked, hb]
  · rcases hp : (t.mem n).parent with _ | p
    · simp [deleteCase3_checked, deleteCase3_parentRedBrotherChildrenBlack, hb, hp]
    · simp only [deleteCase3_checked, deleteCase3_parentRedBrotherChildrenBlack, hb, hp,
        deleteCase4_checked_eq]
      all_goals rfl

theorem deleteCase2_checked_eq (k : RBTree V → Nat → Option (RBTree V)) (t : RBTree V)
    (n : Nat) :
    deleteCase2_checked k t n = deleteCase2_parentBrotherChildrenBlack k t n := by
  rcases hb : brother t.mem n with _ | _ | b
  · simp [deleteCase2_checked, deleteCase2_parentBrotherChildrenBlack, hb]
  · rw [deleteCase2_none k t n hb]
    simp [deleteCase2_checked, hb]
  · rcases hp : (t.mem n).parent with _ | p
    · simp [deleteCase2_checked, deleteCase2_parentBrotherChildrenBlack, hb, hp]
    · simp only [deleteCase2_checked, deleteCase2_parentBrotherChildrenBlack, hb, hp,
        deleteCase3_checked_eq]
      all_goals rfl

/-- The checks in the delete fix-up never fire where the fix-up itself returns: the
checked fix-up is the fix-up. -/
theorem deleteCase1_checked_eq :
    ∀ (fuel : Nat) (t : RBTree V) (n : Nat),
      deleteCase1_checked fuel t n = deleteCase1_brotherRed fuel t n := by
  intro fuel
  induction fuel with
  | zero => intro t n; rfl
  | succ fuel ih =>
    intro t n
    have ihf : deleteCase1_checked fuel = deleteCase1_brotherRed (V := V) fuel := by
      funext t n
      exact ih t n
    rcases hp : (t.mem n).parent with _ | p
    · simp [deleteCase1_checked, deleteCase1_brotherRed, hp]
    · rcases hb : brother t.mem n with _ | _ | b
      · simp [deleteCase1_checked, deleteCase1_brotherRed, hp, hb]
      · simp [deleteCase1_checked, deleteCase1_brotherRed, hp, hb,
          deleteCase2_none _ t n hb]
      · simp only [deleteCase1_checked, deleteCase1_brotherRed, hp, hb, ihf,
          deleteCase2_checked_eq]
        all_goals rfl

end Checked

end nex

set_option autoImplicit false
set_option linter.unnecessarySeqFocus false
set_option linter.unusedTactic false
set_option linter.unreachableTactic false
set_option linter.unusedVariables false

namespace nex

section Checked

variable {V : Type}

/-- On the states the first half of `takeNode` produces from a red-black tree, the checks of
`takeNodeRest_checked` never fire. -/
theorem takeNodeRest_checked_eq (fuel : Nat) {t1 : RBTree V} {Cn : List (Frame V)} {nl : T V}
    {n : Nat} {nc : Color} {v : V}
    (h : Represents t1 (plug Cn (T.node nl n nc v T.nil)))
    (hnrr : (T.node nl n nc v T.nil).NoRedRed) (hbal : (T.node nl n nc v T.nil).Balanced)
    (hne : nl ≠ T.nil → Cn ≠ []) :
    takeNodeRest_checked fuel t1 n = takeNodeRest fuel t1 n := by
  have hn := h.read
  simp at hn hnrr hbal
  cases nc with
  | Red => simp [takeNodeRest_checked, takeNodeRest, hn]
  | Black =>
    cases nl with
    | nil =>
      simp [takeNodeRest_checked, takeNodeRest, hn, deleteCase1_checked_eq]
      all_goals rfl
    | node cl ch cc cv cr =>
      have hcc : cc = Color.Red := by
        by_contra hcon
        have := Color.ne_red hcon
        subst this
        simp at hbal
      subst hcc
      simp at hn
      cases Cn with
      | nil => exact absurd rfl (hne (by simp))
      | cons f C =>
        obtain ⟨m1, hm1, hcol, -⟩ := splice_spec f h
        simp [takeNodeRest_checked, takeNodeRest, hn, hm1, hcol]

/-- C36: on a state holding a red-black tree, `takeNode` at any of its nodes returns (so
no absent link is followed), and it returns the same when an absent sibling at any step
of the delete fix-up and the branch that rebalances from a black only child are turned
into faults: the sibling is there whenever the fix-up looks at it, and that branch is never
reached. -/
theorem takeNode_checked_spec (fuel : Nat) (t : RBTree V) (τ : T V) (n : Nat)
    (h : Represents t τ) (hrb : τ.RB) (hn : n ∈ τ.addrs) (hfuel : τ.height ≤ fuel) :
    ∃ r, takeNode_checked fuel t n = some r ∧ takeNode fuel t n = some r := by
  obtain ⟨C, l, c, v, r, rfl⟩ := T.split_mem τ n hn
  obtain ⟨t1, Cn, nl, nc, xs, ys, e1, hr1, hrb1, hlen, hne, -⟩ :=
    takeNodeWith_swap fuel h hrb hfuel
  obtain ⟨hnrr, hbal, hctx⟩ := (RB_plug _ _).1 hrb1
  obtain ⟨t', τ', e2, -⟩ := takeNodeRest_spec fuel hr1 hlen hnrr hbal hctx hne
  refine ⟨(n, t'), ?_, ?_⟩
  · show takeNodeWith takeNodeRest_checked fuel t n = _
    rw [e1 takeNodeRest_checked, takeNodeRest_checked_eq fuel hr1 hnrr hbal hne, e2]
  · rw [takeNode_eq_with, e1 takeNodeRest, e2]

/-- Witness of C36: taking the black leaf 1 out of the example multiset 1, 2, 2, 2, 3,
which sends the fix-up through its rotations. -/
theorem takeNode_checked_spec_witness :
    ∃ r, takeNode_checked 3 exFiveTree 1 = some r ∧ takeNode 3 exFiveTree 1 = some r :=
  takeNode_checked_spec 3 exFiveTree exFiveShape 1 exFiveTree_represents
    exFiveShape_valid.rb (by decide) (by decide)

end Checked

end nex

set_option autoImplicit false
set_option linter.unnecessarySeqFocus false
set_option linter.unusedTactic false
set_option linter.unreachableTactic false
set_option linter.unusedVariables false

namespace nex

section TakeFirst

variable {V : Type}

theorem T.eq_nil_of_addrs (s : T V) (h : s.addrs = []) : s = T.nil := by
  cases s with
  | nil => rfl
  | node l a c v r => simp at h

/-- The second half of `takeNode` on a node without children: the node leaves with null
links and its value. -/
theorem takeNodeRest_leaf_links (fuel : Nat) {t1 : RBTree V} {Cn : List (Frame V)}
    {n : Nat} {nc : Color} {v : V}
    (h : Represents t1 (plug Cn (T.node T.nil n nc v T.nil)))
    (hlen : Cn.length < fuel)
    (hctx : CtxOK Cn (T.node T.nil n nc v T.nil).bh nc) :
    ∃ t', takeNodeRest fuel t1 n = some (n, t') ∧ (t'.mem n).left = none ∧
      (t'.mem n).right = none ∧ (t'.mem n).value = v := by
  have hn := h.read
  simp at hn hctx
  have hfields : ∀ m : Mem V, (m n).left = none → (m n).right = none → (m n).value = v →
      (clearParent m n n).left = none ∧ (clearParent m n n).right = none ∧
        (clearParent m n n).value = v := by
    intro m h1 h2 h3
    obtain ⟨a1, -, -, a4, a5⟩ := clearParent_fields m n n
    rw [a1, a4, a5, h1, h2, h3]
    simp
  cases nc with
  | Red =>
    refine ⟨{ mem := clearParent t1.mem n,
              rootNode_ := if some n = t1.rootNode_ then none else t1.rootNode_,
              size_ := (t1.size_ + sizeModulus - 1) % sizeModulus }, ?_, ?_⟩
    · simp [takeNodeRest, hn]
    · exact hfields t1.mem (by rw [hn]) (by rw [hn]) (by rw [hn])
  | Black =>
    simp at hctx
    obtain ⟨t2, C', ht2, hr2, -⟩ :=
      deleteCase1_spec fuel Cn t1 T.nil T.nil n Color.Black v 0 hlen h (by simpa using hctx)
    have hn2 := hr2.read
    simp at hn2
    refine ⟨{ mem := clearParent t2.mem n,
              rootNode_ := if some n = t2.rootNode_ then none else t2.rootNode_,
              size_ := (t2.size_ + sizeModulus - 1) % sizeModulus }, ?_, ?_⟩
    · simp [takeNodeRest, hn, ht2]
    · exact hfields t2.mem (by rw [hn2]) (by rw [hn2]) (by rw [hn2])

/-- Refinement of `takeNode` at the first node of a red-black tree (the node `begin()`
points to): besides what `takeNode_spec` says, the node leaves with null links and its
value. -/
theorem takeNode_first_spec (fuel : Nat) (t : RBTree V) (τ : T V) (n : Nat)
    (rest : List Nat) (h : Represents t τ) (hrb : τ.RB) (hfirst : τ.addrs = n :: rest)
    (hfuel : τ.height ≤ fuel) :
    ∃ t' τ' v ys, takeNode fuel t n = some (n, t') ∧ Represents t' τ' ∧ τ'.RB ∧
      τ.toList = (n, v) :: ys ∧ τ'.toList = ys ∧
      t'.size_ = (t.size_ + sizeModulus - 1) % sizeModulus ∧
      SameOutside t.mem t'.mem τ.addrs ∧
      t'.mem n = { left := none, right := none, parent := none, value := v,
                   color := (t'.mem n).color } := by
  have hn : n ∈ τ.addrs := by rw [hfirst]; simp
  obtain ⟨C, l, c, v, r, rfl⟩ := T.split_mem τ n hn
  have hl : l = T.nil := by
    apply T.eq_nil_of_addrs
    have hnd := h.2.2
    rw [addrs_plug, T.addrs_node] at hfirst hnd
    have e : (ctxBefore C ++ l.addrs) ++ n :: (r.addrs ++ ctxAfter C) = [] ++ n :: rest := by
      simpa using hfirst
    have := (nodup_split_unique (by simpa using hnd) e).1
    simpa using (List.append_eq_nil.1 this).2
  subst hl
  obtain ⟨t1, Cn, nl, nc, xs, ys, e1, hr1, hrb1, hlen, hne, hxs, hys, hs1, ho1, hsub, hnil⟩ :=
    takeNodeWith_swap fuel h hrb hfuel
  have hnl : nl = T.nil := hnil rfl
  subst hnl
  obtain ⟨hnrr, hbal, hctx⟩ := (RB_plug _ _).1 hrb1
  obtain ⟨t', τ', e2, hr2, hrb2, hl2, hs2, ho2, hp2⟩ :=
    takeNodeRest_spec fuel hr1 hlen hnrr hbal hctx hne
  obtain ⟨t'', e3, hlk, hrk, hvk⟩ := takeNodeRest_leaf_links fuel hr1 hlen hctx
  have ett : t'' = t' := by
    rw [e2] at e3
    simp only [Option.some.injEq, Prod.mk.injEq, true_and] at e3
    exact e3.symm
  subst ett
  have hxs0 : xs = [] := by
    have hnd := h.toList_nodup
    rw [hxs] at hnd
    have e : (plug C (T.node T.nil n c v r)).toList.map Prod.fst = n :: rest := by
      rw [← T.addrs_eq_map]; exact hfirst
    rw [hxs] at e
    cases xs with
    | nil => rfl
    | cons x xs' =>
      simp only [List.cons_append, List.map_cons, List.map_append, List.cons.injEq] at e
      simp only [List.cons_append, List.map_cons, List.map_append, List.nodup_cons,
        List.mem_append, List.mem_cons, List.mem_map] at hnd
      exact absurd (Or.inr (Or.inl e.1)) hnd.1
  subst hxs0
  refine ⟨t'', τ', v, ys, (takeNode_eq_with fuel t n).trans ((e1 takeNodeRest).trans e2), hr2,
    hrb2, by simpa using hxs, hl2.trans (by simpa using hys), by rw [hs2, hs1],
    ho1.trans (ho2.mono hsub), ?_⟩
  exact TreeNode.eq_of_fields _ _ hlk hrk hp2 hvk rfl

end TakeFirst

end nex

set_option autoImplicit false
set_option linter.unnecessarySeqFocus false
set_option linter.unusedTactic false
set_option linter.unreachableTactic false
set_option linter.unusedVariables false

namespace nex

section MergeMulti

variable {K V : Type} [LinearOrder K]

/-- `reborn()` on a node without links only colours it red. -/
theorem reborn_unlinked (m : Mem V) (n : Nat) (v : V) (c : Color)
    (h : m n = { left := none, right := none, parent := none, value := v, color := c }) :
    reborn m n = m.write n (TreeNode.fresh v) := by
  have hl : (m n).left ≠ some n := by rw [h]; simp
  have hr : (m n).right ≠ some n := by rw [h]; simp
  funext x
  obtain ⟨a1, a2, a3, a4, a5⟩ := clearPtrs_fields m n hl hr x
  obtain ⟨b1, b2, b3, b4, b5⟩ := setC_fields (clearPtrs m n) n Color.Red x
  rw [write_apply]
  by_cases hx : x = n
  · subst hx
    rw [if_pos rfl]
    refine TreeNode.eq_of_fields _ _ ?_ ?_ ?_ ?_ ?_
    · show (setC (clearPtrs m x) x Color.Red x).left = none
      rw [b2, a4]; simp
    · show (setC (clearPtrs m x) x Color.Red x).right = none
      rw [b4, a5]; simp
    · show (setC (clearPtrs m x) x Color.Red x).parent = none
      rw [b1, a3]; simp
    · show (setC (clearPtrs m x) x Color.Red x).value = v
      rw [b3, a1, h]
    · show (setC (clearPtrs m x) x Color.Red x).color = Color.Red
      rw [b5]; simp
  · rw [if_neg hx]
    refine TreeNode.eq_of_fields _ _ ?_ ?_ ?_ ?_ ?_
    · show (setC (clearPtrs m n) n Color.Red x).left = _
      rw [b2, a4, h]; simp [hx]
    · show (setC (clearPtrs m n) n Color.Red x).right = _
      rw [b4, a5, h]; simp [hx]
    · show (setC (clearPtrs m n) n Color.Red x).parent = _
      rw [b1, a3, h]; simp [hx]
    · show (setC (clearPtrs m n) n Color.Red x).value = _
      rw [b3, a1]
    · show (setC (clearPtrs m n) n Color.Red x).color = _
      rw [b5, if_neg hx, a2]

theorem T.size_addrs (τ : T V) : τ.size = τ.addrs.length := by
  rw [T.size_toList, T.addrs_eq_map, List.length_map]

/-- The loop of `merge` in multi mode, started at the first node of `other`: every node
of `other` moves into the receiving tree. -/
theorem mergeLoop_multi (key : V → K) (fuel : Nat) :
    ∀ (k : Nat) (this other : RBTree V) (τa τb : T V),
      Represents { this with mem := other.mem } τa → Represents other τb →
      τa.Valid key → τb.Valid key → (∀ x ∈ τa.addrs, x ∉ τb.addrs) →
      this.size_ = τa.size → other.size_ = τb.size →
      τb.size ≤ k → τa.size + τb.size < fuel → τa.size + τb.size < sizeModulus →
      ∃ this' other' τ',
        mergeLoop key true fuel k this other τb.addrs.head? = some (this', other') ∧
        Represents this' τ' ∧ τ'.Valid key ∧ τ'.values.Perm (τa.values ++ τb.values) ∧
        τ'.addrs.Perm (τa.addrs ++ τb.addrs) ∧
        this'.size_ = τa.size + τb.size ∧ other'.rootNode_ = none ∧ other'.size_ = 0 ∧
        other'.mem = this'.mem := by
  intro k
  induction k with
  | zero =>
    intro this other τa τb ha hb hva hvb hdis hsa hsb hk hf hM
    have hnil : τb = T.nil := by
      cases τb with
      | nil => rfl
      | node l a c v r => simp [T.size] at hk
    subst hnil
    refine ⟨{ this with mem := other.mem }, other, τa, rfl, ha, hva, by simp, by simp,
      by simpa [T.size] using hsa, hb.1, by simpa [T.size] using hsb, rfl⟩
  | succ k ih =>
    intro this other τa τb ha hb hva hvb hdis hsa hsb hk hf hM
    rcases hfirst : τb.addrs with _ | ⟨a, rest⟩
    · have hnil : τb = T.nil := T.eq_nil_of_addrs τb hfirst
      subst hnil
      refine ⟨{ this with mem := other.mem }, other, τa, rfl, ha, hva, by simp, by simp,
        by simpa [T.size] using hsa, hb.1, by simpa [T.size] using hsb, rfl⟩
    · have hszb : τb.size = rest.length + 1 := by rw [T.size_addrs, hfirst]; rfl
      have hhb : τb.height ≤ fuel := le_trans (T.height_le_size τb) (by omega)
      have hha : τa.height < fuel := lt_of_le_of_lt (T.height_le_size τa) (by omega)
      have einc := operator_inc_spec fuel hb hhb [] rest a hfirst
      obtain ⟨other1, τb1, v, ys, etake, hr1, hrb1, el, el1, hs1, ho1, hmn⟩ :=
        takeNode_first_spec fuel other τb a rest hb hvb.rb hfirst hhb
      have hrest : τb1.addrs = rest := by
        have e1 : τb.addrs = a :: ys.map Prod.fst := by rw [T.addrs_eq_map, el]; rfl
        rw [hfirst] at e1
        rw [T.addrs_eq_map, el1]
        exact (List.cons.inj e1).2.symm
      have hndb : (a :: rest).Nodup := by rw [← hfirst]; exact hb.2.2
      have ha_b : a ∈ τb.addrs := by rw [hfirst]; simp
      have ha_a : a ∉ τa.addrs := fun h => hdis a h ha_b
      have hreb := reborn_unlinked other1.mem a v _ hmn
      -- the receiving tree in the memory after `reborn`
      have ha1 : Represents { this with mem := reborn other1.mem a } τa := by
        refine ⟨ha.1, Repr_congr other.mem _ τa none ?_ ha.2.1, ha.2.2⟩
        intro x hx
        have hxa : x ≠ a := fun e => ha_a (e ▸ hx)
        show reborn other1.mem a x = other.mem x
        rw [hreb, write_apply, if_neg hxa]
        exact ho1 x (hdis x hx)
      have hmem : ({ this with mem := reborn other1.mem a } : RBTree V).mem a =
          TreeNode.fresh v := by
        show reborn other1.mem a a = _
        rw [hreb, write_apply, if_pos rfl]
      rcases insertNode_spec key true fuel _ τa a v ha1 hva.rb hva.1 ha_a hmem hha with
        ⟨hM', -, -⟩ | ⟨-, this1, τa1, xs, ys', eins, hrA1, hrbA1, e1, e2, hx, hy, hsz, hoA⟩
      · cases hM'
      have hva1 : τa1.Valid key :=
        T.Valid.of_rb (ordered_insert key hva.1 e1 e2 (fun x hx' => (hx x hx').1) hy) hrbA1
      have hvb1 : τb1.Valid key :=
        T.Valid.of_rb (ordered_remove key hvb.1 (show τb.toList = [] ++ _ :: _ from el)
          (show τb1.toList = [] ++ _ from el1)) hrb1
      have haddr1 : ∀ x, x ∈ τa1.addrs ↔ x = a ∨ x ∈ τa.addrs := by
        intro x
        rw [T.addrs_eq_map, T.addrs_eq_map, e1, e2]
        simp only [List.map_append, List.map_cons, List.mem_append, List.mem_cons]
        tauto
      have hr2 : Represents { other1 with mem := this1.mem } τb1 := by
        refine ⟨hr1.1, Repr_congr other1.mem _ τb1 none ?_ hr1.2.1, hr1.2.2⟩
        intro x hx'
        rw [hrest] at hx'
        have hxa : x ≠ a := fun e => (List.nodup_cons.1 hndb).1 (e ▸ hx')
        have hxb : x ∈ τb.addrs := by rw [hfirst]; exact List.mem_cons_of_mem _ hx'
        have hxA : x ∉ τa.addrs := fun h => hdis x h hxb
        show this1.mem x = other1.mem x
        rw [hoA x (by simp [hxa, hxA])]
        show reborn other1.mem a x = other1.mem x
        rw [hreb, write_apply, if_neg hxa]
      have hsza1 : τa1.size = τa.size + 1 := by
        rw [T.size_toList, T.size_toList, e1, e2]; simp; omega
      have hszb1 : τb1.size = rest.length := by rw [T.size_addrs, hrest]
      obtain ⟨this', other', τ', e', hr', hv', hp', hpa', hs', hroot', hz', hm'⟩ :=
        ih this1 { other1 with mem := this1.mem } τa1 τb1 hrA1 hr2 hva1 hvb1
          (by
            intro x hx' hx2
            rw [hrest] at hx2
            rcases (haddr1 x).1 hx' with rfl | h
            · exact (List.nodup_cons.1 hndb).1 hx2
            · exact hdis x h (by rw [hfirst]; exact List.mem_cons_of_mem _ hx2))
          (by
            rw [hsz, hsza1]
            show (this.size_ + 1) % sizeModulus = τa.size + 1
            rw [hsa, Nat.mod_eq_of_lt (by omega)])
          (by
            show other1.size_ = τb1.size
            rw [hs1, hsb, hszb, hszb1]
            rw [show rest.length + 1 + sizeModulus - 1 = rest.length + sizeModulus by omega,
              Nat.add_mod_right, Nat.mod_eq_of_lt (by omega)])
          (by omega) (by omega) (by omega)
      refine ⟨this', other', τ', ?_, hr', hv', ?_, ?_, ?_, hroot', hz', hm'⟩
      · rw [hrest] at e'
        simp only [List.head?_cons, mergeLoop, einc, etake, eins, if_true]
        exact e'
      · refine hp'.trans ?_
        unfold T.values
        rw [e1, e2, el, el1]
        simp only [List.map_append, List.map_cons, List.append_assoc, List.cons_append]
        refine List.Perm.append_left _ ?_
        exact List.perm_middle.symm
      · refine hpa'.trans ?_
        rw [hrest, T.addrs_eq_map τa1, T.addrs_eq_map τa, e1, e2]
        simp only [List.map_append, List.map_cons, List.append_assoc, List.cons_append]
        refine List.Perm.append_left _ ?_
        exact List.perm_middle.symm
      · rw [hs', hsza1, hszb1, hszb]
        omega

theorem exPairThis_represents :
    Represents { exPairThis with mem := exPairOther.mem } exPairShape :=
  ⟨rfl, ⟨rfl, trivial, trivial⟩, by decide⟩

theorem exPairOther_represents : Represents exPairOther exDupShape :=
  ⟨rfl, ⟨rfl, ⟨rfl, trivial, trivial⟩, ⟨rfl, trivial, trivial⟩⟩, by decide⟩

theorem exPairShape_valid : exPairShape.Valid id := by
  refine ⟨?_, rfl, ?_, ?_⟩
  · simp [T.Ordered, T.values, exPairShape, T.toList]
  · simp [exPairShape, T.NoRedRed, T.color]
  · simp [T.EqualBlackHeight, exPairShape, T.pathBlackCounts]

/-- C34: in multi mode, `merge(other)` on two valid trees without a common node, each
with `size_` equal to its number of nodes, returns; the receiving tree then is a valid
tree that holds every node of both trees, its in-order sequence of values is ascending
and a permutation of the values of both, its `size_` is the sum of the two sizes, and
`other` is empty with `size_` 0. -/
theorem merge_multi_spec (key : V → K) (fuel : Nat) (this other : RBTree V) (τa τb : T V)
    (ha : Represents { this with mem := other.mem } τa) (hb : Represents other τb)
    (hva : τa.Valid key) (hvb : τb.Valid key) (hdis : ∀ x ∈ τa.addrs, x ∉ τb.addrs)
    (hsa : this.size_ = τa.size) (hsb : other.size_ = τb.size)
    (hf : τa.size + τb.size < fuel) (hM : τa.size + τb.size < sizeModulus) :
    ∃ this' other' τ', merge key true fuel this other = some (this', other') ∧
      Represents this' τ' ∧ τ'.Valid key ∧ τ'.values.Perm (τa.values ++ τb.values) ∧
      τ'.addrs.Perm (τa.addrs ++ τb.addrs) ∧
      this'.size_ = this.size_ + other.size_ ∧ other'.rootNode_ = none ∧
      other'.size_ = 0 := by
  have hhb : τb.height ≤ fuel := le_trans (T.height_le_size τb) (by omega)
  have hmin := min_spec other.mem τb fuel none hb.2.1 hhb
  obtain ⟨this', other', τ', e, hr, hv, hp, hpa, hs, hroot, hz, -⟩ :=
    mergeLoop_multi key fuel fuel this other τa τb ha hb hva hvb hdis hsa hsb (by omega) hf hM
  refine ⟨this', other', τ', ?_, hr, hv, hp, hpa, by rw [hs, hsa, hsb], hroot, hz⟩
  simp only [merge, cbegin, hb.1, hmin]
  exact e

/-- Witness of C34: the multiset 10, 20, 20 merged into the multiset 20. -/
theorem merge_multi_spec_witness :
    ∃ this' other' τ', merge id true 5 exPairThis exPairOther = some (this', other') ∧
      Represents this' τ' ∧ τ'.Valid id ∧
      τ'.values.Perm (exPairShape.values ++ exDupShape.values) ∧
      τ'.addrs.Perm (exPairShape.addrs ++ exDupShape.addrs) ∧
      this'.size_ = exPairThis.size_ + exPairOther.size_ ∧ other'.rootNode_ = none ∧
      other'.size_ = 0 :=
  merge_multi_spec id 5 exPairThis exPairOther exPairShape exDupShape exPairThis_represents
    exPairOther_represents exPairShape_valid exDupShape_valid (by decide) rfl rfl (by decide)
    (by decide)

end MergeMulti

end nex

set_option autoImplicit false
set_option linter.unnecessarySeqFocus false
set_option linter.unusedTactic false
set_option linter.unreachableTactic false
set_option linter.unusedVariables false

namespace nex

section Termination

variable {V : Type}

end Termination

end nex
